import Mathlib

/-!
# evim: expression trees, their text form and the genetic operators

A shallow embedding of `src/ast/ast.go`, `src/ast/parser.go` and the tree
surgery of `src/main.go`.

Go nodes are heap objects reached through pointers, with a back-reference to
the parent, so the embedding keeps an explicit store: a `Heap` is the list of
allocated objects, a pointer is an index into it, and a Go `Node` interface
value is an `Option Ptr` (`none` is `nil`).  Every function that the source
runs on nodes is a function on the store.  A function that can panic returns
`Option` with `none` for the panic; recursive functions take a fuel argument
and also return `none` when the fuel runs out, and the theorems give the fuel
that is enough.
-/

namespace Evim

/-! ## Data model -/

/-- The dynamic type of a node: one constructor for each `Op...` struct of `ast.go`. -/
inductive Kind where
  | OpPicture | OpNegate | OpCeil | OpPlus | OpMinus | OpMult | OpDiv | OpX | OpY
  | OpClip | OpConstant | OpSquare | OpLerp | OpSin | OpCos | OpFloor | OpLog | OpWrap
  | OpAbs | OpAtan | OpNoise | OpFBM | OpTurbulence | OpGamma | OpHypot
  deriving DecidableEq, Repr

/-- The length of the `Children` slice that the constructor `NewOp...` makes. -/
def Kind.arity : Kind → Nat
  | .OpPicture => 3
  | .OpNegate => 1
  | .OpCeil => 1
  | .OpPlus => 2
  | .OpMinus => 2
  | .OpMult => 2
  | .OpDiv => 2
  | .OpX => 0
  | .OpY => 0
  | .OpClip => 2
  | .OpConstant => 0
  | .OpSquare => 2
  | .OpLerp => 3
  | .OpSin => 1
  | .OpCos => 1
  | .OpFloor => 1
  | .OpLog => 1
  | .OpWrap => 1
  | .OpAbs => 1
  | .OpAtan => 1
  | .OpNoise => 2
  | .OpFBM => 3
  | .OpTurbulence => 3
  | .OpGamma => 1
  | .OpHypot => 2

/-- A `float32`, kept as its IEEE 754 binary32 bit pattern (sign bit 31, exponent
bits 30..23, fraction bits 22..0).  Two values are the same bit for bit exactly
when they are equal. -/
structure F32 where
  bits : Nat
  deriving DecidableEq, Repr

/-- The zero value of `float32`. -/
def F32.zero : F32 := ⟨0⟩

/-- A pointer to a node object: its index in the heap. -/
abbrev Ptr := Nat

/-- A node object: the embedded `BaseNode` (`Parent`, `Children`), the dynamic type,
and the `value` field, which only `OpConstant` has (it is kept as zero elsewhere). -/
structure Cell where
  typ : Kind
  value : F32
  Parent : Option Ptr
  Children : List (Option Ptr)
  deriving DecidableEq, Repr

/-- The store of node objects. -/
abbrev Heap := List Cell

/-- Allocation: the new object gets the next free index. -/
def Heap.alloc (h : Heap) (c : Cell) : Heap × Ptr := (h ++ [c], h.length)

/-- The node made by `NewOp<kind>()`: no parent, `arity` empty child slots. A
constant gets the value handed in. -/
def newCell (k : Kind) (v : F32) : Cell :=
  { typ := k, value := v, Parent := none, Children := List.replicate k.arity none }

/-- Method `SetParent` of `BaseNode`: `node.Parent = parent`. -/
def SetParent (h : Heap) (node : Option Ptr) (parent : Option Ptr) : Option Heap :=
  match node with
  | none => none
  | some p =>
    match h[p]? with
    | none => none
    | some c => some (h.set p { c with Parent := parent })

/-- Method `GetParent` of `BaseNode`. -/
def GetParent (h : Heap) (node : Option Ptr) : Option (Option Ptr) :=
  match node with
  | none => none
  | some p => (h[p]?).map Cell.Parent

/-- Method `GetChildren` of `BaseNode`. -/
def GetChildren (h : Heap) (node : Option Ptr) : Option (List (Option Ptr)) :=
  match node with
  | none => none
  | some p => (h[p]?).map Cell.Children

/-- Method `SetChildren` of `BaseNode`: `node.Children = children`. -/
def SetChildren (h : Heap) (node : Option Ptr) (children : List (Option Ptr)) : Option Heap :=
  match node with
  | none => none
  | some p =>
    match h[p]? with
    | none => none
    | some c => some (h.set p { c with Children := children })

/-- The assignment `node.GetChildren()[i] = child`; an index out of range panics. -/
def setChild (h : Heap) (node : Option Ptr) (i : Nat) (child : Option Ptr) : Option Heap :=
  match node with
  | none => none
  | some p =>
    match h[p]? with
    | none => none
    | some c =>
      if i < c.Children.length then
        some (h.set p { c with Children := c.Children.set i child })
      else none

/-- The loop of `BaseNode.NodeCount` over the children, `count` being the running sum. -/
def NodeCountLoop (rec : Ptr → Option Nat) : List (Option Ptr) → Nat → Option Nat
  | [], count => some count
  | none :: _, _ => none
  | some child :: rest, count =>
    match rec child with
    | none => none
    | some k => NodeCountLoop rec rest (count + k)

/-- Method `NodeCount` of `BaseNode`. -/
def NodeCount : Nat → Heap → Option Ptr → Option Nat
  | 0, _, _ => none
  | _ + 1, _, none => none
  | fuel + 1, h, some p =>
    match h[p]? with
    | none => none
    | some c => NodeCountLoop (fun child => NodeCount fuel h (some child)) c.Children 1

/-- The loop of `GetNthNode` over the children: `count++`, recurse, return the
result if it is not nil. -/
def GetNthNodeLoop (rec : Option Ptr → Int → Option (Option Ptr × Int)) :
    List (Option Ptr) → Int → Option (Option Ptr × Int)
  | [], count => some (none, count)
  | child :: rest, count =>
    match rec child (count + 1) with
    | none => none
    | some (some r, count1) => some (some r, count1)
    | some (none, count1) => GetNthNodeLoop rec rest count1

/-- Function `GetNthNode(node, n, count)`. -/
def GetNthNode : Nat → Heap → Option Ptr → Int → Int → Option (Option Ptr × Int)
  | 0, _, _, _, _ => none
  | fuel + 1, h, node, n, count =>
    if n = count then some (node, count)
    else
      match GetChildren h node with
      | none => none
      | some children => GetNthNodeLoop (fun child k => GetNthNode fuel h child n k) children count

/-- The loop of `CopyTree` over the child slots of the copy: slot `i` gets the
copy of child `i` of `node`; `k` slots are still to be filled. -/
def CopyTreeLoop (rec : Heap → Option Ptr → Option (Heap × Ptr)) (node copy : Ptr) :
    Nat → Nat → Heap → Option Heap
  | 0, _, h => some h
  | k + 1, i, h =>
    match GetChildren h (some node) with
    | none => none
    | some children =>
      match children[i]? with
      | none => none
      | some child =>
        match rec h child with
        | none => none
        | some (h1, c) =>
          match setChild h1 (some copy) i (some c) with
          | none => none
          | some h2 => CopyTreeLoop rec node copy k (i + 1) h2

/-- Function `CopyTree(node, parent)`: a new object of the same dynamic type (the
value is copied for a constant, it is the zero value otherwise), with the parent
handed in, whose child slots get copies of the children. A nil `node` panics. -/
def CopyTree : Nat → Heap → Option Ptr → Option Ptr → Option (Heap × Ptr)
  | 0, _, _, _ => none
  | _ + 1, _, none, _ => none
  | fuel + 1, h, some node, parent =>
    match h[node]? with
    | none => none
    | some n =>
      let fresh : Cell :=
        { typ := n.typ, value := if n.typ = Kind.OpConstant then n.value else F32.zero,
          Parent := none, Children := [] }
      let (h1, copy) := h.alloc fresh
      match SetParent h1 (some copy) parent with
      | none => none
      | some h2 =>
        match GetChildren h2 (some node) with
        | none => none
        | some children =>
          match SetChildren h2 (some copy) (List.replicate children.length none) with
          | none => none
          | some h3 =>
            match CopyTreeLoop (fun hh child => CopyTree fuel hh child (some copy)) node copy
                children.length 0 h3 with
            | none => none
            | some h4 => some (h4, copy)

/-- In a child list, every slot that holds `old` gets `new`: the loop
`for i, child := range children { if child == old { children[i] = new } }`. -/
def replaceIn (children : List (Option Ptr)) (old new : Option Ptr) : List (Option Ptr) :=
  children.map (fun child => if child = old then new else child)

/-- The loop above run on the children of `parent`. -/
def replaceChild (h : Heap) (parent : Ptr) (old new : Option Ptr) : Option Heap :=
  match h[parent]? with
  | none => none
  | some c => some (h.set parent { c with Children := replaceIn c.Children old new })

/-- Function `ReplaceNode(old, new)`. -/
def ReplaceNode (h : Heap) (old new : Option Ptr) : Option Heap :=
  match GetParent h old with
  | none => none
  | some oldParent =>
    match (match oldParent with
           | none => some h
           | some parent => replaceChild h parent old new) with
    | none => none
    | some h1 => SetParent h1 new oldParent

/-! ## Random construction

The draws of `math/rand` are an input: `ints` is the sequence of raw integer
draws, `floats` the sequence of values that `rand.Float32()*2 - 1` takes in
`NewOpConstant`, and the two cursors count the draws made so far. -/

/-- The random source. -/
structure Rand where
  ints : Nat → Nat
  floats : Nat → F32
  ipos : Nat
  fpos : Nat

/-- Call `rand.Intn(n)`: a value in `[0, n)`; it panics when `n <= 0`. -/
def Rand.Intn (g : Rand) (n : Nat) : Option (Nat × Rand) :=
  if n = 0 then none else some (g.ints g.ipos % n, { g with ipos := g.ipos + 1 })

/-- The value `rand.Float32()*2 - 1` of a new constant. -/
def Rand.Float (g : Rand) : F32 × Rand := (g.floats g.fpos, { g with fpos := g.fpos + 1 })

/-- The `switch` of `GetRandomBaseNode` on the draw. -/
def baseKind : Nat → Option Kind
  | 0 => some .OpClip
  | 1 => some .OpNegate
  | 2 => some .OpMult
  | 3 => some .OpPlus
  | 4 => some .OpCeil
  | 5 => some .OpMinus
  | 6 => some .OpDiv
  | 7 => some .OpSquare
  | 8 => some .OpLerp
  | 9 => some .OpSin
  | 10 => some .OpCos
  | 11 => some .OpFloor
  | 12 => some .OpLog
  | 13 => some .OpWrap
  | 14 => some .OpAbs
  | 15 => some .OpAtan
  | 16 => some .OpNoise
  | 17 => some .OpFBM
  | 18 => some .OpTurbulence
  | 19 => some .OpGamma
  | 20 => some .OpHypot
  | _ => none

/-- Function `GetRandomBaseNode`. -/
def GetRandomBaseNode (h : Heap) (g : Rand) : Option (Heap × Rand × Ptr) :=
  match g.Intn 21 with
  | none => none
  | some (r, g1) =>
    match baseKind r with
    | none => none
    | some k =>
      let (h1, p) := h.alloc (newCell k F32.zero)
      some (h1, g1, p)

/-- Function `GetRandomLeaf`; `NewOpConstant` draws the value. -/
def GetRandomLeaf (h : Heap) (g : Rand) : Option (Heap × Rand × Ptr) :=
  match g.Intn 3 with
  | none => none
  | some (r, g1) =>
    match r with
    | 0 =>
      let (v, g2) := g1.Float
      let (h1, p) := h.alloc (newCell .OpConstant v)
      some (h1, g2, p)
    | 1 =>
      let (h1, p) := h.alloc (newCell .OpX F32.zero)
      some (h1, g1, p)
    | 2 =>
      let (h1, p) := h.alloc (newCell .OpY F32.zero)
      some (h1, g1, p)
    | _ => none

/-- The second loop of `Mutate`: child `i` of `node` goes to slot `i` of
`mutatedNode` and gets it as parent, until the slots of `mutatedNode` run out. -/
def reattach (mutatedNode : Ptr) : List (Option Ptr) → Nat → Heap → Option Heap
  | [], _, h => some h
  | child :: rest, i, h =>
    match GetChildren h (some mutatedNode) with
    | none => none
    | some mc =>
      if i ≥ mc.length then some h
      else
        match setChild h (some mutatedNode) i child with
        | none => none
        | some h1 =>
          match SetParent h1 child (some mutatedNode) with
          | none => none
          | some h2 => reattach mutatedNode rest (i + 1) h2

/-- The third loop of `Mutate`: every slot of `mutatedNode` that is still nil gets
a new random leaf whose parent is `mutatedNode`. -/
def fillLeaves (mutatedNode : Ptr) : List (Option Ptr) → Nat → Heap → Rand → Option (Heap × Rand)
  | [], _, h, g => some (h, g)
  | _ :: rest, i, h, g =>
    match GetChildren h (some mutatedNode) with
    | none => none
    | some mc =>
      match mc[i]? with
      | none => none
      | some (some _) => fillLeaves mutatedNode rest (i + 1) h g
      | some none =>
        match GetRandomLeaf h g with
        | none => none
        | some (h1, g1, leaf) =>
          match SetParent h1 (some leaf) (some mutatedNode) with
          | none => none
          | some h2 =>
            match setChild h2 (some mutatedNode) i (some leaf) with
            | none => none
            | some h3 => fillLeaves mutatedNode rest (i + 1) h3 g1

/-- Function `Mutate(node)` of `ast.go`. -/
def Mutate (h : Heap) (g : Rand) (node : Option Ptr) : Option (Heap × Rand × Ptr) :=
  match g.Intn 24 with
  | none => none
  | some (r, g1) =>
    match (if r ≤ 21 then GetRandomBaseNode h g1 else GetRandomLeaf h g1) with
    | none => none
    | some (h1, g2, mutatedNode) =>
      match GetParent h1 node with
      | none => none
      | some parent =>
        match (match parent with
               | none => some h1
               | some pp => replaceChild h1 pp node (some mutatedNode)) with
        | none => none
        | some h2 =>
          match GetChildren h2 node with
          | none => none
          | some children =>
            match reattach mutatedNode children 0 h2 with
            | none => none
            | some h3 =>
              match GetChildren h3 (some mutatedNode) with
              | none => none
              | some mc =>
                match fillLeaves mutatedNode mc 0 h3 g2 with
                | none => none
                | some (h4, g3) =>
                  match GetParent h4 node with
                  | none => none
                  | some parent1 =>
                    match SetParent h4 (some mutatedNode) parent1 with
                    | none => none
                    | some h5 => some (h5, g3, mutatedNode)

/-- The struct `picture` of `main.go`: the roots of the three channels. -/
structure picture where
  r : Option Ptr
  g : Option Ptr
  b : Option Ptr
  deriving DecidableEq, Repr

/-- The body of `picture.Mutate` after the channel is drawn: `nodeToMutate` is the
root of the drawn channel. -/
def picture.mutateNode (fuel : Nat) (h : Heap) (g : Rand) (p : picture)
    (nodeToMutate : Option Ptr) : Option (Heap × Rand × picture) :=
  match NodeCount fuel h nodeToMutate with
  | none => none
  | some count =>
    match g.Intn count with
    | none => none
    | some (r, g1) =>
      match GetNthNode fuel h nodeToMutate (r : Int) 0 with
      | none => none
      | some (nodeToMutate1, _) =>
        match Evim.Mutate h g1 nodeToMutate1 with
        | none => none
        | some (h1, g2, mutation) =>
          if nodeToMutate1 = p.r then some (h1, g2, { p with r := some mutation })
          else if nodeToMutate1 = p.g then some (h1, g2, { p with g := some mutation })
          else if nodeToMutate1 = p.b then some (h1, g2, { p with b := some mutation })
          else some (h1, g2, p)

/-- Method `Mutate` of `picture`: one mutation pass. The `switch` on the draw
leaves `nodeToMutate` nil outside `0..2`. -/
def picture.Mutate (fuel : Nat) (h : Heap) (g : Rand) (p : picture) :
    Option (Heap × Rand × picture) :=
  match g.Intn 3 with
  | none => none
  | some (r, g1) =>
    picture.mutateNode fuel h g1 p
      (match r with
       | 0 => p.r
       | 1 => p.g
       | 2 => p.b
       | _ => none)

/-! ## Text form of constants

`OpConstant.String` is `strconv.FormatFloat(float64(op.value), 'f', 9, 32)` and the
parser reads a number token with `strconv.ParseFloat(token.value, 32)`.  Both are
library functions; they are modelled from their documented behaviour: the first
prints the exact value of the `float32` rounded half to even at 9 fractional
digits, the second returns the `float32` nearest to the decimal (ties to even),
an error for a syntax error or an overflow.  Texts are lists of runes. -/

/-- The decimal digit `d` as a rune. -/
def digitChar (d : Nat) : Char := Char.ofNat (48 + d)

/-- The decimal digits of `n`, most significant first, pushed before `acc`. -/
def decimalDigitsAux : Nat → Nat → List Char → List Char
  | 0, _, acc => acc
  | fuel + 1, n, acc =>
    if n < 10 then digitChar n :: acc
    else decimalDigitsAux fuel (n / 10) (digitChar (n % 10) :: acc)

/-- The decimal digits of `n`; `0` is printed as one digit. -/
def decimalDigits (n : Nat) : List Char := decimalDigitsAux (n + 1) n []

/-- The `k` lowest decimal digits of `n`, with leading zeros. -/
def padDigits : Nat → Nat → List Char
  | 0, _ => []
  | k + 1, n => padDigits k (n / 10) ++ [digitChar (n % 10)]

/-- The quotient `num / den` rounded to the nearest integer, ties to even. -/
def roundHalfEven (num den : Nat) : Nat :=
  let q := num / den
  let r := num % den
  if 2 * r < den then q
  else if 2 * r > den then q + 1
  else if q % 2 = 0 then q else q + 1

/-- The exponent field of a `float32` is not all ones: the value is neither an
infinity nor a NaN. -/
def F32.isFinite (v : F32) : Bool := v.bits / 2 ^ 23 % 256 != 255

/-- The value of a finite `float32` times `10^9`, rounded half to even: the
mantissa `m` and the exponent `e` with value `m * 2^e` are read off the bits as
`strconv` does. -/
def F32.scaled9 (v : F32) : Nat :=
  let exp : Nat := v.bits / 2 ^ 23 % 256
  let mant : Nat := v.bits % 2 ^ 23
  let m : Nat := if exp = 0 then mant else mant + 2 ^ 23
  let e : Int := (if exp = 0 then 1 else (exp : Int)) - 127 - 23
  if 0 ≤ e then m * 2 ^ e.toNat * 10 ^ 9 else roundHalfEven (m * 10 ^ 9) (2 ^ (-e).toNat)

/-- Call `strconv.FormatFloat(float64(v), 'f', 9, 32)`. -/
def FormatFloat (v : F32) : List Char :=
  let neg := v.bits / 2 ^ 31 != 0
  let exp := v.bits / 2 ^ 23 % 256
  let mant := v.bits % 2 ^ 23
  if exp = 255 then
    if mant ≠ 0 then "NaN".toList else if neg then "-Inf".toList else "+Inf".toList
  else
    (if neg then ['-'] else []) ++ decimalDigits (v.scaled9 / 10 ^ 9) ++ ['.'] ++
      padDigits 9 (v.scaled9 % 10 ^ 9)

/-- The value of a decimal digit rune. -/
def digitVal (c : Char) : Option Nat :=
  if '0' ≤ c ∧ c ≤ '9' then some (c.toNat - 48) else none

/-- The digits and the point of a decimal are read from left to right: `num` is
the number read so far without its point, `frac` the count of digits after the
point. Any rune that cannot continue the decimal is a syntax error. -/
def readDecimal : List Char → (num frac : Nat) → (sawdot sawdigits : Bool) → Option (Nat × Nat)
  | [], num, frac, _, sawdigits => if sawdigits then some (num, frac) else none
  | c :: cs, num, frac, sawdot, sawdigits =>
    if c = '.' then
      if sawdot then none else readDecimal cs num frac true sawdigits
    else
      match digitVal c with
      | none => none
      | some d => readDecimal cs (num * 10 + d) (if sawdot then frac + 1 else frac) sawdot true

/-- The search for the binary exponent: the least `q` from the start value with
`num / (den * 2^q) < 2^24`, at most `fuel` steps up. -/
def findExp : Nat → Int → Nat → Nat → Int
  | 0, q, _, _ => q
  | fuel + 1, q, num, den =>
    if (if 0 ≤ q then num / (den * 2 ^ q.toNat) else num * 2 ^ (-q).toNat / den) < 2 ^ 24 then q
    else findExp fuel (q + 1) num den

/-- The `float32` nearest to `num / den` (ties to even) with the sign `neg`;
an overflow is an error. -/
def roundToF32 (neg : Bool) (num den : Nat) : Option F32 :=
  let signBit := if neg then 2 ^ 31 else 0
  if num = 0 then some ⟨signBit⟩
  else
    let q := findExp 254 (-149) num den
    let m := if 0 ≤ q then roundHalfEven num (den * 2 ^ q.toNat)
             else roundHalfEven (num * 2 ^ (-q).toNat) den
    let (m1, q1) := if m = 2 ^ 24 then (2 ^ 23, q + 1) else (m, q)
    if 104 < q1 then none
    else if m1 < 2 ^ 23 then some ⟨signBit + m1⟩
    else some ⟨signBit + (q1 + 150).toNat * 2 ^ 23 + (m1 - 2 ^ 23)⟩

/-- Call `strconv.ParseFloat(s, 32)` followed by the conversion to `float32`, for
a text made of an optional sign, digits and at most one point, which is all a
number token of the lexer can hold; `none` is the error. Other texts that the
library accepts (an exponent, a hexadecimal mantissa, `inf`, `nan`) contain a
rune that no number token has and are not modelled: they give `none` here. -/
def ParseFloat (s : List Char) : Option F32 :=
  let (neg, rest) :=
    match s with
    | '-' :: r => (true, r)
    | '+' :: r => (false, r)
    | r => (false, r)
  match readDecimal rest 0 0 false false with
  | none => none
  | some (num, frac) => roundToF32 neg num (10 ^ frac)

/-! ## Serialisation and evaluation -/

/-- The sum `s0 + s1 + ...` of a `String` method, operands from left to right: a
panic in an operand is a panic of the sum. -/
def concat : List (Option (List Char)) → Option (List Char)
  | [] => some []
  | none :: _ => none
  | some s :: rest =>
    match concat rest with
    | none => none
    | some t => some (s ++ t)

/-- A string literal as a text. -/
def lit (s : String) : Option (List Char) := some s.toList

/-- Method `String` of every node type. `child i` is `op.Children[i].String()`: an
index out of range and a nil child both panic. -/
def Node.String : Nat → Heap → Option Ptr → Option (List Char)
  | 0, _, _ => none
  | _ + 1, _, none => none
  | fuel + 1, h, some p =>
    match h[p]? with
    | none => none
    | some c =>
      let child (i : Nat) : Option (List Char) :=
        match c.Children[i]? with
        | none => none
        | some ch => Node.String fuel h ch
      match c.typ with
      | .OpPicture =>
        concat [lit "( Picture\n", child 0, lit "\n", child 1, lit "\n", child 2, lit " )"]
      | .OpNegate => concat [lit "( Negate ", child 0, lit " )"]
      | .OpCeil => concat [lit "( Ceil ", child 0, lit " )"]
      | .OpPlus => concat [lit "( + ", child 0, lit " ", child 1, lit " )"]
      | .OpMinus => concat [lit "( - ", child 0, lit " ", child 1, lit " )"]
      | .OpMult => concat [lit "( * ", child 0, lit " ", child 1, lit " )"]
      | .OpDiv => concat [lit "( / ", child 0, lit " ", child 1, lit " )"]
      | .OpX => lit "X"
      | .OpY => lit "Y"
      | .OpClip => concat [lit "( Clip ", child 0, lit " ", child 1, lit " )"]
      | .OpConstant => some (FormatFloat c.value)
      | .OpSquare => concat [lit "( Square ", child 0, lit " ", child 1, lit " )"]
      | .OpLerp => concat [lit "( Lerp ", child 0, lit " ", child 1, lit " ", child 2, lit " )"]
      | .OpSin => concat [lit "( Sin ", child 0, lit " )"]
      | .OpCos => concat [lit "( Cos ", child 0, lit " )"]
      | .OpFloor => concat [lit "( Floor ", child 0, lit " )"]
      | .OpLog => concat [lit "( Log ", child 0, lit " )"]
      | .OpWrap => concat [lit "(Wrap ", child 0, lit ")"]
      | .OpAbs => concat [lit "( Abs ", child 0, lit " )"]
      | .OpAtan => concat [lit "( Atan ", child 0, lit " )"]
      | .OpNoise => concat [lit "( Noise ", child 0, lit " ", child 1, lit " )"]
      | .OpFBM => concat [lit "( FBM ", child 0, lit " ", child 1, lit " ", child 2, lit " )"]
      | .OpTurbulence =>
        concat [lit "( Turbulence ", child 0, lit " ", child 1, lit " ", child 2, lit " )"]
      | .OpGamma => concat [lit "( Gamma ", child 0, lit " )"]
      | .OpHypot => concat [lit "( Hypot ", child 0, lit " ", child 1, lit " )"]

/-- The `float32` arithmetic that `Eval` uses and the noise library it calls
(`github.com/Go_Projects/simplex_noise`), taken as given: the one-argument
functions stand for `float32(math.F(float64(x)))`, `fbm x y z` for
`noise.Fbm(x, y, z, 0.5, 2, 3)` and `turbulence x y z` for
`noise.Turbulence(x, y, z, 0.5, 2, 3)`. -/
structure FloatOps where
  neg : F32 → F32
  add : F32 → F32 → F32
  sub : F32 → F32 → F32
  mul : F32 → F32 → F32
  div : F32 → F32 → F32
  gt : F32 → F32 → Bool
  lt : F32 → F32 → Bool
  ceil : F32 → F32
  floor : F32 → F32
  sin : F32 → F32
  cos : F32 → F32
  log2 : F32 → F32
  abs : F32 → F32
  atan : F32 → F32
  gamma : F32 → F32
  hypot : F32 → F32 → F32
  snoise2 : F32 → F32 → F32
  fbm : F32 → F32 → F32 → F32
  turbulence : F32 → F32 → F32 → F32

/-- The `float32` of a decimal constant `num / den` of the source text. -/
def F32.ofDecimal (neg : Bool) (num den : Nat) : F32 := (roundToF32 neg num den).getD F32.zero

/-- Method `Eval` of every node type. `child i` is `op.Children[i].Eval(x, y)`; the
operands are evaluated from left to right, so the first panic is the result.
`OpPicture.Eval` panics. -/
def Node.Eval (ops : FloatOps) : Nat → Heap → Option Ptr → F32 → F32 → Option F32
  | 0, _, _, _, _ => none
  | _ + 1, _, none, _, _ => none
  | fuel + 1, h, some p, x, y =>
    match h[p]? with
    | none => none
    | some c =>
      let child (i : Nat) : Option F32 :=
        match c.Children[i]? with
        | none => none
        | some ch => Node.Eval ops fuel h ch x y
      let un (f : F32 → F32) : Option F32 :=
        match child 0 with
        | none => none
        | some a => some (f a)
      let bin (f : F32 → F32 → F32) : Option F32 :=
        match child 0 with
        | none => none
        | some a =>
          match child 1 with
          | none => none
          | some b => some (f a b)
      let tern (f : F32 → F32 → F32 → F32) : Option F32 :=
        match child 0 with
        | none => none
        | some a =>
          match child 1 with
          | none => none
          | some b =>
            match child 2 with
            | none => none
            | some d => some (f a b d)
      match c.typ with
      | .OpPicture => none
      | .OpNegate => un ops.neg
      | .OpCeil => un ops.ceil
      | .OpPlus => bin ops.add
      | .OpMinus => bin ops.sub
      | .OpMult => bin ops.mul
      | .OpDiv => bin ops.div
      | .OpX => some x
      | .OpY => some y
      | .OpClip =>
        bin (fun value bound =>
          let max := ops.abs bound
          if ops.gt value max then max
          else if ops.lt value (ops.neg max) then ops.neg max
          else value)
      | .OpConstant => some c.value
      | .OpSquare => bin (fun a b => let square := ops.mul a b; ops.mul square square)
      | .OpLerp => tern (fun a b t => ops.add a (ops.mul t (ops.sub b a)))
      | .OpSin => un ops.sin
      | .OpCos => un ops.cos
      | .OpFloor => un ops.floor
      | .OpLog => un ops.log2
      | .OpWrap =>
        un (fun f =>
          let temp := ops.div (ops.sub f (F32.ofDecimal false 1 1)) (F32.ofDecimal false 2 1)
          ops.add (F32.ofDecimal true 1 1)
            (ops.mul (F32.ofDecimal false 2 1) (ops.sub temp (ops.floor temp))))
      | .OpAbs => un ops.abs
      | .OpAtan => un ops.atan
      | .OpNoise =>
        bin (fun a b =>
          ops.sub (ops.mul (F32.ofDecimal false 80 1) (ops.snoise2 a b)) (F32.ofDecimal false 2 1))
      | .OpFBM =>
        tern (fun a b d =>
          ops.sub
            (ops.add
              (ops.mul (F32.ofDecimal false 7254 1000)
                (ops.fbm a b (ops.mul (F32.ofDecimal false 5 1) d)))
              (F32.ofDecimal false 492 1000))
            (F32.ofDecimal false 1 1))
      | .OpTurbulence =>
        tern (fun a b d =>
          ops.sub
            (ops.mul (F32.ofDecimal false 1392 100)
              (ops.turbulence a b (ops.mul (F32.ofDecimal false 5 1) d)))
            (F32.ofDecimal false 1 1))
      | .OpGamma => un ops.gamma
      | .OpHypot => bin ops.hypot

/-! ## Lexer

The lexer of `parser.go` scans runes: `input` is the text as a list of runes and
`start`, `pos`, `width` count runes. The token channel is the list of the tokens
sent so far, in the order they were sent; the parser receives them in that
order, and the closed channel is the end of the list. -/

/-- The constants `openParen`, `closeParen`, `op`, `constant`. -/
inductive tokenType where
  | openParen | closeParen | op | constant
  deriving DecidableEq, Repr

/-- The struct `token`. -/
structure token where
  typ : tokenType
  value : List Char
  deriving DecidableEq, Repr

/-- The struct `lexer`. -/
structure lexer where
  input : List Char
  start : Nat
  pos : Nat
  width : Nat
  tokens : List token
  deriving DecidableEq, Repr

/-- The three state functions; the nil state function is `none`. -/
inductive stateFunc where
  | determineToken | lexOp | lexNumber
  deriving DecidableEq, Repr

/-- Method `next`: the rune at `pos`, or `none` for `eof`. -/
def lexer.next (l : lexer) : Option Char × lexer :=
  match l.input[l.pos]? with
  | none => (none, { l with width := 0 })
  | some r => (some r, { l with width := 1, pos := l.pos + 1 })

/-- Method `backup`. -/
def lexer.backup (l : lexer) : lexer := { l with pos := l.pos - l.width }

/-- Method `ignore`. -/
def lexer.ignore (l : lexer) : lexer := { l with start := l.pos }

/-- The slice `l.input[l.start:l.pos]`. -/
def lexer.text (l : lexer) : List Char := (l.input.take l.pos).drop l.start

/-- Method `emit`: the token with the text `input[start:pos]` is sent. -/
def lexer.emit (l : lexer) (t : tokenType) : lexer :=
  { l with tokens := l.tokens ++ [⟨t, l.text⟩], start := l.pos }

/-- Is the rune (or `eof`) in the string `valid`: `strings.IndexRune(valid, r) >= 0`. -/
def inValid (valid : List Char) : Option Char → Bool
  | none => false
  | some r => valid.contains r

/-- Method `accept`. -/
def lexer.accept (l : lexer) (valid : List Char) : Bool × lexer :=
  let (r, l1) := l.next
  if inValid valid r then (true, l1) else (false, l1.backup)

/-- Method `acceptRun`; the loop runs at most `fuel` times. -/
def lexer.acceptRunLoop (valid : List Char) : Nat → lexer → lexer
  | 0, l => l
  | fuel + 1, l =>
    let (r, l1) := l.next
    if inValid valid r then lexer.acceptRunLoop valid fuel l1 else l1.backup

/-- Method `acceptRun`: every pass of the loop but the last moves `pos` one rune
on, so `len(input) + 1` passes are enough. -/
def lexer.acceptRun (l : lexer) (valid : List Char) : lexer :=
  lexer.acceptRunLoop valid (l.input.length + 1) l

/-- Function `isWhiteSpace`. -/
def isWhiteSpace (r : Option Char) : Bool :=
  r = some ' ' || r = some '\n' || r = some '\t' || r = some '\r'

/-- Function `isStartNumber`. -/
def isStartNumber (r : Option Char) : Bool :=
  match r with
  | none => false
  | some c => ('0' ≤ c && c ≤ '9') || c = '-' || c = '.'

/-- The loop of `determineToken`, at most `fuel` passes. -/
def determineTokenLoop : Nat → lexer → Option stateFunc × lexer
  | 0, l => (none, l)
  | fuel + 1, l =>
    let (r, l1) := l.next
    if isWhiteSpace r then determineTokenLoop fuel l1.ignore
    else if r = some '(' then determineTokenLoop fuel (l1.emit .openParen)
    else if r = some ')' then determineTokenLoop fuel (l1.emit .closeParen)
    else if isStartNumber r then (some .lexNumber, l1)
    else if r = none then (none, l1)
    else (some .lexOp, l1)

/-- State function `determineToken`: as for `acceptRun`, `len(input) + 1` passes
of its loop are enough. -/
def determineToken (l : lexer) : Option stateFunc × lexer :=
  determineTokenLoop (l.input.length + 1) l

/-- The string of runes that `lexOp` accepts. -/
def opChars : List Char :=
  "+=/*qwertyuiopasdfghjklzxcvbnmQWERTYUIOPASDFGHJKLZXCVBNM1234567890".toList

/-- The string `digits` of `lexNumber`. -/
def digitChars : List Char := "0123456789".toList

/-- The string `"-."` of `lexNumber`. -/
def signDotChars : List Char := "-.".toList

/-- The string `"."` of `lexNumber`. -/
def dotChars : List Char := ".".toList

/-- The string `"-"` that `lexNumber` compares the token text with. -/
def minusText : List Char := "-".toList

/-- State function `lexOp`. -/
def lexOp (l : lexer) : Option stateFunc × lexer :=
  let l1 := l.acceptRun opChars
  (some .determineToken, l1.emit .op)

/-- The scanning part of `lexNumber`, up to the comparison of the token text. -/
def lexNumberScan (l : lexer) : lexer :=
  let l1 := (l.accept signDotChars).2
  let l2 := l1.acceptRun digitChars
  let l3 := l2.accept dotChars
  if l3.1 = true then l3.2.acceptRun digitChars else l3.2

/-- State function `lexNumber`. -/
def lexNumber (l : lexer) : Option stateFunc × lexer :=
  let l4 := lexNumberScan l
  if l4.text = minusText then
    (some .determineToken, l4.emit .op)
  else
    (some .determineToken, l4.emit .constant)

/-- A state function applied to the lexer. -/
def stateFunc.apply : stateFunc → lexer → Option stateFunc × lexer
  | .determineToken, l => Evim.determineToken l
  | .lexOp, l => Evim.lexOp l
  | .lexNumber, l => Evim.lexNumber l

/-- Method `run`: `for state := determineToken; state != nil; { state = state(l) }`,
at most `fuel` state functions. -/
def lexer.runLoop : Nat → Option stateFunc → lexer → lexer
  | 0, _, l => l
  | _ + 1, none, l => l
  | fuel + 1, some state, l =>
    let (state1, l1) := state.apply l
    lexer.runLoop fuel state1 l1

/-- Method `run` on the lexer that `BeginLexing` makes for the text `s`, and the
tokens it sends. Two state functions run for each token at most, and one more at
the end of the text. -/
def lex (s : List Char) : List token :=
  (lexer.runLoop (2 * s.length + 2) (some .determineToken)
    { input := s, start := 0, pos := 0, width := 0, tokens := [] }).tokens

/-! ## Parser -/

/-- The outcome of a call that may panic: `timeout` is the model running out of
fuel, which enough fuel excludes. -/
inductive Res (α : Type) where
  | ok (a : α) : Res α
  | panic : Res α
  | timeout : Res α
  deriving DecidableEq, Repr

/-- The `switch` of `stringToNode`: the node type for a keyword, `none` for the
`default` branch, which panics. -/
def stringToKind (s : List Char) : Option Kind :=
  match String.mk s with
  | "Clip" => some .OpClip
  | "Negate" => some .OpNegate
  | "*" => some .OpMult
  | "+" => some .OpPlus
  | "Ceil" => some .OpCeil
  | "-" => some .OpMinus
  | "/" => some .OpDiv
  | "Square" => some .OpSquare
  | "Lerp" => some .OpLerp
  | "Sin" => some .OpSin
  | "Cos" => some .OpCos
  | "Floor" => some .OpFloor
  | "Log" => some .OpLog
  | "Wrap" => some .OpWrap
  | "Abs" => some .OpAbs
  | "Atan" => some .OpAtan
  | "Noise" => some .OpNoise
  | "FBM" => some .OpFBM
  | "Turbulence" => some .OpTurbulence
  | "Gamma" => some .OpGamma
  | "X" => some .OpX
  | "Y" => some .OpY
  | "Picture" => some .OpPicture
  | "Hypot" => some .OpHypot
  | _ => none

/-- Function `stringToNode`: the new node of the keyword's type. -/
def stringToNode (h : Heap) (s : List Char) : Option (Heap × Ptr) :=
  match stringToKind s with
  | none => none
  | some k => some (h.alloc (newCell k F32.zero))

/-- The assignment `n.value = v`. -/
def setValue (h : Heap) (n : Ptr) (v : F32) : Option Heap :=
  match h[n]? with
  | none => none
  | some c => some (h.set n { c with value := v })

/-- The loop `for i := range n.GetChildren() { n.GetChildren()[i] = parse(tokens, n) }`
with `k` slots still to fill. -/
def parseLoop (rec : Heap → List token → Res (Heap × Ptr × List token)) (n : Ptr) :
    Nat → Nat → Heap → List token → Res (Heap × List token)
  | 0, _, h, toks => .ok (h, toks)
  | k + 1, i, h, toks =>
    match rec h toks with
    | .panic => .panic
    | .timeout => .timeout
    | .ok (h1, child, toks1) =>
      match setChild h1 (some n) i (some child) with
      | none => .panic
      | some h2 => parseLoop rec n k (i + 1) h2 toks1

/-- Function `parse(tokens, parent)`: the node read, and the tokens left in the
channel. `pf` is `strconv.ParseFloat(_, 32)` followed by the conversion to
`float32`. The value that `NewOpConstant` draws is overwritten before the node
is returned, so the new constant is made with the zero value and the random
source is left out. -/
def parse (pf : List Char → Option F32) :
    Nat → Heap → List token → Option Ptr → Res (Heap × Ptr × List token)
  | 0, _, _, _ => .timeout
  | _ + 1, _, [], _ => .panic
  | fuel + 1, h, tok :: toks, parent =>
    match tok.typ with
    | .op =>
      match stringToNode h tok.value with
      | none => .panic
      | some (h1, n) =>
        match SetParent h1 (some n) parent with
        | none => .panic
        | some h2 =>
          match GetChildren h2 (some n) with
          | none => .panic
          | some children =>
            match parseLoop (fun hh tt => parse pf fuel hh tt (some n)) n children.length 0 h2
                toks with
            | .panic => .panic
            | .timeout => .timeout
            | .ok (h3, toks1) => .ok (h3, n, toks1)
    | .constant =>
      let (h1, n) := h.alloc (newCell .OpConstant F32.zero)
      match SetParent h1 (some n) parent with
      | none => .panic
      | some h2 =>
        match pf tok.value with
        | none => .panic
        | some v =>
          match setValue h2 n v with
          | none => .panic
          | some h3 => .ok (h3, n, toks)
    | .closeParen => parse pf fuel h toks parent
    | .openParen => parse pf fuel h toks parent

/-- The call `parse(l.tokens, nil)` of `BeginLexing` on a token sequence: every
call of `parse` takes a token, so one unit of fuel for each token and one more
are enough. -/
def parseTokens (pf : List Char → Option F32) (h : Heap) (toks : List token) : Res (Heap × Ptr) :=
  match parse pf (toks.length + 1) h toks none with
  | .ok (h1, n, _) => .ok (h1, n)
  | .panic => .panic
  | .timeout => .timeout

/-- Function `BeginLexing(s)`. -/
def BeginLexing (h : Heap) (s : List Char) : Res (Heap × Ptr) := parseTokens ParseFloat h (lex s)

/-! ## The tree a pointer stands for

Specification-level view of the store: a `PTree` lists, for a node, its address,
dynamic type, value and the trees in its child slots (`empty` for a nil slot). -/

/-- A tree of node objects, each with its address; `empty` is a nil child slot. -/
inductive PTree where
  | empty : PTree
  | node (addr : Ptr) (kind : Kind) (value : F32) (children : List PTree) : PTree

/-- The pointer held for a tree: nil for the empty slot. -/
def PTree.root : PTree → Option Ptr
  | .empty => none
  | .node a _ _ _ => some a

/-- The pointers in a list of child slots. -/
def PTree.roots (cs : List PTree) : List (Option Ptr) := cs.map PTree.root

mutual
/-- The number of nodes of a tree. -/
def PTree.size : PTree → Nat
  | .empty => 0
  | .node _ _ _ cs => 1 + PTree.sizeList cs
/-- The number of nodes of a list of trees. -/
def PTree.sizeList : List PTree → Nat
  | [] => 0
  | t :: ts => t.size + PTree.sizeList ts
end

mutual
/-- The height of a tree: 0 for the empty slot, 1 for a leaf. -/
def PTree.depth : PTree → Nat
  | .empty => 0
  | .node _ _ _ cs => 1 + PTree.depthList cs
/-- The largest height in a list of trees. -/
def PTree.depthList : List PTree → Nat
  | [] => 0
  | t :: ts => max t.depth (PTree.depthList ts)
end

mutual
/-- A tree is complete when no child slot in it is empty. -/
def PTree.complete : PTree → Bool
  | .empty => false
  | .node _ _ _ cs => PTree.completeList cs
/-- Every tree of the list is complete. -/
def PTree.completeList : List PTree → Bool
  | [] => true
  | t :: ts => t.complete && PTree.completeList ts
end

mutual
/-- The addresses of the nodes in pre-order: the root first, then each child
subtree from left to right. -/
def PTree.preorder : PTree → List Ptr
  | .empty => []
  | .node a _ _ cs => a :: PTree.preorderList cs
/-- The pre-order enumerations of a list of trees, one after the other. -/
def PTree.preorderList : List PTree → List Ptr
  | [] => []
  | t :: ts => t.preorder ++ PTree.preorderList ts
end

mutual
/-- The store holds the tree: at every node's address lies an object of the
node's type and value whose child slots point to the node's children. Parent
references are not part of this view. -/
def Rep (h : Heap) : PTree → Bool
  | .empty => true
  | .node a k v cs =>
    decide ((h[a]?).map Cell.typ = some k) && decide ((h[a]?).map Cell.value = some v) &&
      decide ((h[a]?).map Cell.Children = some (cs.map PTree.root)) && RepList h cs
/-- The store holds every tree of the list. -/
def RepList (h : Heap) : List PTree → Bool
  | [] => true
  | t :: ts => Rep h t && RepList h ts
end

/-- A tree without addresses: what two trees at different places of the store
have in common when they are structurally equal. -/
inductive Tree where
  | empty : Tree
  | node (kind : Kind) (value : F32) (children : List Tree) : Tree

mutual
/-- The tree without its addresses. Only a constant has a value; the field is
read as zero for the other types. -/
def PTree.shape : PTree → Tree
  | .empty => .empty
  | .node _ k v cs => .node k (if k = Kind.OpConstant then v else F32.zero) (PTree.shapeList cs)
/-- The trees of a list without their addresses. -/
def PTree.shapeList : List PTree → List Tree
  | [] => []
  | t :: ts => t.shape :: PTree.shapeList ts
end

mutual
/-- Every node has as many child slots as its type's arity. -/
def PTree.arityOk : PTree → Bool
  | .empty => true
  | .node _ k _ cs => decide (cs.length = k.arity) && PTree.arityOkList cs
/-- The same for every tree of a list. -/
def PTree.arityOkList : List PTree → Bool
  | [] => true
  | t :: ts => t.arityOk && PTree.arityOkList ts
end

mutual
/-- The node types in pre-order. -/
def PTree.kinds : PTree → List Kind
  | .empty => []
  | .node _ k _ cs => k :: PTree.kindsList cs
/-- The node types of a list of trees in pre-order. -/
def PTree.kindsList : List PTree → List Kind
  | [] => []
  | t :: ts => t.kinds ++ PTree.kindsList ts
end

/-- The fields of an object that the tree view reads: type, value and children. -/
def Cell.core (c : Cell) : Kind × F32 × List (Option Ptr) := (c.typ, c.value, c.Children)

/-- The tree view reads the same at address `a` in both stores. -/
def sameCore (h h' : Heap) (a : Ptr) : Prop := (h'[a]?).map Cell.core = (h[a]?).map Cell.core

/-- The store `h'` has every object of `h` unchanged at its address (and maybe more
objects after them). -/
def Extends (h h' : Heap) : Prop := ∀ a, a < h.length → h'[a]? = h[a]?

/-- The result that `GetNthNode` gives on a complete tree, found or not. -/
def nthResult (pre : List Ptr) (sz : Nat) (n count : Int) (res : Option Ptr × Int) : Prop :=
  (count ≤ n ∧ n < count + sz → res.1 = pre[(n - count).toNat]?) ∧
  (¬ (count ≤ n ∧ n < count + sz) → res = (none, count + sz - 1))

/-- The keyword of a node type in the text form, as the `String` methods write it
and `stringToNode` reads it; a constant has none. -/
def Kind.keyword : Kind → List Char
  | .OpPicture => "Picture".toList
  | .OpNegate => "Negate".toList
  | .OpCeil => "Ceil".toList
  | .OpPlus => "+".toList
  | .OpMinus => "-".toList
  | .OpMult => "*".toList
  | .OpDiv => "/".toList
  | .OpX => "X".toList
  | .OpY => "Y".toList
  | .OpClip => "Clip".toList
  | .OpConstant => []
  | .OpSquare => "Square".toList
  | .OpLerp => "Lerp".toList
  | .OpSin => "Sin".toList
  | .OpCos => "Cos".toList
  | .OpFloor => "Floor".toList
  | .OpLog => "Log".toList
  | .OpWrap => "Wrap".toList
  | .OpAbs => "Abs".toList
  | .OpAtan => "Atan".toList
  | .OpNoise => "Noise".toList
  | .OpFBM => "FBM".toList
  | .OpTurbulence => "Turbulence".toList
  | .OpGamma => "Gamma".toList
  | .OpHypot => "Hypot".toList

/-- What a `String` method writes before the keyword. -/
def Kind.opening (k : Kind) : List Char := if k = .OpWrap then "(".toList else "( ".toList

/-- What a `String` method writes before each child. -/
def Kind.sep (k : Kind) : List Char := if k = .OpPicture then "\n".toList else " ".toList

/-- What a `String` method writes after the last child. -/
def Kind.closing (k : Kind) : List Char := if k = .OpWrap then ")".toList else " )".toList

mutual
/-- The text of a tree: what `String` returns for it. -/
def Tree.render : Tree → List Char
  | .empty => []
  | .node k v cs =>
    if k = .OpConstant then FormatFloat v
    else if k.arity = 0 then k.keyword
    else k.opening ++ k.keyword ++ Tree.renderList k.sep cs ++ k.closing
/-- The texts of the children, each after the separator. -/
def Tree.renderList (sep : List Char) : List Tree → List Char
  | [] => []
  | t :: ts => sep ++ t.render ++ Tree.renderList sep ts
end

/-- A tree is a leaf that `GetRandomLeaf` can make, at an address from `lo` on. -/
def isFreshLeaf (lo : Nat) (l : PTree) : Prop :=
  ∃ a lk lv, l = .node a lk lv [] ∧ (lk = .OpConstant ∨ lk = .OpX ∨ lk = .OpY) ∧ lo ≤ a

/-- The store of the witnesses: the tree `( + X Y )` at the addresses 0, 1, 2. -/
def heapPlusXY : Heap :=
  [⟨.OpPlus, F32.zero, none, [some 1, some 2]⟩, ⟨.OpX, F32.zero, some 0, []⟩,
    ⟨.OpY, F32.zero, some 0, []⟩]

/-- The tree that `heapPlusXY` holds at address 0. -/
def treePlusXY : PTree :=
  .node 0 .OpPlus F32.zero [.node 1 .OpX F32.zero [], .node 2 .OpY F32.zero []]

/-- The random source of the witnesses: every raw draw is 0. -/
def randZero : Rand := { ints := fun _ => 0, floats := fun _ => F32.zero, ipos := 0, fpos := 0 }

mutual
/-- The parent references below `par` are consistent: the root of the tree has
the parent reference `par`, and every node in a child slot has the holder of
the slot as its parent reference. -/
def ParentOK (h : Heap) : Option Ptr → PTree → Bool
  | _, .empty => true
  | par, .node a _ _ cs =>
    decide ((h[a]?).map Cell.Parent = some par) && ParentOKList h (some a) cs
/-- The same for every tree of a list of child slots. -/
def ParentOKList (h : Heap) : Option Ptr → List PTree → Bool
  | _, [] => true
  | par, t :: ts => ParentOK h par t && ParentOKList h par ts
end

mutual
/-- The first subtree, in pre-order, whose root has the address `a`. -/
def PTree.find (a : Ptr) : PTree → Option PTree
  | .empty => none
  | .node b k v cs => if b = a then some (.node b k v cs) else PTree.findList a cs
/-- The same in a list of trees. -/
def PTree.findList (a : Ptr) : List PTree → Option PTree
  | [] => none
  | t :: ts =>
    match PTree.find a t with
    | some s => some s
    | none => PTree.findList a ts
end

mutual
/-- The tree with every subtree whose root has the address `a` replaced by `new`. -/
def PTree.replace (a : Ptr) (new : PTree) : PTree → PTree
  | .empty => .empty
  | .node b k v cs => if b = a then new else .node b k v (PTree.replaceList a new cs)
/-- The same in a list of trees. -/
def PTree.replaceList (a : Ptr) (new : PTree) : List PTree → List PTree
  | [] => []
  | t :: ts => PTree.replace a new t :: PTree.replaceList a new ts
end

/-- Below the old top of the store, `h'` differs from `h` in what the tree view
reads only at the object `par`, where the child slots that held `n` hold `q`: the
change that `Mutate(n)` makes, `q` being the new node. -/
def mutatedFrom (h h' : Heap) (par : Option Ptr) (n q : Ptr) : Prop :=
  ∀ a, a < h.length → (h'[a]?).map Cell.core = (h[a]?).map (fun c =>
    (c.typ, c.value, if par = some a then replaceIn c.Children (some n) (some q) else c.Children))

/-- One of three by its index: `0`, `1`, or anything else for the third. -/
def pick3 {α : Type} (c : Nat) (x y z : α) : α :=
  match c with
  | 0 => x
  | 1 => y
  | _ => z

/-- The store of a picture whose three channels are the leaves `X`, `Y`, `X`. -/
def heapXYX : Heap :=
  [⟨.OpX, F32.zero, none, []⟩, ⟨.OpY, F32.zero, none, []⟩, ⟨.OpX, F32.zero, none, []⟩]

/-- The lexer is in the middle of a token: `pre` is the text before `start`, `tok`
the text from `start` to `pos`, and `suf` the text from `pos` on. -/
def lexer.mid (l : lexer) (pre tok suf : List Char) : Prop :=
  l.input = pre ++ tok ++ suf ∧ l.start = pre.length ∧ l.pos = pre.length + tok.length

/-- The runes that `determineToken` passes over: white space and parentheses. -/
def isSkip (c : Char) : Bool :=
  c = ' ' || c = '\n' || c = '\t' || c = '\r' || c = '(' || c = ')'

/-- The tokens that `determineToken` sends while it passes over a run of white
space and parentheses. -/
def skipTokens : List Char → List token
  | [] => []
  | c :: cs =>
    if c = '(' then ⟨.openParen, [c]⟩ :: skipTokens cs
    else if c = ')' then ⟨.closeParen, [c]⟩ :: skipTokens cs
    else skipTokens cs

/-- A text and the tokens that the lexer sends for it, token by token: before
each token a run of white space and parentheses (`isSkip`), then an identifier,
the lone minus sign, or a decimal with a point; the rune after a token is the
end of the text or one that the token cannot take. -/
inductive Lexes : List Char → List token → Prop where
  | done (skip : List Char) (hskip : ∀ c ∈ skip, isSkip c = true) :
      Lexes skip (skipTokens skip)
  | op (skip : List Char) (c : Char) (run rest : List Char) (toks : List token)
      (hskip : ∀ c ∈ skip, isSkip c = true) (hc : isSkip c = false)
      (hcn : isStartNumber (some c) = false) (hrun : ∀ x ∈ run, opChars.contains x = true)
      (hrest : ∀ x, rest.head? = some x → opChars.contains x = false)
      (htl : Lexes rest toks) :
      Lexes (skip ++ c :: run ++ rest) (skipTokens skip ++ ⟨.op, c :: run⟩ :: toks)
  | minus (skip rest : List Char) (toks : List token)
      (hskip : ∀ c ∈ skip, isSkip c = true)
      (hrest : ∀ x, rest.head? = some x →
        signDotChars.contains x = false ∧ digitChars.contains x = false)
      (htl : Lexes rest toks) :
      Lexes (skip ++ '-' :: rest) (skipTokens skip ++ ⟨.op, ['-']⟩ :: toks)
  | num (skip : List Char) (c : Char) (ds fs rest : List Char) (toks : List token)
      (hskip : ∀ c ∈ skip, isSkip c = true) (hc : isStartNumber (some c) = true)
      (hds : ∀ x ∈ ds, digitChars.contains x = true) (hfs : ∀ x ∈ fs, digitChars.contains x = true)
      (hne : ds = [] → c ≠ '-')
      (hrest : ∀ x, rest.head? = some x →
        dotChars.contains x = false ∧ digitChars.contains x = false)
      (htl : Lexes rest toks) :
      Lexes (skip ++ c :: ds ++ '.' :: fs ++ rest)
        (skipTokens skip ++ ⟨.constant, c :: ds ++ '.' :: fs⟩ :: toks)

mutual
/-- The tokens that the lexer sends for the text of a tree. -/
def Tree.tokens : Tree → List token
  | .empty => []
  | .node k v cs =>
    if k = .OpConstant then [⟨.constant, FormatFloat v⟩]
    else if k.arity = 0 then [⟨.op, k.keyword⟩]
    else ⟨.openParen, ['(']⟩ :: ⟨.op, k.keyword⟩ :: (Tree.tokensList cs ++ [⟨.closeParen, [')']⟩])
/-- The tokens of the children, one after the other. -/
def Tree.tokensList : List Tree → List token
  | [] => []
  | t :: ts => t.tokens ++ Tree.tokensList ts
end

mutual
/-- Every constant of the tree has a value for which `P` holds. -/
def PTree.allConsts (P : F32 → Bool) : PTree → Bool
  | .empty => true
  | .node _ k v cs => (k != Kind.OpConstant || P v) && PTree.allConstsList P cs
/-- The same for every tree of a list. -/
def PTree.allConstsList (P : F32 → Bool) : List PTree → Bool
  | [] => true
  | t :: ts => PTree.allConsts P t && PTree.allConstsList P ts
end

/-- The text after a tree in a serialisation: nothing, or something that starts
with a blank, a line feed or a closing parenthesis. -/
def delim (rest : List Char) : Prop := ∀ x, rest.head? = some x → x = ' ' ∨ x = '\n' ∨ x = ')'

/-- A token of a parenthesis. -/
def token.isParen (t : token) : Bool :=
  match t.typ with
  | .openParen => true
  | .closeParen => true
  | _ => false

/-- The tokens without those of the parentheses. -/
def stripParens (toks : List token) : List token := toks.filter (fun t => !t.isParen)

/-- The loop of `parse` without the store: the trees of `k` children read one
after the other. -/
def readList (rec : List token → Res (Tree × List token)) :
    Nat → List token → Res (List Tree × List token)
  | 0, toks => .ok ([], toks)
  | k + 1, toks =>
    match rec toks with
    | .panic => .panic
    | .timeout => .timeout
    | .ok (c, toks1) =>
      match readList rec k toks1 with
      | .panic => .panic
      | .timeout => .timeout
      | .ok (cs, rest) => .ok (c :: cs, rest)

/-- The function `parse` without the store: the tree that it reads off the
tokens, and the tokens left. -/
def readTree (pf : List Char → Option F32) : Nat → List token → Res (Tree × List token)
  | 0, _ => .timeout
  | _ + 1, [] => .panic
  | fuel + 1, tok :: toks =>
    match tok.typ with
    | .op =>
      match stringToKind tok.value with
      | none => .panic
      | some k =>
        match readList (readTree pf fuel) k.arity toks with
        | .panic => .panic
        | .timeout => .timeout
        | .ok (cs, rest) => .ok (.node k F32.zero cs, rest)
    | .constant =>
      match pf tok.value with
      | none => .panic
      | some v => .ok (.node .OpConstant v [], toks)
    | .closeParen => readTree pf fuel toks
    | .openParen => readTree pf fuel toks

/-- What a call of `parse` does, told by `readTree`: it runs out of fuel or
panics when `readTree` does, and otherwise returns a new node at the next free
address, the tree of which is held by the new store and is the tree read. -/
def ParseSpec (pf : List Char → Option F32) (fuel : Nat) (h : Heap) (toks : List token)
    (parent : Option Ptr) : Prop :=
  (readTree pf fuel toks = .timeout → parse pf fuel h toks parent = .timeout) ∧
  (readTree pf fuel toks = .panic → parse pf fuel h toks parent = .panic) ∧
  (∀ T rest, readTree pf fuel toks = .ok (T, rest) →
    ∃ h1 t, parse pf fuel h toks parent = .ok (h1, h.length, rest) ∧ Extends h h1 ∧
      Rep h1 t = true ∧ t.root = some h.length ∧ t.shape = T ∧ t.complete = true ∧
      t.arityOk = true ∧ (∀ b ∈ t.preorder, h.length ≤ b) ∧
      (h1[h.length]?).map Cell.Parent = some parent)

/-- A token that `parse` can take: a keyword of `stringToNode`, a number that
`pf` reads, or a parenthesis. -/
def token.readable (pf : List Char → Option F32) (t : token) : Bool :=
  match t.typ with
  | .op => (stringToKind t.value).isSome
  | .constant => (pf t.value).isSome
  | _ => true

mutual
/-- The tree with `f v` for the value `v` of every constant. -/
def PTree.mapConst (f : F32 → F32) : PTree → PTree
  | .empty => .empty
  | .node a k v cs => .node a k (if k = Kind.OpConstant then f v else v) (PTree.mapConstList f cs)
/-- The same for every tree of a list. -/
def PTree.mapConstList (f : F32 → F32) : List PTree → List PTree
  | [] => []
  | t :: ts => PTree.mapConst f t :: PTree.mapConstList f ts
end

/-- The store of the counterexample to the evaluation round trip: one constant of
value 2^-23, a value that `NewOpConstant` can draw. -/
def heapEps : Heap := [⟨.OpConstant, ⟨872415232⟩, none, []⟩]

/-- The store of a witness: the tree `( + X 0.5 )` at the addresses 0, 1, 2. -/
def heapPlusXHalf : Heap :=
  [⟨.OpPlus, F32.zero, none, [some 1, some 2]⟩, ⟨.OpX, F32.zero, some 0, []⟩,
    ⟨.OpConstant, ⟨1056964608⟩, some 0, []⟩]

/-- The tree that `heapPlusXHalf` holds at address 0. -/
def treePlusXHalf : PTree :=
  .node 0 .OpPlus F32.zero [.node 1 .OpX F32.zero [], .node 2 .OpConstant ⟨1056964608⟩ []]

/-- The bit pattern is a NaN: exponent all ones and a fraction that is not zero. -/
def F32.isNaN (v : F32) : Bool := v.bits / 2 ^ 23 % 256 = 255 && v.bits % 2 ^ 23 != 0

/-- The place of a `float32` that is not a NaN in the order of the values: the
magnitude bits as an integer, negated when the sign bit is set. Both zeros have
the place 0, the infinities the two ends. -/
def F32.key (v : F32) : Int :=
  if v.bits / 2 ^ 31 % 2 = 1 then -((v.bits % 2 ^ 31 : Nat) : Int) else ((v.bits % 2 ^ 31 : Nat) : Int)

/-- The comparison `a < b` of two `float32`: false when one of them is a NaN. -/
def F32.lt (a b : F32) : Bool := !a.isNaN && !b.isNaN && decide (a.key < b.key)

/-- The comparison `a <= b` of two `float32`: false when one of them is a NaN. -/
def F32.le (a b : F32) : Bool := !a.isNaN && !b.isNaN && decide (a.key ≤ b.key)

/-- The negation `-a` of a `float32`: the sign bit is flipped. -/
def F32.neg (a : F32) : F32 :=
  if a.bits / 2 ^ 31 % 2 = 1 then ⟨a.bits - 2 ^ 31⟩ else ⟨a.bits + 2 ^ 31⟩

/-- The value `float32(math.Abs(float64(a)))`: the sign bit is cleared. -/
def F32.abs (a : F32) : F32 := ⟨a.bits % 2 ^ 31⟩

/-- The operations of `FloatOps` that are exact are those of IEEE 754: the two
comparisons, and negation and absolute value, which on a NaN give a NaN. -/
def FloatOps.ieee (ops : FloatOps) : Prop :=
  (∀ a b, ops.gt a b = F32.lt b a) ∧ (∀ a b, ops.lt a b = F32.lt a b) ∧
  (∀ a, (a.isNaN = true → (ops.abs a).isNaN = true) ∧ (a.isNaN = false → ops.abs a = F32.abs a)) ∧
  (∀ a, (a.isNaN = true → (ops.neg a).isNaN = true) ∧ (a.isNaN = false → ops.neg a = F32.neg a))

/-- The operations of the witnesses: the exact ones are those of IEEE 754; each of
the others, which no witness evaluates, stands as the function that returns its
first operand. -/
def opsExact : FloatOps :=
  { neg := F32.neg, add := fun a _ => a, sub := fun a _ => a, mul := fun a _ => a,
    div := fun a _ => a, gt := fun a b => F32.lt b a, lt := F32.lt, ceil := fun a => a,
    floor := fun a => a, sin := fun a => a, cos := fun a => a, log2 := fun a => a,
    abs := F32.abs, atan := fun a => a, gamma := fun a => a, hypot := fun a _ => a,
    snoise2 := fun a _ => a, fbm := fun a _ _ => a, turbulence := fun a _ _ => a }

/-- The store that `BeginLexing` returns for `(Clip X 0.500000000)`. -/
def heapClip : Heap :=
  [⟨.OpClip, F32.zero, none, [some 1, some 2]⟩, ⟨.OpX, F32.zero, some 0, []⟩,
    ⟨.OpConstant, ⟨1056964608⟩, some 0, []⟩]

/-- The node type that `parse` makes for a token: that of the keyword, Constant
for a number, none for a parenthesis or an unknown identifier. -/
def token.kind (t : token) : Option Kind :=
  match t.typ with
  | .op => stringToKind t.value
  | .constant => some .OpConstant
  | _ => none

mutual
/-- The node types of a tree without addresses, in pre-order. -/
def Tree.kinds : Tree → List Kind
  | .empty => []
  | .node k _ cs => k :: Tree.kindsList cs
/-- The node types of a list of such trees, in pre-order. -/
def Tree.kindsList : List Tree → List Kind
  | [] => []
  | t :: ts => t.kinds ++ Tree.kindsList ts
end

/-- The store that `BeginLexing` returns for `( Negate ( Picture X Y X ) )`. -/
def heapNegatePicture : Heap :=
  [⟨.OpNegate, F32.zero, none, [some 1]⟩, ⟨.OpPicture, F32.zero, some 0, [some 2, some 3, some 4]⟩,
    ⟨.OpX, F32.zero, some 1, []⟩, ⟨.OpY, F32.zero, some 1, []⟩, ⟨.OpX, F32.zero, some 1, []⟩]

/-- The loop `for i, child := range node.Children` of `AddLeaf`, from slot `i` on,
`k` slots to go: an empty slot gets the leaf, whose parent becomes `node`, and the
result is true; on a child, `AddLeaf` is called, and its true is the result. -/
def AddLeafLoop (rec : Heap → Ptr → Option (Heap × Bool)) (node : Ptr) (leaf : Option Ptr) :
    Nat → Nat → Heap → Option (Heap × Bool)
  | 0, _, h => some (h, false)
  | k + 1, i, h =>
    match GetChildren h (some node) with
    | none => none
    | some children =>
      match children[i]? with
      | none => none
      | some none =>
        match SetParent h leaf (some node) with
        | none => none
        | some h1 =>
          match setChild h1 (some node) i leaf with
          | none => none
          | some h2 => some (h2, true)
      | some (some child) =>
        match rec h child with
        | none => none
        | some (h1, true) => some (h1, true)
        | some (h1, false) => AddLeafLoop rec node leaf k (i + 1) h1

/-- Method `AddLeaf` of `BaseNode`. -/
def AddLeaf : Nat → Heap → Option Ptr → Option Ptr → Option (Heap × Bool)
  | 0, _, _, _ => none
  | _ + 1, _, none, _ => none
  | fuel + 1, h, some node, leaf =>
    match h[node]? with
    | none => none
    | some c =>
      AddLeafLoop (fun hh child => AddLeaf fuel hh (some child) leaf) node leaf c.Children.length
        0 h

/-- The loop `for root.AddLeaf(GetRandomLeaf()) { }` of `NewPicture`, at most `n`
passes. -/
def closeWithLeaves (fuel : Nat) : Nat → Heap → Rand → Option Ptr → Option (Heap × Rand)
  | 0, _, _, _ => none
  | n + 1, h, g, root =>
    match GetRandomLeaf h g with
    | none => none
    | some (h1, g1, leaf) =>
      match AddLeaf fuel h1 root (some leaf) with
      | none => none
      | some (h2, true) => closeWithLeaves fuel n h2 g1 root
      | some (h2, false) => some (h2, g1)

mutual
/-- The number of empty child slots of a tree. -/
def PTree.holes : PTree → Nat
  | .empty => 1
  | .node _ _ _ cs => PTree.holesList cs
/-- The number of empty child slots in a list of trees. -/
def PTree.holesList : List PTree → Nat
  | [] => 0
  | t :: ts => t.holes + PTree.holesList ts
end

mutual
/-- The tree with `leaf` in its first empty child slot in pre-order. -/
def PTree.fill (leaf : PTree) : PTree → PTree
  | .empty => leaf
  | .node a k v cs => .node a k v (PTree.fillList leaf cs)
/-- The same in a list of child slots. -/
def PTree.fillList (leaf : PTree) : List PTree → List PTree
  | [] => []
  | t :: ts => if 0 < t.holes then PTree.fill leaf t :: ts else t :: PTree.fillList leaf ts
end

mutual
/-- The height that the tree has once its empty slots hold leaves. -/
def PTree.depthFilled : PTree → Nat
  | .empty => 1
  | .node _ _ _ cs => 1 + PTree.depthFilledList cs
/-- The largest such height in a list of trees. -/
def PTree.depthFilledList : List PTree → Nat
  | [] => 0
  | t :: ts => max t.depthFilled (PTree.depthFilledList ts)
end

/-- The store of a witness: the node `+` with an `X` in its first slot and its
second slot empty, and a leaf `Y` that is no one's child. -/
def heapPlusXHole : Heap :=
  [⟨.OpPlus, F32.zero, none, [some 1, none]⟩, ⟨.OpX, F32.zero, some 0, []⟩,
    ⟨.OpY, F32.zero, none, []⟩]

mutual
/-- The number of nodes of a tree without addresses. -/
def Tree.size : Tree → Nat
  | .empty => 0
  | .node _ _ cs => 1 + Tree.sizeList cs
/-- The number of nodes of a list of trees without addresses. -/
def Tree.sizeList : List Tree → Nat
  | [] => 0
  | t :: ts => t.size + Tree.sizeList ts
end

mutual
/-- The subtree whose root is the node at pre-order index `i` (the root has the
index 0, then come the child subtrees from left to right). -/
def Tree.subtreeAt : Nat → Tree → Option Tree
  | _, .empty => none
  | 0, .node k v cs => some (.node k v cs)
  | i + 1, .node _ _ cs => Tree.subtreeAtList i cs
/-- The same in a list of trees, the indices running through the list. -/
def Tree.subtreeAtList : Nat → List Tree → Option Tree
  | _, [] => none
  | i, t :: ts => if i < t.size then Tree.subtreeAt i t else Tree.subtreeAtList (i - t.size) ts
end

mutual
/-- The tree with the subtree at pre-order index `i` replaced by `new`. -/
def Tree.replaceAt (new : Tree) : Nat → Tree → Tree
  | _, .empty => .empty
  | 0, .node _ _ _ => new
  | i + 1, .node k v cs => .node k v (Tree.replaceAtList new i cs)
/-- The same in a list of trees, the indices running through the list. -/
def Tree.replaceAtList (new : Tree) : Nat → List Tree → List Tree
  | _, [] => []
  | i, t :: ts =>
    if i < t.size then Tree.replaceAt new i t :: ts
    else t :: Tree.replaceAtList new (i - t.size) ts
end

mutual
/-- The subtree of a tree of the store whose root is the node at pre-order
index `i`. -/
def PTree.subAt : Nat → PTree → Option PTree
  | _, .empty => none
  | 0, .node a k v cs => some (.node a k v cs)
  | i + 1, .node _ _ _ cs => PTree.subAtList i cs
/-- The same in a list of trees, the indices running through the list. -/
def PTree.subAtList : Nat → List PTree → Option PTree
  | _, [] => none
  | i, t :: ts => if i < t.size then PTree.subAt i t else PTree.subAtList (i - t.size) ts
end

/-- Method `pickRandomColor` of `picture`; the `default` branch panics. -/
def picture.pickRandomColor (p : picture) (g : Rand) : Option (Option Ptr × Rand) :=
  match g.Intn 3 with
  | none => none
  | some (r, g1) =>
    match r with
    | 0 => some (p.r, g1)
    | 1 => some (p.g, g1)
    | 2 => some (p.b, g1)
    | _ => none

/-- Function `cross(a, b)` of `main.go`: the copy of `a`, one node of which
`ReplaceNode` replaces by the copy of a subtree of `b`. -/
def cross (fuel : Nat) (h : Heap) (g : Rand) (a b : picture) : Option (Heap × Rand × picture) :=
  match CopyTree fuel h a.r none with
  | none => none
  | some (h1, cr) =>
    match CopyTree fuel h1 a.g none with
    | none => none
    | some (h2, cg) =>
      match CopyTree fuel h2 a.b none with
      | none => none
      | some (h3, cb) =>
        let aCopy : picture := ⟨some cr, some cg, some cb⟩
        match aCopy.pickRandomColor g with
        | none => none
        | some (aColor, g1) =>
          match b.pickRandomColor g1 with
          | none => none
          | some (bColor, g2) =>
            match NodeCount fuel h3 aColor with
            | none => none
            | some aCount =>
              match g2.Intn aCount with
              | none => none
              | some (aIndex, g3) =>
                match GetNthNode fuel h3 aColor (aIndex : Int) 0 with
                | none => none
                | some (aNode, _) =>
                  match NodeCount fuel h3 bColor with
                  | none => none
                  | some bCount =>
                    match g3.Intn bCount with
                    | none => none
                    | some (bIndex, g4) =>
                      match GetNthNode fuel h3 bColor (bIndex : Int) 0 with
                      | none => none
                      | some (bNode, _) =>
                        match GetParent h3 bNode with
                        | none => none
                        | some bParent =>
                          match CopyTree fuel h3 bNode bParent with
                          | none => none
                          | some (h4, bNodeCopy) =>
                            match ReplaceNode h4 aNode (some bNodeCopy) with
                            | none => none
                            | some h5 => some (h5, g4, aCopy)

/-- A random source whose raw draws are all 1. -/
def randOne : Rand := { ints := fun _ => 1, floats := fun _ => F32.zero, ipos := 0, fpos := 0 }

/-- The store of two pictures of leaves: the channels `X`, `X`, `X` at the
addresses 0, 1, 2 and the channels `Y`, `Y`, `Y` at the addresses 3, 4, 5. -/
def heapXXXYYY : Heap :=
  [⟨.OpX, F32.zero, none, []⟩, ⟨.OpX, F32.zero, none, []⟩, ⟨.OpX, F32.zero, none, []⟩,
    ⟨.OpY, F32.zero, none, []⟩, ⟨.OpY, F32.zero, none, []⟩, ⟨.OpY, F32.zero, none, []⟩]

/-- The three channel trees of a picture. -/
structure Trees where
  r : PTree
  g : PTree
  b : PTree

/-- The picture of three channel trees: their roots. -/
def Trees.pic (T : Trees) : picture := ⟨T.r.root, T.g.root, T.b.root⟩

/-- The addresses of the nodes of the three channels. -/
def Trees.addrs (T : Trees) : List Ptr := T.r.preorder ++ T.g.preorder ++ T.b.preorder

/-- The store holds the three channels as complete trees. -/
def Trees.Held (h : Heap) (T : Trees) : Prop :=
  (Rep h T.r = true ∧ Rep h T.g = true ∧ Rep h T.b = true) ∧
    (T.r.complete = true ∧ T.g.complete = true ∧ T.b.complete = true)

/-- The store holds the three channels as complete trees with consistent parent
references, the roots without parent, and no node is in two places. -/
def Trees.Good (h : Heap) (T : Trees) : Prop :=
  T.Held h ∧
    (ParentOK h none T.r = true ∧ ParentOK h none T.g = true ∧ ParentOK h none T.b = true) ∧
    T.addrs.Nodup

/-- The three channels have at most the height `D`. -/
def Trees.depthLe (T : Trees) (D : Nat) : Prop :=
  T.r.depth ≤ D ∧ T.g.depth ≤ D ∧ T.b.depth ≤ D

/-- The loop `for i := 0; i < r; i++ { pic.Mutate() }` of `evolve`. -/
def mutateTimes (fuel : Nat) : Nat → Heap → Rand → picture → Option (Heap × Rand × picture)
  | 0, h, g, p => some (h, g, p)
  | r + 1, h, g, p =>
    match picture.Mutate fuel h g p with
    | none => none
    | some (h1, g1, p1) => mutateTimes fuel r h1 g1 p1

/-- The variable `rows` of `main.go`. -/
def rows : Nat := 4

/-- The variable `cols` of `main.go`. -/
def cols : Nat := 4

/-- The variable `numPics` of `main.go`: `rows * cols`. -/
def numPics : Nat := rows * cols

/-- The first loop of `evolve`, with `k` rounds still to run:
`newPics[i] = cross(survivors[i], survivors[rand.Intn(len(survivors))])`. An
index out of range panics. -/
def evolveSurvivors (fuel : Nat) (survivors : List picture) :
    Nat → Nat → Heap → Rand → List (Option picture) →
      Option (Heap × Rand × List (Option picture))
  | 0, _, h, g, newPics => some (h, g, newPics)
  | k + 1, i, h, g, newPics =>
    match survivors[i]? with
    | none => none
    | some a =>
      match g.Intn survivors.length with
      | none => none
      | some (r, g1) =>
        match survivors[r]? with
        | none => none
        | some b =>
          match cross fuel h g1 a b with
          | none => none
          | some (h1, g2, p) =>
            if i < newPics.length then
              evolveSurvivors fuel survivors k (i + 1) h1 g2 (newPics.set i (some p))
            else none

/-- The second loop of `evolve`, with `k` rounds still to run: `newPics[i]` is the
cross of two survivors drawn. -/
def evolveFill (fuel : Nat) (survivors : List picture) :
    Nat → Nat → Heap → Rand → List (Option picture) →
      Option (Heap × Rand × List (Option picture))
  | 0, _, h, g, newPics => some (h, g, newPics)
  | k + 1, i, h, g, newPics =>
    match g.Intn survivors.length with
    | none => none
    | some (ra, g1) =>
      match survivors[ra]? with
      | none => none
      | some a =>
        match g1.Intn survivors.length with
        | none => none
        | some (rb, g2) =>
          match survivors[rb]? with
          | none => none
          | some b =>
            match cross fuel h g2 a b with
            | none => none
            | some (h1, g3, p) =>
              if i < newPics.length then
                evolveFill fuel survivors k (i + 1) h1 g3 (newPics.set i (some p))
              else none

/-- The third loop of `evolve`: for every picture of the list, `rand.Intn(8)`
passes of `Mutate`. A nil picture panics at the first pass. -/
def evolveMutate (fuel : Nat) :
    List (Option picture) → Heap → Rand → Option (Heap × Rand × List (Option picture))
  | [], h, g => some (h, g, [])
  | pic :: rest, h, g =>
    match g.Intn 8 with
    | none => none
    | some (r, g1) =>
      match (match pic with
             | some p =>
               match mutateTimes fuel r h g1 p with
               | none => none
               | some (h1, g2, p1) => some (h1, g2, some p1)
             | none => if r = 0 then some (h, g1, none) else none) with
      | none => none
      | some (h1, g2, pic1) =>
        match evolveMutate fuel rest h1 g2 with
        | none => none
        | some (h2, g3, rest1) => some (h2, g3, pic1 :: rest1)

/-- Function `evolve(survivors)` of `main.go`; `newPics` starts as `numPics` nil
pictures. -/
def evolve (fuel : Nat) (h : Heap) (g : Rand) (survivors : List picture) :
    Option (Heap × Rand × List (Option picture)) :=
  match evolveSurvivors fuel survivors survivors.length 0 h g (List.replicate numPics none) with
  | none => none
  | some (h1, g1, newPics1) =>
    match evolveFill fuel survivors (newPics1.length - survivors.length) survivors.length h1 g1
        newPics1 with
    | none => none
    | some (h2, g2, newPics2) => evolveMutate fuel newPics2 h2 g2

/-- A population of pictures in the store: every picture is good, and no node is
in two pictures. -/
def GoodPop (h : Heap) (ts : List Trees) : Prop :=
  (∀ T ∈ ts, T.Good h) ∧ ts.Pairwise (fun A B => ∀ x ∈ A.addrs, x ∉ B.addrs)

/-- Method `AddRandom` of `BaseNode`: a slot index is drawn with
`rand.Intn(len(node.Children))`; an empty slot gets `nodeToAdd`, whose parent
becomes `node`; on a child, `AddRandom` is called. -/
def AddRandom : Nat → Heap → Rand → Option Ptr → Option Ptr → Option (Heap × Rand)
  | 0, _, _, _, _ => none
  | _ + 1, _, _, none, _ => none
  | fuel + 1, h, g, some node, nodeToAdd =>
    match h[node]? with
    | none => none
    | some c =>
      match g.Intn c.Children.length with
      | none => none
      | some (addIndex, g1) =>
        match c.Children[addIndex]? with
        | none => none
        | some none =>
          match SetParent h nodeToAdd (some node) with
          | none => none
          | some h1 =>
            match setChild h1 (some node) addIndex nodeToAdd with
            | none => none
            | some h2 => some (h2, g1)
        | some (some child) => AddRandom fuel h g1 (some child) nodeToAdd

/-- The loop `for i := 0; i < num; i++ { root.AddRandom(GetRandomBaseNode()) }` of
`NewPicture`. -/
def addRandomTimes (fuel : Nat) : Nat → Heap → Rand → Option Ptr → Option (Heap × Rand)
  | 0, h, g, _ => some (h, g)
  | n + 1, h, g, root =>
    match GetRandomBaseNode h g with
    | none => none
    | some (h1, g1, newOp) =>
      match AddRandom fuel h1 g1 root (some newOp) with
      | none => none
      | some (h2, g2) => addRandomTimes fuel n h2 g2 root

mutual
/-- The tree with `new` in the empty slot that the draws lead to: at every node
the slot of index `draw % slots` is taken, down to the first empty one. -/
def PTree.addRandom (new : PTree) : PTree → Rand → PTree
  | .empty, _ => new
  | .node a k v cs, g =>
    .node a k v
      (PTree.addRandomList new (g.ints g.ipos % cs.length) cs { g with ipos := g.ipos + 1 })
/-- The list of child slots with `new` added below the slot of index `i`. -/
def PTree.addRandomList (new : PTree) : Nat → List PTree → Rand → List PTree
  | _, [], _ => []
  | 0, t :: ts, g => PTree.addRandom new t g :: ts
  | i + 1, t :: ts, g => t :: PTree.addRandomList new i ts g
end

/-- The store of a witness: a `Plus` node with two empty child slots at the
address 0 and a `Negate` node with one empty child slot at the address 1. -/
def heapPlusNegate : Heap :=
  [⟨.OpPlus, F32.zero, none, [none, none]⟩, ⟨.OpNegate, F32.zero, none, [none]⟩]

/-- The sign bit of a `float32` is set. -/
def F32.sign (v : F32) : Bool := decide (v.bits / 2 ^ 31 % 2 = 1)

/-- The bit pattern is an infinity: exponent all ones and a fraction that is zero. -/
def F32.isInf (v : F32) : Bool := v.bits / 2 ^ 23 % 256 = 255 && v.bits % 2 ^ 23 = 0

/-- The magnitude of a finite `float32` in units of `2^-149`, the least positive
value: a subnormal (exponent field 0) is its fraction field `f`, a normal value
with the exponent field `e` is `(f + 2^23) * 2^(e - 1)`. -/
def F32.mag (v : F32) : Nat :=
  let exp := v.bits / 2 ^ 23 % 256
  let mant := v.bits % 2 ^ 23
  if exp = 0 then mant else (mant + 2 ^ 23) * 2 ^ (exp - 1)

/-- The value of a finite `float32` in units of `2^-149`. -/
def F32.units (v : F32) : Int := if v.sign then -(v.mag : Int) else (v.mag : Int)

/-- The value of a finite `float32` as a rational number. -/
def F32.toRat (v : F32) : ℚ := (v.units : ℚ) / 2 ^ 149

/-- The NaN that stands for the result of an invalid operation; which NaN the
processor returns is not said here. -/
def F32.nan : F32 := ⟨2143289344⟩

/-- The infinity of the sign given. -/
def F32.inf (neg : Bool) : F32 := ⟨(if neg then 2 ^ 31 else 0) + 255 * 2 ^ 23⟩

/-- The rounding of every `float32` operation: the `float32` nearest to
`num / den` (ties to even) with the sign `neg`, the infinity of that sign on an
overflow, the zero of that sign for `num = 0`. -/
def F32.round (neg : Bool) (num den : Nat) : F32 := (roundToF32 neg num den).getD (F32.inf neg)

/-- The sum `a + b` of two `float32` in IEEE 754 arithmetic, rounding to nearest:
the exact sum of two finite values is rounded; an exact zero is `-0` only when
both operands are negative. -/
def F32.add (a b : F32) : F32 :=
  if a.isNaN || b.isNaN then F32.nan
  else if a.isInf then (if b.isInf && (a.sign != b.sign) then F32.nan else a)
  else if b.isInf then b
  else
    let s := a.units + b.units
    if s = 0 then (if a.sign && b.sign then ⟨2 ^ 31⟩ else ⟨0⟩)
    else F32.round (decide (s < 0)) s.natAbs (2 ^ 149)

/-- The difference `a - b` of two `float32`: the sum of `a` and `-b`. -/
def F32.sub (a b : F32) : F32 := F32.add a (F32.neg b)

/-- The product `a * b` of two `float32` in IEEE 754 arithmetic: the sign is the
exclusive or of the signs, zero times infinity is a NaN. -/
def F32.mul (a b : F32) : F32 :=
  if a.isNaN || b.isNaN then F32.nan
  else if a.isInf || b.isInf then
    (if a.mag = 0 || b.mag = 0 then F32.nan else F32.inf (a.sign != b.sign))
  else F32.round (a.sign != b.sign) (a.mag * b.mag) (2 ^ 149 * 2 ^ 149)

/-- The quotient `a / b` of two `float32` in IEEE 754 arithmetic: the sign is the
exclusive or of the signs; `0/0` and `inf/inf` are a NaN, another value over zero
is an infinity. -/
def F32.div (a b : F32) : F32 :=
  if a.isNaN || b.isNaN then F32.nan
  else if a.isInf then (if b.isInf then F32.nan else F32.inf (a.sign != b.sign))
  else if b.isInf then F32.round (a.sign != b.sign) 0 1
  else if b.mag = 0 then (if a.mag = 0 then F32.nan else F32.inf (a.sign != b.sign))
  else F32.round (a.sign != b.sign) a.mag b.mag

/-- The value `float32(math.Floor(float64(a)))`: the greatest integer that is not
above `a`, with the sign of `a`; a zero, an infinity and a NaN are returned as
they are. -/
def F32.floor (a : F32) : F32 :=
  if a.isNaN then F32.nan
  else if a.isInf || a.mag = 0 then a
  else
    let q := a.mag / 2 ^ 149
    F32.round a.sign (if a.sign && a.mag % 2 ^ 149 != 0 then q + 1 else q) 1

/-- The arithmetic of `FloatOps` is that of IEEE 754: sum, difference, product,
quotient and floor return the correctly rounded result, and a NaN where that is
a NaN. -/
def FloatOps.arith (ops : FloatOps) : Prop :=
  (∀ a b, ((F32.add a b).isNaN = true → (ops.add a b).isNaN = true) ∧
    ((F32.add a b).isNaN = false → ops.add a b = F32.add a b)) ∧
  (∀ a b, ((F32.sub a b).isNaN = true → (ops.sub a b).isNaN = true) ∧
    ((F32.sub a b).isNaN = false → ops.sub a b = F32.sub a b)) ∧
  (∀ a b, ((F32.mul a b).isNaN = true → (ops.mul a b).isNaN = true) ∧
    ((F32.mul a b).isNaN = false → ops.mul a b = F32.mul a b)) ∧
  (∀ a b, ((F32.div a b).isNaN = true → (ops.div a b).isNaN = true) ∧
    ((F32.div a b).isNaN = false → ops.div a b = F32.div a b)) ∧
  (∀ a, ((F32.floor a).isNaN = true → (ops.floor a).isNaN = true) ∧
    ((F32.floor a).isNaN = false → ops.floor a = F32.floor a))

/-- The operations of the witnesses with the arithmetic of IEEE 754 for sum,
difference, product, quotient and floor; the others are those of `opsExact`. -/
def opsArith : FloatOps :=
  { opsExact with
    add := F32.add, sub := F32.sub, mul := F32.mul, div := F32.div, floor := F32.floor }

/-- The expression of `OpWrap.Eval` on the value `f` of the child, in exact
arithmetic: `temp := (f - 1.0) / 2.0`, and the result is
`-1.0 + 2.0*(temp - floor(temp))`. -/
def wrapExact (f : ℚ) : ℚ :=
  let temp := (f - 1) / 2;
  -1 + 2 * (temp - (⌊temp⌋ : ℤ))

/-- The six operations of `OpWrap.Eval` on the value `f` of the child are exact:
each result has the value that the operation has on the values of its operands,
none is rounded. -/
def wrapExactAt (ops : FloatOps) (f : F32) : Prop :=
  let s := ops.sub f (F32.ofDecimal false 1 1)
  let temp := ops.div s (F32.ofDecimal false 2 1)
  let fl := ops.floor temp
  let d := ops.sub temp fl
  let m := ops.mul (F32.ofDecimal false 2 1) d
  let r := ops.add (F32.ofDecimal true 1 1) m
  s.toRat = f.toRat - 1 ∧ temp.toRat = s.toRat / 2 ∧ fl.toRat = (⌊temp.toRat⌋ : ℤ) ∧
    d.toRat = temp.toRat - fl.toRat ∧ m.toRat = 2 * d.toRat ∧ r.toRat = -1 + m.toRat

/-- The store that `BeginLexing` returns for `(Wrap 3.0)`. -/
def heapWrap3 : Heap :=
  [⟨.OpWrap, F32.zero, none, [some 1]⟩, ⟨.OpConstant, ⟨1077936128⟩, some 0, []⟩]

/-- The store that `BeginLexing` returns for `(Wrap 1.0)`. -/
def heapWrap1 : Heap :=
  [⟨.OpWrap, F32.zero, none, [some 1]⟩, ⟨.OpConstant, ⟨1065353216⟩, some 0, []⟩]

/-- The conversions between integers and `float32` that `ASTToPixels` makes, taken
as given like the arithmetic: `ofInt i` stands for `float32(i)` and `toByte f` for
`byte(f)`. -/
structure FloatConv where
  ofInt : Nat → F32
  toByte : F32 → Nat

/-- The conversion `float32(i)` of an integer that is not negative: the nearest
`float32`. -/
def F32.ofNat (i : Nat) : F32 := F32.round false i 1

/-- The conversion `byte(f)` where the language fixes its result: the fraction of
a finite `f` is discarded, and the result stands when it is a byte, that is for
`-1 < f < 256`. For the other values the language leaves the result to the
implementation: `none`. -/
def F32.toByte (f : F32) : Option Nat :=
  if f.isFinite &&
      (if f.sign then decide (f.mag < 2 ^ 149) else decide (f.mag / 2 ^ 149 < 256)) then
    some (if f.sign then 0 else f.mag / 2 ^ 149)
  else none

/-- The conversions are those of the language: `float32(i)` is the nearest
`float32`, and `byte(f)` is the integer part of `f` where that is a byte. -/
def FloatConv.exact (cv : FloatConv) : Prop :=
  (∀ i, cv.ofInt i = F32.ofNat i) ∧ (∀ f n, F32.toByte f = some n → cv.toByte f = n)

/-- The conversions of the witnesses: those of the language, and the byte 0 where
the language fixes none. -/
def convExact : FloatConv :=
  { ofInt := F32.ofNat, toByte := fun f => (F32.toByte f).getD 0 }

/-- The variable `scale` of `ASTToPixels`: `float32(255 / 2)`. Both operands are
integer constants, so the quotient is the integer 127. -/
def ASTToPixels.scale : F32 := F32.ofDecimal false (255 / 2) 1

/-- The variable `offset` of `ASTToPixels`: `float32(-1.0 * scale)`. -/
def ASTToPixels.offset (ops : FloatOps) : F32 :=
  ops.mul (F32.ofDecimal true 1 1) ASTToPixels.scale

/-- The byte that `ASTToPixels` writes for a channel of value `v`:
`byte(v*scale - offset)`. -/
def ASTToPixels.channel (ops : FloatOps) (cv : FloatConv) (v : F32) : Nat :=
  cv.toByte (ops.sub (ops.mul v ASTToPixels.scale) (ASTToPixels.offset ops))

/-- The coordinate `float32(i)/float32(n)*2 - 1` of the column or row `i` of `n`. -/
def ASTToPixels.coord (ops : FloatOps) (cv : FloatConv) (i n : Nat) : F32 :=
  ops.sub (ops.mul (ops.div (cv.ofInt i) (cv.ofInt n)) (F32.ofDecimal false 2 1))
    (F32.ofDecimal false 1 1)

/-- The body of the inner loop of `ASTToPixels` at the column `xi` of the row of
ordinate `y`: the three channels are evaluated in the order `r`, `g`, `b`, and
the pixel takes four bytes of the slice, one for each channel and a fourth that
the second `pixelIndex++` skips and that keeps the zero of `make`. -/
def ASTToPixels.pixel (ops : FloatOps) (cv : FloatConv) (fuel : Nat) (h : Heap) (pic : picture)
    (w xi : Nat) (y : F32) : Option (List Nat) :=
  let x := ASTToPixels.coord ops cv xi w
  match Node.Eval ops fuel h pic.r x y with
  | none => none
  | some r =>
    match Node.Eval ops fuel h pic.g x y with
    | none => none
    | some g =>
      match Node.Eval ops fuel h pic.b x y with
      | none => none
      | some b =>
        some [ASTToPixels.channel ops cv r, ASTToPixels.channel ops cv g,
          ASTToPixels.channel ops cv b, 0]

/-- The inner loop `for xi := 0; xi < w; xi++` of `ASTToPixels`, from the column
`xi` on, `k` columns to go: the bytes written, in the order of `pixelIndex`. -/
def ASTToPixels.columns (ops : FloatOps) (cv : FloatConv) (fuel : Nat) (h : Heap) (pic : picture)
    (w : Nat) (y : F32) : Nat → Nat → Option (List Nat)
  | 0, _ => some []
  | k + 1, xi =>
    match ASTToPixels.pixel ops cv fuel h pic w xi y with
    | none => none
    | some px =>
      match ASTToPixels.columns ops cv fuel h pic w y k (xi + 1) with
      | none => none
      | some rest => some (px ++ rest)

/-- The outer loop `for yi := 0; yi < h; yi++` of `ASTToPixels`, from the row `yi`
on, `k` rows to go; `ht` is the parameter `h`. -/
def ASTToPixels.lines (ops : FloatOps) (cv : FloatConv) (fuel : Nat) (h : Heap) (pic : picture)
    (w ht : Nat) : Nat → Nat → Option (List Nat)
  | 0, _ => some []
  | k + 1, yi =>
    match ASTToPixels.columns ops cv fuel h pic w (ASTToPixels.coord ops cv yi ht) w 0 with
    | none => none
    | some row =>
      match ASTToPixels.lines ops cv fuel h pic w ht k (yi + 1) with
      | none => none
      | some rest => some (row ++ rest)

/-- Function `ASTToPixels(pic, w, h)` for sizes that are not negative; `ht` is the
parameter `h`. The slice of `w*h*4` bytes is written from the index 0 on in steps
of one, so the result is the sequence of the bytes of the pixels, row by row. -/
def ASTToPixels (ops : FloatOps) (cv : FloatConv) (fuel : Nat) (h : Heap) (pic : picture)
    (w ht : Nat) : Option (List Nat) :=
  ASTToPixels.lines ops cv fuel h pic w ht ht 0

/-- Modelled from the spec: the byte of a channel of value `v` is
`round(v * 127.5 + 127.5)`, saturating at 0 and 255. -/
def specByte (v : ℚ) : ℤ := max 0 (min 255 (round (v * (255 / 2) + 255 / 2)))

/-- The store of the failing input: the constants `1`, `0.25` and `1 + 2^-7`. -/
def heapChannels : Heap :=
  [⟨.OpConstant, ⟨1065353216⟩, none, []⟩, ⟨.OpConstant, ⟨1048576000⟩, none, []⟩,
    ⟨.OpConstant, ⟨1065418752⟩, none, []⟩]

/-- The expression `byte(v*scale - offset)` of `ASTToPixels`, with
`offset = float32(-1.0 * scale)`, as a function of the value of `scale`: what the
same code writes for a channel when `scale` has another value than
`float32(255 / 2)`. -/
def ASTToPixels.channelAt (ops : FloatOps) (cv : FloatConv) (scale v : F32) : Nat :=
  cv.toByte (ops.sub (ops.mul v scale) (ops.mul (F32.ofDecimal true 1 1) scale))

/-! # Properties -/

theorem PTree.induct {P : PTree → Prop} (hE : P .empty)
    (hN : ∀ a k v cs, (∀ t ∈ cs, P t) → P (.node a k v cs)) : ∀ t, P t := by
  intro t
  refine @PTree.rec P (fun cs => ∀ t ∈ cs, P t) hE (fun a k v cs ih => hN a k v cs ih) ?_ ?_ t
  · intro t ht; cases ht
  · intro t ts iht ihts u hu
    rcases List.mem_cons.mp hu with rfl | hu
    · exact iht
    · exact ihts u hu

@[simp] theorem PTree.size_empty : PTree.empty.size = 0 := by simp [PTree.size]
@[simp] theorem PTree.size_node (a k v cs) : (PTree.node a k v cs).size = 1 + PTree.sizeList cs := by
  simp [PTree.size]
@[simp] theorem PTree.sizeList_nil : PTree.sizeList [] = 0 := by simp [PTree.sizeList]
@[simp] theorem PTree.sizeList_cons (t ts) : PTree.sizeList (t :: ts) = t.size + PTree.sizeList ts := by
  simp [PTree.sizeList]
@[simp] theorem PTree.depth_empty : PTree.empty.depth = 0 := by simp [PTree.depth]
@[simp] theorem PTree.depth_node (a k v cs) : (PTree.node a k v cs).depth = 1 + PTree.depthList cs := by
  simp [PTree.depth]
@[simp] theorem PTree.depthList_nil : PTree.depthList [] = 0 := by simp [PTree.depthList]
@[simp] theorem PTree.depthList_cons (t ts) :
    PTree.depthList (t :: ts) = max t.depth (PTree.depthList ts) := by
  simp [PTree.depthList]
@[simp] theorem PTree.complete_empty : PTree.empty.complete = false := by simp [PTree.complete]
@[simp] theorem PTree.complete_node (a k v cs) :
    (PTree.node a k v cs).complete = PTree.completeList cs := by
  simp [PTree.complete]
@[simp] theorem PTree.completeList_nil : PTree.completeList [] = true := by simp [PTree.completeList]
@[simp] theorem PTree.completeList_cons (t ts) :
    PTree.completeList (t :: ts) = (t.complete && PTree.completeList ts) := by
  simp [PTree.completeList]
@[simp] theorem PTree.preorder_empty : PTree.empty.preorder = [] := by simp [PTree.preorder]
@[simp] theorem PTree.preorder_node (a k v cs) :
    (PTree.node a k v cs).preorder = a :: PTree.preorderList cs := by
  simp [PTree.preorder]
@[simp] theorem PTree.preorderList_nil : PTree.preorderList [] = [] := by simp [PTree.preorderList]
@[simp] theorem PTree.preorderList_cons (t ts) :
    PTree.preorderList (t :: ts) = t.preorder ++ PTree.preorderList ts := by
  simp [PTree.preorderList]
@[simp] theorem Rep_empty (h : Heap) : Rep h .empty = true := by simp [Rep]
theorem Rep_node (h : Heap) (a k v cs) :
    Rep h (.node a k v cs) =
      (decide ((h[a]?).map Cell.typ = some k) && decide ((h[a]?).map Cell.value = some v) &&
        decide ((h[a]?).map Cell.Children = some (cs.map PTree.root)) && RepList h cs) := by
  simp [Rep]
@[simp] theorem RepList_nil (h : Heap) : RepList h [] = true := by simp [RepList]
@[simp] theorem RepList_cons (h : Heap) (t ts) : RepList h (t :: ts) = (Rep h t && RepList h ts) := by
  simp [RepList]

/-- What `Rep` says about the object at the root of a non-empty tree. -/
theorem Rep_node_iff (h : Heap) (a k v cs) :
    Rep h (.node a k v cs) = true ↔
      ∃ c, h[a]? = some c ∧ c.typ = k ∧ c.value = v ∧ c.Children = cs.map PTree.root ∧
        RepList h cs = true := by
  rw [Rep_node]
  cases hc : h[a]? with
  | none => simp
  | some c => simp [and_assoc]

theorem PTree.length_preorder (t : PTree) : t.preorder.length = t.size := by
  induction t using PTree.induct with
  | hE => simp
  | hN a k v cs ih =>
    simp only [preorder_node, size_node, List.length_cons]
    have : (PTree.preorderList cs).length = PTree.sizeList cs := by
      induction cs with
      | nil => simp
      | cons t ts iht =>
        simp only [preorderList_cons, sizeList_cons, List.length_append]
        rw [ih t (List.mem_cons_self _ _), iht (fun u hu => ih u (List.mem_cons_of_mem _ hu))]
    omega

theorem NodeCount_spec (h : Heap) : ∀ (t : PTree), t.complete = true → Rep h t = true →
    ∀ fuel, t.depth < fuel → NodeCount fuel h t.root = some t.size := by
  intro t
  induction t using PTree.induct with
  | hE => simp
  | hN a k v cs ih =>
    intro hc hr fuel hf
    obtain ⟨c, hca, -, -, hch, hrl⟩ := (Rep_node_iff h a k v cs).mp hr
    obtain ⟨fuel, rfl⟩ : ∃ f, fuel = f + 1 := ⟨fuel - 1, by simp at hf; omega⟩
    simp only [PTree.root, NodeCount, hca, hch]
    simp only [PTree.complete_node] at hc
    simp only [PTree.depth_node] at hf
    have hf' : PTree.depthList cs < fuel := by omega
    clear hf hca hch hr
    suffices H : ∀ count, NodeCountLoop (fun child => NodeCount fuel h (some child))
        (cs.map PTree.root) count = some (count + PTree.sizeList cs) by
      rw [H 1]; simp
    induction cs with
    | nil => intro count; simp [NodeCountLoop]
    | cons t ts iht =>
      intro count
      simp only [PTree.completeList_cons, Bool.and_eq_true] at hc
      simp only [RepList_cons, Bool.and_eq_true] at hrl
      simp only [PTree.depthList_cons] at hf'
      have h1 := ih t (List.mem_cons_self _ _) hc.1 hrl.1 fuel (by omega)
      cases t with
      | empty => simp at hc
      | node a' k' v' cs' =>
        simp only [PTree.root] at h1
        simp only [List.map_cons, PTree.root, NodeCountLoop, h1]
        rw [iht (fun u hu => ih u (List.mem_cons_of_mem _ hu)) hrl.2 hc.2 (by omega)]
        simp only [PTree.sizeList_cons]; congr 1; omega


theorem PTree.length_preorderList (cs : List PTree) :
    (PTree.preorderList cs).length = PTree.sizeList cs := by
  induction cs with
  | nil => simp
  | cons t ts iht => simp [PTree.length_preorder, iht]

theorem PTree.complete_root {t : PTree} (hc : t.complete = true) : ∃ a, t.root = some a := by
  cases t with
  | empty => simp at hc
  | node a k v cs => exact ⟨a, rfl⟩

theorem GetNthNode_spec (h : Heap) (n : Int) : ∀ (t : PTree), t.complete = true → Rep h t = true →
    ∀ fuel, t.depth < fuel → ∀ count,
      ∃ res, GetNthNode fuel h t.root n count = some res ∧ nthResult t.preorder t.size n count res := by
  intro t
  induction t using PTree.induct with
  | hE => simp
  | hN a k v cs ih =>
    intro hc hr fuel hf count
    obtain ⟨c, hca, -, -, hch, hrl⟩ := (Rep_node_iff h a k v cs).mp hr
    obtain ⟨fuel, rfl⟩ : ∃ f, fuel = f + 1 := ⟨fuel - 1, by simp at hf; omega⟩
    simp only [PTree.complete_node] at hc
    simp only [PTree.depth_node] at hf
    have hf' : PTree.depthList cs < fuel := by omega
    by_cases hn : n = count
    · refine ⟨(some a, count), by simp [GetNthNode, hn, PTree.root], ?_⟩
      subst hn
      constructor
      · intro _; simp
      · intro hx; exfalso; apply hx; simp; omega
    · simp only [GetNthNode, hn, if_false, PTree.root, GetChildren, hca, Option.map_some', hch]
      have key : ∀ (cs : List PTree), (∀ t ∈ cs, t.complete = true → Rep h t = true →
          ∀ fuel, t.depth < fuel → ∀ count, ∃ res, GetNthNode fuel h t.root n count = some res ∧
            nthResult t.preorder t.size n count res) →
          PTree.completeList cs = true → RepList h cs = true → PTree.depthList cs < fuel →
          ∀ c : Int, ∃ res, GetNthNodeLoop (fun child k => GetNthNode fuel h child n k)
            (cs.map PTree.root) c = some res ∧
            ((c < n ∧ n ≤ c + PTree.sizeList cs → res.1 = (PTree.preorderList cs)[(n - c - 1).toNat]?) ∧
             (¬ (c < n ∧ n ≤ c + PTree.sizeList cs) → res = (none, c + PTree.sizeList cs))) := by
        intro cs
        induction cs with
        | nil =>
          intro _ _ _ _ c
          refine ⟨(none, c), by simp [GetNthNodeLoop], ?_, ?_⟩
          · intro hx; simp at hx; omega
          · intro _; simp
        | cons t ts iht =>
          intro ih hc hrl hf' c
          simp only [PTree.completeList_cons, Bool.and_eq_true] at hc
          simp only [RepList_cons, Bool.and_eq_true] at hrl
          simp only [PTree.depthList_cons] at hf'
          obtain ⟨r1, hr1, hfound, hnot⟩ :=
            ih t (List.mem_cons_self _ _) hc.1 hrl.1 fuel (by omega) (c + 1)
          have hlen := PTree.length_preorder t
          by_cases hin : c + 1 ≤ n ∧ n < c + 1 + t.size
          · have h1 := hfound hin
            have hidx : (n - (c + 1)).toNat < t.preorder.length := by omega
            rw [List.getElem?_eq_getElem hidx] at h1
            obtain ⟨r, cnt⟩ := r1
            simp only at h1
            subst h1
            refine ⟨(some t.preorder[(n - (c + 1)).toNat], cnt),
              by simp only [List.map_cons, GetNthNodeLoop, hr1], ?_, ?_⟩
            · intro _
              simp only [PTree.preorderList_cons]
              have : (n - c - 1).toNat = (n - (c + 1)).toNat := by omega
              rw [this, List.getElem?_append_left hidx, List.getElem?_eq_getElem hidx]
            · intro hx; exfalso; apply hx; simp only [PTree.sizeList_cons]; push_cast; omega
          · have h1 := hnot hin
            subst h1
            obtain ⟨r2, hr2, hfound2, hnot2⟩ :=
              iht (fun u hu => ih u (List.mem_cons_of_mem _ hu)) hc.2 hrl.2 (by omega)
                (c + 1 + t.size - 1)
            refine ⟨r2, by simp only [List.map_cons, GetNthNodeLoop, hr1, hr2], ?_, ?_⟩
            · intro hx
              simp only [PTree.sizeList_cons] at hx
              push_cast at hx
              rw [hfound2 (by omega)]
              simp only [PTree.preorderList_cons]
              rw [List.getElem?_append_right (by omega)]
              congr 1; omega
            · intro hx
              simp only [PTree.sizeList_cons] at hx ⊢
              push_cast at hx ⊢
              rw [hnot2 (by omega)]
              congr 1; omega
      obtain ⟨res, hres, hfound, hnot⟩ := key cs ih hc hrl hf' count
      refine ⟨res, hres, ?_, ?_⟩
      · intro hx
        simp only [PTree.size_node] at hx
        push_cast at hx
        rw [hfound (by omega)]
        simp only [PTree.preorder_node]
        have : (n - count).toNat = (n - count - 1).toNat + 1 := by omega
        rw [this, List.getElem?_cons_succ]
      · intro hx
        simp only [PTree.size_node] at hx ⊢
        push_cast at hx ⊢
        rw [hnot (by omega)]
        congr 1; omega


theorem sameCore_fields {h h' : Heap} {a : Ptr} (hs : sameCore h h' a) :
    (h'[a]?).map Cell.typ = (h[a]?).map Cell.typ ∧ (h'[a]?).map Cell.value = (h[a]?).map Cell.value ∧
      (h'[a]?).map Cell.Children = (h[a]?).map Cell.Children := by
  unfold sameCore at hs
  cases h1 : h'[a]? <;> cases h2 : h[a]? <;> simp_all [Cell.core]

theorem sameCore_of_eq {h h' : Heap} {a : Ptr} (he : h'[a]? = h[a]?) : sameCore h h' a := by
  simp [sameCore, he]

theorem Rep_frame (h h' : Heap) : ∀ (t : PTree), (∀ a ∈ t.preorder, sameCore h h' a) →
    Rep h t = true → Rep h' t = true := by
  intro t
  induction t using PTree.induct with
  | hE => simp
  | hN a k v cs ih =>
    intro hs hr
    rw [Rep_node] at hr ⊢
    obtain ⟨h1, h2, h3⟩ := sameCore_fields (hs a (by simp))
    rw [h1, h2, h3]
    simp only [Bool.and_eq_true] at hr ⊢
    refine ⟨hr.1, ?_⟩
    have hs' : ∀ b ∈ PTree.preorderList cs, sameCore h h' b := fun b hb => hs b (by simp [hb])
    have hrl := hr.2
    clear hr hs h1 h2 h3
    induction cs with
    | nil => simp
    | cons t ts iht =>
      simp only [RepList_cons, Bool.and_eq_true] at hrl ⊢
      simp only [PTree.preorderList_cons, List.mem_append] at hs'
      exact ⟨ih t (List.mem_cons_self _ _) (fun b hb => hs' b (Or.inl hb)) hrl.1,
        iht (fun u hu => ih u (List.mem_cons_of_mem _ hu)) (fun b hb => hs' b (Or.inr hb)) hrl.2⟩

theorem RepList_iff (h : Heap) (cs : List PTree) : RepList h cs = true ↔ ∀ t ∈ cs, Rep h t = true := by
  induction cs with
  | nil => simp
  | cons t ts ih => simp [ih]

theorem PTree.mem_preorderList {cs : List PTree} {a : Ptr} :
    a ∈ PTree.preorderList cs ↔ ∃ t ∈ cs, a ∈ t.preorder := by
  induction cs with
  | nil => simp
  | cons t ts ih => simp [ih]

theorem PTree.completeList_iff (cs : List PTree) :
    PTree.completeList cs = true ↔ ∀ t ∈ cs, t.complete = true := by
  induction cs with
  | nil => simp
  | cons t ts ih => simp [ih]

theorem Rep_lt (h : Heap) : ∀ (t : PTree), Rep h t = true → ∀ a ∈ t.preorder, a < h.length := by
  intro t
  induction t using PTree.induct with
  | hE => simp
  | hN a k v cs ih =>
    intro hr b hb
    obtain ⟨c, hca, -, -, -, hrl⟩ := (Rep_node_iff h a k v cs).mp hr
    simp only [PTree.preorder_node, List.mem_cons] at hb
    rcases hb with rfl | hb
    · by_contra hlt
      rw [List.getElem?_eq_none (Nat.le_of_not_lt hlt)] at hca
      cases hca
    · obtain ⟨t, ht, hbt⟩ := PTree.mem_preorderList.mp hb
      exact ih t ht ((RepList_iff h cs).mp hrl t ht) b hbt

theorem Rep_extend (h ext : Heap) (t : PTree) (hr : Rep h t = true) : Rep (h ++ ext) t = true := by
  apply Rep_frame h _ t _ hr
  intro a ha
  apply sameCore_of_eq
  exact List.getElem?_append_left (Rep_lt h t hr a ha)

@[simp] theorem PTree.shape_empty : PTree.empty.shape = Tree.empty := by simp [PTree.shape]
@[simp] theorem PTree.shape_node (a k v cs) : (PTree.node a k v cs).shape =
    Tree.node k (if k = Kind.OpConstant then v else F32.zero) (PTree.shapeList cs) := by
  simp [PTree.shape]
@[simp] theorem PTree.shapeList_nil : PTree.shapeList [] = [] := by simp [PTree.shapeList]
@[simp] theorem PTree.shapeList_cons (t ts) :
    PTree.shapeList (t :: ts) = t.shape :: PTree.shapeList ts := by
  simp [PTree.shapeList]
@[simp] theorem PTree.arityOk_empty : PTree.empty.arityOk = true := by simp [PTree.arityOk]
@[simp] theorem PTree.arityOk_node (a k v cs) : (PTree.node a k v cs).arityOk =
    (decide (cs.length = k.arity) && PTree.arityOkList cs) := by
  simp [PTree.arityOk]
@[simp] theorem PTree.arityOkList_nil : PTree.arityOkList [] = true := by simp [PTree.arityOkList]
@[simp] theorem PTree.arityOkList_cons (t ts) :
    PTree.arityOkList (t :: ts) = (t.arityOk && PTree.arityOkList ts) := by
  simp [PTree.arityOkList]
@[simp] theorem PTree.kinds_empty : PTree.empty.kinds = [] := by simp [PTree.kinds]
@[simp] theorem PTree.kinds_node (a k v cs) :
    (PTree.node a k v cs).kinds = k :: PTree.kindsList cs := by
  simp [PTree.kinds]
@[simp] theorem PTree.kindsList_nil : PTree.kindsList [] = [] := by simp [PTree.kindsList]
@[simp] theorem PTree.kindsList_cons (t ts) :
    PTree.kindsList (t :: ts) = t.kinds ++ PTree.kindsList ts := by
  simp [PTree.kindsList]

theorem PTree.shapeList_append (xs ys : List PTree) :
    PTree.shapeList (xs ++ ys) = PTree.shapeList xs ++ PTree.shapeList ys := by
  induction xs with
  | nil => simp
  | cons t ts ih => simp [ih]

theorem PTree.completeList_append (xs ys : List PTree) :
    PTree.completeList (xs ++ ys) = (PTree.completeList xs && PTree.completeList ys) := by
  induction xs with
  | nil => simp
  | cons t ts ih => simp [ih, Bool.and_assoc]

theorem PTree.preorderList_append (xs ys : List PTree) :
    PTree.preorderList (xs ++ ys) = PTree.preorderList xs ++ PTree.preorderList ys := by
  induction xs with
  | nil => simp
  | cons t ts ih => simp [ih]

theorem RepList_append (h : Heap) (xs ys : List PTree) :
    RepList h (xs ++ ys) = (RepList h xs && RepList h ys) := by
  induction xs with
  | nil => simp
  | cons t ts ih => simp [ih, Bool.and_assoc]

theorem Extends.refl (h : Heap) : Extends h h := fun _ _ => rfl

theorem Extends.length_le {h h' : Heap} (he : Extends h h') : h.length ≤ h'.length := by
  by_contra hlt
  have hpos : h'.length < h.length := by omega
  have := he h'.length hpos
  rw [List.getElem?_eq_none (le_refl _), List.getElem?_eq_getElem hpos] at this
  cases this

theorem Extends.trans {h1 h2 h3 : Heap} (h12 : Extends h1 h2) (h23 : Extends h2 h3) :
    Extends h1 h3 := by
  intro a ha
  rw [h23 a (lt_of_lt_of_le ha h12.length_le), h12 a ha]

theorem Extends.append (h ext : Heap) : Extends h (h ++ ext) :=
  fun _ ha => List.getElem?_append_left ha

theorem Extends.set {h h' : Heap} (he : Extends h h') {p : Ptr} (hp : h.length ≤ p) (c : Cell) :
    Extends h (h'.set p c) := by
  intro a ha
  rw [List.getElem?_set_ne (by omega), he a ha]

theorem Rep_extends {h h' : Heap} (he : Extends h h') (t : PTree) (hr : Rep h t = true) :
    Rep h' t = true :=
  Rep_frame h h' t (fun a ha => sameCore_of_eq (he a (Rep_lt h t hr a ha))) hr

theorem RepList_frame (h h' : Heap) (cs : List PTree)
    (hs : ∀ a ∈ PTree.preorderList cs, sameCore h h' a) (hr : RepList h cs = true) :
    RepList h' cs = true := by
  rw [RepList_iff] at hr ⊢
  intro t ht
  exact Rep_frame h h' t (fun a ha => hs a (PTree.mem_preorderList.mpr ⟨t, ht, ha⟩)) (hr t ht)

theorem RepList_extends {h h' : Heap} (he : Extends h h') (cs : List PTree)
    (hr : RepList h cs = true) : RepList h' cs = true := by
  rw [RepList_iff] at hr ⊢
  exact fun t ht => Rep_extends he t (hr t ht)

/-- The state of the copy loop: the store, the copies made so far. -/
theorem CopyTreeLoop_spec (fuel : Nat) (h : Heap) (a : Ptr) (c : Cell) (cs : List PTree)
    (parent : Option Ptr) (k : Kind) (v : F32)
    (hca : h[a]? = some c) (hch : c.Children = cs.map PTree.root)
    (ih : ∀ t ∈ cs, ∀ (h : Heap) (parent : Option Ptr), Rep h t = true →
      ∃ h' t', CopyTree fuel h t.root parent = some (h', h.length) ∧ Extends h h' ∧
        Rep h' t' = true ∧ t'.root = some h.length ∧ t'.shape = t.shape ∧ t'.complete = true ∧
        (∀ b ∈ t'.preorder, h.length ≤ b) ∧ (h'[h.length]?).map Cell.Parent = some parent)
    (hrl : RepList h cs = true) :
    ∀ (ts pre done : List PTree) (H : Heap), cs = pre ++ ts → pre.length = done.length →
      Extends h H →
      H[h.length]? = some ⟨k, v, parent, done.map PTree.root ++ List.replicate ts.length none⟩ →
      RepList H done = true → PTree.shapeList done = PTree.shapeList pre →
      PTree.completeList done = true → (∀ b ∈ PTree.preorderList done, h.length < b) →
      ∃ H' new, CopyTreeLoop (fun hh child => CopyTree fuel hh child (some h.length)) a h.length
          ts.length pre.length H = some H' ∧ Extends h H' ∧
        H'[h.length]? = some ⟨k, v, parent, new.map PTree.root⟩ ∧
        RepList H' new = true ∧ PTree.shapeList new = PTree.shapeList cs ∧
        PTree.completeList new = true ∧ (∀ b ∈ PTree.preorderList new, h.length < b) := by
  intro ts
  induction ts with
  | nil =>
    intro pre done H hcs _ hext hcell hrd hsh hcd haddr
    refine ⟨H, done, by simp [CopyTreeLoop], hext, by simpa using hcell, hrd, ?_, hcd, haddr⟩
    rw [hsh, hcs]; simp
  | cons t ts iht =>
    intro pre done H hcs hlen hext hcell hrd hsh hcd haddr
    have halt : a < h.length := by
      by_contra hlt
      rw [List.getElem?_eq_none (Nat.le_of_not_lt hlt)] at hca
      cases hca
    have hLH : h.length < H.length := by
      by_contra hlt
      rw [List.getElem?_eq_none (Nat.le_of_not_lt hlt)] at hcell
      cases hcell
    have ht : t ∈ cs := by rw [hcs]; simp
    have hrt : Rep H t = true := Rep_extends hext t ((RepList_iff h cs).mp hrl t ht)
    obtain ⟨H1, t', hcopy, hext1, hrep1, hroot1, hshape1, hcomp1, haddr1, hpar1⟩ :=
      ih t ht H (some h.length) hrt
    have hidx : (cs.map PTree.root)[pre.length]? = some t.root := by
      rw [hcs, List.map_append, List.getElem?_append_right (by simp)]
      simp
    have hcell1 : H1[h.length]? =
        some ⟨k, v, parent, done.map PTree.root ++ List.replicate (ts.length + 1) none⟩ := by
      rw [hext1 _ hLH, hcell]; rfl
    have hlt : pre.length < (done.map PTree.root ++ List.replicate (ts.length + 1) none).length := by
      simp; omega
    simp only [List.length_cons, CopyTreeLoop, GetChildren, hext a halt, hca, Option.map_some', hch,
      hidx, hcopy, setChild, hcell1, hlt, if_true]
    have hset : (done.map PTree.root ++ List.replicate (ts.length + 1) none).set pre.length
        (some H.length) = (done ++ [t']).map PTree.root ++ List.replicate ts.length none := by
      rw [hlen, List.set_append_right _ _ (by simp)]
      simp [List.replicate_succ, hroot1]
    rw [hset]
    have hlen' : pre.length + 1 = (pre ++ [t]).length := by simp
    rw [hlen']
    have hframe : ∀ b, h.length < b → sameCore H1 (H1.set h.length
        ⟨k, v, parent, (done ++ [t']).map PTree.root ++ List.replicate ts.length none⟩) b := by
      intro b hb
      apply sameCore_of_eq
      rw [List.getElem?_set_ne (by omega)]
    apply iht (pre ++ [t]) (done ++ [t'])
    · rw [hcs]; simp
    · simp [hlen]
    · exact Extends.set (hext.trans hext1) (le_refl _) _
    · rw [List.getElem?_set_eq_of_lt _ (lt_of_lt_of_le hLH hext1.length_le)]
    · rw [RepList_append, Bool.and_eq_true]
      constructor
      · exact RepList_frame H1 _ done (fun b hb => hframe b (haddr b hb))
          (RepList_extends hext1 done hrd)
      · simp only [RepList_cons, RepList_nil, Bool.and_true]
        exact Rep_frame H1 _ t' (fun b hb => hframe b (by have := haddr1 b hb; omega)) hrep1
    · rw [PTree.shapeList_append, PTree.shapeList_append, hsh]; simp [hshape1]
    · rw [PTree.completeList_append]; simp [hcd, hcomp1]
    · intro b hb
      rw [PTree.preorderList_append, List.mem_append] at hb
      rcases hb with hb | hb
      · exact haddr b hb
      · simp only [PTree.preorderList_cons, PTree.preorderList_nil, List.append_nil] at hb
        have := haddr1 b hb; omega


theorem PTree.depth_le_depthList {t : PTree} {cs : List PTree} (ht : t ∈ cs) :
    t.depth ≤ PTree.depthList cs := by
  induction cs with
  | nil => cases ht
  | cons u us ihu =>
    simp only [PTree.depthList_cons]
    rcases List.mem_cons.mp ht with rfl | hu
    · exact le_max_left _ _
    · exact le_trans (ihu hu) (le_max_right _ _)

theorem CopyTree_spec : ∀ (t : PTree), t.complete = true → ∀ fuel, t.depth < fuel →
    ∀ (h : Heap) (parent : Option Ptr), Rep h t = true →
      ∃ h' t', CopyTree fuel h t.root parent = some (h', h.length) ∧ Extends h h' ∧
        Rep h' t' = true ∧ t'.root = some h.length ∧ t'.shape = t.shape ∧ t'.complete = true ∧
        (∀ b ∈ t'.preorder, h.length ≤ b) ∧ (h'[h.length]?).map Cell.Parent = some parent := by
  intro t
  induction t using PTree.induct with
  | hE => simp
  | hN a k v cs ih =>
    intro hc fuel hf h parent hr
    obtain ⟨c, hca, hk, hv, hch, hrl⟩ := (Rep_node_iff h a k v cs).mp hr
    obtain ⟨fuel, rfl⟩ : ∃ f, fuel = f + 1 := ⟨fuel - 1, by simp at hf; omega⟩
    simp only [PTree.complete_node] at hc
    simp only [PTree.depth_node] at hf
    have halt : a < h.length := by
      by_contra hlt
      rw [List.getElem?_eq_none (Nat.le_of_not_lt hlt)] at hca
      cases hca
    have ih' : ∀ t ∈ cs, ∀ (h : Heap) (parent : Option Ptr), Rep h t = true →
        ∃ h' t', CopyTree fuel h t.root parent = some (h', h.length) ∧ Extends h h' ∧
          Rep h' t' = true ∧ t'.root = some h.length ∧ t'.shape = t.shape ∧ t'.complete = true ∧
          (∀ b ∈ t'.preorder, h.length ≤ b) ∧ (h'[h.length]?).map Cell.Parent = some parent := by
      intro t ht h parent hrt
      have hd : t.depth ≤ PTree.depthList cs := PTree.depth_le_depthList ht
      exact ih t ht ((PTree.completeList_iff cs).mp hc t ht) fuel (by omega) h parent hrt
    set v' : F32 := if k = Kind.OpConstant then v else F32.zero with hv'
    have hloop := CopyTreeLoop_spec fuel h a c cs parent k v' hca hch ih' hrl cs [] []
      ((h ++ [(⟨k, v', none, []⟩ : Cell)]).set h.length ⟨k, v', parent, List.replicate cs.length none⟩)
      (by simp) rfl (Extends.set (Extends.append h _) (le_refl _) _)
      (by rw [List.getElem?_set_eq_of_lt _ (by simp)]; simp) (by simp) (by simp) (by simp) (by simp)
    obtain ⟨H', new, hrun, hext, hcell, hrn, hsn, hcn, han⟩ := hloop
    refine ⟨H', PTree.node h.length k v' new, ?_, hext, ?_, rfl, ?_, ?_, ?_, ?_⟩
    · simp only [PTree.root, CopyTree, hca, Heap.alloc, SetParent, hk, hv]
      rw [List.getElem?_append_right (le_refl _)]
      simp only [Nat.sub_self, List.getElem?_cons_zero, GetChildren]
      rw [List.getElem?_set_ne (Nat.ne_of_gt halt), List.getElem?_append_left halt, hca]
      simp only [Option.map_some', SetChildren]
      rw [List.getElem?_set_eq_of_lt _ (by simp)]
      simp only [List.set_set, hch, List.length_map]
      simp only [List.length_nil, List.length_map] at hrun
      rw [← hv'] 
      rw [hrun]
    · rw [Rep_node_iff]; exact ⟨_, hcell, rfl, rfl, rfl, hrn⟩
    · simp only [PTree.shape_node, hsn, hv']
      split <;> simp_all
    · simpa using hcn
    · intro b hb
      simp only [PTree.preorder_node, List.mem_cons] at hb
      rcases hb with rfl | hb
      · exact le_refl _
      · exact le_of_lt (han b hb)
    · rw [hcell]; rfl

@[simp] theorem Tree.render_node (k v cs) : (Tree.node k v cs).render =
    if k = .OpConstant then FormatFloat v
    else if k.arity = 0 then k.keyword
    else k.opening ++ k.keyword ++ Tree.renderList k.sep cs ++ k.closing := by
  simp [Tree.render]
@[simp] theorem Tree.renderList_nil (sep) : Tree.renderList sep [] = [] := by simp [Tree.renderList]
@[simp] theorem Tree.renderList_cons (sep t ts) :
    Tree.renderList sep (t :: ts) = sep ++ t.render ++ Tree.renderList sep ts := by
  simp [Tree.renderList]

theorem PTree.arityOkList_iff (cs : List PTree) :
    PTree.arityOkList cs = true ↔ ∀ t ∈ cs, t.arityOk = true := by
  induction cs with
  | nil => simp
  | cons t ts ih => simp [ih]

theorem String_spec (h : Heap) : ∀ (t : PTree), t.complete = true → t.arityOk = true →
    Rep h t = true → ∀ fuel, t.depth < fuel → Node.String fuel h t.root = some t.shape.render := by
  intro t
  induction t using PTree.induct with
  | hE => simp
  | hN a k v cs ih =>
    intro hc hao hr fuel hf
    obtain ⟨c, hca, hk, hv, hch, hrl⟩ := (Rep_node_iff h a k v cs).mp hr
    obtain ⟨fuel, rfl⟩ : ∃ f, fuel = f + 1 := ⟨fuel - 1, by simp at hf; omega⟩
    simp only [PTree.complete_node] at hc
    simp only [PTree.depth_node] at hf
    simp only [PTree.arityOk_node, Bool.and_eq_true, decide_eq_true_eq] at hao
    have ih' : ∀ t ∈ cs, Node.String fuel h t.root = some t.shape.render := by
      intro t ht
      have hd := PTree.depth_le_depthList ht
      exact ih t ht ((PTree.completeList_iff cs).mp hc t ht) ((PTree.arityOkList_iff cs).mp hao.2 t ht)
        ((RepList_iff h cs).mp hrl t ht) fuel (by omega)
    simp only [PTree.root, Node.String, hca, hch, hk]
    cases k <;> simp only [Kind.arity] at hao
    case OpX => simp [lit, Kind.arity, Kind.keyword]
    case OpY => simp [lit, Kind.arity, Kind.keyword]
    case OpConstant => simp [hv]
    case OpNegate | OpCeil | OpSin | OpCos | OpFloor | OpLog | OpWrap | OpAbs | OpAtan | OpGamma =>
      obtain ⟨c0, rfl⟩ := List.length_eq_one.mp hao.1
      have h0 := ih' c0 (by simp)
      simp only [List.map_cons, List.map_nil, List.getElem?_cons_zero, h0, concat, lit,
        PTree.shape_node, PTree.shapeList_cons, PTree.shapeList_nil, Tree.render_node,
        Tree.renderList_cons, Tree.renderList_nil, Kind.arity, Kind.opening, Kind.keyword,
        Kind.sep, Kind.closing]
      simp
    case OpPlus | OpMinus | OpMult | OpDiv | OpClip | OpSquare | OpNoise | OpHypot =>
      obtain ⟨c0, c1, rfl⟩ := List.length_eq_two.mp hao.1
      have h0 := ih' c0 (by simp)
      have h1 := ih' c1 (by simp)
      simp only [List.map_cons, List.map_nil, List.getElem?_cons_zero, List.getElem?_cons_succ,
        h0, h1, concat, lit,
        PTree.shape_node, PTree.shapeList_cons, PTree.shapeList_nil, Tree.render_node,
        Tree.renderList_cons, Tree.renderList_nil, Kind.arity, Kind.opening, Kind.keyword,
        Kind.sep, Kind.closing]
      simp
    case OpPicture | OpLerp | OpFBM | OpTurbulence =>
      obtain ⟨c0, c1, c2, rfl⟩ := List.length_eq_three.mp hao.1
      have h0 := ih' c0 (by simp)
      have h1 := ih' c1 (by simp)
      have h2 := ih' c2 (by simp)
      simp only [List.map_cons, List.map_nil, List.getElem?_cons_zero, List.getElem?_cons_succ,
        h0, h1, h2, concat, lit,
        PTree.shape_node, PTree.shapeList_cons, PTree.shapeList_nil, Tree.render_node,
        Tree.renderList_cons, Tree.renderList_nil, Kind.arity, Kind.opening, Kind.keyword,
        Kind.sep, Kind.closing]
      simp

theorem lt_of_getElem?_some {h : Heap} {a : Ptr} {c : Cell} (hc : h[a]? = some c) :
    a < h.length := by
  by_contra hlt
  rw [List.getElem?_eq_none (Nat.le_of_not_lt hlt)] at hc
  cases hc

theorem replaceIn_length (children : List (Option Ptr)) (old new : Option Ptr) :
    (replaceIn children old new).length = children.length := by
  simp [replaceIn]

theorem replaceIn_getElem? (children : List (Option Ptr)) (old new : Option Ptr) (i : Nat) :
    (children[i]? = some old → (replaceIn children old new)[i]? = some new) ∧
    (children[i]? ≠ some old → (replaceIn children old new)[i]? = children[i]?) := by
  simp only [replaceIn, List.getElem?_map]
  cases hi : children[i]? with
  | none => simp
  | some x =>
    by_cases hx : x = old
    · simp [hx]
    · simp [hx]

/-- The effect of `ReplaceNode` on a store where `old` and `new` are objects and
the parent reference of `old`, if any, points to an object. -/
theorem ReplaceNode_spec (h : Heap) (old new : Ptr) (co cn : Cell)
    (ho : h[old]? = some co) (hn : h[new]? = some cn)
    (hP : ∀ P, co.Parent = some P → P < h.length) :
    ∃ h', ReplaceNode h (some old) (some new) = some h' ∧ h'.length = h.length ∧
      (h'[new]?).map Cell.Parent = some co.Parent ∧
      (∀ P, co.Parent = some P → (h'[P]?).map Cell.Children =
        (h[P]?).map (fun c => replaceIn c.Children (some old) (some new))) ∧
      (∀ a, co.Parent ≠ some a → (h'[a]?).map Cell.Children = (h[a]?).map Cell.Children) := by
  have hnl := lt_of_getElem?_some hn
  cases hpar : co.Parent with
  | none =>
    refine ⟨h.set new { cn with Parent := none }, ?_, by simp, ?_, ?_, ?_⟩
    · simp [ReplaceNode, GetParent, ho, hpar, SetParent, hn]
    · rw [List.getElem?_set_eq_of_lt _ hnl]; rfl
    · intro P hP'; cases hP'
    · intro a _
      by_cases ha : new = a
      · subst ha; rw [List.getElem?_set_eq_of_lt _ hnl, hn]; rfl
      · rw [List.getElem?_set_ne ha]
  | some P =>
    have hPl := hP P hpar
    obtain ⟨pc, hpc⟩ : ∃ pc, h[P]? = some pc := ⟨h[P], List.getElem?_eq_getElem hPl⟩
    set h1 := h.set P { pc with Children := replaceIn pc.Children (some old) (some new) } with hh1
    have hn1l : new < h1.length := by simp [hh1, hnl]
    obtain ⟨cn1, hcn1⟩ : ∃ c, h1[new]? = some c := ⟨h1[new], List.getElem?_eq_getElem hn1l⟩
    refine ⟨h1.set new { cn1 with Parent := some P }, ?_, by simp [hh1], ?_, ?_, ?_⟩
    · simp [ReplaceNode, GetParent, ho, hpar, replaceChild, hpc, SetParent, ← hh1, hcn1]
    · rw [List.getElem?_set_eq_of_lt _ hn1l]; rfl
    · intro P' hP'
      cases hP'
      by_cases hne : new = P
      · subst hne
        rw [List.getElem?_set_eq_of_lt _ hn1l, hpc]
        rw [hh1, List.getElem?_set_eq_of_lt _ hPl] at hcn1
        cases hcn1; rfl
      · rw [List.getElem?_set_ne hne, hh1, List.getElem?_set_eq_of_lt _ hPl, hpc]; rfl
    · intro a ha
      have hPa : P ≠ a := fun e => ha (by rw [e])
      by_cases hne : new = a
      · subst hne
        rw [List.getElem?_set_eq_of_lt _ hn1l]
        rw [hh1, List.getElem?_set_ne hPa] at hcn1
        rw [hcn1]; rfl
      · rw [List.getElem?_set_ne hne, hh1, List.getElem?_set_ne hPa]

/-- Two complete trees that the store holds at the same address are the same tree. -/
theorem Rep_unique (h : Heap) : ∀ (t t' : PTree), Rep h t = true → Rep h t' = true →
    t.complete = true → t'.complete = true → t.root = t'.root → t = t' := by
  intro t
  induction t using PTree.induct with
  | hE => simp
  | hN a k v cs ih =>
    intro t' hr hr' hc hc' hroot
    cases t' with
    | empty => simp at hc'
    | node a' k' v' cs' =>
      simp only [PTree.root, Option.some.injEq] at hroot
      subst hroot
      obtain ⟨c, hca, hk, hv, hch, hrl⟩ := (Rep_node_iff h a k v cs).mp hr
      obtain ⟨c', hca', hk', hv', hch', hrl'⟩ := (Rep_node_iff h a k' v' cs').mp hr'
      rw [hca] at hca'
      cases hca'
      subst hk hv
      simp only [PTree.complete_node] at hc hc'
      rw [hch] at hch'
      have hcs : cs = cs' := by
        clear hr hr' hca hch
        induction cs generalizing cs' with
        | nil =>
          cases cs' with
          | nil => rfl
          | cons u us => simp at hch'
        | cons t ts iht =>
          cases cs' with
          | nil => simp at hch'
          | cons u us =>
            simp only [List.map_cons, List.cons.injEq] at hch'
            simp only [PTree.completeList_cons, Bool.and_eq_true] at hc hc'
            simp only [RepList_cons, Bool.and_eq_true] at hrl hrl'
            rw [ih t (List.mem_cons_self _ _) u hrl.1 hrl'.1 hc.1 hc'.1 hch'.1,
              iht (fun x hx => ih x (List.mem_cons_of_mem _ hx)) us hrl.2 hrl'.2 hch'.2 hc.2 hc'.2]
      rw [hcs, hk', hv']

theorem PTree.size_le_sizeList {t : PTree} {cs : List PTree} (ht : t ∈ cs) :
    t.size ≤ PTree.sizeList cs := by
  induction cs with
  | nil => cases ht
  | cons u us ihu =>
    simp only [PTree.sizeList_cons]
    rcases List.mem_cons.mp ht with rfl | hu
    · omega
    · have := ihu hu; omega

/-- A child pointer of any object of a complete tree is the root of a complete
tree of the store that is smaller than the whole. -/
theorem Rep_child_smaller (h : Heap) : ∀ (t : PTree), Rep h t = true → t.complete = true →
    ∀ a ∈ t.preorder, ∀ c, h[a]? = some c → ∀ x, some x ∈ c.Children →
      ∃ s, Rep h s = true ∧ s.complete = true ∧ s.root = some x ∧ s.size < t.size := by
  intro t
  induction t using PTree.induct with
  | hE => simp
  | hN r k v cs ih =>
    intro hr hc a ha c hca x hx
    obtain ⟨c0, hc0, -, -, hch, hrl⟩ := (Rep_node_iff h r k v cs).mp hr
    simp only [PTree.complete_node] at hc
    simp only [PTree.preorder_node, List.mem_cons] at ha
    rcases ha with rfl | ha
    · rw [hc0] at hca
      cases hca
      rw [hch, List.mem_map] at hx
      obtain ⟨s, hs, hsx⟩ := hx
      refine ⟨s, (RepList_iff h cs).mp hrl s hs, (PTree.completeList_iff cs).mp hc s hs, hsx, ?_⟩
      have := PTree.size_le_sizeList hs
      simp only [PTree.size_node]; omega
    · obtain ⟨t, ht, hat⟩ := PTree.mem_preorderList.mp ha
      obtain ⟨s, h1, h2, h3, h4⟩ := ih t ht ((RepList_iff h cs).mp hrl t ht)
        ((PTree.completeList_iff cs).mp hc t ht) a hat c hca x hx
      refine ⟨s, h1, h2, h3, ?_⟩
      have := PTree.size_le_sizeList ht
      simp only [PTree.size_node]; omega

/-- No object of a complete tree holds the root of the tree in a child slot. -/
theorem Rep_no_root_child (h : Heap) (t : PTree) (hr : Rep h t = true) (hc : t.complete = true)
    (n : Ptr) (hn : t.root = some n) (a : Ptr) (ha : a ∈ t.preorder) (c : Cell)
    (hca : h[a]? = some c) : some n ∉ c.Children := by
  intro hx
  obtain ⟨s, h1, h2, h3, h4⟩ := Rep_child_smaller h t hr hc a ha c hca n hx
  have := Rep_unique h s t h1 hr h2 hc (by rw [h3, hn])
  rw [this] at h4
  exact lt_irrefl _ h4

theorem replaceIn_of_not_mem (children : List (Option Ptr)) (old new : Option Ptr)
    (hn : old ∉ children) : replaceIn children old new = children := by
  induction children with
  | nil => rfl
  | cons x xs ih =>
    simp only [List.mem_cons, not_or] at hn
    simp only [replaceIn, List.map_cons] at ih ⊢
    rw [ih hn.2, if_neg (fun e => hn.1 e.symm)]

theorem sameCore_refl (h : Heap) (a : Ptr) : sameCore h h a := rfl

theorem sameCore_trans {h1 h2 h3 : Heap} {a : Ptr} (h12 : sameCore h1 h2 a)
    (h23 : sameCore h2 h3 a) : sameCore h1 h3 a := by
  unfold sameCore at *
  rw [h23, h12]

theorem reattach_spec (q : Ptr) : ∀ (rest : List Ptr) (pre : List (Option Ptr)) (r : Nat) (H : Heap)
    (qc : Cell), H[q]? = some qc → qc.Children = pre ++ List.replicate r none →
    (∀ c ∈ rest, c < H.length ∧ c ≠ q) →
    ∃ H' qc', reattach q (rest.map some) pre.length H = some H' ∧ H'.length = H.length ∧
      (∀ a, a ≠ q → sameCore H H' a) ∧ H'[q]? = some qc' ∧ qc'.typ = qc.typ ∧
      qc'.value = qc.value ∧
      qc'.Children = pre ++ (rest.take r).map some ++ List.replicate (r - rest.length) none := by
  intro rest
  induction rest with
  | nil =>
    intro pre r H qc hq hch _
    exact ⟨H, qc, by simp [reattach], rfl, fun a _ => sameCore_refl H a, hq, rfl, rfl, by simp [hch]⟩
  | cons c rest ih =>
    intro pre r H qc hq hch hrest
    have hql := lt_of_getElem?_some hq
    cases r with
    | zero =>
      refine ⟨H, qc, ?_, rfl, fun a _ => sameCore_refl H a, hq, rfl, rfl, by simp [hch]⟩
      simp [reattach, GetChildren, hq, hch]
    | succ r =>
      obtain ⟨hcl, hcq⟩ := hrest c (by simp)
      set H1 := H.set q { qc with Children := pre ++ some c :: List.replicate r none } with hH1
      obtain ⟨cc, hcc⟩ : ∃ cc, H[c]? = some cc := ⟨H[c], List.getElem?_eq_getElem hcl⟩
      have hcc1 : H1[c]? = some cc := by rw [hH1, List.getElem?_set_ne (Ne.symm hcq), hcc]
      set H2 := H1.set c { cc with Parent := some q } with hH2
      have hq2 : H2[q]? = some { qc with Children := (pre ++ [some c]) ++ List.replicate r none } := by
        rw [hH2, List.getElem?_set_ne hcq, hH1, List.getElem?_set_eq_of_lt _ hql]
        simp
      obtain ⟨H', qc', hrun, hlen, hsame, hq', hty, hval, hch'⟩ :=
        ih (pre ++ [some c]) r H2 _ hq2 rfl
          (fun x hx => by
            have := hrest x (List.mem_cons_of_mem _ hx)
            simpa [hH2, hH1] using this)
      refine ⟨H', qc', ?_, ?_, ?_, hq', hty, hval, ?_⟩
      · have hset : (pre ++ List.replicate (r + 1) none).set pre.length (some c) =
            pre ++ some c :: List.replicate r none := by
          rw [List.set_append_right _ _ (le_refl _)]
          simp [List.replicate_succ]
        have hlen1 : (pre ++ [some c]).length = pre.length + 1 := by simp
        rw [hlen1] at hrun
        simp only [List.map_cons, reattach, GetChildren, hq, Option.map_some', hch,
          List.length_append, List.length_replicate, setChild, hset, SetParent]
        rw [if_neg (by omega), if_pos (by omega)]
        simp only [← hH1, hcc1, ← hH2]
        exact hrun
      · rw [hlen]; simp [hH2, hH1]
      · intro a ha
        refine sameCore_trans ?_ (hsame a ha)
        by_cases hac : c = a
        · subst hac
          unfold sameCore
          rw [hH2, List.getElem?_set_eq_of_lt _ (by simp [hH1, hcl]), hcc]
          rfl
        · apply sameCore_of_eq
          rw [hH2, List.getElem?_set_ne hac, hH1, List.getElem?_set_ne (Ne.symm ha)]
      · rw [hch']
        simp [List.take_succ_cons]


/-- The three node types that `GetRandomLeaf` makes. -/
theorem GetRandomLeaf_spec (h : Heap) (g : Rand) :
    ∃ g' lk lv, GetRandomLeaf h g = some (h ++ [newCell lk lv], g', h.length) ∧
      (lk = .OpConstant ∨ lk = .OpX ∨ lk = .OpY) := by
  have h3 : g.ints g.ipos % 3 < 3 := Nat.mod_lt _ (by decide)
  obtain h0 | h1 | h2 : g.ints g.ipos % 3 = 0 ∨ g.ints g.ipos % 3 = 1 ∨ g.ints g.ipos % 3 = 2 := by
    omega
  · exact ⟨{ g with ipos := g.ipos + 1, fpos := g.fpos + 1 }, .OpConstant, g.floats g.fpos,
      by simp [GetRandomLeaf, Rand.Intn, h0, Rand.Float, Heap.alloc], by simp⟩
  · exact ⟨{ g with ipos := g.ipos + 1 }, .OpX, F32.zero,
      by simp [GetRandomLeaf, Rand.Intn, h1, Heap.alloc], by simp⟩
  · exact ⟨{ g with ipos := g.ipos + 1 }, .OpY, F32.zero,
      by simp [GetRandomLeaf, Rand.Intn, h2, Heap.alloc], by simp⟩

theorem fillLeaves_skip (q : Ptr) (g : Rand) (H : Heap) (qc : Cell) (hq : H[q]? = some qc) :
    ∀ (xs : List Ptr) (filled tail : List (Option Ptr)) (iter : List (Option Ptr)),
      qc.Children = filled ++ xs.map some ++ tail → iter.length = xs.length + tail.length →
      fillLeaves q iter filled.length H g =
        fillLeaves q (iter.drop xs.length) (filled.length + xs.length) H g := by
  intro xs
  induction xs with
  | nil => intro filled tail iter _ _; simp
  | cons x xs ih =>
    intro filled tail iter hch hlen
    cases iter with
    | nil => simp at hlen; omega
    | cons i iter =>
      have hidx : qc.Children[filled.length]? = some (some x) := by
        rw [hch, List.append_assoc, List.getElem?_append_right (le_refl _)]
        simp
      simp only [fillLeaves, GetChildren, hq, Option.map_some', hidx]
      have := ih (filled ++ [some x]) tail iter (by rw [hch]; simp)
        (by simp only [List.length_cons] at hlen; omega)
      simp only [List.length_append, List.length_singleton] at this
      rw [this]
      simp only [List.length_cons, List.drop_succ_cons]
      congr 1; omega

theorem fillLeaves_fill (q : Ptr) : ∀ (r : Nat) (iter : List (Option Ptr)) (filled : List (Option Ptr))
    (H : Heap) (g : Rand) (qc : Cell), H[q]? = some qc →
    qc.Children = filled ++ List.replicate r none → iter.length = r →
    ∃ H' g' leaves, fillLeaves q iter filled.length H g = some (H', g') ∧
      (∀ a, a < H.length → a ≠ q → H'[a]? = H[a]?) ∧ H.length ≤ H'.length ∧
      H'[q]? = some { qc with Children := filled ++ leaves.map PTree.root } ∧
      leaves.length = r ∧ (∀ l ∈ leaves, isFreshLeaf H.length l) ∧ RepList H' leaves = true := by
  intro r
  induction r with
  | zero =>
    intro iter filled H g qc hq hch hlen
    have : iter = [] := List.length_eq_zero.mp hlen
    subst this
    refine ⟨H, g, [], by simp [fillLeaves], fun _ _ _ => rfl, le_refl _, ?_, rfl, by simp, by simp⟩
    rw [hq]; congr 1
    cases qc; simp_all
  | succ r ih =>
    intro iter filled H g qc hq hch hlen
    have hql := lt_of_getElem?_some hq
    cases iter with
    | nil => simp at hlen
    | cons i iter =>
      obtain ⟨g1, lk, lv, hleaf, hlk⟩ := GetRandomLeaf_spec H g
      have hidx : (filled ++ List.replicate (r + 1) none)[filled.length]? =
          some (none : Option Ptr) := by
        rw [List.getElem?_append_right (le_refl _)]
        simp [List.replicate_succ]
      set H1 := H ++ [newCell lk lv] with hH1
      have hleafcell : H1[H.length]? = some (newCell lk lv) := by
        rw [hH1, List.getElem?_append_right (le_refl _)]; simp
      set H2 := H1.set H.length { newCell lk lv with Parent := some q } with hH2
      have hq2 : H2[q]? = some qc := by
        rw [hH2, List.getElem?_set_ne (Nat.ne_of_gt hql), hH1, List.getElem?_append_left hql, hq]
      set H3 := H2.set q { qc with Children := (filled ++ [some H.length]) ++ List.replicate r none }
        with hH3
      have hq3 : H3[q]? =
          some { qc with Children := (filled ++ [some H.length]) ++ List.replicate r none } := by
        have hq2l : q < H2.length := lt_of_getElem?_some hq2
        rw [hH3, List.getElem?_set_eq_of_lt _ hq2l]
      obtain ⟨H', g', leaves, hrun, hframe, hle, hq', hll, hfresh, hrep⟩ :=
        ih iter (filled ++ [some H.length]) H3 g1 _ hq3 rfl
          (by simp only [List.length_cons] at hlen; omega)
      have hlen3 : H3.length = H.length + 1 := by simp [hH3, hH2, hH1]
      have hleaf' : H'[H.length]? = some { newCell lk lv with Parent := some q } := by
        rw [hframe _ (by omega) (Nat.ne_of_gt hql), hH3, List.getElem?_set_ne (Nat.ne_of_lt hql), hH2,
          List.getElem?_set_eq_of_lt _ (by simp [hH1])]
      refine ⟨H', g', PTree.node H.length lk lv [] :: leaves, ?_, ?_, by omega, ?_, by simp [hll],
        ?_, ?_⟩
      · have hset : (filled ++ List.replicate (r + 1) none).set filled.length (some H.length) =
            filled ++ [some H.length] ++ List.replicate r none := by
          rw [List.set_append_right _ _ (le_refl _)]
          simp [List.replicate_succ]
        have hlen1 : (filled ++ [some H.length]).length = filled.length + 1 := by simp
        rw [hlen1] at hrun
        simp only [fillLeaves, GetChildren, hq, Option.map_some', hch, hidx, hleaf, SetParent,
          ← hH1, hleafcell, ← hH2, setChild, hq2, hset, List.length_append,
          List.length_replicate]
        rw [if_pos (by omega)]
        simp only [← hH3]
        exact hrun
      · intro a ha haq
        rw [hframe a (by omega) haq, hH3, List.getElem?_set_ne (Ne.symm haq), hH2,
          List.getElem?_set_ne (Nat.ne_of_gt ha), hH1, List.getElem?_append_left ha]
      · rw [hq']; simp [PTree.root]
      · intro l hl
        rcases List.mem_cons.mp hl with rfl | hl
        · exact ⟨H.length, lk, lv, rfl, hlk, le_refl _⟩
        · obtain ⟨a, k1, v1, e, hk1, ha⟩ := hfresh l hl
          exact ⟨a, k1, v1, e, hk1, by omega⟩
      · simp only [RepList_cons, Bool.and_eq_true]
        refine ⟨?_, hrep⟩
        rw [Rep_node_iff]
        refine ⟨_, hleaf', rfl, rfl, ?_, by simp⟩
        rcases hlk with rfl | rfl | rfl <;> simp [newCell, Kind.arity]

theorem baseKind_some (r : Nat) (hr : r < 21) : ∃ k, baseKind r = some k ∧ k ≠ .OpPicture := by
  interval_cases r <;> simp [baseKind]

theorem PTree.roots_of_complete : ∀ (cs : List PTree), PTree.completeList cs = true →
    ∃ ps : List Ptr, cs.map PTree.root = ps.map some ∧ ps.length = cs.length ∧
      ∀ p ∈ ps, p ∈ PTree.preorderList cs := by
  intro cs
  induction cs with
  | nil => intro _; exact ⟨[], rfl, rfl, by simp⟩
  | cons t ts ih =>
    intro hc
    simp only [PTree.completeList_cons, Bool.and_eq_true] at hc
    obtain ⟨ps, h1, h2, h3⟩ := ih hc.2
    cases t with
    | empty => simp at hc
    | node a k v cs =>
      refine ⟨a :: ps, by simp [PTree.root, h1], by simp [h2], ?_⟩
      intro p hp
      rcases List.mem_cons.mp hp with rfl | hp
      · simp
      · simp only [PTree.preorderList_cons, List.mem_append]
        exact Or.inr (h3 p hp)

theorem RepList_take (h : Heap) (cs : List PTree) (m : Nat) (hr : RepList h cs = true) :
    RepList h (cs.take m) = true := by
  rw [RepList_iff] at hr ⊢
  exact fun t ht => hr t (List.mem_of_mem_take ht)

theorem sameCore_set_parent (h : Heap) (p : Ptr) (c : Cell) (hp : h[p]? = some c)
    (par : Option Ptr) (a : Ptr) : sameCore h (h.set p { c with Parent := par }) a := by
  unfold sameCore
  by_cases hpa : p = a
  · subst hpa
    rw [List.getElem?_set_eq_of_lt _ (lt_of_getElem?_some hp), hp]; rfl
  · rw [List.getElem?_set_ne hpa]


/-- The store after `Mutate(node)` on the root of a complete tree: the new node
lies at the next free address, holds the first children of the old node and
new leaves after them, and below the old top of the store only the child slots
of the parent of `node` have changed. -/
theorem Mutate_spec (h : Heap) (g : Rand) (n : Ptr) (k : Kind) (v : F32) (cs : List PTree)
    (nc : Cell) (hr : Rep h (.node n k v cs) = true) (hc : (PTree.node n k v cs).complete = true)
    (hn : h[n]? = some nc) (hP : ∀ P, nc.Parent = some P → P < h.length) :
    ∃ h' g' k' v' leaves, Mutate h g (some n) = some (h', g', h.length) ∧ k' ≠ .OpPicture ∧
      Rep h' (.node h.length k' v' (cs.take k'.arity ++ leaves)) = true ∧
      leaves.length = k'.arity - cs.length ∧ (∀ l ∈ leaves, isFreshLeaf (h.length + 1) l) ∧
      h.length < h'.length ∧
      (∀ a, a < h.length → (h'[a]?).map Cell.core = (h[a]?).map (fun c =>
        (c.typ, c.value,
          if nc.Parent = some a then replaceIn c.Children (some n) (some h.length)
          else c.Children))) := by
  have hnl := lt_of_getElem?_some hn
  obtain ⟨c0, hc0, -, -, hch, hrl⟩ := (Rep_node_iff h n k v cs).mp hr
  rw [hn] at hc0; cases hc0
  simp only [PTree.complete_node] at hc
  -- the draws
  have e1 : g.Intn 24 = some (g.ints g.ipos % 24, { g with ipos := g.ipos + 1 }) := by
    simp [Rand.Intn]
  set g1 : Rand := { g with ipos := g.ipos + 1 } with hg1
  have e2 : ∃ g2 k' v0, (if g.ints g.ipos % 24 ≤ 21 then GetRandomBaseNode h g1
      else GetRandomLeaf h g1) = some (h ++ [newCell k' v0], g2, h.length) ∧ k' ≠ .OpPicture := by
    by_cases hr21 : g.ints g.ipos % 24 ≤ 21
    · obtain ⟨k', hk', hne⟩ := baseKind_some (g1.ints g1.ipos % 21) (Nat.mod_lt _ (by decide))
      exact ⟨{ g1 with ipos := g1.ipos + 1 }, k', F32.zero,
        by simp [hr21, GetRandomBaseNode, Rand.Intn, hk', Heap.alloc], hne⟩
    · obtain ⟨g2, lk, lv, hl, hlk⟩ := GetRandomLeaf_spec h g1
      exact ⟨g2, lk, lv, by simp [hr21, hl], by rcases hlk with rfl | rfl | rfl <;> simp⟩
  obtain ⟨g2, k', v0, e2, hk'⟩ := e2
  set h1 := h ++ [newCell k' v0] with hh1
  have hq1 : h1[h.length]? = some (newCell k' v0) := by
    rw [hh1, List.getElem?_append_right (le_refl _)]; simp
  have hold1 : ∀ a, a < h.length → h1[a]? = h[a]? := fun a ha => List.getElem?_append_left ha
  have hlen1 : h1.length = h.length + 1 := by simp [hh1]
  have e3 : GetParent h1 (some n) = some nc.Parent := by
    simp [GetParent, hold1 n hnl, hn]
  -- the slot of the parent
  obtain ⟨h2, e4, hlen2, hq2, hcore2⟩ : ∃ h2, ((nc.Parent = none ∧ h2 = h1) ∨
      (∃ pp, nc.Parent = some pp ∧ replaceChild h1 pp (some n) (some h.length) = some h2)) ∧
      h2.length = h1.length ∧
      h2[h.length]? = some (newCell k' v0) ∧
      (∀ a, a < h.length → (h2[a]?).map Cell.core = (h[a]?).map (fun c =>
        (c.typ, c.value,
          if nc.Parent = some a then replaceIn c.Children (some n) (some h.length) else c.Children))) := by
    cases hpar : nc.Parent with
    | none =>
      refine ⟨h1, Or.inl ⟨rfl, rfl⟩, rfl, hq1, ?_⟩
      intro a ha
      rw [hold1 a ha]
      cases h[a]? <;> simp [Cell.core]
    | some P =>
      have hPl := hP P hpar
      obtain ⟨pc, hpc⟩ : ∃ pc, h[P]? = some pc := ⟨h[P], List.getElem?_eq_getElem hPl⟩
      have hpc1 : h1[P]? = some pc := by rw [hold1 P hPl, hpc]
      refine ⟨h1.set P { pc with Children := replaceIn pc.Children (some n) (some h.length) },
        Or.inr ⟨P, rfl, by simp [replaceChild, hpc1]⟩, by simp, ?_, ?_⟩
      · rw [List.getElem?_set_ne (Nat.ne_of_lt hPl), hq1]
      · intro a ha
        by_cases hPa : P = a
        · subst hPa
          rw [List.getElem?_set_eq_of_lt _ (lt_of_getElem?_some hpc1), hpc]
          simp [Cell.core]
        · rw [List.getElem?_set_ne hPa, hold1 a ha]
          have : ¬ (some P = some a) := fun e => hPa (Option.some.inj e)
          cases h[a]? <;> simp [Cell.core, this]
  -- on the old tree nothing is different
  have hsame2 : ∀ a ∈ (PTree.node n k v cs).preorder, sameCore h h2 a := by
    intro a ha
    have hal := Rep_lt h _ hr a ha
    unfold sameCore
    rw [hcore2 a hal]
    obtain ⟨ca, hca⟩ : ∃ ca, h[a]? = some ca := ⟨h[a], List.getElem?_eq_getElem hal⟩
    rw [hca]
    simp only [Option.map_some', Cell.core]
    have hno := Rep_no_root_child h _ hr (by simpa using hc) n rfl a ha ca hca
    rw [replaceIn_of_not_mem _ _ _ hno]
    simp
  obtain ⟨ps, hps, hpslen, hpsmem⟩ := PTree.roots_of_complete cs hc
  have e5 : GetChildren h2 (some n) = some (ps.map some) := by
    have := (sameCore_fields (hsame2 n (by simp))).2.2
    simp only [GetChildren, this, hn, Option.map_some', hch, hps]
  -- the children move over
  have hpsl : ∀ c ∈ ps, c < h2.length ∧ c ≠ h.length := by
    intro c hc'
    have : c < h.length := Rep_lt h _ hr c (by simp [hpsmem c hc'])
    refine ⟨?_, Nat.ne_of_lt this⟩
    rw [hlen2, hlen1]
    exact Nat.lt_succ_of_lt this
  obtain ⟨h3, qc3, e6, hlen3, hsame3, hq3, hty3, hval3, hch3⟩ :=
    reattach_spec h.length ps [] k'.arity h2 (newCell k' v0) hq2 (by simp [newCell]) hpsl
  simp only [List.length_nil, List.nil_append] at e6 hch3
  have e7 : GetChildren h3 (some h.length) =
      some ((ps.take k'.arity).map some ++ List.replicate (k'.arity - ps.length) none) := by
    simp [GetChildren, hq3, hch3]
  -- the new leaves
  have hskip := fillLeaves_skip h.length g2 h3 qc3 hq3 (ps.take k'.arity) []
    (List.replicate (k'.arity - ps.length) none)
    ((ps.take k'.arity).map some ++ List.replicate (k'.arity - ps.length) none)
    (by simp [hch3]) (by simp)
  simp only [List.length_nil, Nat.zero_add, List.drop_left'
    (List.length_map (ps.take k'.arity) some)] at hskip
  obtain ⟨h4, g3, leaves, e8, hframe4, hle4, hq4, hll, hfresh, hrep4⟩ :=
    fillLeaves_fill h.length (k'.arity - ps.length) (List.replicate (k'.arity - ps.length) none)
      ((ps.take k'.arity).map some) h3 g2 qc3 hq3 hch3 (by simp)
  rw [List.length_map] at e8
  rw [← hskip] at e8
  have hlen3' : h3.length = h.length + 1 := by rw [hlen3, hlen2, hlen1]
  have hn4 : n < h4.length := by
    have h5 : n < h3.length := by rw [hlen3']; exact Nat.lt_succ_of_lt hnl
    exact lt_of_lt_of_le h5 hle4
  obtain ⟨nc4, hnc4⟩ : ∃ c, h4[n]? = some c := ⟨h4[n], List.getElem?_eq_getElem hn4⟩
  have e9 : GetParent h4 (some n) = some nc4.Parent := by simp [GetParent, hnc4]
  have e10 : SetParent h4 (some h.length) nc4.Parent = some (h4.set h.length
      { ({ qc3 with Children := (ps.take k'.arity).map some ++ leaves.map PTree.root } : Cell) with
        Parent := nc4.Parent }) := by
    simp [SetParent, hq4]
  set h5 := h4.set h.length
      { ({ qc3 with Children := (ps.take k'.arity).map some ++ leaves.map PTree.root } : Cell) with
        Parent := nc4.Parent } with hh5
  have hsame5 : ∀ a, sameCore h4 h5 a := fun a => sameCore_set_parent h4 h.length _ hq4 _ a
  have hold : ∀ a, a < h.length → sameCore h2 h5 a := by
    intro a ha
    have haq : a ≠ h.length := Nat.ne_of_lt ha
    refine sameCore_trans (hsame3 a haq) (sameCore_trans ?_ (hsame5 a))
    exact sameCore_of_eq (hframe4 a (by omega) haq)
  refine ⟨h5, g3, k', v0, leaves, ?_, hk', ?_, by rw [hll, hpslen], ?_, ?_, ?_⟩
  · rcases e4 with ⟨hpar, rfl⟩ | ⟨pp, hpar, e4⟩
    · simp only [Mutate, e1, e2, e3, hpar, e5, e6, e7, e8, e9, e10]
    · simp only [Mutate, e1, e2, e3, hpar, e4, e5, e6, e7, e8, e9, e10]
  · rw [Rep_node_iff]
    refine ⟨_, List.getElem?_set_eq_of_lt _ (lt_of_getElem?_some hq4), ?_, ?_, ?_, ?_⟩
    · simp [hty3, newCell]
    · simp [hval3, newCell]
    · have htk : List.map PTree.root (List.take k'.arity cs) =
          List.map some (List.take k'.arity ps) := by
        rw [List.map_take, List.map_take, hps]
      simp only [List.map_append, htk]
    · rw [RepList_append, Bool.and_eq_true]
      constructor
      · apply RepList_take
        apply RepList_frame h h5 cs _ hrl
        intro a ha
        have ha' : a ∈ (PTree.node n k v cs).preorder := by simp [ha]
        exact sameCore_trans (hsame2 a ha') (hold a (Rep_lt h _ hr a ha'))
      · exact RepList_frame h4 h5 leaves (fun a _ => hsame5 a) hrep4
  · intro l hl
    obtain ⟨a, lk, lv, e, hlk, ha⟩ := hfresh l hl
    exact ⟨a, lk, lv, e, hlk, by omega⟩
  · rw [hh5]; simp only [List.length_set]; omega
  · intro a ha
    have := hold a ha
    unfold sameCore at this
    rw [this, hcore2 a ha]

/-- C5. On a complete tree held by the store, with fuel above the height of the
tree, `GetNthNode(t, n, 0)` for `0 <= n < t.NodeCount()` returns the `n`-th node of
the pre-order enumeration (root first, then each child subtree from left to
right); for `n = 0` this is `t` itself. -/
theorem C5_GetNthNode_preorder (h : Heap) (t : PTree) (hc : t.complete = true)
    (hr : Rep h t = true) (fuel : Nat) (hf : t.depth < fuel) (n : Nat) (hn : n < t.size) :
    NodeCount fuel h t.root = some t.size ∧
    (∃ node count, GetNthNode fuel h t.root (n : Int) 0 = some (some node, count) ∧
      t.preorder[n]? = some node) ∧
    (∃ count, GetNthNode fuel h t.root 0 0 = some (t.root, count)) := by
  refine ⟨NodeCount_spec h t hc hr fuel hf, ?_, ?_⟩
  · obtain ⟨res, hres, hfound, -⟩ := GetNthNode_spec h (n : Int) t hc hr fuel hf 0
    have hidx : n < t.preorder.length := by rw [PTree.length_preorder]; exact hn
    have h1 := hfound ⟨by omega, by omega⟩
    simp only [sub_zero, Int.toNat_ofNat] at h1
    rw [List.getElem?_eq_getElem hidx] at h1
    refine ⟨t.preorder[n], res.2, ?_, List.getElem?_eq_getElem hidx⟩
    rw [hres, ← h1]
  · obtain ⟨fuel, rfl⟩ : ∃ f, fuel = f + 1 := ⟨fuel - 1, by omega⟩
    exact ⟨0, by simp [GetNthNode]⟩

theorem C5_GetNthNode_preorder_witness :
    NodeCount 3 heapPlusXY treePlusXY.root = some treePlusXY.size ∧
    (∃ node count, GetNthNode 3 heapPlusXY treePlusXY.root ((2 : Nat) : Int) 0 =
        some (some node, count) ∧ treePlusXY.preorder[2]? = some node) ∧
    (∃ count, GetNthNode 3 heapPlusXY treePlusXY.root 0 0 = some (treePlusXY.root, count)) :=
  C5_GetNthNode_preorder heapPlusXY treePlusXY (by decide) (by decide) 3 (by decide) 2 (by decide)


theorem shape_eq_imp : ∀ (t t' : PTree), t.shape = t'.shape →
    t.depth = t'.depth ∧ t.arityOk = t'.arityOk ∧ t.size = t'.size ∧ t.kinds = t'.kinds ∧
      t.complete = t'.complete := by
  intro t
  induction t using PTree.induct with
  | hE =>
    intro t' hs
    cases t' with
    | empty => simp
    | node a k v cs => simp at hs
  | hN a k v cs ih =>
    intro t' hs
    cases t' with
    | empty => simp at hs
    | node a' k' v' cs' =>
      simp only [PTree.shape_node, Tree.node.injEq] at hs
      obtain ⟨hk, -, hcs⟩ := hs
      subst hk
      have key : PTree.depthList cs = PTree.depthList cs' ∧
          PTree.arityOkList cs = PTree.arityOkList cs' ∧ PTree.sizeList cs = PTree.sizeList cs' ∧
          PTree.kindsList cs = PTree.kindsList cs' ∧
          PTree.completeList cs = PTree.completeList cs' ∧ cs.length = cs'.length := by
        induction cs generalizing cs' with
        | nil =>
          cases cs' with
          | nil => simp
          | cons u us => simp at hcs
        | cons t ts iht =>
          cases cs' with
          | nil => simp at hcs
          | cons u us =>
            simp only [PTree.shapeList_cons, List.cons.injEq] at hcs
            obtain ⟨h1, h2, h3, h4, h5⟩ := ih t (List.mem_cons_self _ _) u hcs.1
            obtain ⟨i1, i2, i3, i4, i5, i6⟩ :=
              iht (fun x hx => ih x (List.mem_cons_of_mem _ hx)) us hcs.2
            simp [h1, h2, h3, h4, h5, i1, i2, i3, i4, i5, i6]
      obtain ⟨i1, i2, i3, i4, i5, i6⟩ := key
      simp [i1, i2, i3, i4, i5, i6]

/-- C6. On a complete tree held by the store, with fuel above the height of the
tree, `NodeCount` of a node is 1 plus the sum of `NodeCount` over its children;
it is 1 for a leaf, and it is the length of the pre-order enumeration. -/
theorem C6_NodeCount_sum (h : Heap) (a : Ptr) (k : Kind) (v : F32) (cs : List PTree)
    (hc : (PTree.node a k v cs).complete = true) (hr : Rep h (.node a k v cs) = true)
    (fuel : Nat) (hf : (PTree.node a k v cs).depth < fuel) :
    ∃ ks : List Nat, cs.map (fun c => NodeCount fuel h c.root) = ks.map some ∧
      NodeCount fuel h (some a) = some (1 + ks.sum) ∧
      1 + ks.sum = (PTree.node a k v cs).preorder.length ∧
      (cs = [] → NodeCount fuel h (some a) = some 1) := by
  have hroot := NodeCount_spec h _ hc hr fuel hf
  simp only [PTree.root, PTree.size_node] at hroot
  obtain ⟨c, -, -, -, -, hrl⟩ := (Rep_node_iff h a k v cs).mp hr
  simp only [PTree.complete_node] at hc
  simp only [PTree.depth_node] at hf
  have hsum : PTree.sizeList cs = (cs.map PTree.size).sum := by
    clear hroot hrl hc hf hr
    induction cs with
    | nil => simp
    | cons t ts ih => simp [ih]
  refine ⟨cs.map PTree.size, ?_, by rw [hroot, hsum], ?_, ?_⟩
  · rw [List.map_map]
    apply List.map_congr_left
    intro t ht
    have hd := PTree.depth_le_depthList ht
    exact NodeCount_spec h t ((PTree.completeList_iff cs).mp hc t ht)
      ((RepList_iff h cs).mp hrl t ht) fuel (by omega)
  · rw [PTree.length_preorder, PTree.size_node, hsum]
  · intro hnil
    subst hnil
    simpa using hroot

theorem C6_NodeCount_sum_witness :
    ∃ ks : List Nat,
      [PTree.node 1 .OpX F32.zero [], PTree.node 2 .OpY F32.zero []].map
          (fun c => NodeCount 3 heapPlusXY c.root) = ks.map some ∧
      NodeCount 3 heapPlusXY (some 0) = some (1 + ks.sum) ∧
      1 + ks.sum = treePlusXY.preorder.length ∧
      (([PTree.node 1 .OpX F32.zero [], PTree.node 2 .OpY F32.zero []] : List PTree) = [] →
        NodeCount 3 heapPlusXY (some 0) = some 1) :=
  C6_NodeCount_sum heapPlusXY 0 .OpPlus F32.zero
    [.node 1 .OpX F32.zero [], .node 2 .OpY F32.zero []] (by decide) (by decide) 3 (by decide)

/-- C7. `CopyTree(t, p)` on a complete tree held by the store, with fuel above the
height of the tree, returns a new tree of the same shape, with the same node type
at every position and the same value in every constant, hence with the same
`String()` and `NodeCount()`; the parent reference of its root is `p`. -/
theorem C7_CopyTree (h : Heap) (t : PTree) (hc : t.complete = true) (hao : t.arityOk = true)
    (hr : Rep h t = true) (fuel : Nat) (hf : t.depth < fuel) (p : Option Ptr) :
    ∃ h' t', CopyTree fuel h t.root p = some (h', h.length) ∧ Rep h' t' = true ∧
      t'.root = some h.length ∧ t'.shape = t.shape ∧ t'.kinds = t.kinds ∧ t'.complete = true ∧
      (h'[h.length]?).map Cell.Parent = some p ∧
      Node.String fuel h t.root = some t.shape.render ∧
      Node.String fuel h' t'.root = some t.shape.render ∧
      NodeCount fuel h t.root = some t.size ∧ NodeCount fuel h' t'.root = some t.size := by
  obtain ⟨h', t', hcopy, -, hrep, hroot, hshape, hcomp, -, hpar⟩ :=
    CopyTree_spec t hc fuel hf h p hr
  obtain ⟨hd, ha, hs, hk, -⟩ := shape_eq_imp t' t hshape
  refine ⟨h', t', hcopy, hrep, hroot, hshape, hk, hcomp, hpar, String_spec h t hc hao hr fuel hf,
    ?_, NodeCount_spec h t hc hr fuel hf, ?_⟩
  · rw [← hshape]
    exact String_spec h' t' hcomp (by rw [ha]; exact hao) hrep fuel (by rw [hd]; exact hf)
  · rw [← hs]
    exact NodeCount_spec h' t' hcomp hrep fuel (by rw [hd]; exact hf)

theorem C7_CopyTree_witness :
    ∃ h' t', CopyTree 3 heapPlusXY treePlusXY.root (some 1) = some (h', heapPlusXY.length) ∧
      Rep h' t' = true ∧ t'.root = some heapPlusXY.length ∧ t'.shape = treePlusXY.shape ∧
      t'.kinds = treePlusXY.kinds ∧ t'.complete = true ∧
      (h'[heapPlusXY.length]?).map Cell.Parent = some (some 1) ∧
      Node.String 3 heapPlusXY treePlusXY.root = some treePlusXY.shape.render ∧
      Node.String 3 h' t'.root = some treePlusXY.shape.render ∧
      NodeCount 3 heapPlusXY treePlusXY.root = some treePlusXY.size ∧
      NodeCount 3 h' t'.root = some treePlusXY.size :=
  C7_CopyTree heapPlusXY treePlusXY (by decide) (by decide) (by decide) 3 (by decide) (some 1)


/-- C8. `ReplaceNode(old, new)` on two objects of the store. If `old` has a parent
`P`, then afterwards every child slot of `P` that held `old` holds `new`, the other
child slots of `P` and the number of its slots are unchanged, and the parent
reference of `new` is `P`. If `old` has no parent, the parent reference of `new`
is nil. In both cases no child slot of any other object changes. -/
theorem C8_ReplaceNode (h : Heap) (old new : Ptr) (co cn : Cell)
    (ho : h[old]? = some co) (hn : h[new]? = some cn)
    (hP : ∀ P, co.Parent = some P → P < h.length) :
    ∃ h', ReplaceNode h (some old) (some new) = some h' ∧
      (h'[new]?).map Cell.Parent = some co.Parent ∧
      (∀ P pc, co.Parent = some P → h[P]? = some pc →
        ∃ pc', h'[P]? = some pc' ∧ pc'.Children.length = pc.Children.length ∧
          ∀ i : Nat, (pc.Children[i]? = some (some old) → pc'.Children[i]? = some (some new)) ∧
            (pc.Children[i]? ≠ some (some old) → pc'.Children[i]? = pc.Children[i]?)) ∧
      (∀ a, co.Parent ≠ some a → (h'[a]?).map Cell.Children = (h[a]?).map Cell.Children) := by
  obtain ⟨h', hrun, hlen, hpar, hslot, hother⟩ := ReplaceNode_spec h old new co cn ho hn hP
  refine ⟨h', hrun, hpar, ?_, hother⟩
  intro P pc hPp hpc
  have hs := hslot P hPp
  rw [hpc] at hs
  have hPl : P < h'.length := by rw [hlen]; exact lt_of_getElem?_some hpc
  obtain ⟨pc', hpc'⟩ : ∃ c, h'[P]? = some c := ⟨h'[P], List.getElem?_eq_getElem hPl⟩
  rw [hpc'] at hs
  simp only [Option.map_some', Option.some.injEq] at hs
  refine ⟨pc', hpc', by rw [hs, replaceIn_length], ?_⟩
  intro i
  rw [hs]
  exact replaceIn_getElem? pc.Children (some old) (some new) i

theorem C8_ReplaceNode_witness :
    ∃ h', ReplaceNode heapPlusXY (some 1) (some 2) = some h' ∧
      (h'[2]?).map Cell.Parent = some (some 0) ∧
      (∀ P pc, (some 0 : Option Ptr) = some P → heapPlusXY[P]? = some pc →
        ∃ pc', h'[P]? = some pc' ∧ pc'.Children.length = pc.Children.length ∧
          ∀ i : Nat, (pc.Children[i]? = some (some 1) → pc'.Children[i]? = some (some 2)) ∧
            (pc.Children[i]? ≠ some (some 1) → pc'.Children[i]? = pc.Children[i]?)) ∧
      (∀ a, (some 0 : Option Ptr) ≠ some a →
        (h'[a]?).map Cell.Children = (heapPlusXY[a]?).map Cell.Children) :=
  C8_ReplaceNode heapPlusXY 1 2 ⟨.OpX, F32.zero, some 0, []⟩ ⟨.OpY, F32.zero, some 0, []⟩
    (by decide) (by decide) (by intro P hP; cases hP; decide)

theorem PTree.completeList_take (cs : List PTree) (m : Nat) (hc : PTree.completeList cs = true) :
    PTree.completeList (cs.take m) = true := by
  rw [PTree.completeList_iff] at hc ⊢
  exact fun t ht => hc t (List.mem_of_mem_take ht)

/-- C9. `Mutate(node)` on the root of a complete tree of the store with the children
`cs`. The result is a new node of the type drawn, never a `Picture`, with as many
child slots as the arity `m` of that type; it is the root of a complete tree whose
children are the first `min(len(cs), m)` children of `node`, unchanged, followed
by `m - len(cs)` new leaves (`Constant`, `X` or `Y`, without children). The
children of `node` from position `m` on are not among them. -/
theorem C9_Mutate (h : Heap) (g : Rand) (n : Ptr) (k : Kind) (v : F32) (cs : List PTree)
    (nc : Cell) (hr : Rep h (.node n k v cs) = true) (hc : (PTree.node n k v cs).complete = true)
    (hn : h[n]? = some nc) (hP : ∀ P, nc.Parent = some P → P < h.length) :
    ∃ h' g' k' v' leaves, Mutate h g (some n) = some (h', g', h.length) ∧ k' ≠ .OpPicture ∧
      Rep h' (.node h.length k' v' (cs.take k'.arity ++ leaves)) = true ∧
      (PTree.node h.length k' v' (cs.take k'.arity ++ leaves)).complete = true ∧
      (cs.take k'.arity ++ leaves).length = k'.arity ∧
      (∀ i, i < min cs.length k'.arity → (cs.take k'.arity ++ leaves)[i]? = cs[i]?) ∧
      leaves.length = k'.arity - cs.length ∧
      (∀ l ∈ leaves, ∃ a lk lv, l = .node a lk lv [] ∧
        (lk = .OpConstant ∨ lk = .OpX ∨ lk = .OpY) ∧ h.length < a) := by
  obtain ⟨h', g', k', v', leaves, hrun, hk', hrep, hll, hfresh, -, -⟩ :=
    Mutate_spec h g n k v cs nc hr hc hn hP
  refine ⟨h', g', k', v', leaves, hrun, hk', hrep, ?_, ?_, ?_, hll, ?_⟩
  · simp only [PTree.complete_node] at hc ⊢
    rw [PTree.completeList_append, Bool.and_eq_true]
    refine ⟨PTree.completeList_take cs _ hc, ?_⟩
    rw [PTree.completeList_iff]
    intro l hl
    obtain ⟨a, lk, lv, rfl, -, -⟩ := hfresh l hl
    simp
  · rw [List.length_append, List.length_take, hll]; omega
  · intro i hi
    rw [List.getElem?_append_left (by rw [List.length_take]; omega), List.getElem?_take]
    simp only [ite_eq_left_iff, not_lt]
    intro hle
    omega
  · intro l hl
    obtain ⟨a, lk, lv, e, hlk, ha⟩ := hfresh l hl
    exact ⟨a, lk, lv, e, hlk, by omega⟩

theorem C9_Mutate_witness :
    ∃ h' g' k' v' leaves, Mutate heapPlusXY randZero (some 0) = some (h', g', heapPlusXY.length) ∧
      k' ≠ .OpPicture ∧
      Rep h' (.node heapPlusXY.length k' v'
        (([PTree.node 1 .OpX F32.zero [], PTree.node 2 .OpY F32.zero []] : List PTree).take
          k'.arity ++ leaves)) = true ∧
      (PTree.node heapPlusXY.length k' v'
        (([PTree.node 1 .OpX F32.zero [], PTree.node 2 .OpY F32.zero []] : List PTree).take
          k'.arity ++ leaves)).complete = true ∧
      (([PTree.node 1 .OpX F32.zero [], PTree.node 2 .OpY F32.zero []] : List PTree).take
          k'.arity ++ leaves).length = k'.arity ∧
      (∀ i, i < min ([PTree.node 1 .OpX F32.zero [], PTree.node 2 .OpY F32.zero []] :
            List PTree).length k'.arity →
        (([PTree.node 1 .OpX F32.zero [], PTree.node 2 .OpY F32.zero []] : List PTree).take
          k'.arity ++ leaves)[i]? =
          ([PTree.node 1 .OpX F32.zero [], PTree.node 2 .OpY F32.zero []] : List PTree)[i]?) ∧
      leaves.length =
        k'.arity - ([PTree.node 1 .OpX F32.zero [], PTree.node 2 .OpY F32.zero []] :
          List PTree).length ∧
      (∀ l ∈ leaves, ∃ a lk lv, l = .node a lk lv [] ∧
        (lk = .OpConstant ∨ lk = .OpX ∨ lk = .OpY) ∧ heapPlusXY.length < a) :=
  C9_Mutate heapPlusXY randZero 0 .OpPlus F32.zero
    [.node 1 .OpX F32.zero [], .node 2 .OpY F32.zero []] ⟨.OpPlus, F32.zero, none, [some 1, some 2]⟩
    (by decide) (by decide) (by decide) (by intro P hP; cases hP)

@[simp] theorem ParentOK_empty (h : Heap) (par) : ParentOK h par .empty = true := by
  simp [ParentOK]
theorem ParentOK_node (h : Heap) (par a k v cs) : ParentOK h par (.node a k v cs) =
    (decide ((h[a]?).map Cell.Parent = some par) && ParentOKList h (some a) cs) := by
  simp [ParentOK]
@[simp] theorem ParentOKList_nil (h : Heap) (par) : ParentOKList h par [] = true := by
  simp [ParentOKList]
@[simp] theorem ParentOKList_cons (h : Heap) (par t ts) :
    ParentOKList h par (t :: ts) = (ParentOK h par t && ParentOKList h par ts) := by
  simp [ParentOKList]
@[simp] theorem PTree.find_empty (a) : PTree.find a .empty = none := by simp [PTree.find]
theorem PTree.find_node (a b k v cs) : PTree.find a (.node b k v cs) =
    if b = a then some (.node b k v cs) else PTree.findList a cs := by
  simp [PTree.find]
@[simp] theorem PTree.findList_nil (a) : PTree.findList a [] = none := by simp [PTree.findList]
theorem PTree.findList_cons (a t ts) : PTree.findList a (t :: ts) =
    match PTree.find a t with
    | some s => some s
    | none => PTree.findList a ts := by
  simp [PTree.findList]
@[simp] theorem PTree.replace_empty (a new) : PTree.replace a new .empty = .empty := by
  simp [PTree.replace]
theorem PTree.replace_node (a new b k v cs) : PTree.replace a new (.node b k v cs) =
    if b = a then new else .node b k v (PTree.replaceList a new cs) := by
  simp [PTree.replace]
@[simp] theorem PTree.replaceList_nil (a new) : PTree.replaceList a new [] = [] := by
  simp [PTree.replaceList]
@[simp] theorem PTree.replaceList_cons (a new t ts) : PTree.replaceList a new (t :: ts) =
    PTree.replace a new t :: PTree.replaceList a new ts := by
  simp [PTree.replaceList]

theorem ParentOKList_iff (h : Heap) (par : Option Ptr) (cs : List PTree) :
    ParentOKList h par cs = true ↔ ∀ t ∈ cs, ParentOK h par t = true := by
  induction cs with
  | nil => simp
  | cons t ts ih => simp [ih]

/-- The child pointers of an object of a tree are addresses of the tree. -/
theorem Rep_child_mem (h : Heap) : ∀ (t : PTree), Rep h t = true →
    ∀ x ∈ t.preorder, ∀ c, h[x]? = some c → ∀ y, some y ∈ c.Children → y ∈ t.preorder := by
  intro t
  induction t using PTree.induct with
  | hE => simp
  | hN r k v cs ih =>
    intro hr x hx c hc y hy
    obtain ⟨c0, hc0, -, -, hch, hrl⟩ := (Rep_node_iff h r k v cs).mp hr
    simp only [PTree.preorder_node, List.mem_cons] at hx ⊢
    right
    rcases hx with rfl | hx
    · rw [hc0] at hc
      cases hc
      rw [hch, List.mem_map] at hy
      obtain ⟨s, hs, hsy⟩ := hy
      cases s with
      | empty => simp [PTree.root] at hsy
      | node a k' v' cs' =>
        simp only [PTree.root, Option.some.injEq] at hsy
        subst hsy
        exact PTree.mem_preorderList.mpr ⟨_, hs, by simp⟩
    · obtain ⟨t, ht, hxt⟩ := PTree.mem_preorderList.mp hx
      exact PTree.mem_preorderList.mpr
        ⟨t, ht, ih t ht ((RepList_iff h cs).mp hrl t ht) x hxt c hc y hy⟩

/-- The holder of a node has the node's parent reference. -/
theorem ParentOK_holder (h : Heap) : ∀ (t : PTree) (par : Option Ptr), Rep h t = true →
    ParentOK h par t = true → ∀ b ∈ t.preorder, ∀ c, h[b]? = some c → ∀ y, some y ∈ c.Children →
      (h[y]?).map Cell.Parent = some (some b) := by
  intro t
  induction t using PTree.induct with
  | hE => simp
  | hN r k v cs ih =>
    intro par hr hpo b hb c hc y hy
    obtain ⟨c0, hc0, -, -, hch, hrl⟩ := (Rep_node_iff h r k v cs).mp hr
    rw [ParentOK_node, Bool.and_eq_true] at hpo
    have hpl := (ParentOKList_iff h (some r) cs).mp hpo.2
    simp only [PTree.preorder_node, List.mem_cons] at hb
    rcases hb with rfl | hb
    · rw [hc0] at hc
      cases hc
      rw [hch, List.mem_map] at hy
      obtain ⟨s, hs, hsy⟩ := hy
      cases s with
      | empty => simp [PTree.root] at hsy
      | node a k' v' cs' =>
        simp only [PTree.root, Option.some.injEq] at hsy
        subst hsy
        have := hpl _ hs
        rw [ParentOK_node, Bool.and_eq_true] at this
        simpa using this.1
    · obtain ⟨t, ht, hbt⟩ := PTree.mem_preorderList.mp hb
      exact ih t ht (some r) ((RepList_iff h cs).mp hrl t ht) (hpl t ht) b hbt c hc y hy

/-- The parent reference of a node of a tree is the one of the root, or the
address of a node of the tree. -/
theorem ParentOK_parent (h : Heap) : ∀ (t : PTree) (par : Option Ptr), Rep h t = true →
    ParentOK h par t = true → ∀ n ∈ t.preorder,
      (t.root = some n ∧ (h[n]?).map Cell.Parent = some par) ∨
        ∃ b ∈ t.preorder, (h[n]?).map Cell.Parent = some (some b) := by
  intro t
  induction t using PTree.induct with
  | hE => simp
  | hN r k v cs ih =>
    intro par hr hpo n hn
    obtain ⟨c0, hc0, -, -, hch, hrl⟩ := (Rep_node_iff h r k v cs).mp hr
    rw [ParentOK_node, Bool.and_eq_true] at hpo
    have hpl := (ParentOKList_iff h (some r) cs).mp hpo.2
    simp only [PTree.preorder_node, List.mem_cons] at hn
    rcases hn with rfl | hn
    · left; exact ⟨rfl, by simpa using hpo.1⟩
    · right
      obtain ⟨t, ht, hnt⟩ := PTree.mem_preorderList.mp hn
      rcases ih t ht (some r) ((RepList_iff h cs).mp hrl t ht) (hpl t ht) n hnt with
        ⟨-, h2⟩ | ⟨b, hb, h2⟩
      · exact ⟨r, by simp, h2⟩
      · exact ⟨b, by simp [PTree.mem_preorderList.mpr ⟨t, ht, hb⟩], h2⟩

/-- A tree of the old store without the mutated node is a tree of the new store. -/
theorem mutatedFrom_frame {h h' : Heap} {par : Option Ptr} {n q : Ptr}
    (hm : mutatedFrom h h' par n q) (s : PTree) (hr : Rep h s = true) (hn : n ∉ s.preorder) :
    Rep h' s = true := by
  apply Rep_frame h h' s _ hr
  intro x hx
  have hxl := Rep_lt h s hr x hx
  unfold sameCore
  rw [hm x hxl]
  obtain ⟨c, hc⟩ : ∃ c, h[x]? = some c := ⟨h[x], List.getElem?_eq_getElem hxl⟩
  rw [hc]
  simp only [Option.map_some', Cell.core, Option.some.injEq, Prod.mk.injEq, true_and]
  split
  · apply replaceIn_of_not_mem
    intro hmem
    exact hn (Rep_child_mem h s hr x hx c hc n hmem)
  · rfl

theorem PTree.root_replace (a : Ptr) (new t : PTree) :
    (PTree.replace a new t).root = if t.root = some a then new.root else t.root := by
  cases t with
  | empty => simp [PTree.root]
  | node b k v cs =>
    rw [PTree.replace_node]
    by_cases hb : b = a
    · simp [hb, PTree.root]
    · simp [hb, PTree.root]

theorem PTree.roots_replaceList (a : Ptr) (new : PTree) (cs : List PTree) :
    (PTree.replaceList a new cs).map PTree.root = replaceIn (cs.map PTree.root) (some a) new.root := by
  induction cs with
  | nil => simp [replaceIn]
  | cons t ts ih =>
    simp only [PTree.replaceList_cons, List.map_cons, ih, PTree.root_replace]
    simp [replaceIn]

/-- The new store holds the tree with the mutated node replaced by the new one. -/
theorem Rep_replace {h h' : Heap} {par : Option Ptr} {n q : Ptr}
    (hm : mutatedFrom h h' par n q) (new : PTree) (hnew : Rep h' new = true)
    (hroot : new.root = some q) : ∀ (t : PTree), Rep h t = true →
    (∀ b ∈ t.preorder, ∀ c, h[b]? = some c → some n ∈ c.Children → par = some b) →
    Rep h' (PTree.replace n new t) = true := by
  intro t
  induction t using PTree.induct with
  | hE => simp
  | hN b k v cs ih =>
    intro hr hhold
    rw [PTree.replace_node]
    by_cases hb : b = n
    · simp [hb, hnew]
    · simp only [hb, if_false]
      obtain ⟨c, hcb, hk, hv, hch, hrl⟩ := (Rep_node_iff h b k v cs).mp hr
      have hbl := lt_of_getElem?_some hcb
      have hcore := hm b hbl
      rw [hcb] at hcore
      simp only [Option.map_some'] at hcore
      obtain ⟨c', hc'⟩ : ∃ c', h'[b]? = some c' := by
        cases hx : h'[b]? with
        | none => rw [hx] at hcore; simp at hcore
        | some c' => exact ⟨c', rfl⟩
      rw [hc'] at hcore
      simp only [Option.map_some', Cell.core, Option.some.injEq, Prod.mk.injEq] at hcore
      rw [Rep_node_iff]
      refine ⟨c', hc', by rw [hcore.1, hk], by rw [hcore.2.1, hv], ?_, ?_⟩
      · rw [hcore.2.2, PTree.roots_replaceList, hroot, hch]
        split
        · rfl
        · rename_i hpar
          apply (replaceIn_of_not_mem _ _ _ _).symm
          intro hmem
          rw [← hch] at hmem
          exact hpar (hhold b (by simp) c hcb hmem)
      · rw [RepList_iff] at hrl ⊢
        intro t ht
        have hmem : ∀ (l : List PTree), t ∈ PTree.replaceList n new l →
            ∃ u ∈ l, t = PTree.replace n new u := by
          intro l
          induction l with
          | nil => simp
          | cons u us ihu =>
            intro hx
            simp only [PTree.replaceList_cons, List.mem_cons] at hx
            rcases hx with rfl | hx
            · exact ⟨u, by simp, rfl⟩
            · obtain ⟨w, hw, e⟩ := ihu hx
              exact ⟨w, by simp [hw], e⟩
        obtain ⟨u, hu, rfl⟩ := hmem cs ht
        apply ih u hu (hrl u hu)
        intro x hx cx hcx hmem'
        exact hhold x (by simp [PTree.mem_preorderList.mpr ⟨u, hu, hx⟩]) cx hcx hmem'

theorem PTree.replace_of_not_mem (a : Ptr) (new : PTree) : ∀ (t : PTree), a ∉ t.preorder →
    PTree.replace a new t = t := by
  intro t
  induction t using PTree.induct with
  | hE => simp
  | hN b k v cs ih =>
    intro ha
    simp only [PTree.preorder_node, List.mem_cons, not_or] at ha
    rw [PTree.replace_node, if_neg (fun e => ha.1 e.symm)]
    congr 1
    have hcs := ha.2
    clear ha
    induction cs with
    | nil => simp
    | cons t ts iht =>
      simp only [PTree.preorderList_cons, List.mem_append, not_or] at hcs
      simp only [PTree.replaceList_cons]
      rw [ih t (List.mem_cons_self _ _) hcs.1,
        iht (fun u hu => ih u (List.mem_cons_of_mem _ hu)) hcs.2]

theorem PTree.find_none_iff (a : Ptr) : ∀ (t : PTree), PTree.find a t = none ↔ a ∉ t.preorder := by
  intro t
  induction t using PTree.induct with
  | hE => simp
  | hN b k v cs ih =>
    rw [PTree.find_node]
    by_cases hb : b = a
    · simp [hb]
    · simp only [hb, if_false, PTree.preorder_node, List.mem_cons, not_or]
      have : PTree.findList a cs = none ↔ a ∉ PTree.preorderList cs := by
        induction cs with
        | nil => simp
        | cons t ts iht =>
          rw [PTree.findList_cons]
          simp only [PTree.preorderList_cons, List.mem_append, not_or]
          rw [← ih t (List.mem_cons_self _ _), ← iht (fun u hu => ih u (List.mem_cons_of_mem _ hu))]
          cases PTree.find a t <;> simp
      rw [this]
      constructor
      · exact fun hx => ⟨fun e => hb e.symm, hx⟩
      · exact fun hx => hx.2

/-- What the subtree found at an address inherits from the tree. -/
theorem PTree.find_some (h : Heap) (a : Ptr) : ∀ (t s : PTree), PTree.find a t = some s →
    s.root = some a ∧ (Rep h t = true → Rep h s = true) ∧ (t.complete = true → s.complete = true) ∧
      (∀ x ∈ s.preorder, x ∈ t.preorder) := by
  intro t
  induction t using PTree.induct with
  | hE => simp
  | hN b k v cs ih =>
    intro s hs
    rw [PTree.find_node] at hs
    by_cases hb : b = a
    · simp only [hb, if_true, Option.some.injEq] at hs
      subst hs
      exact ⟨by simp [PTree.root], by simp [hb], by simp, by simp [hb]⟩
    · simp only [hb, if_false] at hs
      have key : ∀ (l : List PTree), (∀ t ∈ l, t ∈ cs) → PTree.findList a l = some s →
          ∃ t ∈ l, PTree.find a t = some s := by
        intro l
        induction l with
        | nil => simp
        | cons t ts iht =>
          intro hsub hx
          rw [PTree.findList_cons] at hx
          cases hft : PTree.find a t with
          | some s' =>
            rw [hft] at hx
            simp only [Option.some.injEq] at hx
            subst hx
            exact ⟨t, by simp, hft⟩
          | none =>
            rw [hft] at hx
            obtain ⟨u, hu, e⟩ := iht (fun x hx' => hsub x (List.mem_cons_of_mem _ hx')) hx
            exact ⟨u, by simp [hu], e⟩
      obtain ⟨t, ht, hft⟩ := key cs (fun _ hx => hx) hs
      obtain ⟨h1, h2, h3, h4⟩ := ih t ht s hft
      refine ⟨h1, ?_, ?_, ?_⟩
      · intro hr
        obtain ⟨c, -, -, -, -, hrl⟩ := (Rep_node_iff h b k v cs).mp hr
        exact h2 ((RepList_iff h cs).mp hrl t ht)
      · intro hc
        simp only [PTree.complete_node] at hc
        exact h3 ((PTree.completeList_iff cs).mp hc t ht)
      · intro x hx
        simp [PTree.mem_preorderList.mpr ⟨t, ht, h4 x hx⟩]

/-- The size of a tree after the one subtree at an address is replaced. -/
theorem PTree.size_replace (a : Ptr) (new : PTree) : ∀ (t s : PTree), t.preorder.Nodup →
    PTree.find a t = some s → (PTree.replace a new t).size + s.size = t.size + new.size := by
  intro t
  induction t using PTree.induct with
  | hE => simp
  | hN b k v cs ih =>
    intro s hnd hs
    rw [PTree.find_node] at hs
    rw [PTree.replace_node]
    by_cases hb : b = a
    · simp only [hb, if_true, Option.some.injEq] at hs ⊢
      subst hs
      omega
    · simp only [hb, if_false] at hs ⊢
      simp only [PTree.preorder_node, List.nodup_cons] at hnd
      have hnd' := hnd.2
      have key : PTree.sizeList (PTree.replaceList a new cs) + s.size =
          PTree.sizeList cs + new.size := by
        clear hnd
        induction cs with
        | nil => simp at hs
        | cons t ts iht =>
          rw [PTree.findList_cons] at hs
          simp only [PTree.preorderList_cons] at hnd'
          rw [List.nodup_append] at hnd'
          obtain ⟨hnt, hnts, hdisj⟩ := hnd'
          simp only [PTree.replaceList_cons, PTree.sizeList_cons]
          cases hft : PTree.find a t with
          | some s' =>
            rw [hft] at hs
            simp only [Option.some.injEq] at hs
            subst hs
            have h1 := ih t (List.mem_cons_self _ _) s' hnt hft
            have hat : a ∈ t.preorder := by
              by_contra hna
              rw [(PTree.find_none_iff a t).mpr hna] at hft
              cases hft
            have hnots : a ∉ PTree.preorderList ts := fun hx => hdisj hat hx
            have h2 : PTree.replaceList a new ts = ts := by
              clear iht hnts hdisj
              induction ts with
              | nil => simp
              | cons u us ihu =>
                simp only [PTree.preorderList_cons, List.mem_append, not_or] at hnots
                simp only [PTree.replaceList_cons]
                rw [PTree.replace_of_not_mem a new u hnots.1,
                  ihu (fun x hx => ih x (by
                    rcases List.mem_cons.mp hx with rfl | hx
                    · exact List.mem_cons_self _ _
                    · exact List.mem_cons_of_mem _ (List.mem_cons_of_mem _ hx))) hnots.2]
            rw [h2]; omega
          | none =>
            rw [hft] at hs
            have hna := (PTree.find_none_iff a t).mp hft
            rw [PTree.replace_of_not_mem a new t hna]
            have := iht (fun u hu => ih u (List.mem_cons_of_mem _ hu)) hs hnts
            omega
      simp only [PTree.size_node]
      omega

theorem PTree.complete_replace (a : Ptr) (new : PTree) (hnew : new.complete = true) :
    ∀ (t : PTree), t.complete = true → (PTree.replace a new t).complete = true := by
  intro t
  induction t using PTree.induct with
  | hE => simp
  | hN b k v cs ih =>
    intro hc
    rw [PTree.replace_node]
    by_cases hb : b = a
    · simp [hb, hnew]
    · simp only [hb, if_false, PTree.complete_node] at hc ⊢
      induction cs with
      | nil => simp
      | cons t ts iht =>
        simp only [PTree.completeList_cons, Bool.and_eq_true] at hc
        simp only [PTree.replaceList_cons, PTree.completeList_cons, Bool.and_eq_true]
        exact ⟨ih t (List.mem_cons_self _ _) hc.1,
          iht (fun u hu => ih u (List.mem_cons_of_mem _ hu)) hc.2⟩

theorem PTree.sizeList_take_le (cs : List PTree) (m : Nat) :
    PTree.sizeList (cs.take m) ≤ PTree.sizeList cs := by
  induction cs generalizing m with
  | nil => simp
  | cons t ts ih =>
    cases m with
    | zero => simp
    | succ m => simp only [List.take_succ_cons, PTree.sizeList_cons]; have := ih m; omega

theorem PTree.sizeList_append (xs ys : List PTree) :
    PTree.sizeList (xs ++ ys) = PTree.sizeList xs + PTree.sizeList ys := by
  induction xs with
  | nil => simp
  | cons t ts ih => simp [ih]; omega

theorem PTree.length_le_sizeList (cs : List PTree) (hc : PTree.completeList cs = true) :
    cs.length ≤ PTree.sizeList cs := by
  induction cs with
  | nil => simp
  | cons t ts ih =>
    simp only [PTree.completeList_cons, Bool.and_eq_true] at hc
    have := ih hc.2
    cases t with
    | empty => simp at hc
    | node a k v cs' => simp only [List.length_cons, PTree.sizeList_cons, PTree.size_node]; omega

theorem PTree.sizeList_leaves (lo : Nat) (ls : List PTree) (hl : ∀ l ∈ ls, isFreshLeaf lo l) :
    PTree.sizeList ls = ls.length := by
  induction ls with
  | nil => simp
  | cons l ls ih =>
    obtain ⟨a, lk, lv, rfl, -, -⟩ := hl l (List.mem_cons_self _ _)
    simp only [PTree.sizeList_cons, PTree.size_node, PTree.sizeList_nil, List.length_cons]
    rw [ih (fun x hx => hl x (List.mem_cons_of_mem _ hx))]
    omega

/-- Dropping children from position `m` on takes away at least one node for each. -/
theorem PTree.sizeList_drop_ge (cs : List PTree) (hc : PTree.completeList cs = true) (m : Nat) :
    PTree.sizeList (cs.take m) + (cs.length - m) ≤ PTree.sizeList cs := by
  induction cs generalizing m with
  | nil => simp
  | cons t ts ih =>
    simp only [PTree.completeList_cons, Bool.and_eq_true] at hc
    cases m with
    | zero =>
      have := PTree.length_le_sizeList (t :: ts) (by simp [hc.1, hc.2])
      simpa using this
    | succ m =>
      simp only [List.take_succ_cons, PTree.sizeList_cons, List.length_cons]
      have := ih hc.2 m
      omega

theorem PTree.size_pos_of_complete {t : PTree} (hc : t.complete = true) : 0 < t.size := by
  cases t with
  | empty => simp at hc
  | node a k v cs => simp only [PTree.size_node]; omega

/-- `Mutate` on a node of a tree with consistent parent references and without
sharing: the store then holds the tree with the node replaced by the new one. -/
theorem Mutate_in_tree (h : Heap) (g : Rand) (t : PTree) (par0 : Option Ptr)
    (hc : t.complete = true) (hr : Rep h t = true) (hpo : ParentOK h par0 t = true)
    (hpar0 : ∀ P, par0 = some P → P < h.length) (hnd : t.preorder.Nodup)
    (n : Ptr) (hn : n ∈ t.preorder) :
    ∃ h' g' k v cs k' v' leaves, PTree.find n t = some (.node n k v cs) ∧
      Mutate h g (some n) = some (h', g', h.length) ∧ k' ≠ .OpPicture ∧
      Rep h' (PTree.replace n (.node h.length k' v' (cs.take k'.arity ++ leaves)) t) = true ∧
      (PTree.replace n (.node h.length k' v' (cs.take k'.arity ++ leaves)) t).complete = true ∧
      leaves.length = k'.arity - cs.length ∧
      (((PTree.replace n (.node h.length k' v' (cs.take k'.arity ++ leaves)) t).size : Int) -
          t.size ≤ (k'.arity : Int) - cs.length) ∧
      (cs.length ≤ k'.arity →
        ((PTree.replace n (.node h.length k' v' (cs.take k'.arity ++ leaves)) t).size : Int) -
          t.size = (k'.arity : Int) - cs.length) ∧
      (∀ s, Rep h s = true → n ∉ s.preorder → Rep h' s = true) := by
  obtain ⟨s, hfind⟩ : ∃ s, PTree.find n t = some s := by
    cases hx : PTree.find n t with
    | none => exact absurd hn ((PTree.find_none_iff n t).mp hx)
    | some s => exact ⟨s, rfl⟩
  obtain ⟨hsroot, hsrep, hscomp, hssub⟩ := PTree.find_some h n t s hfind
  cases s with
  | empty => simp [PTree.root] at hsroot
  | node n' k v cs =>
    simp only [PTree.root, Option.some.injEq] at hsroot
    subst hsroot
    have hrs := hsrep hr
    have hcs := hscomp hc
    obtain ⟨nc, hnc, -, -, -, -⟩ := (Rep_node_iff h n' k v cs).mp hrs
    have hP : ∀ P, nc.Parent = some P → P < h.length := by
      intro P hPp
      rcases ParentOK_parent h t par0 hr hpo n' hn with ⟨-, h2⟩ | ⟨b, hb, h2⟩
      · rw [hnc] at h2
        simp only [Option.map_some', Option.some.injEq] at h2
        exact hpar0 P (by rw [← h2, hPp])
      · rw [hnc] at h2
        simp only [Option.map_some', Option.some.injEq] at h2
        rw [h2] at hPp
        have hbP : b = P := Option.some.inj hPp
        rw [← hbP]
        exact Rep_lt h t hr b hb
    obtain ⟨h', g', k', v', leaves, hrun, hk', hrepN, hll, hfresh, -, hframe⟩ :=
      Mutate_spec h g n' k v cs nc hrs hcs hnc hP
    have hm : mutatedFrom h h' nc.Parent n' h.length := hframe
    have hcompN : (PTree.node h.length k' v' (cs.take k'.arity ++ leaves)).complete = true := by
      simp only [PTree.complete_node] at hcs ⊢
      rw [PTree.completeList_append, Bool.and_eq_true]
      refine ⟨PTree.completeList_take cs _ hcs, ?_⟩
      rw [PTree.completeList_iff]
      intro l hl
      obtain ⟨a, lk, lv, rfl, -, -⟩ := hfresh l hl
      simp
    have hsize := PTree.size_replace n' (.node h.length k' v' (cs.take k'.arity ++ leaves)) t _
      hnd hfind
    simp only [PTree.size_node, PTree.sizeList_append,
      PTree.sizeList_leaves _ leaves hfresh, hll] at hsize
    simp only [PTree.complete_node] at hcs
    have hdrop := PTree.sizeList_drop_ge cs hcs k'.arity
    refine ⟨h', g', k, v, cs, k', v', leaves, hfind, hrun, hk', ?_, ?_, hll, ?_, ?_, ?_⟩
    · apply Rep_replace hm _ hrepN rfl t hr
      intro b hb c hcb hmem
      have := ParentOK_holder h t par0 hr hpo b hb c hcb n' hmem
      rw [hnc] at this
      simpa using this
    · exact PTree.complete_replace n' _ hcompN t hc
    · omega
    · intro hle
      have htake : PTree.sizeList (cs.take k'.arity) = PTree.sizeList cs := by
        rw [List.take_of_length_le hle]
      omega
    · exact fun s hs hns => mutatedFrom_frame hm s hs hns

/-- The mutation pass on the channel tree `t`, up to the update of the root
references of the picture. -/
theorem picture_mutateNode_spec (fuel : Nat) (h : Heap) (g : Rand) (p : picture) (t : PTree)
    (hc : t.complete = true) (hr : Rep h t = true) (hf : t.depth < fuel)
    (hpo : ParentOK h none t = true) (hnd : t.preorder.Nodup) :
    ∃ h' g' n k v cs k' v' leaves,
      t.preorder[g.ints g.ipos % t.size]? = some n ∧
      picture.mutateNode fuel h g p t.root = some (h', g',
        if some n = p.r then { p with r := some h.length }
        else if some n = p.g then { p with g := some h.length }
        else if some n = p.b then { p with b := some h.length }
        else p) ∧
      PTree.find n t = some (.node n k v cs) ∧ k' ≠ .OpPicture ∧
      Rep h' (PTree.replace n (.node h.length k' v' (cs.take k'.arity ++ leaves)) t) = true ∧
      (PTree.replace n (.node h.length k' v' (cs.take k'.arity ++ leaves)) t).complete = true ∧
      (((PTree.replace n (.node h.length k' v' (cs.take k'.arity ++ leaves)) t).size : Int) -
          t.size ≤ (k'.arity : Int) - cs.length) ∧
      (cs.length ≤ k'.arity →
        ((PTree.replace n (.node h.length k' v' (cs.take k'.arity ++ leaves)) t).size : Int) -
          t.size = (k'.arity : Int) - cs.length) ∧
      (∀ s, Rep h s = true → n ∉ s.preorder → Rep h' s = true) := by
  have hpos := PTree.size_pos_of_complete hc
  have e1 := NodeCount_spec h t hc hr fuel hf
  have hlt : g.ints g.ipos % t.size < t.size := Nat.mod_lt _ hpos
  have e2 : g.Intn t.size = some (g.ints g.ipos % t.size, { g with ipos := g.ipos + 1 }) := by
    simp [Rand.Intn, Nat.ne_of_gt hpos]
  obtain ⟨res, e3, hfound, -⟩ :=
    GetNthNode_spec h ((g.ints g.ipos % t.size : Nat) : Int) t hc hr fuel hf 0
  have hidx : g.ints g.ipos % t.size < t.preorder.length := by
    rw [PTree.length_preorder]; exact hlt
  have h1 := hfound ⟨by omega, by omega⟩
  simp only [sub_zero, Int.toNat_ofNat] at h1
  rw [List.getElem?_eq_getElem hidx] at h1
  obtain ⟨r1, cnt⟩ := res
  simp only at h1
  subst h1
  have hn : t.preorder[g.ints g.ipos % t.size] ∈ t.preorder := List.getElem_mem _
  obtain ⟨h', g', k, v, cs, k', v', leaves, hfind, hrun, hk', hrep, hcomp, -, hle, heq, hframe⟩ :=
    Mutate_in_tree h { g with ipos := g.ipos + 1 } t none hc hr hpo (by intro P hP; cases hP) hnd
      _ hn
  refine ⟨h', g', _, k, v, cs, k', v', leaves, List.getElem?_eq_getElem hidx, ?_, hfind, hk', hrep,
    hcomp, hle, heq, hframe⟩
  simp only [picture.mutateNode, e1, e2, e3, hrun]
  split_ifs <;> rfl

theorem PTree.root_node (a k v cs) : (PTree.node a k v cs).root = some a := rfl

theorem pick3_lt {α : Type} (P : α → Prop) (x y z : α) (hx : P x) (hy : P y) (hz : P z)
    (c : Nat) : P (pick3 c x y z) := by
  unfold pick3
  split <;> assumption

/-- C10. One mutation pass `picture.Mutate` on a picture whose three channels are
complete trees of the store, with consistent parent references and no node in
two places, with fuel above the heights. The pass draws the channel `T` and the
pre-order index of a node `n` in it, and the store then holds, at the root
reference of that channel, the tree `T'` that is `T` with the subtree at `n`
replaced by the new node over the kept children and the new leaves. `NodeCount`
of the channel changes by at most `new arity - old child count` (a signed
bound), with equality when the new arity is not smaller. The two other channels
keep their root references and their trees, and every tree of the old store that
does not contain `n` is still held, unchanged, by the new store. -/
theorem C10_picture_Mutate (fuel : Nat) (h : Heap) (g : Rand) (Tr Tg Tb : PTree)
    (hc : Tr.complete = true ∧ Tg.complete = true ∧ Tb.complete = true)
    (hr : Rep h Tr = true ∧ Rep h Tg = true ∧ Rep h Tb = true)
    (hf : Tr.depth < fuel ∧ Tg.depth < fuel ∧ Tb.depth < fuel)
    (hpo : ParentOK h none Tr = true ∧ ParentOK h none Tg = true ∧ ParentOK h none Tb = true)
    (hnd : (Tr.preorder ++ Tg.preorder ++ Tb.preorder).Nodup) :
    ∃ h' g' p' n k v cs k' v' leaves T T',
      T = pick3 (g.ints g.ipos % 3) Tr Tg Tb ∧
      T' = PTree.replace n (.node h.length k' v' (cs.take k'.arity ++ leaves)) T ∧
      picture.Mutate fuel h g ⟨Tr.root, Tg.root, Tb.root⟩ = some (h', g', p') ∧
      T.preorder[g.ints (g.ipos + 1) % T.size]? = some n ∧
      PTree.find n T = some (.node n k v cs) ∧ k' ≠ .OpPicture ∧
      pick3 (g.ints g.ipos % 3) p'.r p'.g p'.b = T'.root ∧
      Rep h' T' = true ∧ T'.complete = true ∧
      NodeCount fuel h T.root = some T.size ∧
      (∀ fuel', T'.depth < fuel' → NodeCount fuel' h' T'.root = some T'.size) ∧
      ((T'.size : Int) - T.size ≤ (k'.arity : Int) - cs.length) ∧
      (cs.length ≤ k'.arity → (T'.size : Int) - T.size = (k'.arity : Int) - cs.length) ∧
      (∀ j, j < 3 → j ≠ g.ints g.ipos % 3 →
        pick3 j p'.r p'.g p'.b = (pick3 j Tr Tg Tb).root ∧ Rep h' (pick3 j Tr Tg Tb) = true) ∧
      (∀ s, Rep h s = true → n ∉ s.preorder → Rep h' s = true) := by
  have hc3 : g.ints g.ipos % 3 < 3 := Nat.mod_lt _ (by decide)
  generalize hcdef : g.ints g.ipos % 3 = c at hc3
  have e0 : g.Intn 3 = some (c, { g with ipos := g.ipos + 1 }) := by
    simp [Rand.Intn, hcdef]
  rw [List.append_assoc, List.nodup_append] at hnd
  obtain ⟨hndr, hndgb, hdr⟩ := hnd
  rw [List.nodup_append] at hndgb
  obtain ⟨hndg, hndb, hdg⟩ := hndgb
  obtain ⟨ar, har⟩ := PTree.complete_root hc.1
  obtain ⟨ag, hag⟩ := PTree.complete_root hc.2.1
  obtain ⟨ab, hab⟩ := PTree.complete_root hc.2.2
  have hrin : ∀ {t : PTree} {a : Ptr}, t.root = some a → a ∈ t.preorder := by
    intro t a ht
    cases t with
    | empty => simp [PTree.root] at ht
    | node b k v cs =>
      simp only [PTree.root, Option.some.injEq] at ht
      simp [ht]
  have hrg : ∀ x ∈ Tr.preorder, x ∉ Tg.preorder := fun x hx hx' => hdr hx (by simp [hx'])
  have hrb : ∀ x ∈ Tr.preorder, x ∉ Tb.preorder := fun x hx hx' => hdr hx (by simp [hx'])
  have hgb : ∀ x ∈ Tg.preorder, x ∉ Tb.preorder := fun x hx hx' => hdg hx hx'
  obtain ⟨h', g', n, k, v, cs, k', v', leaves, hidx, hrun, hfind, hk', hrep, hcomp, hle, heq,
      hframe⟩ :=
    picture_mutateNode_spec fuel h { g with ipos := g.ipos + 1 } ⟨Tr.root, Tg.root, Tb.root⟩
      (pick3 c Tr Tg Tb)
      (pick3_lt (fun t => t.complete = true) Tr Tg Tb hc.1 hc.2.1 hc.2.2 c)
      (pick3_lt (fun t => Rep h t = true) Tr Tg Tb hr.1 hr.2.1 hr.2.2 c)
      (pick3_lt (fun t => t.depth < fuel) Tr Tg Tb hf.1 hf.2.1 hf.2.2 c)
      (pick3_lt (fun t => ParentOK h none t = true) Tr Tg Tb hpo.1 hpo.2.1 hpo.2.2 c)
      (pick3_lt (fun t => t.preorder.Nodup) Tr Tg Tb hndr hndg hndb c)
  have hn : n ∈ (pick3 c Tr Tg Tb).preorder := List.getElem?_mem hidx
  simp only at hrun hidx
  refine ⟨h', g',
    (if some n = Tr.root then ⟨some h.length, Tg.root, Tb.root⟩
     else if some n = Tg.root then ⟨Tr.root, some h.length, Tb.root⟩
     else if some n = Tb.root then ⟨Tr.root, Tg.root, some h.length⟩
     else ⟨Tr.root, Tg.root, Tb.root⟩ : picture),
    n, k, v, cs, k', v', leaves, pick3 c Tr Tg Tb, _, rfl, rfl, ?_, ?_, hfind,
    hk', ?_, hrep, hcomp, ?_, ?_, hle, heq, ?_, hframe⟩
  · obtain rfl | rfl | rfl : c = 0 ∨ c = 1 ∨ c = 2 := by omega
    all_goals
      simp only [picture.Mutate, e0]
      exact hrun
  · rw [← hcdef] at hidx ⊢
    exact hidx
  · obtain rfl | rfl | rfl : c = 0 ∨ c = 1 ∨ c = 2 := by omega
    · have h1 : ¬ (some n = Tg.root) := fun e => hrg n hn (hrin e.symm)
      have h2 : ¬ (some n = Tb.root) := fun e => hrb n hn (hrin e.symm)
      simp only [pick3, PTree.root_replace, PTree.root_node, h1, h2, if_false]
      by_cases e : some n = Tr.root
      · rw [if_pos e, if_pos e.symm]
      · rw [if_neg e, if_neg (fun x => e x.symm)]
    · have h1 : ¬ (some n = Tr.root) := fun e => hrg n (hrin e.symm) hn
      have h2 : ¬ (some n = Tb.root) := fun e => hgb n hn (hrin e.symm)
      simp only [pick3, PTree.root_replace, PTree.root_node, h1, h2, if_false]
      by_cases e : some n = Tg.root
      · rw [if_pos e, if_pos e.symm]
      · rw [if_neg e, if_neg (fun x => e x.symm)]
    · have h1 : ¬ (some n = Tr.root) := fun e => hrb n (hrin e.symm) hn
      have h2 : ¬ (some n = Tg.root) := fun e => hgb n (hrin e.symm) hn
      simp only [pick3, PTree.root_replace, PTree.root_node, h1, h2, if_false]
      by_cases e : some n = Tb.root
      · rw [if_pos e, if_pos e.symm]
      · rw [if_neg e, if_neg (fun x => e x.symm)]
  · exact NodeCount_spec h _ (pick3_lt (fun t => t.complete = true) Tr Tg Tb hc.1 hc.2.1 hc.2.2 c)
      (pick3_lt (fun t => Rep h t = true) Tr Tg Tb hr.1 hr.2.1 hr.2.2 c) fuel
      (pick3_lt (fun t => t.depth < fuel) Tr Tg Tb hf.1 hf.2.1 hf.2.2 c)
  · intro fuel' hf'
    exact NodeCount_spec h' _ hcomp hrep fuel' hf'
  · intro j hj hjc
    obtain rfl | rfl | rfl : c = 0 ∨ c = 1 ∨ c = 2 := by omega
    · have h1 : ¬ (some n = Tg.root) := fun e => hrg n hn (hrin e.symm)
      have h2 : ¬ (some n = Tb.root) := fun e => hrb n hn (hrin e.symm)
      obtain rfl | rfl : j = 1 ∨ j = 2 := by omega
      · refine ⟨?_, hframe Tg hr.2.1 (hrg n hn)⟩
        simp only [pick3, h1, h2, if_false]
        split_ifs <;> rfl
      · refine ⟨?_, hframe Tb hr.2.2 (hrb n hn)⟩
        simp only [pick3, h1, h2, if_false]
        split_ifs <;> rfl
    · have h1 : ¬ (some n = Tr.root) := fun e => hrg n (hrin e.symm) hn
      have h2 : ¬ (some n = Tb.root) := fun e => hgb n hn (hrin e.symm)
      obtain rfl | rfl : j = 0 ∨ j = 2 := by omega
      · refine ⟨?_, hframe Tr hr.1 (fun hx => hrg n hx hn)⟩
        simp only [pick3, h1, h2, if_false]
        split_ifs <;> rfl
      · refine ⟨?_, hframe Tb hr.2.2 (hgb n hn)⟩
        simp only [pick3, h1, h2, if_false]
        split_ifs <;> rfl
    · have h1 : ¬ (some n = Tr.root) := fun e => hrb n (hrin e.symm) hn
      have h2 : ¬ (some n = Tg.root) := fun e => hgb n (hrin e.symm) hn
      obtain rfl | rfl : j = 0 ∨ j = 1 := by omega
      · refine ⟨?_, hframe Tr hr.1 (fun hx => hrb n hx hn)⟩
        simp only [pick3, h1, h2, if_false]
        split_ifs <;> rfl
      · refine ⟨?_, hframe Tg hr.2.1 (fun hx => hgb n hx hn)⟩
        simp only [pick3, h1, h2, if_false]
        split_ifs <;> rfl

theorem C10_picture_Mutate_witness :
    ∃ h' g' p' n k v cs k' v' leaves T T',
      T = pick3 (randZero.ints randZero.ipos % 3) (PTree.node 0 .OpX F32.zero []) (PTree.node 1 .OpY F32.zero []) (PTree.node 2 .OpX F32.zero []) ∧
      T' = PTree.replace n (.node heapXYX.length k' v' (cs.take k'.arity ++ leaves)) T ∧
      picture.Mutate 2 heapXYX randZero ⟨(PTree.node 0 .OpX F32.zero []).root, (PTree.node 1 .OpY F32.zero []).root, (PTree.node 2 .OpX F32.zero []).root⟩ = some (h', g', p') ∧
      T.preorder[randZero.ints (randZero.ipos + 1) % T.size]? = some n ∧
      PTree.find n T = some (.node n k v cs) ∧ k' ≠ .OpPicture ∧
      pick3 (randZero.ints randZero.ipos % 3) p'.r p'.g p'.b = T'.root ∧
      Rep h' T' = true ∧ T'.complete = true ∧
      NodeCount 2 heapXYX T.root = some T.size ∧
      (∀ fuel', T'.depth < fuel' → NodeCount fuel' h' T'.root = some T'.size) ∧
      ((T'.size : Int) - T.size ≤ (k'.arity : Int) - cs.length) ∧
      (cs.length ≤ k'.arity → (T'.size : Int) - T.size = (k'.arity : Int) - cs.length) ∧
      (∀ j, j < 3 → j ≠ randZero.ints randZero.ipos % 3 →
        pick3 j p'.r p'.g p'.b = (pick3 j (PTree.node 0 .OpX F32.zero []) (PTree.node 1 .OpY F32.zero []) (PTree.node 2 .OpX F32.zero [])).root ∧ Rep h' (pick3 j (PTree.node 0 .OpX F32.zero []) (PTree.node 1 .OpY F32.zero []) (PTree.node 2 .OpX F32.zero [])) = true) ∧
      (∀ s, Rep heapXYX s = true → n ∉ s.preorder → Rep h' s = true) :=
  C10_picture_Mutate 2 heapXYX randZero (PTree.node 0 .OpX F32.zero []) (PTree.node 1 .OpY F32.zero []) (PTree.node 2 .OpX F32.zero [])
    (by decide) (by decide) (by decide) (by decide) (by decide)

theorem lexer.mid_next_cons {l : lexer} {pre tok suf : List Char} {c : Char}
    (hm : l.mid pre tok (c :: suf)) :
    l.next = (some c, { l with width := 1, pos := l.pos + 1 }) ∧
      ({ l with width := 1, pos := l.pos + 1 } : lexer).mid pre (tok ++ [c]) suf := by
  obtain ⟨hi, hs, hp⟩ := hm
  have hget : l.input[l.pos]? = some c := by
    rw [hi, hp, List.getElem?_append_right (by simp)]
    simp
  refine ⟨by simp [lexer.next, hget], ?_, hs, ?_⟩
  · simp [hi]
  · simp [hp]; omega

theorem lexer.mid_next_nil {l : lexer} {pre tok : List Char} (hm : l.mid pre tok []) :
    l.next = (none, { l with width := 0 }) := by
  obtain ⟨hi, hs, hp⟩ := hm
  have hget : l.input[l.pos]? = none := by
    rw [hi, hp, List.getElem?_eq_none (by simp)]
  simp [lexer.next, hget]

theorem lexer.mid_emit {l : lexer} {pre tok suf : List Char} (hm : l.mid pre tok suf)
    (t : tokenType) :
    l.emit t = { l with tokens := l.tokens ++ [⟨t, tok⟩], start := l.pos } ∧
      (l.emit t).mid (pre ++ tok) [] suf := by
  obtain ⟨hi, hs, hp⟩ := hm
  have htext : l.text = tok := by
    unfold lexer.text
    rw [hi, hp, hs, ← List.length_append, List.take_left' rfl, List.drop_left' rfl]
  refine ⟨by simp [lexer.emit, htext], ?_, ?_, ?_⟩
  · simp [lexer.emit, hi]
  · simp [lexer.emit, hp]
  · simp [lexer.emit, hp]

theorem lexer.mid_ignore {l : lexer} {pre tok suf : List Char} (hm : l.mid pre tok suf) :
    l.ignore.mid (pre ++ tok) [] suf := by
  obtain ⟨hi, hs, hp⟩ := hm
  exact ⟨by simp [lexer.ignore, hi], by simp [lexer.ignore, hp], by simp [lexer.ignore, hp]⟩

/-- The loop of `acceptRun` takes the longest run of valid runes. -/
theorem lexer.acceptRunLoop_spec (valid : List Char) : ∀ (run : List Char) (fuel : Nat) (l : lexer)
    (pre tok suf : List Char), l.mid pre tok (run ++ suf) → (∀ c ∈ run, valid.contains c = true) →
    (∀ c, suf.head? = some c → valid.contains c = false) → run.length < fuel →
    ∃ l', lexer.acceptRunLoop valid fuel l = l' ∧ l'.mid pre (tok ++ run) suf ∧
      l'.tokens = l.tokens ∧ l'.input = l.input := by
  intro run
  induction run with
  | nil =>
    intro fuel l pre tok suf hm _ hsuf hf
    obtain ⟨fuel, rfl⟩ : ∃ f, fuel = f + 1 := ⟨fuel - 1, by simp at hf; omega⟩
    simp only [List.nil_append] at hm
    cases suf with
    | nil =>
      rw [lexer.acceptRunLoop, lexer.mid_next_nil hm]
      simp only [inValid, Bool.false_eq_true, if_false]
      refine ⟨_, rfl, ?_, rfl, rfl⟩
      obtain ⟨hi, hs, hp⟩ := hm
      exact ⟨by simpa using hi, hs, by simp [lexer.backup, hp]⟩
    | cons c suf =>
      obtain ⟨hn, hm'⟩ := lexer.mid_next_cons hm
      have hc := hsuf c rfl
      rw [lexer.acceptRunLoop, hn]
      simp only [inValid, hc, Bool.false_eq_true, if_false]
      refine ⟨_, rfl, ?_, rfl, rfl⟩
      obtain ⟨hi, hs, hp⟩ := hm
      exact ⟨by simpa using hi, hs, by simp [lexer.backup, hp]⟩
  | cons c run ih =>
    intro fuel l pre tok suf hm hrun hsuf hf
    obtain ⟨fuel, rfl⟩ : ∃ f, fuel = f + 1 := ⟨fuel - 1, by simp at hf; omega⟩
    obtain ⟨hn, hm'⟩ := lexer.mid_next_cons (by simpa using hm)
    have hc := hrun c (by simp)
    rw [lexer.acceptRunLoop, hn]
    simp only [inValid, hc, if_true]
    obtain ⟨l', h1, h2, h3, h4⟩ := ih fuel _ pre (tok ++ [c]) suf hm'
      (fun x hx => hrun x (by simp [hx])) hsuf (by simp at hf; omega)
    exact ⟨l', h1, by simpa using h2, h3, h4⟩

theorem lexer.acceptRun_spec (valid run : List Char) (l : lexer) (pre tok suf : List Char)
    (hm : l.mid pre tok (run ++ suf)) (hrun : ∀ c ∈ run, valid.contains c = true)
    (hsuf : ∀ c, suf.head? = some c → valid.contains c = false) :
    (l.acceptRun valid).mid pre (tok ++ run) suf ∧ (l.acceptRun valid).tokens = l.tokens ∧
      (l.acceptRun valid).input = l.input := by
  have hlen : run.length < l.input.length + 1 := by
    rw [hm.1]; simp; omega
  obtain ⟨l', h1, h2, h3, h4⟩ := lexer.acceptRunLoop_spec valid run _ l pre tok suf hm hrun hsuf hlen
  unfold lexer.acceptRun
  rw [h1]
  exact ⟨h2, h3, h4⟩

theorem lexer.accept_no {l : lexer} {pre tok suf : List Char} (valid : List Char)
    (hm : l.mid pre tok suf) (hsuf : ∀ c, suf.head? = some c → valid.contains c = false) :
    (l.accept valid).1 = false ∧ (l.accept valid).2.mid pre tok suf ∧
      (l.accept valid).2.tokens = l.tokens ∧ (l.accept valid).2.input = l.input := by
  cases suf with
  | nil =>
    simp only [lexer.accept, lexer.mid_next_nil hm, inValid, Bool.false_eq_true, if_false]
    obtain ⟨hi, hs, hp⟩ := hm
    exact ⟨by trivial, ⟨hi, hs, by simp [lexer.backup, hp]⟩, by trivial, by trivial⟩
  | cons c suf =>
    obtain ⟨hn, hm'⟩ := lexer.mid_next_cons hm
    have hc := hsuf c rfl
    simp only [lexer.accept, hn, inValid, hc, Bool.false_eq_true, if_false]
    obtain ⟨hi, hs, hp⟩ := hm
    exact ⟨by trivial, ⟨hi, hs, by simp [lexer.backup, hp]⟩, by trivial, by trivial⟩

theorem lexer.accept_yes {l : lexer} {pre tok suf : List Char} {c : Char} (valid : List Char)
    (hm : l.mid pre tok (c :: suf)) (hc : valid.contains c = true) :
    (l.accept valid).1 = true ∧ (l.accept valid).2.mid pre (tok ++ [c]) suf ∧
      (l.accept valid).2.tokens = l.tokens ∧ (l.accept valid).2.input = l.input := by
  obtain ⟨hn, hm'⟩ := lexer.mid_next_cons hm
  simp only [lexer.accept, hn, inValid, hc, if_true]
  exact ⟨by trivial, hm', by trivial, by trivial⟩

theorem determineTokenLoop_spec : ∀ (skip : List Char) (fuel : Nat) (l : lexer) (pre suf : List Char),
    l.mid pre [] (skip ++ suf) → (∀ c ∈ skip, isSkip c = true) →
    (∀ c, suf.head? = some c → isSkip c = false) → skip.length < fuel →
    ∃ l', determineTokenLoop fuel l =
        ((match suf.head? with
          | none => none
          | some c => if isStartNumber (some c) then some stateFunc.lexNumber
                      else some stateFunc.lexOp), l') ∧
      l'.mid (pre ++ skip) (suf.take 1) (suf.drop 1) ∧
      l'.tokens = l.tokens ++ skipTokens skip ∧ l'.input = l.input := by
  intro skip
  induction skip with
  | nil =>
    intro fuel l pre suf hm _ hsuf hf
    obtain ⟨fuel, rfl⟩ : ∃ f, fuel = f + 1 := ⟨fuel - 1, by simp at hf; omega⟩
    simp only [List.nil_append] at hm
    cases suf with
    | nil =>
      rw [determineTokenLoop, lexer.mid_next_nil hm]
      simp only [isWhiteSpace, isStartNumber]
      refine ⟨{ l with width := 0 }, by simp, ?_, by simp [skipTokens], rfl⟩
      obtain ⟨hi, hs, hp⟩ := hm
      exact ⟨by simpa using hi, by simpa using hs, by simpa using hp⟩
    | cons c suf =>
      obtain ⟨hn, hm'⟩ := lexer.mid_next_cons hm
      have hc := hsuf c rfl
      simp only [isSkip, Bool.or_eq_false_iff, decide_eq_false_iff_not] at hc
      obtain ⟨⟨⟨⟨⟨h1, h2⟩, h3⟩, h4⟩, h5⟩, h6⟩ := hc
      rw [determineTokenLoop, hn]
      simp only [isWhiteSpace, Option.some.injEq, h1, h2, h3, h4, h5, h6, decide_False,
        Bool.or_self, Bool.false_eq_true, if_false, List.head?_cons]
      by_cases hsn : isStartNumber (some c) = true
      · simp only [hsn, if_true]
        exact ⟨_, rfl, by simpa using hm', by simp [skipTokens], rfl⟩
      · simp only [hsn, if_false]
        exact ⟨{ l with width := 1, pos := l.pos + 1 }, by simp,
          by simpa using hm', by simp [skipTokens], rfl⟩
  | cons c skip ih =>
    intro fuel l pre suf hm hskip hsuf hf
    obtain ⟨fuel, rfl⟩ : ∃ f, fuel = f + 1 := ⟨fuel - 1, by simp at hf; omega⟩
    obtain ⟨hn, hm'⟩ := lexer.mid_next_cons (by simpa using hm)
    have hc := hskip c (by simp)
    have hf' : skip.length < fuel := by simp at hf; omega
    rw [determineTokenLoop, hn]
    simp only [List.nil_append] at hm'
    by_cases hws : isWhiteSpace (some c) = true
    · simp only [hws, if_true]
      obtain ⟨l', h1, h2, h3, h4⟩ := ih fuel _ (pre ++ [c]) suf
        (by simpa using lexer.mid_ignore hm') (fun x hx => hskip x (by simp [hx])) hsuf hf'
      refine ⟨l', h1, by simpa using h2, ?_, h4⟩
      rw [h3]
      have hno : c ≠ '(' ∧ c ≠ ')' := by
        simp only [isWhiteSpace, Option.some.injEq, Bool.or_eq_true, decide_eq_true_eq] at hws
        rcases hws with ((rfl | rfl) | rfl) | rfl <;> decide
      simp [skipTokens, hno.1, hno.2, lexer.ignore]
    · simp only [hws, Bool.false_eq_true, if_false, Option.some.injEq]
      have hparen : c = '(' ∨ c = ')' := by
        simp only [isWhiteSpace, Option.some.injEq, Bool.or_eq_true, decide_eq_true_eq,
          not_or] at hws
        simp only [isSkip, Bool.or_eq_true, decide_eq_true_eq] at hc
        tauto
      rcases hparen with rfl | rfl
      · simp only [if_true]
        obtain ⟨he, hme⟩ := lexer.mid_emit hm' .openParen
        obtain ⟨l', h1, h2, h3, h4⟩ := ih fuel _ (pre ++ ['(']) suf
          (by simpa using hme) (fun x hx => hskip x (by simp [hx])) hsuf hf'
        refine ⟨l', h1, by simpa using h2, ?_, ?_⟩
        · rw [h3, he]; simp [skipTokens]
        · rw [h4, he]
      · have : ¬ (')' = '(') := by decide
        simp only [this, if_false, if_true]
        obtain ⟨he, hme⟩ := lexer.mid_emit hm' .closeParen
        obtain ⟨l', h1, h2, h3, h4⟩ := ih fuel _ (pre ++ [')']) suf
          (by simpa using hme) (fun x hx => hskip x (by simp [hx])) hsuf hf'
        refine ⟨l', h1, by simpa using h2, ?_, ?_⟩
        · rw [h3, he]; simp [skipTokens]
        · rw [h4, he]

theorem lexOp_spec (l : lexer) (pre : List Char) (c : Char) (run suf : List Char)
    (hm : l.mid pre [c] (run ++ suf)) (hrun : ∀ x ∈ run, opChars.contains x = true)
    (hsuf : ∀ x, suf.head? = some x → opChars.contains x = false) :
    ∃ l', lexOp l = (some .determineToken, l') ∧ l'.mid (pre ++ c :: run) [] suf ∧
      l'.tokens = l.tokens ++ [⟨.op, c :: run⟩] ∧ l'.input = l.input := by
  obtain ⟨h1, h2, h3⟩ := lexer.acceptRun_spec opChars run l pre [c] suf hm hrun hsuf
  obtain ⟨he, hme⟩ := lexer.mid_emit h1 .op
  refine ⟨_, rfl, ?_, ?_, ?_⟩
  · simpa using hme
  · show ((l.acceptRun opChars).emit .op).tokens = _
    rw [he]; simp [h2]
  · show ((l.acceptRun opChars).emit .op).input = _
    rw [he]; simp [h3]

theorem lexer.mid_text {l : lexer} {pre tok suf : List Char} (hm : l.mid pre tok suf) :
    l.text = tok := by
  obtain ⟨hi, hs, hp⟩ := hm
  unfold lexer.text
  rw [hi, hp, hs, ← List.length_append, List.take_left' rfl, List.drop_left' rfl]

/-- The token that `lexNumber` sends when the scanning part has stopped with the
text `tok` between `start` and `pos`. -/
theorem lexNumber_emit (l : lexer) (pre tok suf : List Char)
    (hm : (lexNumberScan l).mid pre tok suf) (ht : (lexNumberScan l).tokens = l.tokens)
    (hi : (lexNumberScan l).input = l.input) :
    ∃ l', lexNumber l = (some .determineToken, l') ∧ l'.mid (pre ++ tok) [] suf ∧
      l'.tokens = l.tokens ++ [⟨if tok = minusText then .op else .constant, tok⟩] ∧
      l'.input = l.input := by
  unfold lexNumber
  simp only [lexer.mid_text hm]
  by_cases htok : tok = minusText
  · simp only [htok, if_true]
    obtain ⟨he, hme⟩ := lexer.mid_emit hm .op
    refine ⟨_, rfl, by rw [← htok]; exact hme, ?_, ?_⟩
    · rw [he]; simp [ht, htok]
    · rw [he]; simp [hi]
  · simp only [htok, if_false]
    obtain ⟨he, hme⟩ := lexer.mid_emit hm .constant
    refine ⟨_, rfl, hme, ?_, ?_⟩
    · rw [he]; simp [ht]
    · rw [he]; simp [hi]

theorem digit_not_dot {x : Char} (hx : digitChars.contains x = true) :
    signDotChars.contains x = false ∧ dotChars.contains x = false := by
  simp only [digitChars, List.contains_eq_any_beq, List.any_eq_true, beq_iff_eq] at hx
  obtain ⟨y, hy, rfl⟩ := hx
  simp only [String.toList, List.mem_cons, List.mem_singleton, List.not_mem_nil, or_false] at hy
  rcases hy with rfl | rfl | rfl | rfl | rfl | rfl | rfl | rfl | rfl | rfl <;> decide

/-- `lexNumber` on a decimal with a point, the first rune of which
`determineToken` has taken. -/
theorem lexNumber_spec (l : lexer) (pre : List Char) (c : Char) (ds fs suf : List Char)
    (hm : l.mid pre [c] (ds ++ '.' :: fs ++ suf))
    (hds : ∀ x ∈ ds, digitChars.contains x = true) (hfs : ∀ x ∈ fs, digitChars.contains x = true)
    (hsuf : ∀ x, suf.head? = some x →
      dotChars.contains x = false ∧ digitChars.contains x = false) :
    ∃ l', lexNumber l = (some .determineToken, l') ∧ l'.mid (pre ++ c :: ds ++ '.' :: fs) [] suf ∧
      l'.tokens = l.tokens ++ [⟨.constant, c :: ds ++ '.' :: fs⟩] ∧ l'.input = l.input := by
  have hdot1 : signDotChars.contains '.' = true := by decide
  have hdot2 : dotChars.contains '.' = true := by decide
  have hdotd : digitChars.contains '.' = false := by decide
  have htext : ¬ (c :: ds ++ '.' :: fs = minusText) := by
    intro e
    have := congrArg List.length e
    simp [minusText] at this
  cases ds with
  | nil =>
    simp only [List.nil_append, List.cons_append] at hm
    obtain ⟨-, a2, a3, a4⟩ := lexer.accept_yes signDotChars hm hdot1
    obtain ⟨b1, b2, b3⟩ := lexer.acceptRun_spec digitChars fs _ pre ([c] ++ ['.']) suf a2 hfs
      (fun x hx => (hsuf x hx).2)
    obtain ⟨c1, c2, c3, c4⟩ := lexer.accept_no dotChars b1 (fun x hx => (hsuf x hx).1)
    have hscan : lexNumberScan l =
        (((l.accept signDotChars).2.acceptRun digitChars).accept dotChars).2 := by
      simp only [lexNumberScan, c1, Bool.false_eq_true, if_false]
    obtain ⟨l', h1, h2, h3, h4⟩ := lexNumber_emit l pre _ suf (by rw [hscan]; exact c2)
      (by rw [hscan, c3, b2, a3]) (by rw [hscan, c4, b3, a4])
    refine ⟨l', h1, by simpa using h2, ?_, h4⟩
    rw [h3]
    have : ¬ ([c] ++ ['.'] ++ fs = minusText) := by simpa using htext
    rw [if_neg this]
    simp
  | cons d ds =>
    have hd := hds d (by simp)
    simp only [List.cons_append, List.append_assoc] at hm
    obtain ⟨-, a2, a3, a4⟩ := lexer.accept_no signDotChars hm
      (fun x hx => by simp at hx; subst hx; exact (digit_not_dot hd).1)
    have a2' : (l.accept signDotChars).2.mid pre [c] ((d :: ds) ++ ('.' :: (fs ++ suf))) := by
      simpa using a2
    obtain ⟨b1, b2, b3⟩ := lexer.acceptRun_spec digitChars (d :: ds) _ pre [c] _ a2' hds
      (fun x hx => by simp at hx; subst hx; exact hdotd)
    obtain ⟨c1, c2, c3, c4⟩ := lexer.accept_yes dotChars b1 hdot2
    obtain ⟨e1, e2, e3⟩ := lexer.acceptRun_spec digitChars fs _ pre _ suf c2 hfs
      (fun x hx => (hsuf x hx).2)
    have hscan : lexNumberScan l =
        ((((l.accept signDotChars).2.acceptRun digitChars).accept dotChars).2.acceptRun
          digitChars) := by
      simp only [lexNumberScan, c1, if_true]
    obtain ⟨l', h1, h2, h3, h4⟩ := lexNumber_emit l pre _ suf (by rw [hscan]; exact e1)
      (by rw [hscan, e2, c3, b2, a3]) (by rw [hscan, e3, c4, b3, a4])
    refine ⟨l', h1, by simpa using h2, ?_, h4⟩
    rw [h3]
    have : ¬ ([c] ++ d :: ds ++ ['.'] ++ fs = minusText) := by simpa using htext
    rw [if_neg this]
    simp

/-- `lexNumber` on a minus sign that no digit, point or minus sign follows. -/
theorem lexNumber_minus (l : lexer) (pre suf : List Char) (hm : l.mid pre ['-'] suf)
    (hsuf : ∀ x, suf.head? = some x →
      signDotChars.contains x = false ∧ digitChars.contains x = false) :
    ∃ l', lexNumber l = (some .determineToken, l') ∧ l'.mid (pre ++ ['-']) [] suf ∧
      l'.tokens = l.tokens ++ [⟨.op, ['-']⟩] ∧ l'.input = l.input := by
  have hdot : ∀ x, suf.head? = some x → dotChars.contains x = false := by
    intro x hx
    have := (hsuf x hx).1
    simp only [signDotChars, dotChars, String.toList, List.contains_eq_any_beq, List.any_cons,
      List.any_nil, Bool.or_false, Bool.or_eq_false_iff] at this ⊢
    exact this.2
  obtain ⟨-, a2, a3, a4⟩ := lexer.accept_no signDotChars hm (fun x hx => (hsuf x hx).1)
  obtain ⟨b1, b2, b3⟩ := lexer.acceptRun_spec digitChars [] _ pre ['-'] suf (by simpa using a2)
    (by simp) (fun x hx => (hsuf x hx).2)
  obtain ⟨c1, c2, c3, c4⟩ := lexer.accept_no dotChars b1 hdot
  have hscan : lexNumberScan l =
      (((l.accept signDotChars).2.acceptRun digitChars).accept dotChars).2 := by
    simp only [lexNumberScan, c1, Bool.false_eq_true, if_false]
  obtain ⟨l', h1, h2, h3, h4⟩ := lexNumber_emit l pre _ suf (by rw [hscan]; exact c2)
    (by rw [hscan, c3, b2, a3]) (by rw [hscan, c4, b3, a4])
  refine ⟨l', h1, by simpa using h2, ?_, h4⟩
  rw [h3]
  simp [minusText]

theorem lexer.runLoop_none (fuel : Nat) (l : lexer) : lexer.runLoop fuel none l = l := by
  cases fuel <;> rfl

theorem isSkip_of_startNumber {c : Char} (hc : isStartNumber (some c) = true) :
    isSkip c = false := by
  simp only [isStartNumber, Bool.or_eq_true, Bool.and_eq_true, decide_eq_true_eq] at hc
  simp only [isSkip, Bool.or_eq_false_iff, decide_eq_false_iff_not]
  rcases hc with (⟨h1, h2⟩ | rfl) | rfl
  · have h1' : (48 : Nat) ≤ c.toNat := h1
    have h2' : c.toNat ≤ 57 := h2
    refine ⟨⟨⟨⟨⟨?_, ?_⟩, ?_⟩, ?_⟩, ?_⟩, ?_⟩ <;>
    · intro e
      subst e
      revert h1' h2'
      decide
  · decide
  · decide

/-- The lexer sends the tokens of `Lexes` and nothing else. -/
theorem runLoop_Lexes {suf : List Char} {toks : List token} (hl : Lexes suf toks) :
    ∀ (l : lexer) (pre : List Char) (fuel : Nat), l.mid pre [] suf → 2 * suf.length + 2 ≤ fuel →
      (lexer.runLoop fuel (some .determineToken) l).tokens = l.tokens ++ toks := by
  induction hl with
  | done skip hskip =>
    intro l pre fuel hm hf
    obtain ⟨fuel, rfl⟩ : ∃ f, fuel = f + 1 := ⟨fuel - 1, by omega⟩
    have hlen : skip.length < l.input.length + 1 := by rw [hm.1]; simp; omega
    obtain ⟨l', h1, -, h3, -⟩ := determineTokenLoop_spec skip _ l pre [] (by simpa using hm) hskip
      (by simp) hlen
    simp only [lexer.runLoop, stateFunc.apply, determineToken, h1, List.head?_nil,
      lexer.runLoop_none, h3]
  | op skip c run rest toks hskip hc hcn hrun hrest _ ih =>
    intro l pre fuel hm hf
    obtain ⟨fuel, rfl⟩ : ∃ f, fuel = f + 2 := ⟨fuel - 2, by omega⟩
    have hlen : skip.length < l.input.length + 1 := by rw [hm.1]; simp; omega
    obtain ⟨l1, h1, h2, h3, h4⟩ := determineTokenLoop_spec skip _ l pre (c :: run ++ rest)
      (by simpa using hm) hskip (by simpa using hc) hlen
    simp only [List.cons_append, List.head?_cons, hcn, Bool.false_eq_true, if_false,
      List.take_succ_cons, List.take_zero, List.drop_succ_cons, List.drop_zero] at h1 h2
    obtain ⟨l2, g1, g2, g3, g4⟩ := lexOp_spec l1 (pre ++ skip) c run rest h2 hrun hrest
    have hrec := ih l2 (pre ++ skip ++ c :: run) fuel g2
      (by simp only [List.length_append, List.length_cons] at hf; omega)
    simp only [lexer.runLoop, stateFunc.apply, determineToken, h1, g1, hrec, g3, h3,
      List.append_assoc, List.singleton_append]
  | minus skip rest toks hskip hrest _ ih =>
    intro l pre fuel hm hf
    obtain ⟨fuel, rfl⟩ : ∃ f, fuel = f + 2 := ⟨fuel - 2, by omega⟩
    have hlen : skip.length < l.input.length + 1 := by rw [hm.1]; simp; omega
    have hcn : isStartNumber (some '-') = true := by decide
    obtain ⟨l1, h1, h2, h3, h4⟩ := determineTokenLoop_spec skip _ l pre ('-' :: rest)
      (by simpa using hm) hskip (by simp; decide) hlen
    simp only [List.head?_cons, hcn, if_true,
      List.take_succ_cons, List.take_zero, List.drop_succ_cons, List.drop_zero] at h1 h2
    obtain ⟨l2, g1, g2, g3, g4⟩ := lexNumber_minus l1 (pre ++ skip) rest h2 hrest
    have hrec := ih l2 (pre ++ skip ++ ['-']) fuel g2
      (by simp only [List.length_append, List.length_cons] at hf; omega)
    simp only [lexer.runLoop, stateFunc.apply, determineToken, h1, g1, hrec, g3, h3,
      List.append_assoc, List.singleton_append]
  | num skip c ds fs rest toks hskip hc hds hfs hne hrest _ ih =>
    intro l pre fuel hm hf
    obtain ⟨fuel, rfl⟩ : ∃ f, fuel = f + 2 := ⟨fuel - 2, by omega⟩
    have hlen : skip.length < l.input.length + 1 := by rw [hm.1]; simp; omega
    obtain ⟨l1, h1, h2, h3, h4⟩ := determineTokenLoop_spec skip _ l pre
      (c :: ds ++ '.' :: fs ++ rest) (by simpa using hm) hskip
      (by simpa using isSkip_of_startNumber hc) hlen
    simp only [List.cons_append, List.head?_cons, hc, if_true,
      List.take_succ_cons, List.take_zero, List.drop_succ_cons, List.drop_zero] at h1 h2
    obtain ⟨l2, g1, g2, g3, g4⟩ := lexNumber_spec l1 (pre ++ skip) c ds fs rest
      (by simpa using h2) hds hfs hrest
    have hrec := ih l2 (pre ++ skip ++ c :: ds ++ '.' :: fs) fuel (by simpa using g2)
      (by simp only [List.length_append, List.length_cons] at hf; omega)
    simp only [lexer.runLoop, stateFunc.apply, determineToken, h1, g1, hrec, g3, h3,
      List.append_assoc, List.singleton_append]

theorem lex_of_Lexes {s : List Char} {toks : List token} (hl : Lexes s toks) : lex s = toks := by
  have := runLoop_Lexes hl { input := s, start := 0, pos := 0, width := 0, tokens := [] } []
    (2 * s.length + 2) ⟨by simp, rfl, rfl⟩ (le_refl _)
  simpa [lex] using this

@[simp] theorem Tree.tokens_node (k v cs) : (Tree.node k v cs).tokens =
    if k = .OpConstant then [⟨.constant, FormatFloat v⟩]
    else if k.arity = 0 then [⟨.op, k.keyword⟩]
    else ⟨.openParen, ['(']⟩ :: ⟨.op, k.keyword⟩ ::
      (Tree.tokensList cs ++ [⟨.closeParen, [')']⟩]) := by
  simp [Tree.tokens]
@[simp] theorem Tree.tokensList_nil : Tree.tokensList [] = [] := by simp [Tree.tokensList]
@[simp] theorem Tree.tokensList_cons (t ts) :
    Tree.tokensList (t :: ts) = t.tokens ++ Tree.tokensList ts := by
  simp [Tree.tokensList]
@[simp] theorem PTree.allConsts_empty (P) : PTree.allConsts P .empty = true := by
  simp [PTree.allConsts]
@[simp] theorem PTree.allConsts_node (P a k v cs) : PTree.allConsts P (.node a k v cs) =
    ((k != Kind.OpConstant || P v) && PTree.allConstsList P cs) := by
  simp [PTree.allConsts]
@[simp] theorem PTree.allConstsList_nil (P) : PTree.allConstsList P [] = true := by
  simp [PTree.allConstsList]
@[simp] theorem PTree.allConstsList_cons (P t ts) : PTree.allConstsList P (t :: ts) =
    (PTree.allConsts P t && PTree.allConstsList P ts) := by
  simp [PTree.allConstsList]

theorem PTree.allConstsList_iff (P : F32 → Bool) (cs : List PTree) :
    PTree.allConstsList P cs = true ↔ ∀ t ∈ cs, PTree.allConsts P t = true := by
  induction cs with
  | nil => simp
  | cons t ts ih => simp [ih]

theorem skipTokens_append (xs ys : List Char) :
    skipTokens (xs ++ ys) = skipTokens xs ++ skipTokens ys := by
  induction xs with
  | nil => simp [skipTokens]
  | cons c cs ih =>
    simp only [List.cons_append, skipTokens]
    split_ifs <;> simp [ih]

/-- White space and parentheses before a text only add the tokens of the
parentheses. -/
theorem Lexes_skip {s : List Char} {toks : List token} (sk : List Char)
    (hsk : ∀ c ∈ sk, isSkip c = true) (hl : Lexes s toks) :
    Lexes (sk ++ s) (skipTokens sk ++ toks) := by
  have hall : ∀ (skip : List Char), (∀ c ∈ skip, isSkip c = true) →
      ∀ c ∈ sk ++ skip, isSkip c = true := by
    intro skip hskip c hc
    rcases List.mem_append.mp hc with h | h
    · exact hsk c h
    · exact hskip c h
  cases hl with
  | done sk0 hskip =>
    rw [← skipTokens_append]
    exact Lexes.done _ (hall _ hskip)
  | op skip c run rest toks hskip hc hcn hrun hrest htl =>
    have := Lexes.op (sk ++ skip) c run rest toks (hall skip hskip) hc hcn hrun hrest htl
    simpa [skipTokens_append] using this
  | minus skip rest toks hskip hrest htl =>
    have := Lexes.minus (sk ++ skip) rest toks (hall skip hskip) hrest htl
    simpa [skipTokens_append] using this
  | num skip c ds fs rest toks hskip hc hds hfs hne hrest htl =>
    have := Lexes.num (sk ++ skip) c ds fs rest toks (hall skip hskip) hc hds hfs hne hrest htl
    simpa [skipTokens_append] using this

theorem delim_not_valid {rest : List Char} (hd : delim rest) (x : Char) (hx : rest.head? = some x) :
    opChars.contains x = false ∧ signDotChars.contains x = false ∧ dotChars.contains x = false ∧
      digitChars.contains x = false := by
  rcases hd x hx with rfl | rfl | rfl <;> decide

theorem digitChar_mem (d : Nat) (hd : d < 10) : digitChars.contains (digitChar d) = true := by
  interval_cases d <;> decide

theorem digitChar_start (d : Nat) (hd : d < 10) :
    isStartNumber (some (digitChar d)) = true ∧ digitChar d ≠ '-' := by
  interval_cases d <;> decide

theorem decimalDigitsAux_spec : ∀ (fuel n : Nat) (acc : List Char), n < fuel →
    ∃ d ds, decimalDigitsAux fuel n acc = digitChar d :: ds ++ acc ∧ d < 10 ∧
      ∀ x ∈ ds, digitChars.contains x = true := by
  intro fuel
  induction fuel with
  | zero => intro n acc h; omega
  | succ fuel ih =>
    intro n acc h
    rw [decimalDigitsAux]
    by_cases hn : n < 10
    · exact ⟨n, [], by simp [hn], hn, by simp⟩
    · simp only [hn, if_false]
      obtain ⟨d, ds, h1, h2, h3⟩ := ih (n / 10) (digitChar (n % 10) :: acc) (by omega)
      refine ⟨d, ds ++ [digitChar (n % 10)], by rw [h1]; simp, h2, ?_⟩
      intro x hx
      rcases List.mem_append.mp hx with h | h
      · exact h3 x h
      · simp only [List.mem_singleton] at h
        subst h
        exact digitChar_mem _ (Nat.mod_lt _ (by decide))

theorem decimalDigits_spec (n : Nat) : ∃ d ds, decimalDigits n = digitChar d :: ds ∧ d < 10 ∧
    ∀ x ∈ ds, digitChars.contains x = true := by
  obtain ⟨d, ds, h1, h2, h3⟩ := decimalDigitsAux_spec (n + 1) n [] (by omega)
  exact ⟨d, ds, by simpa [decimalDigits] using h1, h2, h3⟩

theorem padDigits_spec (k n : Nat) : ∀ x ∈ padDigits k n, digitChars.contains x = true := by
  induction k generalizing n with
  | zero => simp [padDigits]
  | succ k ih =>
    intro x hx
    rw [padDigits] at hx
    rcases List.mem_append.mp hx with h | h
    · exact ih _ x h
    · simp only [List.mem_singleton] at h
      subst h
      exact digitChar_mem _ (Nat.mod_lt _ (by decide))

/-- The text of a finite constant: an optional minus sign, digits, a point and
nine digits. -/
theorem FormatFloat_finite (v : F32) (hv : v.isFinite = true) :
    ∃ c ds fs, FormatFloat v = c :: ds ++ '.' :: fs ∧ isStartNumber (some c) = true ∧
      (∀ x ∈ ds, digitChars.contains x = true) ∧ (∀ x ∈ fs, digitChars.contains x = true) ∧
      (ds = [] → c ≠ '-') := by
  have hexp : ¬ (v.bits / 2 ^ 23 % 256 = 255) := by
    simpa [F32.isFinite] using hv
  obtain ⟨d, ds, h1, h2, h3⟩ := decimalDigits_spec (v.scaled9 / 10 ^ 9)
  have hfs := padDigits_spec 9 (v.scaled9 % 10 ^ 9)
  simp only [FormatFloat, hexp, if_false, h1]
  by_cases hneg : v.bits / 2147483648 = 0
  swap
  · refine ⟨'-', digitChar d :: ds, padDigits 9 (v.scaled9 % 10 ^ 9), by simp [hneg], by decide,
      ?_, hfs, by simp⟩
    intro x hx
    rcases List.mem_cons.mp hx with rfl | hx
    · exact digitChar_mem d h2
    · exact h3 x hx
  · refine ⟨digitChar d, ds, padDigits 9 (v.scaled9 % 10 ^ 9), by simp [hneg],
      (digitChar_start d h2).1, h3, hfs, fun _ => (digitChar_start d h2).2⟩

theorem delim_nil : delim [] := by
  intro x hx; simp at hx

theorem delim_sep (k : Kind) (xs : List Char) : delim (k.sep ++ xs) := by
  intro x hx
  by_cases hk : k = .OpPicture
  · simp [Kind.sep, hk] at hx; subst hx; simp
  · simp [Kind.sep, hk] at hx; subst hx; simp

theorem delim_closing (k : Kind) (xs : List Char) : delim (k.closing ++ xs) := by
  intro x hx
  by_cases hk : k = .OpWrap
  · simp [Kind.closing, hk] at hx; subst hx; simp
  · simp [Kind.closing, hk] at hx; subst hx; simp

theorem skip_sep (k : Kind) : (∀ c ∈ k.sep, isSkip c = true) ∧ skipTokens k.sep = [] := by
  by_cases hk : k = .OpPicture
  · simp only [Kind.sep, hk, if_true]; decide
  · simp only [Kind.sep, hk, if_false]; decide

theorem skip_closing (k : Kind) :
    (∀ c ∈ k.closing, isSkip c = true) ∧ skipTokens k.closing = [⟨.closeParen, [')']⟩] := by
  by_cases hk : k = .OpWrap
  · simp only [Kind.closing, hk, if_true]; decide
  · simp only [Kind.closing, hk, if_false]; decide

theorem skip_opening (k : Kind) :
    (∀ c ∈ k.opening, isSkip c = true) ∧ skipTokens k.opening = [⟨.openParen, ['(']⟩] := by
  by_cases hk : k = .OpWrap
  · simp only [Kind.opening, hk, if_true]; decide
  · simp only [Kind.opening, hk, if_false]; decide

/-- The lexer reads a keyword that a delimiter follows as one identifier token. -/
theorem Lexes_keyword (k : Kind) (hk : k ≠ .OpConstant) {rest : List Char} {toks : List token}
    (hd : delim rest) (hl : Lexes rest toks) :
    Lexes (k.keyword ++ rest) (⟨.op, k.keyword⟩ :: toks) := by
  have hop : ∀ (c : Char) (run : List Char), isSkip c = false → isStartNumber (some c) = false →
      (∀ x ∈ run, opChars.contains x = true) →
      Lexes (c :: run ++ rest) (⟨.op, c :: run⟩ :: toks) := by
    intro c run h1 h2 h3
    have := Lexes.op [] c run rest toks (by simp) h1 h2 h3
      (fun x hx => (delim_not_valid hd x hx).1) hl
    simpa [skipTokens] using this
  cases k
  case OpConstant => exact absurd rfl hk
  case OpMinus =>
    have := Lexes.minus [] rest toks (by simp)
      (fun x hx => ⟨(delim_not_valid hd x hx).2.1, (delim_not_valid hd x hx).2.2.2⟩) hl
    simpa [skipTokens, Kind.keyword] using this
  all_goals
    exact hop _ _ (by decide) (by decide) (by decide)

theorem Lexes_renderList (sep : Kind) (cs : List PTree)
    (ih : ∀ t ∈ cs, ∀ (rest : List Char) (toks : List token), delim rest → Lexes rest toks →
      Lexes (t.shape.render ++ rest) (t.shape.tokens ++ toks)) :
    ∀ (rest : List Char) (toks : List token), delim rest → Lexes rest toks →
      delim (Tree.renderList sep.sep (PTree.shapeList cs) ++ rest) ∧
      Lexes (Tree.renderList sep.sep (PTree.shapeList cs) ++ rest)
        (Tree.tokensList (PTree.shapeList cs) ++ toks) := by
  induction cs with
  | nil => intro rest toks hd hl; simpa using ⟨hd, hl⟩
  | cons c cs ihl =>
    intro rest toks hd hl
    obtain ⟨hd1, hl1⟩ := ihl (fun t ht => ih t (List.mem_cons_of_mem _ ht)) rest toks hd hl
    have h2 := ih c (List.mem_cons_self _ _) _ _ hd1 hl1
    have h3 := Lexes_skip sep.sep (skip_sep sep).1 h2
    rw [(skip_sep sep).2] at h3
    simp only [PTree.shapeList_cons, Tree.renderList_cons, Tree.tokensList_cons, List.append_assoc]
    exact ⟨delim_sep sep _, by simpa using h3⟩

/-- The lexer sends for the text of a tree the tokens of the tree: every
constant finite, every slot filled, every node with the slots of its type. -/
theorem Lexes_render : ∀ (t : PTree), t.complete = true → t.arityOk = true →
    t.allConsts F32.isFinite = true →
    ∀ (rest : List Char) (toks : List token), delim rest → Lexes rest toks →
      Lexes (t.shape.render ++ rest) (t.shape.tokens ++ toks) := by
  intro t
  induction t using PTree.induct with
  | hE => simp
  | hN a k v cs ih =>
    intro hc hao hfin rest toks hd hl
    simp only [PTree.complete_node] at hc
    simp only [PTree.arityOk_node, Bool.and_eq_true, decide_eq_true_eq] at hao
    simp only [PTree.allConsts_node, Bool.and_eq_true, Bool.or_eq_true] at hfin
    simp only [PTree.shape_node, Tree.render_node, Tree.tokens_node]
    by_cases hk : k = .OpConstant
    · simp only [hk, if_true]
      have hv : v.isFinite = true := by
        rcases hfin.1 with h | h
        · simp [hk] at h
        · exact h
      obtain ⟨c, ds, fs, e, h1, h2, h3, h4⟩ := FormatFloat_finite v hv
      have := Lexes.num [] c ds fs rest toks (by simp) h1 h2 h3 h4
        (fun x hx => ⟨(delim_not_valid hd x hx).2.2.1, (delim_not_valid hd x hx).2.2.2⟩) hl
      rw [e]
      simpa [skipTokens] using this
    · simp only [hk, if_false]
      by_cases har : k.arity = 0
      · simp only [har, if_true]
        exact Lexes_keyword k hk hd hl
      · simp only [har, if_false]
        have hcl := Lexes_skip k.closing (skip_closing k).1 hl
        rw [(skip_closing k).2] at hcl
        have ih1 : ∀ t ∈ cs, ∀ (rest : List Char) (toks : List token), delim rest →
            Lexes rest toks → Lexes (t.shape.render ++ rest) (t.shape.tokens ++ toks) := by
          intro t ht
          exact ih t ht ((PTree.completeList_iff cs).mp hc t ht)
            ((PTree.arityOkList_iff cs).mp hao.2 t ht)
            ((PTree.allConstsList_iff _ cs).mp hfin.2 t ht)
        obtain ⟨hd2, hl2⟩ := Lexes_renderList k cs ih1 _ _ (delim_closing k rest) hcl
        have h3 := Lexes_keyword k hk hd2 hl2
        have h4 := Lexes_skip k.opening (skip_opening k).1 h3
        rw [(skip_opening k).2] at h4
        simpa using h4

/-- The lexer on the text of a tree. -/
theorem lex_render (t : PTree) (hc : t.complete = true) (hao : t.arityOk = true)
    (hfin : t.allConsts F32.isFinite = true) : lex t.shape.render = t.shape.tokens := by
  have := Lexes_render t hc hao hfin [] [] delim_nil (by simpa [skipTokens] using Lexes.done [] (by simp))
  exact lex_of_Lexes (by simpa using this)

theorem parse_nil (pf : List Char → Option F32) (fuel : Nat) (h : Heap) (parent : Option Ptr) :
    parse pf (fuel + 1) h [] parent = .panic := by
  simp [parse]

theorem parse_paren (pf : List Char → Option F32) (fuel : Nat) (h : Heap) (tok : token)
    (toks : List token) (parent : Option Ptr) (hp : tok.isParen = true) :
    parse pf (fuel + 1) h (tok :: toks) parent = parse pf fuel h toks parent := by
  rw [parse]
  cases ht : tok.typ <;> simp [token.isParen, ht] at hp ⊢

theorem parse_constant (pf : List Char → Option F32) (fuel : Nat) (h : Heap) (tok : token)
    (toks : List token) (parent : Option Ptr) (ht : tok.typ = .constant) :
    parse pf (fuel + 1) h (tok :: toks) parent =
      match pf tok.value with
      | none => .panic
      | some v => .ok (h ++ [⟨.OpConstant, v, parent, []⟩], h.length, toks) := by
  rw [parse]
  simp only [ht, Heap.alloc, SetParent, newCell, setValue]
  rw [List.getElem?_append_right (le_refl _)]
  simp only [Nat.sub_self, List.getElem?_cons_zero]
  cases pf tok.value with
  | none => rfl
  | some v =>
    simp only []
    rw [List.getElem?_set_eq_of_lt _ (by simp)]
    simp [Kind.arity, List.set_append_right]

theorem parse_op (pf : List Char → Option F32) (fuel : Nat) (h : Heap) (tok : token)
    (toks : List token) (parent : Option Ptr) (ht : tok.typ = .op) :
    parse pf (fuel + 1) h (tok :: toks) parent =
      match stringToKind tok.value with
      | none => .panic
      | some k =>
        match parseLoop (fun hh tt => parse pf fuel hh tt (some h.length)) h.length k.arity 0
            (h ++ [⟨k, F32.zero, parent, List.replicate k.arity none⟩]) toks with
        | .panic => .panic
        | .timeout => .timeout
        | .ok (h3, toks1) => .ok (h3, h.length, toks1) := by
  rw [parse]
  simp only [ht, stringToNode]
  cases stringToKind tok.value with
  | none => rfl
  | some k =>
    simp only [Heap.alloc, SetParent, newCell, GetChildren]
    rw [List.getElem?_append_right (le_refl _)]
    simp only [Nat.sub_self, List.getElem?_cons_zero]
    rw [List.getElem?_set_eq_of_lt _ (by simp)]
    simp [List.set_append_right]

theorem parseLoop_zero (rec : Heap → List token → Res (Heap × Ptr × List token)) (n i : Nat)
    (h : Heap) (toks : List token) : parseLoop rec n 0 i h toks = .ok (h, toks) := by
  simp [parseLoop]

theorem parseLoop_succ (rec : Heap → List token → Res (Heap × Ptr × List token)) (n k i : Nat)
    (h : Heap) (toks : List token) : parseLoop rec n (k + 1) i h toks =
      match rec h toks with
      | .panic => .panic
      | .timeout => .timeout
      | .ok (h1, child, toks1) =>
        match setChild h1 (some n) i (some child) with
        | none => .panic
        | some h2 => parseLoop rec n k (i + 1) h2 toks1 := by
  rw [parseLoop]

theorem parseLoop_mono (rec rec2 : Heap → List token → Res (Heap × Ptr × List token)) (n : Nat)
    (hrec : ∀ hh tt, rec hh tt ≠ .timeout → rec2 hh tt = rec hh tt) :
    ∀ (k i : Nat) (h : Heap) (toks : List token), parseLoop rec n k i h toks ≠ .timeout →
      parseLoop rec2 n k i h toks = parseLoop rec n k i h toks := by
  intro k
  induction k with
  | zero => intro i h toks _; simp [parseLoop]
  | succ k ih =>
    intro i h toks hne
    rw [parseLoop_succ] at hne ⊢
    rw [parseLoop_succ]
    cases hr : rec h toks with
    | panic => rw [hrec h toks (by rw [hr]; simp), hr]
    | timeout => rw [hr] at hne; exact absurd rfl hne
    | ok a =>
      obtain ⟨h1, child, toks1⟩ := a
      rw [hrec h toks (by rw [hr]; simp), hr]
      rw [hr] at hne
      simp only [] at hne ⊢
      cases hs : setChild h1 (some n) i (some child) with
      | none => rfl
      | some h2 =>
        rw [hs] at hne
        exact ih (i + 1) h2 toks1 hne

/-- More fuel does not change a result of `parse`. -/
theorem parse_fuel_succ (pf : List Char → Option F32) : ∀ (fuel : Nat) (h : Heap)
    (toks : List token) (parent : Option Ptr), parse pf fuel h toks parent ≠ .timeout →
      parse pf (fuel + 1) h toks parent = parse pf fuel h toks parent := by
  intro fuel
  induction fuel with
  | zero => intro h toks parent hne; simp [parse] at hne
  | succ fuel ih =>
    intro h toks parent hne
    cases toks with
    | nil => simp [parse]
    | cons tok toks =>
      cases ht : tok.typ with
      | openParen =>
        have hp : tok.isParen = true := by simp [token.isParen, ht]
        rw [parse_paren pf _ h tok toks parent hp] at hne ⊢
        rw [parse_paren pf _ h tok toks parent hp]
        exact ih h toks parent hne
      | closeParen =>
        have hp : tok.isParen = true := by simp [token.isParen, ht]
        rw [parse_paren pf _ h tok toks parent hp] at hne ⊢
        rw [parse_paren pf _ h tok toks parent hp]
        exact ih h toks parent hne
      | constant => rw [parse_constant pf _ h tok toks parent ht, parse_constant pf _ h tok toks parent ht]
      | op =>
        rw [parse_op pf _ h tok toks parent ht] at hne ⊢
        rw [parse_op pf _ h tok toks parent ht]
        cases hk : stringToKind tok.value with
        | none => rfl
        | some k =>
          rw [hk] at hne
          simp only [] at hne ⊢
          have hl : parseLoop (fun hh tt => parse pf fuel hh tt (some h.length)) h.length k.arity 0
              (h ++ [⟨k, F32.zero, parent, List.replicate k.arity none⟩]) toks ≠ .timeout := by
            intro hc; rw [hc] at hne; exact hne rfl
          rw [parseLoop_mono _ (fun hh tt => parse pf (fuel + 1) hh tt (some h.length)) h.length
            (fun hh tt hn => ih hh tt _ hn) _ _ _ _ hl]

theorem parse_fuel_le (pf : List Char → Option F32) (fuel fuel2 : Nat) (hle : fuel ≤ fuel2)
    (h : Heap) (toks : List token) (parent : Option Ptr)
    (hne : parse pf fuel h toks parent ≠ .timeout) :
    parse pf fuel2 h toks parent = parse pf fuel h toks parent := by
  induction fuel2 with
  | zero =>
    have : fuel = 0 := by omega
    subst this; rfl
  | succ m ih =>
    rcases Nat.lt_or_ge fuel (m + 1) with hlt | hge
    · have h1 := ih (by omega)
      rw [← h1] at hne
      rw [parse_fuel_succ pf m h toks parent hne, h1]
    · have : fuel = m + 1 := by omega
      subst this; rfl

theorem stripParens_cons_paren (tok : token) (toks : List token) (hp : tok.isParen = true) :
    stripParens (tok :: toks) = stripParens toks := by
  simp [stripParens, hp]

theorem stripParens_cons_keep (tok : token) (toks : List token) (hp : tok.isParen = false) :
    stripParens (tok :: toks) = tok :: stripParens toks := by
  simp [stripParens, hp]

theorem stripParens_length (toks : List token) : (stripParens toks).length ≤ toks.length :=
  List.length_filter_le _ _

theorem stripParens_idem (toks : List token) : stripParens (stripParens toks) = stripParens toks := by
  simp [stripParens]

theorem parseLoop_strip (rec : Heap → List token → Res (Heap × Ptr × List token)) (n fuel : Nat)
    (hrec : ∀ hh tt, tt.length < fuel →
      (rec hh tt = .panic ∧ rec hh (stripParens tt) = .panic) ∨
      ∃ h1 m rest, rec hh tt = .ok (h1, m, rest) ∧ rec hh (stripParens tt) = .ok (h1, m, stripParens rest) ∧
        rest.length < tt.length) :
    ∀ (k i : Nat) (h : Heap) (toks : List token), toks.length < fuel →
      (parseLoop rec n k i h toks = .panic ∧ parseLoop rec n k i h (stripParens toks) = .panic) ∨
      ∃ h1 rest, parseLoop rec n k i h toks = .ok (h1, rest) ∧
        parseLoop rec n k i h (stripParens toks) = .ok (h1, stripParens rest) ∧
        rest.length ≤ toks.length := by
  intro k
  induction k with
  | zero =>
    intro i h toks _
    exact Or.inr ⟨h, toks, by simp [parseLoop], by simp [parseLoop], le_refl _⟩
  | succ k ih =>
    intro i h toks hlt
    rw [parseLoop_succ, parseLoop_succ]
    rcases hrec h toks hlt with ⟨h1, h2⟩ | ⟨h1, m, rest, e1, e2, hl⟩
    · rw [h1, h2]; exact Or.inl ⟨rfl, rfl⟩
    · rw [e1, e2]
      simp only []
      cases hs : setChild h1 (some n) i (some m) with
      | none => exact Or.inl ⟨rfl, rfl⟩
      | some h2 =>
        simp only []
        rcases ih (i + 1) h2 rest (by omega) with ⟨a, b⟩ | ⟨h3, rest2, a, b, c⟩
        · exact Or.inl ⟨a, b⟩
        · exact Or.inr ⟨h3, rest2, a, b, by omega⟩

/-- The function `parse` with enough fuel: it panics or returns, and it does on
the tokens without the parentheses what it does on all of them. -/
theorem parse_strip (pf : List Char → Option F32) : ∀ (fuel : Nat) (h : Heap) (toks : List token)
    (parent : Option Ptr), toks.length < fuel →
      (parse pf fuel h toks parent = .panic ∧ parse pf fuel h (stripParens toks) parent = .panic) ∨
      ∃ h1 m rest, parse pf fuel h toks parent = .ok (h1, m, rest) ∧
        parse pf fuel h (stripParens toks) parent = .ok (h1, m, stripParens rest) ∧
        rest.length < toks.length := by
  intro fuel
  induction fuel with
  | zero => intro h toks parent hlt; omega
  | succ fuel ih =>
    intro h toks parent hlt
    cases toks with
    | nil => exact Or.inl ⟨by simp [parse], by simp [parse, stripParens]⟩
    | cons tok toks =>
      simp only [List.length_cons] at hlt
      have hlt2 : toks.length < fuel := by omega
      have hparen : tok.isParen = true →
          (parse pf (fuel + 1) h (tok :: toks) parent = .panic ∧
            parse pf (fuel + 1) h (stripParens (tok :: toks)) parent = .panic) ∨
          ∃ h1 m rest, parse pf (fuel + 1) h (tok :: toks) parent = .ok (h1, m, rest) ∧
            parse pf (fuel + 1) h (stripParens (tok :: toks)) parent =
              .ok (h1, m, stripParens rest) ∧ rest.length < (tok :: toks).length := by
        intro hp
        rw [parse_paren pf _ h tok toks parent hp, stripParens_cons_paren tok toks hp]
        rcases ih h toks parent hlt2 with ⟨a, b⟩ | ⟨h1, m, rest, a, b, c⟩
        · refine Or.inl ⟨a, ?_⟩
          rw [parse_fuel_succ pf fuel h _ parent (by rw [b]; simp), b]
        · refine Or.inr ⟨h1, m, rest, a, ?_, by simp only [List.length_cons]; omega⟩
          rw [parse_fuel_succ pf fuel h _ parent (by rw [b]; simp), b]
      cases ht : tok.typ with
      | openParen => exact hparen (by simp [token.isParen, ht])
      | closeParen => exact hparen (by simp [token.isParen, ht])
      | constant =>
        have hp : tok.isParen = false := by simp [token.isParen, ht]
        rw [stripParens_cons_keep tok toks hp, parse_constant pf _ h tok toks parent ht,
          parse_constant pf _ h tok _ parent ht]
        cases pf tok.value with
        | none => exact Or.inl ⟨rfl, rfl⟩
        | some v => exact Or.inr ⟨_, _, toks, rfl, rfl, by simp⟩
      | op =>
        have hp : tok.isParen = false := by simp [token.isParen, ht]
        rw [stripParens_cons_keep tok toks hp, parse_op pf _ h tok toks parent ht,
          parse_op pf _ h tok _ parent ht]
        cases stringToKind tok.value with
        | none => exact Or.inl ⟨rfl, rfl⟩
        | some k =>
          simp only []
          rcases parseLoop_strip (fun hh tt => parse pf fuel hh tt (some h.length)) h.length fuel
            (fun hh tt hl => ih hh tt _ hl) k.arity 0
            (h ++ [⟨k, F32.zero, parent, List.replicate k.arity none⟩]) toks hlt2 with
            ⟨a, b⟩ | ⟨h1, rest, a, b, c⟩
          · rw [a, b]; exact Or.inl ⟨rfl, rfl⟩
          · rw [a, b]
            exact Or.inr ⟨h1, h.length, rest, rfl, rfl, by simp only [List.length_cons]; omega⟩

/-- One unit of fuel for each token and one more: `parseTokens` never runs out. -/
theorem parseTokens_ne_timeout (pf : List Char → Option F32) (h : Heap) (toks : List token) :
    parseTokens pf h toks ≠ .timeout := by
  unfold parseTokens
  rcases parse_strip pf (toks.length + 1) h toks none (by omega) with ⟨a, _⟩ | ⟨h1, m, rest, a, _, _⟩
  · rw [a]; simp
  · rw [a]; simp

/-- The parentheses are of no account to `parseTokens`. -/
theorem parseTokens_strip (pf : List Char → Option F32) (h : Heap) (toks : List token) :
    parseTokens pf h (stripParens toks) = parseTokens pf h toks := by
  unfold parseTokens
  have hle := stripParens_length toks
  rcases parse_strip pf (toks.length + 1) h toks none (by omega) with
    ⟨a, b⟩ | ⟨h1, m, rest, a, b, _⟩
  · rw [a]
    have := parse_fuel_le pf ((stripParens toks).length + 1) (toks.length + 1) (by omega) h
      (stripParens toks) none
    rcases parse_strip pf ((stripParens toks).length + 1) h (stripParens toks) none (by omega) with
      ⟨a2, _⟩ | ⟨h2, m2, rest2, a2, _, _⟩
    · rw [a2]
    · rw [a2] at this
      rw [this (by simp)] at b
      cases b
  · rw [a]
    have := parse_fuel_le pf ((stripParens toks).length + 1) (toks.length + 1) (by omega) h
      (stripParens toks) none
    rcases parse_strip pf ((stripParens toks).length + 1) h (stripParens toks) none (by omega) with
      ⟨a2, _⟩ | ⟨h2, m2, rest2, a2, _, _⟩
    · rw [a2] at this
      rw [this (by simp)] at b
      cases b
    · rw [a2] at this ⊢
      rw [this (by simp)] at b
      cases b
      rfl

theorem readList_zero (rec : List token → Res (Tree × List token)) (toks : List token) :
    readList rec 0 toks = .ok ([], toks) := by
  simp [readList]

theorem readList_succ (rec : List token → Res (Tree × List token)) (k : Nat) (toks : List token) :
    readList rec (k + 1) toks =
      match rec toks with
      | .panic => .panic
      | .timeout => .timeout
      | .ok (c, toks1) =>
        match readList rec k toks1 with
        | .panic => .panic
        | .timeout => .timeout
        | .ok (cs, rest) => .ok (c :: cs, rest) := by
  rw [readList]

theorem readTree_nil (pf : List Char → Option F32) (fuel : Nat) :
    readTree pf (fuel + 1) [] = .panic := by
  simp [readTree]

theorem readTree_paren (pf : List Char → Option F32) (fuel : Nat) (tok : token)
    (toks : List token) (hp : tok.isParen = true) :
    readTree pf (fuel + 1) (tok :: toks) = readTree pf fuel toks := by
  rw [readTree]
  cases ht : tok.typ <;> simp [token.isParen, ht] at hp ⊢

theorem readTree_constant (pf : List Char → Option F32) (fuel : Nat) (tok : token)
    (toks : List token) (ht : tok.typ = .constant) :
    readTree pf (fuel + 1) (tok :: toks) =
      match pf tok.value with
      | none => .panic
      | some v => .ok (.node .OpConstant v [], toks) := by
  rw [readTree]
  simp only [ht]

theorem readTree_op (pf : List Char → Option F32) (fuel : Nat) (tok : token)
    (toks : List token) (ht : tok.typ = .op) :
    readTree pf (fuel + 1) (tok :: toks) =
      match stringToKind tok.value with
      | none => .panic
      | some k =>
        match readList (readTree pf fuel) k.arity toks with
        | .panic => .panic
        | .timeout => .timeout
        | .ok (cs, rest) => .ok (.node k F32.zero cs, rest) := by
  rw [readTree]
  simp only [ht]

theorem PTree.arityOkList_append (xs ys : List PTree) :
    PTree.arityOkList (xs ++ ys) = (PTree.arityOkList xs && PTree.arityOkList ys) := by
  induction xs with
  | nil => simp
  | cons t ts ih => simp [ih, Bool.and_assoc]

/-- The loop of `parse` that fills the slots of the new node at `h0.length`. -/
theorem parseLoop_spec (pf : List Char → Option F32) (fuel : Nat) (h0 : Heap) (k : Kind)
    (parent : Option Ptr)
    (ih : ∀ (h : Heap) (toks : List token) (par : Option Ptr), ParseSpec pf fuel h toks par) :
    ∀ (m : Nat) (done : List PTree) (H : Heap) (toks : List token), Extends h0 H →
      H[h0.length]? =
        some ⟨k, F32.zero, parent, done.map PTree.root ++ List.replicate m none⟩ →
      RepList H done = true → PTree.completeList done = true → PTree.arityOkList done = true →
      (∀ b ∈ PTree.preorderList done, h0.length < b) →
      (readList (readTree pf fuel) m toks = .timeout →
        parseLoop (fun hh tt => parse pf fuel hh tt (some h0.length)) h0.length m done.length H
          toks = .timeout) ∧
      (readList (readTree pf fuel) m toks = .panic →
        parseLoop (fun hh tt => parse pf fuel hh tt (some h0.length)) h0.length m done.length H
          toks = .panic) ∧
      (∀ cs rest, readList (readTree pf fuel) m toks = .ok (cs, rest) →
        ∃ H1 new, parseLoop (fun hh tt => parse pf fuel hh tt (some h0.length)) h0.length m
            done.length H toks = .ok (H1, rest) ∧ Extends h0 H1 ∧
          H1[h0.length]? = some ⟨k, F32.zero, parent, (done ++ new).map PTree.root⟩ ∧
          RepList H1 (done ++ new) = true ∧ PTree.shapeList new = cs ∧
          PTree.completeList new = true ∧ PTree.arityOkList new = true ∧ new.length = m ∧
          (∀ b ∈ PTree.preorderList new, h0.length < b)) := by
  intro m
  induction m with
  | zero =>
    intro done H toks hext hcell hrd hcd had haddr
    simp only [readList_zero, parseLoop_zero]
    refine ⟨by simp, by simp, ?_⟩
    intro cs rest e
    simp only [Res.ok.injEq, Prod.mk.injEq] at e
    obtain ⟨rfl, rfl⟩ := e
    exact ⟨H, [], rfl, hext, by simpa using hcell, by simpa using hrd, by simp, by simp,
      by simp, rfl, by simp⟩
  | succ m ihm =>
    intro done H toks hext hcell hrd hcd had haddr
    have hLH : h0.length < H.length := by
      by_contra hlt
      rw [List.getElem?_eq_none (Nat.le_of_not_lt hlt)] at hcell
      cases hcell
    obtain ⟨s1, s2, s3⟩ := ih H toks (some h0.length)
    rw [readList_succ, parseLoop_succ]
    cases hr : readTree pf fuel toks with
    | timeout => rw [s1 hr]; simp
    | panic => rw [s2 hr]; simp
    | ok a =>
      obtain ⟨c, toks1⟩ := a
      obtain ⟨H1, t1, hp, hext1, hrep1, hroot1, hshape1, hcomp1, hao1, haddr1, hpar1⟩ := s3 c toks1 hr
      rw [hp]
      simp only []
      have hcell1 : H1[h0.length]? =
          some ⟨k, F32.zero, parent, done.map PTree.root ++ List.replicate (m + 1) none⟩ := by
        rw [hext1 _ hLH, hcell]
      have hlt : done.length < (done.map PTree.root ++ List.replicate (m + 1) none).length := by
        simp
      have hset : (done.map PTree.root ++ List.replicate (m + 1) none).set done.length
          (some H.length) = (done ++ [t1]).map PTree.root ++ List.replicate m none := by
        have hl : (done.map PTree.root).length ≤ done.length := by simp
        rw [List.set_append_right _ _ hl]
        simp [List.replicate_succ, hroot1]
      simp only [setChild, hcell1, hlt, if_true, hset]
      have hframe : ∀ b, h0.length < b → sameCore H1 (H1.set h0.length
          ⟨k, F32.zero, parent, (done ++ [t1]).map PTree.root ++ List.replicate m none⟩) b := by
        intro b hb
        apply sameCore_of_eq
        rw [List.getElem?_set_ne (by omega)]
      have hlen1 : done.length + 1 = (done ++ [t1]).length := by simp
      rw [hlen1]
      have hnext := ihm (done ++ [t1]) (H1.set h0.length
          ⟨k, F32.zero, parent, (done ++ [t1]).map PTree.root ++ List.replicate m none⟩) toks1
        (Extends.set (hext.trans hext1) (le_refl _) _)
        (by rw [List.getElem?_set_eq_of_lt _ (lt_of_lt_of_le hLH hext1.length_le)])
        (by
          rw [RepList_append, Bool.and_eq_true]
          constructor
          · exact RepList_frame H1 _ done (fun b hb => hframe b (haddr b hb))
              (RepList_extends hext1 done hrd)
          · simp only [RepList_cons, RepList_nil, Bool.and_true]
            exact Rep_frame H1 _ t1 (fun b hb => hframe b (by have := haddr1 b hb; omega)) hrep1)
        (by rw [PTree.completeList_append]; simp [hcd, hcomp1])
        (by rw [PTree.arityOkList_append]; simp [had, hao1])
        (by
          intro b hb
          rw [PTree.preorderList_append, List.mem_append] at hb
          rcases hb with hb | hb
          · exact haddr b hb
          · simp only [PTree.preorderList_cons, PTree.preorderList_nil, List.append_nil] at hb
            have := haddr1 b hb; omega)
      obtain ⟨n1, n2, n3⟩ := hnext
      cases hrl : readList (readTree pf fuel) m toks1 with
      | timeout => rw [n1 hrl]; simp
      | panic => rw [n2 hrl]; simp
      | ok a =>
        obtain ⟨cs, rest⟩ := a
        obtain ⟨H2, new, hrun, hext2, hcell2, hrep2, hshape2, hcomp2, hao2, hlen2, haddr2⟩ :=
          n3 cs rest hrl
        refine ⟨by simp, by simp, ?_⟩
        intro cs2 rest2 e
        simp only [Res.ok.injEq, Prod.mk.injEq] at e
        obtain ⟨rfl, rfl⟩ := e
        refine ⟨H2, t1 :: new, hrun, hext2, by simpa using hcell2, by simpa using hrep2,
          by simp [hshape1, hshape2], by simp [hcomp1, hcomp2], by simp [hao1, hao2],
          by simp [hlen2], ?_⟩
        intro b hb
        simp only [PTree.preorderList_cons, List.mem_append] at hb
        rcases hb with hb | hb
        · have := haddr1 b hb; omega
        · exact haddr2 b hb

/-- The function `parse` does what `readTree` tells. -/
theorem parse_spec (pf : List Char → Option F32) : ∀ (fuel : Nat) (h : Heap) (toks : List token)
    (parent : Option Ptr), ParseSpec pf fuel h toks parent := by
  intro fuel
  induction fuel with
  | zero =>
    intro h toks parent
    refine ⟨fun _ => by simp [parse], fun e => by simp [readTree] at e,
      fun T rest e => by simp [readTree] at e⟩
  | succ fuel ih =>
    intro h toks parent
    cases toks with
    | nil =>
      refine ⟨fun e => by simp [readTree] at e, fun _ => by simp [parse],
        fun T rest e => by simp [readTree] at e⟩
    | cons tok toks =>
      have hparen : tok.isParen = true → ParseSpec pf (fuel + 1) h (tok :: toks) parent := by
        intro hp
        unfold ParseSpec
        rw [readTree_paren pf fuel tok toks hp, parse_paren pf fuel h tok toks parent hp]
        exact ih h toks parent
      cases ht : tok.typ with
      | openParen => exact hparen (by simp [token.isParen, ht])
      | closeParen => exact hparen (by simp [token.isParen, ht])
      | constant =>
        unfold ParseSpec
        rw [readTree_constant pf fuel tok toks ht, parse_constant pf fuel h tok toks parent ht]
        cases pf tok.value with
        | none => simp
        | some v =>
          refine ⟨by simp, by simp, ?_⟩
          intro T rest e
          simp only [Res.ok.injEq, Prod.mk.injEq] at e
          obtain ⟨rfl, rfl⟩ := e
          refine ⟨_, .node h.length .OpConstant v [], rfl, Extends.append h _, ?_, rfl, by simp,
            by simp, by simp [Kind.arity], by simp, by simp⟩
          rw [Rep_node_iff]
          exact ⟨⟨.OpConstant, v, parent, []⟩, by simp, rfl, rfl, rfl, by simp⟩
      | op =>
        unfold ParseSpec
        rw [readTree_op pf fuel tok toks ht, parse_op pf fuel h tok toks parent ht]
        cases stringToKind tok.value with
        | none => simp
        | some k =>
          simp only []
          obtain ⟨l1, l2, l3⟩ := parseLoop_spec pf fuel h k parent ih k.arity [] 
            (h ++ [⟨k, F32.zero, parent, List.replicate k.arity none⟩]) toks
            (Extends.append h _) (by simp) (by simp) (by simp) (by simp) (by simp)
          simp only [List.length_nil] at l1 l2 l3
          cases hrl : readList (readTree pf fuel) k.arity toks with
          | timeout => rw [l1 hrl]; simp
          | panic => rw [l2 hrl]; simp
          | ok a =>
            obtain ⟨cs, rest⟩ := a
            obtain ⟨H1, new, hrun, hext, hcell, hrep, hshape, hcomp, hao, hlen, haddr⟩ :=
              l3 cs rest hrl
            rw [hrun]
            refine ⟨by simp, by simp, ?_⟩
            intro T rest2 e
            simp only [Res.ok.injEq, Prod.mk.injEq] at e
            obtain ⟨rfl, rfl⟩ := e
            simp only [List.nil_append] at hcell hrep
            refine ⟨H1, .node h.length k F32.zero new, rfl, hext, ?_, rfl, ?_, by simpa using hcomp,
              by simp [hlen, hao], ?_, by simp [hcell]⟩
            · rw [Rep_node_iff]; exact ⟨_, hcell, rfl, rfl, rfl, hrep⟩
            · simp [hshape]
            · intro b hb
              simp only [PTree.preorder_node, List.mem_cons] at hb
              rcases hb with rfl | hb
              · exact le_refl _
              · exact le_of_lt (haddr b hb)

@[simp] theorem PTree.mapConst_empty (f) : PTree.mapConst f .empty = .empty := by
  simp [PTree.mapConst]
@[simp] theorem PTree.mapConst_node (f a k v cs) : PTree.mapConst f (.node a k v cs) =
    .node a k (if k = Kind.OpConstant then f v else v) (PTree.mapConstList f cs) := by
  simp [PTree.mapConst]
@[simp] theorem PTree.mapConstList_nil (f) : PTree.mapConstList f [] = [] := by
  simp [PTree.mapConstList]
@[simp] theorem PTree.mapConstList_cons (f t ts) :
    PTree.mapConstList f (t :: ts) = PTree.mapConst f t :: PTree.mapConstList f ts := by
  simp [PTree.mapConstList]

theorem PTree.mapConstList_eq_map (f : F32 → F32) (cs : List PTree) :
    PTree.mapConstList f cs = cs.map (PTree.mapConst f) := by
  induction cs with
  | nil => simp
  | cons t ts ih => simp [ih]

theorem PTree.kindsList_congr (cs : List PTree) (g : PTree → PTree)
    (hg : ∀ t ∈ cs, (g t).kinds = t.kinds) : PTree.kindsList (cs.map g) = PTree.kindsList cs := by
  induction cs with
  | nil => simp
  | cons t ts ih =>
    simp only [List.map_cons, PTree.kindsList_cons]
    rw [hg t (List.mem_cons_self _ _), ih (fun u hu => hg u (List.mem_cons_of_mem _ hu))]

/-- The node types stay as they are when the values of the constants change. -/
theorem PTree.kinds_mapConst (f : F32 → F32) : ∀ t : PTree, (t.mapConst f).kinds = t.kinds := by
  intro t
  induction t using PTree.induct with
  | hE => simp
  | hN a k v cs ih =>
    simp only [PTree.mapConst_node, PTree.kinds_node, PTree.mapConstList_eq_map]
    rw [PTree.kindsList_congr cs _ ih]

theorem PTree.shapeList_congr (cs : List PTree) (g : PTree → PTree)
    (hg : ∀ t ∈ cs, (g t).shape = t.shape) : PTree.shapeList (cs.map g) = PTree.shapeList cs := by
  induction cs with
  | nil => simp
  | cons t ts ih =>
    simp only [List.map_cons, PTree.shapeList_cons]
    rw [hg t (List.mem_cons_self _ _), ih (fun u hu => hg u (List.mem_cons_of_mem _ hu))]

/-- Nothing changes when every constant keeps its value. -/
theorem PTree.shape_mapConst_id (f : F32 → F32) : ∀ t : PTree,
    t.allConsts (fun v => decide (f v = v)) = true → (t.mapConst f).shape = t.shape := by
  intro t
  induction t using PTree.induct with
  | hE => simp
  | hN a k v cs ih =>
    intro hall
    simp only [PTree.allConsts_node, Bool.and_eq_true, Bool.or_eq_true, decide_eq_true_eq] at hall
    simp only [PTree.mapConst_node, PTree.shape_node, PTree.mapConstList_eq_map]
    rw [PTree.shapeList_congr cs _
      (fun t ht => ih t ht ((PTree.allConstsList_iff _ cs).mp hall.2 t ht))]
    by_cases hk : k = Kind.OpConstant
    · rcases hall.1 with h | h
      · simp [hk] at h
      · simp [hk, h]
    · simp [hk]

theorem stringToKind_keyword (k : Kind) (hk : k ≠ .OpConstant) :
    stringToKind k.keyword = some k := by
  cases k <;> first | exact absurd rfl hk | rfl

theorem token.readable_paren (pf : List Char → Option F32) (tok : token)
    (hp : tok.isParen = true) : tok.readable pf = true := by
  cases ht : tok.typ <;> simp [token.isParen, token.readable, ht] at hp ⊢

theorem readList_read (pf : List Char → Option F32) (rec : List token → Res (Tree × List token))
    (hrec : ∀ toks T rest, rec toks = .ok (T, rest) →
      ∃ read, toks = read ++ rest ∧ read ≠ [] ∧ ∀ tok ∈ read, tok.readable pf = true) :
    ∀ (k : Nat) (toks : List token) (cs : List Tree) (rest : List token),
      readList rec k toks = .ok (cs, rest) →
      ∃ read, toks = read ++ rest ∧ ∀ tok ∈ read, tok.readable pf = true := by
  intro k
  induction k with
  | zero =>
    intro toks cs rest e
    simp only [readList_zero, Res.ok.injEq, Prod.mk.injEq] at e
    exact ⟨[], by simp [e.2], by simp⟩
  | succ k ih =>
    intro toks cs rest e
    rw [readList_succ] at e
    cases hr : rec toks with
    | timeout => rw [hr] at e; cases e
    | panic => rw [hr] at e; cases e
    | ok a =>
      obtain ⟨c, toks1⟩ := a
      rw [hr] at e
      simp only [] at e
      cases hl : readList rec k toks1 with
      | timeout => rw [hl] at e; cases e
      | panic => rw [hl] at e; cases e
      | ok b =>
        obtain ⟨cs1, rest1⟩ := b
        rw [hl] at e
        simp only [Res.ok.injEq, Prod.mk.injEq] at e
        obtain ⟨_, rfl⟩ := e
        obtain ⟨r1, e1, _, g1⟩ := hrec toks c toks1 hr
        obtain ⟨r2, e2, g2⟩ := ih toks1 cs1 rest1 hl
        refine ⟨r1 ++ r2, by rw [e1, e2]; simp, ?_⟩
        intro tok htok
        rcases List.mem_append.mp htok with h | h
        · exact g1 tok h
        · exact g2 tok h

/-- The tokens that a call takes are the front of the token sequence, at least
one, and every one of them is a token that `parse` can take. -/
theorem readTree_read (pf : List Char → Option F32) : ∀ (fuel : Nat) (toks : List token)
    (T : Tree) (rest : List token), readTree pf fuel toks = .ok (T, rest) →
      ∃ read, toks = read ++ rest ∧ read ≠ [] ∧ ∀ tok ∈ read, tok.readable pf = true := by
  intro fuel
  induction fuel with
  | zero => intro toks T rest e; simp [readTree] at e
  | succ fuel ih =>
    intro toks T rest e
    cases toks with
    | nil => simp [readTree] at e
    | cons tok toks =>
      have hparen : tok.isParen = true →
          ∃ read, tok :: toks = read ++ rest ∧ read ≠ [] ∧ ∀ t ∈ read, t.readable pf = true := by
        intro hp
        rw [readTree_paren pf fuel tok toks hp] at e
        obtain ⟨r, e1, _, g⟩ := ih toks T rest e
        refine ⟨tok :: r, by rw [e1]; simp, by simp, ?_⟩
        intro t ht
        rcases List.mem_cons.mp ht with rfl | ht
        · exact token.readable_paren pf _ hp
        · exact g t ht
      cases ht : tok.typ with
      | openParen => exact hparen (by simp [token.isParen, ht])
      | closeParen => exact hparen (by simp [token.isParen, ht])
      | constant =>
        rw [readTree_constant pf fuel tok toks ht] at e
        cases hv : pf tok.value with
        | none => rw [hv] at e; cases e
        | some v =>
          rw [hv] at e
          simp only [Res.ok.injEq, Prod.mk.injEq] at e
          obtain ⟨_, rfl⟩ := e
          exact ⟨[tok], by simp, by simp, by simp [token.readable, ht, hv]⟩
      | op =>
        rw [readTree_op pf fuel tok toks ht] at e
        cases hk : stringToKind tok.value with
        | none => rw [hk] at e; cases e
        | some k =>
          rw [hk] at e
          simp only [] at e
          cases hl : readList (readTree pf fuel) k.arity toks with
          | timeout => rw [hl] at e; cases e
          | panic => rw [hl] at e; cases e
          | ok b =>
            obtain ⟨cs1, rest1⟩ := b
            rw [hl] at e
            simp only [Res.ok.injEq, Prod.mk.injEq] at e
            obtain ⟨_, rfl⟩ := e
            obtain ⟨r, e1, g⟩ := readList_read pf _ ih k.arity toks cs1 rest1 hl
            refine ⟨tok :: r, by rw [e1]; simp, by simp, ?_⟩
            intro t htm
            rcases List.mem_cons.mp htm with rfl | htm
            · simp [token.readable, ht, hk]
            · exact g t htm

theorem readList_append (rec : List token → Res (Tree × List token)) (extra : List token)
    (hrec : ∀ toks T rest, rec toks = .ok (T, rest) → rec (toks ++ extra) = .ok (T, rest ++ extra)) :
    ∀ (k : Nat) (toks : List token) (cs : List Tree) (rest : List token),
      readList rec k toks = .ok (cs, rest) →
      readList rec k (toks ++ extra) = .ok (cs, rest ++ extra) := by
  intro k
  induction k with
  | zero =>
    intro toks cs rest e
    simp only [readList_zero, Res.ok.injEq, Prod.mk.injEq] at e ⊢
    exact ⟨e.1, by rw [e.2]⟩
  | succ k ih =>
    intro toks cs rest e
    rw [readList_succ] at e ⊢
    cases hr : rec toks with
    | timeout => rw [hr] at e; cases e
    | panic => rw [hr] at e; cases e
    | ok a =>
      obtain ⟨c, toks1⟩ := a
      rw [hr] at e
      rw [hrec toks c toks1 hr]
      simp only [] at e ⊢
      cases hl : readList rec k toks1 with
      | timeout => rw [hl] at e; cases e
      | panic => rw [hl] at e; cases e
      | ok b =>
        obtain ⟨cs1, rest1⟩ := b
        rw [hl] at e
        rw [ih toks1 cs1 rest1 hl]
        simp only [Res.ok.injEq, Prod.mk.injEq] at e ⊢
        exact ⟨e.1, by rw [e.2]⟩

/-- Tokens after those of a tree are left where they are. -/
theorem readTree_append (pf : List Char → Option F32) (extra : List token) :
    ∀ (fuel : Nat) (toks : List token) (T : Tree) (rest : List token),
      readTree pf fuel toks = .ok (T, rest) →
      readTree pf fuel (toks ++ extra) = .ok (T, rest ++ extra) := by
  intro fuel
  induction fuel with
  | zero => intro toks T rest e; simp [readTree] at e
  | succ fuel ih =>
    intro toks T rest e
    cases toks with
    | nil => simp [readTree] at e
    | cons tok toks =>
      rw [List.cons_append]
      have hparen : tok.isParen = true →
          readTree pf (fuel + 1) (tok :: (toks ++ extra)) = .ok (T, rest ++ extra) := by
        intro hp
        rw [readTree_paren pf fuel tok _ hp] at e ⊢
        exact ih toks T rest e
      cases ht : tok.typ with
      | openParen => exact hparen (by simp [token.isParen, ht])
      | closeParen => exact hparen (by simp [token.isParen, ht])
      | constant =>
        rw [readTree_constant pf fuel tok _ ht] at e ⊢
        cases hv : pf tok.value with
        | none => rw [hv] at e; cases e
        | some v =>
          rw [hv] at e
          simp only [Res.ok.injEq, Prod.mk.injEq] at e ⊢
          exact ⟨e.1, by rw [e.2]⟩
      | op =>
        rw [readTree_op pf fuel tok _ ht] at e ⊢
        cases hk : stringToKind tok.value with
        | none => rw [hk] at e; cases e
        | some k =>
          rw [hk] at e
          simp only [] at e ⊢
          cases hl : readList (readTree pf fuel) k.arity toks with
          | timeout => rw [hl] at e; cases e
          | panic => rw [hl] at e; cases e
          | ok b =>
            obtain ⟨cs1, rest1⟩ := b
            rw [hl] at e
            rw [readList_append _ extra ih k.arity toks cs1 rest1 hl]
            simp only [Res.ok.injEq, Prod.mk.injEq] at e ⊢
            exact ⟨e.1, by rw [e.2]⟩

theorem stripParens_append (xs ys : List token) :
    stripParens (xs ++ ys) = stripParens xs ++ stripParens ys := by
  simp [stripParens]

theorem readList_tokens (pf : List Char → Option F32) (f : F32 → F32) (cs : List PTree)
    (ih : ∀ t ∈ cs, ∀ (fuel : Nat) (rest : List token),
      (stripParens t.shape.tokens).length < fuel →
      readTree pf fuel (stripParens t.shape.tokens ++ rest) = .ok ((t.mapConst f).shape, rest)) :
    ∀ (fuel : Nat) (rest : List token),
      (stripParens (Tree.tokensList (PTree.shapeList cs))).length < fuel →
      readList (readTree pf fuel) cs.length
          (stripParens (Tree.tokensList (PTree.shapeList cs)) ++ rest) =
        .ok (PTree.shapeList (cs.map (PTree.mapConst f)), rest) := by
  induction cs with
  | nil => intro fuel rest _; simp [readList_zero, stripParens]
  | cons c cs ihl =>
    intro fuel rest hf
    simp only [PTree.shapeList_cons, Tree.tokensList_cons, stripParens_append,
      List.length_append] at hf
    simp only [PTree.shapeList_cons, Tree.tokensList_cons, stripParens_append, List.length_cons,
      List.append_assoc, List.map_cons]
    rw [readList_succ, ih c (List.mem_cons_self _ _) fuel _ (by omega)]
    simp only []
    rw [ihl (fun t ht => ih t (List.mem_cons_of_mem _ ht)) fuel rest (by omega)]

/-- The tree read off the tokens of a tree is the tree, with what `pf` reads in
the text of a constant for its value. -/
theorem readTree_tokens (pf : List Char → Option F32) (f : F32 → F32) : ∀ (t : PTree),
    t.complete = true → t.arityOk = true →
    t.allConsts (fun v => decide (pf (FormatFloat v) = some (f v))) = true →
    ∀ (fuel : Nat) (rest : List token), (stripParens t.shape.tokens).length < fuel →
      readTree pf fuel (stripParens t.shape.tokens ++ rest) = .ok ((t.mapConst f).shape, rest) := by
  intro t
  induction t using PTree.induct with
  | hE => simp
  | hN a k v cs ih =>
    intro hc hao hall fuel rest hf
    simp only [PTree.complete_node] at hc
    simp only [PTree.arityOk_node, Bool.and_eq_true, decide_eq_true_eq] at hao
    simp only [PTree.allConsts_node, Bool.and_eq_true, Bool.or_eq_true, decide_eq_true_eq] at hall
    obtain ⟨fuel, rfl⟩ : ∃ m, fuel = m + 1 := ⟨fuel - 1, by omega⟩
    simp only [PTree.shape_node, Tree.tokens_node, PTree.mapConst_node] at hf ⊢
    by_cases hk : k = .OpConstant
    · have hv : pf (FormatFloat v) = some (f v) := by
        rcases hall.1 with h | h
        · simp [hk] at h
        · exact h
      have hcs : cs = [] := by
        apply List.eq_nil_of_length_eq_zero
        rw [hao.1, hk]; rfl
      subst hcs
      simp only [hk, if_true]
      have e : stripParens [(⟨.constant, FormatFloat v⟩ : token)] = [⟨.constant, FormatFloat v⟩] := by
        simp [stripParens, token.isParen]
      rw [e, List.singleton_append, readTree_constant pf fuel _ _ rfl]
      simp only [hv, PTree.mapConstList_nil, PTree.shapeList_nil]
    · have ih1 : ∀ t ∈ cs, ∀ (fuel : Nat) (rest : List token),
          (stripParens t.shape.tokens).length < fuel →
          readTree pf fuel (stripParens t.shape.tokens ++ rest) =
            .ok ((t.mapConst f).shape, rest) := by
        intro t ht
        exact ih t ht ((PTree.completeList_iff cs).mp hc t ht)
          ((PTree.arityOkList_iff cs).mp hao.2 t ht)
          ((PTree.allConstsList_iff _ cs).mp hall.2 t ht)
      simp only [hk, if_false] at hf ⊢
      by_cases har : k.arity = 0
      · have hcs : cs = [] := by
          apply List.eq_nil_of_length_eq_zero
          rw [hao.1, har]
        subst hcs
        simp only [har, if_true]
        have e : stripParens [(⟨.op, k.keyword⟩ : token)] = [⟨.op, k.keyword⟩] := by
          simp [stripParens, token.isParen]
        rw [e, List.singleton_append, readTree_op pf fuel _ _ rfl]
        simp only [stringToKind_keyword k hk, har, readList_zero, PTree.mapConstList_nil,
          PTree.shapeList_nil]
      · simp only [har, if_false] at hf ⊢
        have e : stripParens ((⟨.openParen, ['(']⟩ : token) :: ⟨.op, k.keyword⟩ ::
            (Tree.tokensList (PTree.shapeList cs) ++ [⟨.closeParen, [')']⟩])) =
            ⟨.op, k.keyword⟩ :: stripParens (Tree.tokensList (PTree.shapeList cs)) := by
          simp [stripParens, token.isParen]
        rw [e] at hf ⊢
        simp only [List.length_cons] at hf
        rw [List.cons_append, readTree_op pf fuel _ _ rfl]
        simp only [stringToKind_keyword k hk]
        rw [← hao.1, readList_tokens pf f cs ih1 fuel rest (by omega)]
        simp only [PTree.mapConstList_eq_map]

theorem digitChars_cases {c : Char} (hc : digitChars.contains c = true) :
    c ≠ '.' ∧ digitVal c = some (c.toNat - 48) := by
  have : c = '0' ∨ c = '1' ∨ c = '2' ∨ c = '3' ∨ c = '4' ∨ c = '5' ∨ c = '6' ∨ c = '7' ∨
      c = '8' ∨ c = '9' := by
    simpa [digitChars] using hc
  rcases this with rfl | rfl | rfl | rfl | rfl | rfl | rfl | rfl | rfl | rfl <;> decide

theorem digitChar_toNat (d : Nat) (hd : d < 10) : (digitChar d).toNat - 48 = d := by
  interval_cases d <;> decide

/-- The digits are read from left to right into the number. -/
theorem readDecimal_digits : ∀ (ds rest : List Char) (num frac : Nat) (sawdot sd : Bool),
    (∀ x ∈ ds, digitChars.contains x = true) →
    readDecimal (ds ++ rest) num frac sawdot sd =
      readDecimal rest (ds.foldl (fun a c => a * 10 + (c.toNat - 48)) num)
        (if sawdot then frac + ds.length else frac) sawdot (sd || !ds.isEmpty) := by
  intro ds
  induction ds with
  | nil => intro rest num frac sawdot sd _; simp
  | cons c cs ih =>
    intro rest num frac sawdot sd hall
    obtain ⟨h1, h2⟩ := digitChars_cases (hall c (List.mem_cons_self _ _))
    rw [List.cons_append, readDecimal]
    simp only [h1, if_false, h2]
    rw [ih rest _ _ sawdot true (fun x hx => hall x (List.mem_cons_of_mem _ hx))]
    cases sawdot <;> simp [Nat.add_assoc, Nat.add_comm 1]

theorem foldl_decimalDigitsAux : ∀ (fuel n : Nat) (acc : List Char), n < fuel →
    (decimalDigitsAux fuel n acc).foldl (fun a c => a * 10 + (c.toNat - 48)) 0 =
      acc.foldl (fun a c => a * 10 + (c.toNat - 48)) n := by
  intro fuel
  induction fuel with
  | zero => intro n acc h; omega
  | succ fuel ih =>
    intro n acc h
    rw [decimalDigitsAux]
    by_cases hn : n < 10
    · simp [hn, digitChar_toNat n hn]
    · simp only [hn, if_false]
      rw [ih (n / 10) _ (by omega)]
      simp only [List.foldl_cons, digitChar_toNat (n % 10) (Nat.mod_lt _ (by decide))]
      congr 1
      omega

theorem foldl_decimalDigits (n : Nat) :
    (decimalDigits n).foldl (fun a c => a * 10 + (c.toNat - 48)) 0 = n := by
  unfold decimalDigits
  rw [foldl_decimalDigitsAux (n + 1) n [] (by omega)]
  rfl

theorem foldl_padDigits : ∀ (k n a : Nat),
    (padDigits k n).foldl (fun a c => a * 10 + (c.toNat - 48)) a = a * 10 ^ k + n % 10 ^ k := by
  intro k
  induction k with
  | zero => intro n a; simp [padDigits, Nat.mod_one]
  | succ k ih =>
    intro n a
    rw [padDigits, List.foldl_append, ih]
    simp only [List.foldl_cons, List.foldl_nil, digitChar_toNat (n % 10) (Nat.mod_lt _ (by decide))]
    have h1 : n % 10 ^ (k + 1) = n % 10 + 10 * (n / 10 % 10 ^ k) := by
      rw [pow_succ, Nat.mul_comm, Nat.mod_mul]
    rw [h1, pow_succ]
    ring

theorem padDigits_length : ∀ (k n : Nat), (padDigits k n).length = k := by
  intro k
  induction k with
  | zero => intro n; simp [padDigits]
  | succ k ih => intro n; simp [padDigits, ih]

theorem decimalDigits_all (n : Nat) : (∀ x ∈ decimalDigits n, digitChars.contains x = true) ∧
    decimalDigits n ≠ [] := by
  obtain ⟨d, ds, h1, h2, h3⟩ := decimalDigits_spec n
  rw [h1]
  refine ⟨?_, by simp⟩
  intro x hx
  rcases List.mem_cons.mp hx with rfl | hx
  · exact digitChar_mem d h2
  · exact h3 x hx

/-- The decimal that `FormatFloat` writes is read back as the number written. -/
theorem readDecimal_format (s : Nat) :
    readDecimal (decimalDigits (s / 10 ^ 9) ++ ['.'] ++ padDigits 9 (s % 10 ^ 9)) 0 0 false false =
      some (s, 9) := by
  rw [List.append_assoc, readDecimal_digits _ _ 0 0 false false (decimalDigits_all _).1]
  simp only [foldl_decimalDigits, List.singleton_append, Bool.false_eq_true, if_false]
  rw [readDecimal]
  simp only [if_true, Bool.false_eq_true, if_false]
  have := readDecimal_digits (padDigits 9 (s % 10 ^ 9)) [] (s / 10 ^ 9) 0 true
    (false || !(decimalDigits (s / 10 ^ 9)).isEmpty) (padDigits_spec 9 _)
  rw [List.append_nil] at this
  rw [this, foldl_padDigits, padDigits_length]
  have hne := (decimalDigits_all (s / 10 ^ 9)).2
  have hs : s / 10 ^ 9 * 10 ^ 9 + s % 10 ^ 9 % 10 ^ 9 = s := by
    rw [Nat.mod_mod]
    exact Nat.div_add_mod' s (10 ^ 9)
  rw [hs]
  have hne2 : decimalDigits (s / 1000000000) ≠ [] := hne
  simp [readDecimal, hne2]

theorem roundHalfEven_le (a d k : Nat) (hd : 0 < d) (h : a ≤ k * d) : roundHalfEven a d ≤ k := by
  have hq : a / d ≤ k := Nat.div_le_of_le_mul (by rw [Nat.mul_comm]; exact h)
  have hdm := Nat.div_add_mod a d
  have hstrict : 2 * (a % d) ≥ d → a / d + 1 ≤ k := by
    intro hr
    have hpos : 0 < a % d := by omega
    have h1 : a / d * d < k * d := by
      rw [Nat.mul_comm (a / d)]; omega
    have h2 : a / d < k := Nat.lt_of_mul_lt_mul_right h1
    omega
  unfold roundHalfEven
  simp only
  split_ifs
  · exact hq
  · exact hstrict (by omega)
  · exact hq
  · exact hstrict (by omega)

theorem findExp_le (num den : Nat) : ∀ (fuel : Nat) (q Q : Int), q ≤ Q → Q < q + fuel →
    (if 0 ≤ Q then num / (den * 2 ^ Q.toNat) else num * 2 ^ (-Q).toNat / den) < 2 ^ 24 →
    findExp fuel q num den ≤ Q := by
  intro fuel
  induction fuel with
  | zero => intro q Q h1 h2 _; simp at h2; omega
  | succ fuel ih =>
    intro q Q h1 h2 ht
    rw [findExp]
    by_cases hq : (if 0 ≤ q then num / (den * 2 ^ q.toNat) else num * 2 ^ (-q).toNat / den) < 2 ^ 24
    · rw [if_pos hq]; exact h1
    · rw [if_neg hq]
      have hne : q ≠ Q := by
        intro e; subst e; exact hq ht
      exact ih (q + 1) Q (by omega) (by push_cast at h2 ⊢; omega) ht

/-- No overflow: a decimal of at most the greatest finite `float32` is read. -/
theorem roundToF32_isSome (neg : Bool) (num den : Nat) (hd : 0 < den)
    (h : num ≤ (2 ^ 24 - 1) * 2 ^ 104 * den) : (roundToF32 neg num den).isSome = true := by
  have hX : 0 < den * 2 ^ 104 := by positivity
  have hlt : num < 2 ^ 24 * (den * 2 ^ 104) := by
    have h1 : (2 ^ 24 - 1) * (den * 2 ^ 104) < 2 ^ 24 * (den * 2 ^ 104) :=
      Nat.mul_lt_mul_of_pos_right (by norm_num) hX
    have h2 : (2 ^ 24 - 1) * 2 ^ 104 * den = (2 ^ 24 - 1) * (den * 2 ^ 104) := by
      rw [Nat.mul_assoc, Nat.mul_comm (2 ^ 104)]
    omega
  have htest : (if (0 : Int) ≤ 104 then num / (den * 2 ^ (104 : Int).toNat)
      else num * 2 ^ (-(104 : Int)).toNat / den) < 2 ^ 24 := by
    rw [if_pos (by decide), show (104 : Int).toNat = 104 by rfl]
    exact (Nat.div_lt_iff_lt_mul hX).mpr hlt
  have hq := findExp_le num den 254 (-149) 104 (by decide) (by decide) htest
  unfold roundToF32
  by_cases h0 : num = 0
  · simp [h0]
  · simp only [h0, if_false]
    by_cases hm : (if 0 ≤ findExp 254 (-149) num den
        then roundHalfEven num (den * 2 ^ (findExp 254 (-149) num den).toNat)
        else roundHalfEven (num * 2 ^ (-findExp 254 (-149) num den).toNat) den) = 2 ^ 24
    · simp only [hm, if_true]
      have hlt : findExp 254 (-149) num den ≠ 104 := by
        intro e
        rw [e, if_pos (by decide), show (104 : Int).toNat = 104 by rfl] at hm
        have := roundHalfEven_le num (den * 2 ^ 104) (2 ^ 24 - 1) hX
          (by rw [Nat.mul_comm den, ← Nat.mul_assoc]; exact h)
        omega
      have : ¬ (104 < findExp 254 (-149) num den + 1) := by omega
      simp only [this, if_false]
      split_ifs <;> rfl
    · simp only [hm, if_false]
      have : ¬ (104 < findExp 254 (-149) num den) := by omega
      simp only [this, if_false]
      split_ifs <;> rfl

/-- The scaled value of a finite `float32` is at most that of the greatest one. -/
theorem F32.scaled9_le (v : F32) (hv : v.isFinite = true) :
    v.scaled9 ≤ (2 ^ 24 - 1) * 2 ^ 104 * 10 ^ 9 := by
  have hexp : v.bits / 2 ^ 23 % 256 ≠ 255 := by simpa [F32.isFinite] using hv
  have hexp2 : v.bits / 2 ^ 23 % 256 < 256 := Nat.mod_lt _ (by decide)
  have hmant : v.bits % 2 ^ 23 < 2 ^ 23 := Nat.mod_lt _ (by positivity)
  unfold F32.scaled9
  simp only
  have hm : (if v.bits / 2 ^ 23 % 256 = 0 then v.bits % 2 ^ 23 else v.bits % 2 ^ 23 + 2 ^ 23) ≤
      2 ^ 24 - 1 := by
    split_ifs <;> omega
  have hle : ((if v.bits / 2 ^ 23 % 256 = 0 then (1 : Int) else ((v.bits / 2 ^ 23 % 256 : Nat) : Int))
      - 127 - 23).toNat ≤ 104 := by
    split_ifs <;> omega
  generalize (if v.bits / 2 ^ 23 % 256 = 0 then v.bits % 2 ^ 23 else v.bits % 2 ^ 23 + 2 ^ 23) = m
    at hm ⊢
  generalize ((if v.bits / 2 ^ 23 % 256 = 0 then (1 : Int) else ((v.bits / 2 ^ 23 % 256 : Nat) : Int))
      - 127 - 23) = e at hle ⊢
  by_cases he : 0 ≤ e
  · rw [if_pos he]
    have hp : 2 ^ e.toNat ≤ 2 ^ 104 := Nat.pow_le_pow_right (by decide) hle
    exact Nat.mul_le_mul_right _ (Nat.mul_le_mul hm hp)
  · rw [if_neg he]
    have h1 := roundHalfEven_le (m * 10 ^ 9) (2 ^ (-e).toNat) (m * 10 ^ 9) (by positivity)
      (Nat.le_mul_of_pos_right _ (by positivity))
    refine le_trans h1 ?_
    have h2 : m * 10 ^ 9 ≤ (2 ^ 24 - 1) * 10 ^ 9 := Nat.mul_le_mul_right _ hm
    have h3 : (2 ^ 24 - 1) * 10 ^ 9 ≤ (2 ^ 24 - 1) * 2 ^ 104 * 10 ^ 9 :=
      Nat.mul_le_mul_right _ (Nat.le_mul_of_pos_right _ (by positivity))
    exact le_trans h2 h3

theorem ParseFloat_minus (r : List Char) (num frac : Nat)
    (hr : readDecimal r 0 0 false false = some (num, frac)) :
    ParseFloat ('-' :: r) = roundToF32 true num (10 ^ frac) := by
  unfold ParseFloat
  split
  · rename_i neg rest heq
    split at heq
    · rename_i r2 hc
      simp only [List.cons.injEq, true_and] at hc
      simp only [Prod.mk.injEq] at heq
      obtain ⟨rfl, rfl⟩ := heq
      rw [← hc, hr]
    · rename_i r2 hc
      simp only [List.cons.injEq] at hc
      exact absurd hc.1 (by decide)
    · rename_i hno _
      exact absurd rfl (hno r)

theorem ParseFloat_digit (d : Nat) (hd : d < 10) (r : List Char) (num frac : Nat)
    (hr : readDecimal (digitChar d :: r) 0 0 false false = some (num, frac)) :
    ParseFloat (digitChar d :: r) = roundToF32 false num (10 ^ frac) := by
  have hne := digitChar_start d hd
  have hne2 : digitChar d ≠ '+' := by
    interval_cases d <;> decide
  generalize digitChar d = c at hr hne hne2
  unfold ParseFloat
  split
  · rename_i neg rest heq
    split at heq
    · rename_i r2 hc
      simp only [List.cons.injEq] at hc
      exact absurd hc.1 hne.2
    · rename_i r2 hc
      simp only [List.cons.injEq] at hc
      exact absurd hc.1 hne2
    · simp only [Prod.mk.injEq] at heq
      obtain ⟨rfl, rfl⟩ := heq
      rw [hr]

/-- The text of a finite constant is read back as the nearest `float32` of the
decimal written. -/
theorem ParseFloat_FormatFloat (v : F32) (hv : v.isFinite = true) :
    ParseFloat (FormatFloat v) = roundToF32 (v.bits / 2 ^ 31 != 0) v.scaled9 (10 ^ 9) := by
  have hexp : ¬ (v.bits / 2 ^ 23 % 256 = 255) := by
    simpa [F32.isFinite] using hv
  have hread := readDecimal_format v.scaled9
  simp only [FormatFloat, hexp, if_false]
  by_cases hneg : v.bits / 2 ^ 31 = 0
  · have e : (v.bits / 2 ^ 31 != 0) = false := by rw [hneg]; rfl
    rw [e]
    simp only [Bool.false_eq_true, if_false, List.nil_append]
    obtain ⟨d, ds, h1, h2, h3⟩ := decimalDigits_spec (v.scaled9 / 10 ^ 9)
    rw [h1] at hread ⊢
    simp only [List.cons_append] at hread ⊢
    exact ParseFloat_digit d h2 _ _ _ hread
  · have e : (v.bits / 2 ^ 31 != 0) = true := by simpa using hneg
    rw [e]
    simp only [if_true, List.cons_append, List.nil_append, List.append_assoc]
    exact ParseFloat_minus _ _ _ (by simpa using hread)

/-- The text of a finite constant is a number that `ParseFloat` reads. -/
theorem ParseFloat_FormatFloat_isSome (v : F32) (hv : v.isFinite = true) :
    (ParseFloat (FormatFloat v)).isSome = true := by
  rw [ParseFloat_FormatFloat v hv]
  exact roundToF32_isSome _ _ _ (by positivity) (F32.scaled9_le v hv)

theorem PTree.shapeList_len (cs : List PTree) : (PTree.shapeList cs).length = cs.length := by
  induction cs with
  | nil => simp
  | cons t ts ih => simp [ih]

theorem PTree.mem_kindsList {cs : List PTree} {k : Kind} :
    k ∈ PTree.kindsList cs ↔ ∃ t ∈ cs, k ∈ t.kinds := by
  induction cs with
  | nil => simp
  | cons t ts ih => simp [ih]

/-- The value of a tree without a Picture node, with every slot filled: `Eval`
returns it for every tree of the same shape, in every store. -/
theorem Eval_shape (ops : FloatOps) (x y : F32) : ∀ (t : PTree), t.complete = true →
    t.arityOk = true → Kind.OpPicture ∉ t.kinds →
    ∃ r, ∀ (h : Heap) (u : PTree) (fuel : Nat), Rep h u = true → u.shape = t.shape →
      u.depth < fuel → Node.Eval ops fuel h u.root x y = some r := by
  intro t
  induction t using PTree.induct with
  | hE => simp
  | hN a k v cs ih =>
    intro hc hao hpic
    simp only [PTree.complete_node] at hc
    simp only [PTree.arityOk_node, Bool.and_eq_true, decide_eq_true_eq] at hao
    simp only [PTree.kinds_node, List.mem_cons, not_or] at hpic
    have ih1 : ∀ t ∈ cs, ∃ r, ∀ (h : Heap) (u : PTree) (fuel : Nat), Rep h u = true →
        u.shape = t.shape → u.depth < fuel → Node.Eval ops fuel h u.root x y = some r := by
      intro t ht
      refine ih t ht ((PTree.completeList_iff cs).mp hc t ht)
        ((PTree.arityOkList_iff cs).mp hao.2 t ht) ?_
      intro hm
      exact hpic.2 (PTree.mem_kindsList.mpr ⟨t, ht, hm⟩)
    -- the node of `u`
    have hnode : ∀ (h : Heap) (u : PTree) (fuel : Nat), Rep h u = true →
        u.shape = (PTree.node a k v cs).shape → u.depth < fuel →
        ∃ a1 v1 cs1 c fuel1, u = .node a1 k v1 cs1 ∧ fuel = fuel1 + 1 ∧ h[a1]? = some c ∧
          c.typ = k ∧ (k = Kind.OpConstant → c.value = v) ∧ c.Children = cs1.map PTree.root ∧
          PTree.shapeList cs1 = PTree.shapeList cs ∧ RepList h cs1 = true ∧
          PTree.depthList cs1 < fuel1 := by
      intro h u fuel hr hs hd
      cases u with
      | empty => simp at hs
      | node a1 k1 v1 cs1 =>
        simp only [PTree.shape_node, Tree.node.injEq] at hs
        obtain ⟨rfl, hv, hcs⟩ := hs
        obtain ⟨c, hca, hk, hcv, hch, hrl⟩ := (Rep_node_iff h a1 k1 v1 cs1).mp hr
        simp only [PTree.depth_node] at hd
        refine ⟨a1, v1, cs1, c, fuel - 1, rfl, by omega, hca, hk, ?_, hch, hcs, hrl, by omega⟩
        intro hkc
        simpa [hkc, hcv] using hv
    cases k <;> simp only [Kind.arity] at hao
    case OpPicture => exact absurd rfl hpic.1
    case OpX =>
      refine ⟨x, ?_⟩
      intro h u fuel hr hs hd
      obtain ⟨a1, v1, cs1, c, fuel1, rfl, rfl, hca, hk, hv, hch, hcs, hrl, hdl⟩ :=
        hnode h u fuel hr hs hd
      simp only [PTree.root_node, Node.Eval, hca, hk]
    case OpY =>
      refine ⟨y, ?_⟩
      intro h u fuel hr hs hd
      obtain ⟨a1, v1, cs1, c, fuel1, rfl, rfl, hca, hk, hv, hch, hcs, hrl, hdl⟩ :=
        hnode h u fuel hr hs hd
      simp only [PTree.root_node, Node.Eval, hca, hk]
    case OpConstant =>
      refine ⟨v, ?_⟩
      intro h u fuel hr hs hd
      obtain ⟨a1, v1, cs1, c, fuel1, rfl, rfl, hca, hk, hv, hch, hcs, hrl, hdl⟩ :=
        hnode h u fuel hr hs hd
      simp only [PTree.root_node, Node.Eval, hca, hk, hv rfl]
    case OpNegate | OpCeil | OpSin | OpCos | OpFloor | OpLog | OpWrap | OpAbs | OpAtan | OpGamma =>
      obtain ⟨c0, rfl⟩ := List.length_eq_one.mp hao.1
      obtain ⟨r0, h0⟩ := ih1 c0 (by simp)
      apply Exists.intro
      intro h u fuel hr hs hd
      obtain ⟨a1, v1, cs1, c, fuel1, rfl, rfl, hca, hk, hv, hch, hcs, hrl, hdl⟩ :=
        hnode h u fuel hr hs hd
      obtain ⟨d0, rfl⟩ := List.length_eq_one.mp
        (by rw [← PTree.shapeList_len, hcs]; rfl : cs1.length = 1)
      simp only [PTree.shapeList_cons, PTree.shapeList_nil, List.cons.injEq, and_true] at hcs
      simp only [RepList_cons, RepList_nil, Bool.and_true] at hrl
      simp only [PTree.depthList_cons, PTree.depthList_nil] at hdl
      have e0 := h0 h d0 fuel1 hrl hcs (by omega)
      simp only [PTree.root_node, Node.Eval, hca, hk, hch, List.map_cons, List.map_nil,
        List.getElem?_cons_zero, e0]
      rfl
    case OpPlus | OpMinus | OpMult | OpDiv | OpClip | OpSquare | OpNoise | OpHypot =>
      obtain ⟨c0, c1, rfl⟩ := List.length_eq_two.mp hao.1
      obtain ⟨r0, h0⟩ := ih1 c0 (by simp)
      obtain ⟨r1, h1⟩ := ih1 c1 (by simp)
      apply Exists.intro
      intro h u fuel hr hs hd
      obtain ⟨a1, v1, cs1, c, fuel1, rfl, rfl, hca, hk, hv, hch, hcs, hrl, hdl⟩ :=
        hnode h u fuel hr hs hd
      obtain ⟨d0, d1, rfl⟩ := List.length_eq_two.mp
        (by rw [← PTree.shapeList_len, hcs]; rfl : cs1.length = 2)
      simp only [PTree.shapeList_cons, PTree.shapeList_nil, List.cons.injEq, and_true] at hcs
      simp only [RepList_cons, RepList_nil, Bool.and_true, Bool.and_eq_true] at hrl
      simp only [PTree.depthList_cons, PTree.depthList_nil] at hdl
      have e0 := h0 h d0 fuel1 hrl.1 hcs.1 (by omega)
      have e1 := h1 h d1 fuel1 hrl.2 hcs.2 (by omega)
      simp only [PTree.root_node, Node.Eval, hca, hk, hch, List.map_cons, List.map_nil,
        List.getElem?_cons_zero, List.getElem?_cons_succ, e0, e1]
      rfl
    case OpLerp | OpFBM | OpTurbulence =>
      obtain ⟨c0, c1, c2, rfl⟩ := List.length_eq_three.mp hao.1
      obtain ⟨r0, h0⟩ := ih1 c0 (by simp)
      obtain ⟨r1, h1⟩ := ih1 c1 (by simp)
      obtain ⟨r2, h2⟩ := ih1 c2 (by simp)
      apply Exists.intro
      intro h u fuel hr hs hd
      obtain ⟨a1, v1, cs1, c, fuel1, rfl, rfl, hca, hk, hv, hch, hcs, hrl, hdl⟩ :=
        hnode h u fuel hr hs hd
      obtain ⟨d0, d1, d2, rfl⟩ := List.length_eq_three.mp
        (by rw [← PTree.shapeList_len, hcs]; rfl : cs1.length = 3)
      simp only [PTree.shapeList_cons, PTree.shapeList_nil, List.cons.injEq, and_true] at hcs
      simp only [RepList_cons, RepList_nil, Bool.and_true, Bool.and_eq_true] at hrl
      simp only [PTree.depthList_cons, PTree.depthList_nil] at hdl
      have e0 := h0 h d0 fuel1 hrl.1 hcs.1 (by omega)
      have e1 := h1 h d1 fuel1 hrl.2.1 hcs.2.1 (by omega)
      have e2 := h2 h d2 fuel1 hrl.2.2 hcs.2.2 (by omega)
      simp only [PTree.root_node, Node.Eval, hca, hk, hch, List.map_cons, List.map_nil,
        List.getElem?_cons_zero, List.getElem?_cons_succ, e0, e1, e2]
      rfl

theorem PTree.allConsts_mono (P Q : F32 → Bool) (hPQ : ∀ v, P v = true → Q v = true) :
    ∀ t : PTree, t.allConsts P = true → t.allConsts Q = true := by
  intro t
  induction t using PTree.induct with
  | hE => simp
  | hN a k v cs ih =>
    intro hall
    simp only [PTree.allConsts_node, Bool.and_eq_true, Bool.or_eq_true] at hall ⊢
    refine ⟨?_, ?_⟩
    · rcases hall.1 with h | h
      · exact Or.inl h
      · exact Or.inr (hPQ v h)
    · rw [PTree.allConstsList_iff] at hall ⊢
      exact fun t ht => ih t ht (hall.2 t ht)

/-- Only the text of a finite value is a number that `ParseFloat` reads. -/
theorem isFinite_of_ParseFloat (v : F32) (hp : (ParseFloat (FormatFloat v)).isSome = true) :
    v.isFinite = true := by
  by_contra hfin
  have hexp : v.bits / 2 ^ 23 % 256 = 255 := by
    simpa [F32.isFinite] using hfin
  simp only [FormatFloat, hexp, if_true] at hp
  split_ifs at hp
  · exact absurd hp (by decide)
  · exact absurd hp (by decide)
  · exact absurd hp (by decide)

/-- The function `parseTokens` on the tokens of a tree: a new tree, the same but
for the values of the constants, which are what `pf` reads in their texts. -/
theorem parseTokens_tokens (pf : List Char → Option F32) (f : F32 → F32) (h : Heap) (t : PTree)
    (hc : t.complete = true) (hao : t.arityOk = true)
    (hall : t.allConsts (fun v => decide (pf (FormatFloat v) = some (f v))) = true) :
    ∃ h1 u, parseTokens pf h t.shape.tokens = .ok (h1, h.length) ∧ Extends h h1 ∧
      Rep h1 u = true ∧ u.root = some h.length ∧ u.shape = (t.mapConst f).shape ∧
      u.complete = true ∧ u.arityOk = true := by
  have hrt := readTree_tokens pf f t hc hao hall ((stripParens t.shape.tokens).length + 1) []
    (by omega)
  rw [List.append_nil] at hrt
  obtain ⟨-, -, s3⟩ := parse_spec pf ((stripParens t.shape.tokens).length + 1) h
    (stripParens t.shape.tokens) none
  obtain ⟨h1, u, hp, hext, hrep, hroot, hshape, hcomp, harity, -, -⟩ := s3 _ _ hrt
  refine ⟨h1, u, ?_, hext, hrep, hroot, hshape, hcomp, harity⟩
  rw [← parseTokens_strip]
  unfold parseTokens
  rw [hp]

/-- A call of `parse` that returns has read a tree. -/
theorem readTree_of_parse (pf : List Char → Option F32) (fuel : Nat) (h : Heap)
    (toks : List token) (parent : Option Ptr) (h1 : Heap) (n : Ptr) (rest : List token)
    (hp : parse pf fuel h toks parent = .ok (h1, n, rest)) :
    ∃ T u, readTree pf fuel toks = .ok (T, rest) ∧ Rep h1 u = true ∧ u.root = some n ∧
      u.complete = true ∧ u.arityOk = true ∧ u.shape = T ∧ Extends h h1 := by
  obtain ⟨s1, s2, s3⟩ := parse_spec pf fuel h toks parent
  cases hr : readTree pf fuel toks with
  | timeout => rw [s1 hr] at hp; cases hp
  | panic => rw [s2 hr] at hp; cases hp
  | ok a =>
    obtain ⟨T, rest2⟩ := a
    obtain ⟨h2, u, hp2, hext, hrep, hroot, hshape, hcomp, harity, -, -⟩ := s3 T rest2 hr
    rw [hp2] at hp
    simp only [Res.ok.injEq, Prod.mk.injEq] at hp
    obtain ⟨rfl, rfl, rfl⟩ := hp
    exact ⟨T, u, rfl, hrep, hroot, hcomp, harity, hshape, hext⟩

/-- C1. Structural round trip. For a tree held by the store with every child slot
filled, every node with the slots of its type and every constant finite,
`BeginLexing(t.String())` returns a new tree with the same node type at every
pre-order position, every slot filled and every node with the slots of its type:
it is `t` but for the values of the constants, each of which is what `ParseFloat`
reads in the text of the old value. The tree `t` is still held by the store. -/
theorem C1_structural_round_trip (h : Heap) (t : PTree) (hc : t.complete = true)
    (hao : t.arityOk = true) (hfin : t.allConsts F32.isFinite = true) (hr : Rep h t = true)
    (fuel : Nat) (hf : t.depth < fuel) :
    ∃ text h1 n u, Node.String fuel h t.root = some text ∧ BeginLexing h text = .ok (h1, n) ∧
      Rep h1 u = true ∧ u.root = some n ∧ u.kinds = t.kinds ∧
      u.shape = (t.mapConst (fun v => (ParseFloat (FormatFloat v)).getD F32.zero)).shape ∧
      u.complete = true ∧ u.arityOk = true ∧ Rep h1 t = true := by
  have hall : t.allConsts (fun v => decide (ParseFloat (FormatFloat v) =
      some ((fun v => (ParseFloat (FormatFloat v)).getD F32.zero) v))) = true := by
    refine PTree.allConsts_mono _ _ ?_ t hfin
    intro v hv
    have := ParseFloat_FormatFloat_isSome v hv
    obtain ⟨w, hw⟩ := Option.isSome_iff_exists.mp this
    simp [hw]
  obtain ⟨h1, u, hp, hext, hrep, hroot, hshape, hcomp, harity⟩ :=
    parseTokens_tokens ParseFloat _ h t hc hao hall
  obtain ⟨-, -, -, hk, -⟩ := shape_eq_imp u _ hshape
  refine ⟨t.shape.render, h1, h.length, u, String_spec h t hc hao hr fuel hf, ?_, hrep, hroot, ?_,
    hshape, hcomp, harity, Rep_extends hext t hr⟩
  · unfold BeginLexing
    rw [lex_render t hc hao hfin, hp]
  · rw [hk, PTree.kinds_mapConst]

theorem C1_structural_round_trip_witness :
    ∃ text h1 n u, Node.String 3 heapPlusXHalf treePlusXHalf.root = some text ∧
      BeginLexing heapPlusXHalf text = .ok (h1, n) ∧
      Rep h1 u = true ∧ u.root = some n ∧ u.kinds = treePlusXHalf.kinds ∧
      u.shape =
        (treePlusXHalf.mapConst (fun v => (ParseFloat (FormatFloat v)).getD F32.zero)).shape ∧
      u.complete = true ∧ u.arityOk = true ∧ Rep h1 treePlusXHalf = true :=
  C1_structural_round_trip heapPlusXHalf treePlusXHalf (by decide) (by decide) (by decide)
    (by decide) 3 (by decide)

/-- C2, counterexample. The constant 2^-23 is written `0.000000119`, which is read
back as another `float32`: the tree read evaluates to a value that is not the
value of the tree written, at every coordinate. -/
theorem C2_constant_not_read_back :
    Node.String 1 heapEps (some 0) = some "0.000000119".toList ∧
    BeginLexing heapEps "0.000000119".toList =
      .ok (heapEps ++ [⟨.OpConstant, ⟨872385777⟩, none, []⟩], 1) ∧
    ∀ (ops : FloatOps) (x y : F32),
      Node.Eval ops 1 heapEps (some 0) x y = some ⟨872415232⟩ ∧
      Node.Eval ops 1 (heapEps ++ [⟨.OpConstant, ⟨872385777⟩, none, []⟩]) (some 1) x y =
        some ⟨872385777⟩ ∧
      Node.Eval ops 1 (heapEps ++ [⟨.OpConstant, ⟨872385777⟩, none, []⟩]) (some 1) x y ≠
        Node.Eval ops 1 heapEps (some 0) x y := by
  refine ⟨by decide, by decide, ?_⟩
  intro ops x y
  have e1 : Node.Eval ops 1 heapEps (some 0) x y = some ⟨872415232⟩ := by
    simp [Node.Eval, heapEps]
  have e2 : Node.Eval ops 1 (heapEps ++ [⟨.OpConstant, ⟨872385777⟩, none, []⟩]) (some 1) x y =
      some ⟨872385777⟩ := by
    simp [Node.Eval, heapEps]
  refine ⟨e1, e2, ?_⟩
  rw [e1, e2]
  decide

/-- C2, amended. Evaluation round trip. For a tree held by the store with every
child slot filled, every node with the slots of its type, no Picture node, and
every constant of a value `v` that `ParseFloat` reads back from the text of `v`,
`BeginLexing(t.String())` returns a tree that evaluates to the value of `t`, bit
for bit, at every coordinate. -/
theorem C2_eval_round_trip (h : Heap) (t : PTree)
    (hc : t.complete = true) (hao : t.arityOk = true) (hpic : Kind.OpPicture ∉ t.kinds)
    (hback : t.allConsts (fun v => decide (ParseFloat (FormatFloat v) = some v)) = true)
    (hr : Rep h t = true) (fuel : Nat) (hf : t.depth < fuel) :
    ∃ text h1 n, Node.String fuel h t.root = some text ∧ BeginLexing h text = .ok (h1, n) ∧
      ∀ (ops : FloatOps) (x y : F32), ∃ r, Node.Eval ops fuel h t.root x y = some r ∧
        Node.Eval ops fuel h1 (some n) x y = some r := by
  have hfin : t.allConsts F32.isFinite = true := by
    refine PTree.allConsts_mono _ _ ?_ t hback
    intro v hv
    apply isFinite_of_ParseFloat
    simp only [decide_eq_true_eq] at hv
    rw [hv]; rfl
  obtain ⟨h1, u, hp, hext, hrep, hroot, hshape, hcomp, harity⟩ :=
    parseTokens_tokens ParseFloat (fun v => v) h t hc hao hback
  have hshape2 : u.shape = t.shape := by
    rw [hshape]
    exact PTree.shape_mapConst_id _ t
      (PTree.allConsts_mono _ _ (fun v _ => by simp) t hback)
  obtain ⟨hd, -, -, -, -⟩ := shape_eq_imp u t hshape2
  refine ⟨t.shape.render, h1, h.length, String_spec h t hc hao hr fuel hf, ?_, ?_⟩
  · unfold BeginLexing
    rw [lex_render t hc hao hfin, hp]
  · intro ops x y
    obtain ⟨r, hev⟩ := Eval_shape ops x y t hc hao hpic
    refine ⟨r, hev h t fuel hr rfl hf, ?_⟩
    rw [← hroot]
    exact hev h1 u fuel hrep hshape2 (by rw [hd]; exact hf)

theorem C2_eval_round_trip_witness :
    ∃ text h1 n, Node.String 3 heapPlusXHalf treePlusXHalf.root = some text ∧
      BeginLexing heapPlusXHalf text = .ok (h1, n) ∧
      ∀ (ops : FloatOps) (x y : F32),
        ∃ r, Node.Eval ops 3 heapPlusXHalf treePlusXHalf.root x y = some r ∧
          Node.Eval ops 3 h1 (some n) x y = some r :=
  C2_eval_round_trip heapPlusXHalf treePlusXHalf (by decide) (by decide) (by decide)
    (by decide) (by decide) 3 (by decide)

/-- C3, counterexample. The token stream `X Foo` has the identifier `Foo`, which
is not a keyword, and `parse` returns the leaf `X`: the token `Foo` is left in the
channel, unread. -/
theorem C3_trailing_token_unread :
    stringToKind "Foo".toList = none ∧
    parse ParseFloat 3 [] [⟨.op, "X".toList⟩, ⟨.op, "Foo".toList⟩] none =
      .ok ([⟨.OpX, F32.zero, none, []⟩], 0, [⟨.op, "Foo".toList⟩]) := by
  decide

/-- C3, amended. For every token stream, with one unit of fuel for each token and
one more, `parse` panics or returns a tree in which every node has as many
children as the arity of its type and no child slot is empty. It returns only
when every token that it has taken from the stream is a parenthesis, a keyword
of `stringToNode` or a number that `pf` reads: it panics when one of them is
another identifier or a malformed number. It panics on every stream that ends
before the last token taken: no partly built tree is returned. The tokens after
the first complete tree are left in the channel, unread. -/
theorem C3_parse (pf : List Char → Option F32) (fuel : Nat) (h : Heap) (toks : List token)
    (parent : Option Ptr) (hfuel : toks.length < fuel) :
    parse pf fuel h toks parent = .panic ∨
    ∃ h1 n rest u read, parse pf fuel h toks parent = .ok (h1, n, rest) ∧ toks = read ++ rest ∧
      Rep h1 u = true ∧ u.root = some n ∧ u.complete = true ∧ u.arityOk = true ∧
      (∀ tok ∈ read, tok.readable pf = true) ∧
      (∀ short, short <+: read → short ≠ read → parse pf fuel h short parent = .panic) := by
  rcases parse_strip pf fuel h toks parent hfuel with ⟨hp, -⟩ | ⟨h1, n, rest, hp, -, -⟩
  · exact Or.inl hp
  · right
    obtain ⟨T, u, hrt, hrep, hroot, hcomp, harity, -, -⟩ :=
      readTree_of_parse pf fuel h toks parent h1 n rest hp
    obtain ⟨read, hread, -, hgood⟩ := readTree_read pf fuel toks T rest hrt
    refine ⟨h1, n, rest, u, read, hp, hread, hrep, hroot, hcomp, harity, hgood, ?_⟩
    intro short hpre hne
    obtain ⟨ext, hext⟩ := hpre
    have hlen : short.length < read.length := by
      have h1 : read.length = short.length + ext.length := by rw [← hext]; simp
      rcases Nat.eq_zero_or_pos ext.length with h0 | hpos
      · have : ext = [] := List.eq_nil_of_length_eq_zero h0
        subst this
        simp at hext
        exact absurd hext hne
      · omega
    have hlt : short.length < fuel := by
      have : toks.length = read.length + rest.length := by rw [hread]; simp
      omega
    rcases parse_strip pf fuel h short parent hlt with ⟨hp2, -⟩ | ⟨h2, n2, rest2, hp2, -, -⟩
    · exact hp2
    · exfalso
      obtain ⟨T2, -, hrt2, -⟩ := readTree_of_parse pf fuel h short parent h2 n2 rest2 hp2
      have happ := readTree_append pf (ext ++ rest) fuel short T2 rest2 hrt2
      have htoks : short ++ (ext ++ rest) = toks := by
        rw [← List.append_assoc, hext, hread]
      rw [htoks, hrt] at happ
      simp only [Res.ok.injEq, Prod.mk.injEq] at happ
      have hl := congrArg List.length happ.2
      simp only [List.length_append] at hl
      have h1 : read.length = short.length + ext.length := by rw [← hext]; simp
      omega

theorem C3_parse_witness :
    parse ParseFloat 3 [] [⟨.op, "X".toList⟩, ⟨.op, "Foo".toList⟩] none = .panic ∨
    ∃ h1 n rest u read,
      parse ParseFloat 3 [] [⟨.op, "X".toList⟩, ⟨.op, "Foo".toList⟩] none = .ok (h1, n, rest) ∧
      ([⟨.op, "X".toList⟩, ⟨.op, "Foo".toList⟩] : List token) = read ++ rest ∧
      Rep h1 u = true ∧ u.root = some n ∧ u.complete = true ∧ u.arityOk = true ∧
      (∀ tok ∈ read, tok.readable ParseFloat = true) ∧
      (∀ short, short <+: read → short ≠ read → parse ParseFloat 3 [] short none = .panic) :=
  C3_parse ParseFloat 3 [] [⟨.op, "X".toList⟩, ⟨.op, "Foo".toList⟩] none (by decide)

/-- C4, counterexample. The texts `(+ X Y` and `+ X Y)`, of unbalanced
parentheses, are read as the tree `( + X Y )`: no failure. -/
theorem C4_unbalanced_accepted :
    BeginLexing [] "(+ X Y".toList = .ok (heapPlusXY, 0) ∧
    BeginLexing [] "+ X Y)".toList = .ok (heapPlusXY, 0) ∧ Rep heapPlusXY treePlusXY = true := by
  decide

/-- C4, amended. The function `BeginLexing` takes no account of the parentheses:
`parse` skips their tokens, so that a text is read as the sequence of its other
tokens is, whether its parentheses are balanced or not. -/
theorem C4_parentheses (h : Heap) (s : List Char) :
    BeginLexing h s = parseTokens ParseFloat h (stripParens (lex s)) := by
  unfold BeginLexing
  rw [parseTokens_strip]

theorem C4_parentheses_witness :
    BeginLexing [] "(+ X Y".toList =
      parseTokens ParseFloat [] (stripParens (lex "(+ X Y".toList)) :=
  C4_parentheses [] "(+ X Y".toList

theorem lexer.next_some (l : lexer) (c : Char) (hc : l.input[l.pos]? = some c) :
    l.next = (some c, { l with width := 1, pos := l.pos + 1 }) ∧ l.pos < l.input.length := by
  refine ⟨by simp [lexer.next, hc], ?_⟩
  by_contra hlt
  rw [List.getElem?_eq_none (Nat.le_of_not_lt hlt)] at hc
  cases hc

theorem lexer.next_none (l : lexer) (hc : l.input[l.pos]? = none) :
    l.next = (none, { l with width := 0 }) := by
  simp [lexer.next, hc]

/-- The loop of `acceptRun` ends before its fuel does: any number of passes above
the number of runes left gives the same lexer, with the same input and `pos` not
before where it was. -/
theorem lexer.acceptRunLoop_fuel (valid : List Char) : ∀ (fuel1 fuel2 : Nat) (l : lexer),
    l.input.length - l.pos < fuel1 → l.input.length - l.pos < fuel2 →
    lexer.acceptRunLoop valid fuel1 l = lexer.acceptRunLoop valid fuel2 l ∧
      (lexer.acceptRunLoop valid fuel1 l).input = l.input ∧
      l.pos ≤ (lexer.acceptRunLoop valid fuel1 l).pos := by
  intro fuel1
  induction fuel1 with
  | zero => intro fuel2 l h1 _; omega
  | succ fuel1 ih =>
    intro fuel2 l h1 h2
    obtain ⟨fuel2, rfl⟩ : ∃ m, fuel2 = m + 1 := ⟨fuel2 - 1, by omega⟩
    rw [lexer.acceptRunLoop, lexer.acceptRunLoop]
    cases hc : l.input[l.pos]? with
    | none =>
      rw [lexer.next_none l hc]
      simp [inValid, lexer.backup]
    | some c =>
      obtain ⟨hn, hlt⟩ := lexer.next_some l c hc
      rw [hn]
      by_cases hv : valid.contains c = true
      · simp only [inValid, hv, if_true]
        obtain ⟨e1, e2, e3⟩ := ih fuel2 { l with width := 1, pos := l.pos + 1 }
          (by simp only []; omega) (by simp only []; omega)
        exact ⟨e1, e2, by simp only [] at e3; omega⟩
      · have hv2 : c ∉ valid := by simpa using hv
        simp [inValid, hv2, lexer.backup]

/-- The loop of `determineToken` ends before its fuel does: any number of passes
above the number of runes left gives the same result; the input is kept, and
`pos` has moved on when the next state is `lexOp` or `lexNumber`. -/
theorem determineTokenLoop_fuel : ∀ (fuel1 fuel2 : Nat) (l : lexer),
    l.input.length - l.pos < fuel1 → l.input.length - l.pos < fuel2 →
    determineTokenLoop fuel1 l = determineTokenLoop fuel2 l ∧
      (determineTokenLoop fuel1 l).2.input = l.input ∧
      ((determineTokenLoop fuel1 l).1 = none ∨
        (((determineTokenLoop fuel1 l).1 = some .lexOp ∨
            (determineTokenLoop fuel1 l).1 = some .lexNumber) ∧
          l.pos < (determineTokenLoop fuel1 l).2.pos ∧
          (determineTokenLoop fuel1 l).2.pos ≤ l.input.length)) := by
  intro fuel1
  induction fuel1 with
  | zero => intro fuel2 l h1 _; omega
  | succ fuel1 ih =>
    intro fuel2 l h1 h2
    obtain ⟨fuel2, rfl⟩ : ∃ m, fuel2 = m + 1 := ⟨fuel2 - 1, by omega⟩
    rw [determineTokenLoop, determineTokenLoop]
    cases hc : l.input[l.pos]? with
    | none =>
      rw [lexer.next_none l hc]
      simp [isWhiteSpace, isStartNumber]
    | some c =>
      obtain ⟨hn, hlt⟩ := lexer.next_some l c hc
      rw [hn]
      simp only []
      have hrec : ∀ l1 : lexer, l1.input = l.input → l1.pos = l.pos + 1 →
          determineTokenLoop fuel1 l1 = determineTokenLoop fuel2 l1 ∧
          (determineTokenLoop fuel1 l1).2.input = l.input ∧
          ((determineTokenLoop fuel1 l1).1 = none ∨
            (((determineTokenLoop fuel1 l1).1 = some .lexOp ∨
                (determineTokenLoop fuel1 l1).1 = some .lexNumber) ∧
              l.pos < (determineTokenLoop fuel1 l1).2.pos ∧
              (determineTokenLoop fuel1 l1).2.pos ≤ l.input.length)) := by
        intro l1 hi hp
        obtain ⟨e1, e2, e3⟩ := ih fuel2 l1 (by rw [hi, hp]; omega) (by rw [hi, hp]; omega)
        refine ⟨e1, by rw [e2, hi], ?_⟩
        rcases e3 with e3 | ⟨e3, e4, e5⟩
        · exact Or.inl e3
        · exact Or.inr ⟨e3, by omega, by rw [← hi]; exact e5⟩
      by_cases hw : isWhiteSpace (some c) = true
      · simp only [hw, if_true]
        exact hrec _ rfl rfl
      · simp only [hw, Bool.false_eq_true, if_false]
        by_cases ho : c = '('
        · simp only [ho, if_true]
          exact hrec _ rfl rfl
        · simp only [Option.some.injEq, ho, if_false]
          by_cases hcl : c = ')'
          · simp only [hcl, if_true]
            exact hrec _ rfl rfl
          · simp only [hcl, if_false]
            by_cases hs : isStartNumber (some c) = true
            · simp only [hs, if_true]
              simp
              omega
            · simp only [hs, Bool.false_eq_true, if_false, reduceCtorEq]
              simp
              omega

theorem lexer.accept_pos (l : lexer) (valid : List Char) :
    (l.accept valid).2.input = l.input ∧ l.pos ≤ (l.accept valid).2.pos := by
  unfold lexer.accept
  cases hc : l.input[l.pos]? with
  | none =>
    rw [lexer.next_none l hc]
    simp [inValid, lexer.backup]
  | some c =>
    rw [(lexer.next_some l c hc).1]
    by_cases hv : c ∈ valid
    · simp [inValid, hv]
    · simp [inValid, hv, lexer.backup]

theorem lexer.acceptRun_pos (l : lexer) (valid : List Char) :
    (l.acceptRun valid).input = l.input ∧ l.pos ≤ (l.acceptRun valid).pos := by
  unfold lexer.acceptRun
  exact (lexer.acceptRunLoop_fuel valid (l.input.length + 1) (l.input.length + 1) l
    (by omega) (by omega)).2

theorem lexNumberScan_pos (l : lexer) :
    (lexNumberScan l).input = l.input ∧ l.pos ≤ (lexNumberScan l).pos := by
  unfold lexNumberScan
  obtain ⟨a1, a2⟩ := lexer.accept_pos l signDotChars
  obtain ⟨b1, b2⟩ := lexer.acceptRun_pos (l.accept signDotChars).2 digitChars
  obtain ⟨c1, c2⟩ := lexer.accept_pos ((l.accept signDotChars).2.acceptRun digitChars) dotChars
  obtain ⟨d1, d2⟩ := lexer.acceptRun_pos
    (((l.accept signDotChars).2.acceptRun digitChars).accept dotChars).2 digitChars
  simp only []
  split_ifs
  · exact ⟨by rw [d1, c1, b1, a1], by omega⟩
  · exact ⟨by rw [c1, b1, a1], by omega⟩

/-- The state functions `lexOp` and `lexNumber` hand over to `determineToken`,
with the same input and `pos` not before where it was. -/
theorem stateFunc.apply_pos (st : stateFunc) (l : lexer) (hst : st ≠ .determineToken) :
    (st.apply l).1 = some .determineToken ∧ (st.apply l).2.input = l.input ∧
      l.pos ≤ (st.apply l).2.pos := by
  cases st with
  | determineToken => exact absurd rfl hst
  | lexOp =>
    obtain ⟨a1, a2⟩ := lexer.acceptRun_pos l opChars
    simp only [stateFunc.apply, Evim.lexOp, lexer.emit]
    exact ⟨trivial, a1, a2⟩
  | lexNumber =>
    obtain ⟨a1, a2⟩ := lexNumberScan_pos l
    simp only [stateFunc.apply, Evim.lexNumber]
    split_ifs <;> simp only [lexer.emit] <;> exact ⟨trivial, a1, a2⟩

/-- The loop of `run` ends before its fuel does: two state functions for each
rune left and two more are enough, and more fuel gives the same lexer. -/
theorem lexer.runLoop_fuel : ∀ (n fuel1 fuel2 : Nat) (l : lexer), l.input.length - l.pos ≤ n →
    2 * n + 2 ≤ fuel1 → 2 * n + 2 ≤ fuel2 →
    lexer.runLoop fuel1 (some .determineToken) l = lexer.runLoop fuel2 (some .determineToken) l := by
  intro n
  induction n with
  | zero =>
    intro fuel1 fuel2 l hn h1 h2
    obtain ⟨fuel1, rfl⟩ : ∃ m, fuel1 = m + 1 := ⟨fuel1 - 1, by omega⟩
    obtain ⟨fuel2, rfl⟩ : ∃ m, fuel2 = m + 1 := ⟨fuel2 - 1, by omega⟩
    obtain ⟨-, -, e3⟩ := determineTokenLoop_fuel (l.input.length + 1) (l.input.length + 1) l
      (by omega) (by omega)
    rw [lexer.runLoop, lexer.runLoop]
    simp only [stateFunc.apply, determineToken]
    rcases e3 with e3 | ⟨-, e4, e5⟩
    · rw [e3, lexer.runLoop_none, lexer.runLoop_none]
    · omega
  | succ n ih =>
    intro fuel1 fuel2 l hn h1 h2
    obtain ⟨fuel1, rfl⟩ : ∃ m, fuel1 = m + 2 := ⟨fuel1 - 2, by omega⟩
    obtain ⟨fuel2, rfl⟩ : ∃ m, fuel2 = m + 2 := ⟨fuel2 - 2, by omega⟩
    obtain ⟨-, e2, e3⟩ := determineTokenLoop_fuel (l.input.length + 1) (l.input.length + 1) l
      (by omega) (by omega)
    rw [lexer.runLoop, lexer.runLoop]
    simp only [stateFunc.apply, determineToken]
    rcases e3 with e3 | ⟨e3, e4, e5⟩
    · rw [e3, lexer.runLoop_none, lexer.runLoop_none]
    · have hstep : ∀ st : stateFunc, st ≠ .determineToken →
          (determineTokenLoop (l.input.length + 1) l).1 = some st →
          lexer.runLoop (fuel1 + 1) (determineTokenLoop (l.input.length + 1) l).1
              (determineTokenLoop (l.input.length + 1) l).2 =
            lexer.runLoop (fuel2 + 1) (determineTokenLoop (l.input.length + 1) l).1
              (determineTokenLoop (l.input.length + 1) l).2 := by
        intro st hst he
        obtain ⟨a1, a2, a3⟩ := stateFunc.apply_pos st (determineTokenLoop (l.input.length + 1) l).2 hst
        rw [he, lexer.runLoop, lexer.runLoop]
        simp only []
        rw [a1]
        exact ih fuel1 fuel2 _ (by rw [a2, e2]; omega) (by omega) (by omega)
      rcases e3 with e3 | e3
      · exact hstep .lexOp (by simp) e3
      · exact hstep .lexNumber (by simp) e3

/-- The fuel of `lex` is enough for every text: more fuel gives the same tokens. -/
theorem lex_fuel (s : List Char) (fuel : Nat) (hf : 2 * s.length + 2 ≤ fuel) :
    (lexer.runLoop fuel (some .determineToken)
      { input := s, start := 0, pos := 0, width := 0, tokens := [] }).tokens = lex s := by
  unfold lex
  rw [lexer.runLoop_fuel s.length fuel (2 * s.length + 2) _ (by simp) hf (le_refl _)]

theorem GetRandomBaseNode_eq (h : Heap) (g : Rand) (k : Kind)
    (hk : baseKind (g.ints g.ipos % 21) = some k) :
    GetRandomBaseNode h g = some (h ++ [⟨k, F32.zero, none, List.replicate k.arity none⟩],
      { g with ipos := g.ipos + 1 }, h.length) := by
  simp [GetRandomBaseNode, Rand.Intn, hk, Heap.alloc, newCell]

theorem baseKind_lt (r : Nat) (hr : r < 21) :
    ∃ k, baseKind r = some k ∧ 1 ≤ k.arity ∧ k ≠ .OpPicture ∧ k ≠ .OpConstant ∧ k ≠ .OpX ∧
      k ≠ .OpY := by
  interval_cases r <;> exact ⟨_, rfl, by decide, by decide, by decide, by decide, by decide⟩

/-- C18. `GetRandomBaseNode` draws `r` in `0..20` and returns a new node of the
type `baseKind r`, with as many empty child slots as the arity of the type and no
parent; `baseKind` is one-to-one from `0..20` onto the 21 types of arity at least
1 other than Picture, of which 10 have arity 1, 8 arity 2 and 3 arity 3.
`GetRandomLeaf` draws `r` in `0..2` and returns a new node without child slots:
a Constant with a newly drawn value for 0, `X` for 1, `Y` for 2. -/
theorem C18_random_nodes (h : Heap) (g : Rand) :
    (∃ k, baseKind (g.ints g.ipos % 21) = some k ∧ 1 ≤ k.arity ∧ k ≠ .OpPicture ∧
      GetRandomBaseNode h g = some (h ++ [⟨k, F32.zero, none, List.replicate k.arity none⟩],
        { g with ipos := g.ipos + 1 }, h.length)) ∧
    (∀ r s, r < 21 → s < 21 → baseKind r = baseKind s → r = s) ∧
    (∀ k : Kind, 1 ≤ k.arity → k ≠ .OpPicture → ∃ r, r < 21 ∧ baseKind r = some k) ∧
    ((List.range 21).filter (fun r => (baseKind r).map Kind.arity = some 1)).length = 10 ∧
    ((List.range 21).filter (fun r => (baseKind r).map Kind.arity = some 2)).length = 8 ∧
    ((List.range 21).filter (fun r => (baseKind r).map Kind.arity = some 3)).length = 3 ∧
    g.ints g.ipos % 3 < 3 ∧
    (g.ints g.ipos % 3 = 0 → GetRandomLeaf h g =
      some (h ++ [⟨.OpConstant, g.floats g.fpos, none, []⟩],
        { g with ipos := g.ipos + 1, fpos := g.fpos + 1 }, h.length)) ∧
    (g.ints g.ipos % 3 = 1 → GetRandomLeaf h g =
      some (h ++ [⟨.OpX, F32.zero, none, []⟩], { g with ipos := g.ipos + 1 }, h.length)) ∧
    (g.ints g.ipos % 3 = 2 → GetRandomLeaf h g =
      some (h ++ [⟨.OpY, F32.zero, none, []⟩], { g with ipos := g.ipos + 1 }, h.length)) := by
  refine ⟨?_, ?_, ?_, by decide, by decide, by decide, Nat.mod_lt _ (by decide), ?_, ?_, ?_⟩
  · obtain ⟨k, hk, ha, hp, -⟩ := baseKind_lt (g.ints g.ipos % 21) (Nat.mod_lt _ (by decide))
    exact ⟨k, hk, ha, hp, GetRandomBaseNode_eq h g k hk⟩
  · intro r s hr hs
    interval_cases r <;> interval_cases s <;> simp [baseKind]
  · intro k ha hp
    cases k <;> first
      | exact absurd rfl hp
      | (simp [Kind.arity] at ha; done)
      | exact ⟨0, by decide, rfl⟩ | exact ⟨1, by decide, rfl⟩ | exact ⟨2, by decide, rfl⟩
      | exact ⟨3, by decide, rfl⟩ | exact ⟨4, by decide, rfl⟩ | exact ⟨5, by decide, rfl⟩
      | exact ⟨6, by decide, rfl⟩ | exact ⟨7, by decide, rfl⟩ | exact ⟨8, by decide, rfl⟩
      | exact ⟨9, by decide, rfl⟩ | exact ⟨10, by decide, rfl⟩ | exact ⟨11, by decide, rfl⟩
      | exact ⟨12, by decide, rfl⟩ | exact ⟨13, by decide, rfl⟩ | exact ⟨14, by decide, rfl⟩
      | exact ⟨15, by decide, rfl⟩ | exact ⟨16, by decide, rfl⟩ | exact ⟨17, by decide, rfl⟩
      | exact ⟨18, by decide, rfl⟩ | exact ⟨19, by decide, rfl⟩ | exact ⟨20, by decide, rfl⟩
  · intro hr
    simp [GetRandomLeaf, Rand.Intn, hr, Rand.Float, Heap.alloc, newCell, Kind.arity]
  · intro hr
    simp [GetRandomLeaf, Rand.Intn, hr, Heap.alloc, newCell, Kind.arity]
  · intro hr
    simp [GetRandomLeaf, Rand.Intn, hr, Heap.alloc, newCell, Kind.arity]

theorem F32.isNaN_abs (a : F32) : (F32.abs a).isNaN = a.isNaN := by
  simp only [F32.isNaN, F32.abs]
  have h1 : a.bits % 2 ^ 31 / 2 ^ 23 % 256 = a.bits / 2 ^ 23 % 256 := by omega
  have h2 : a.bits % 2 ^ 31 % 2 ^ 23 = a.bits % 2 ^ 23 := by omega
  simp only [h1, h2]

theorem F32.key_abs (a : F32) : (F32.abs a).key = ((a.bits % 2 ^ 31 : Nat) : Int) := by
  simp only [F32.key, F32.abs]
  have h1 : a.bits % 2 ^ 31 / 2 ^ 31 % 2 ≠ 1 := by omega
  have h2 : a.bits % 2 ^ 31 % 2 ^ 31 = a.bits % 2 ^ 31 := by omega
  rw [if_neg h1, h2]

theorem F32.key_neg_abs (a : F32) :
    (F32.neg (F32.abs a)).key = -((a.bits % 2 ^ 31 : Nat) : Int) := by
  simp only [F32.key, F32.abs, F32.neg]
  have h1 : a.bits % 2 ^ 31 / 2 ^ 31 % 2 ≠ 1 := by omega
  rw [if_neg h1]
  have h2 : (a.bits % 2 ^ 31 + 2 ^ 31) / 2 ^ 31 % 2 = 1 := by omega
  have h3 : (a.bits % 2 ^ 31 + 2 ^ 31) % 2 ^ 31 = a.bits % 2 ^ 31 := by omega
  simp only [h2, if_true, h3]

theorem F32.isNaN_neg_abs (a : F32) : (F32.neg (F32.abs a)).isNaN = a.isNaN := by
  rw [← F32.isNaN_abs a]
  simp only [F32.isNaN, F32.abs, F32.neg]
  have h1 : a.bits % 2 ^ 31 / 2 ^ 31 % 2 ≠ 1 := by omega
  rw [if_neg h1]
  have h2 : (a.bits % 2 ^ 31 + 2 ^ 31) / 2 ^ 23 % 256 = a.bits % 2 ^ 31 / 2 ^ 23 % 256 := by omega
  have h3 : (a.bits % 2 ^ 31 + 2 ^ 31) % 2 ^ 23 = a.bits % 2 ^ 31 % 2 ^ 23 := by omega
  rw [h2, h3]

theorem F32.abs_neg (a : F32) : F32.abs (F32.neg a) = F32.abs a := by
  simp only [F32.abs, F32.neg]
  split_ifs with h
  · simp only [F32.mk.injEq]; omega
  · simp only [F32.mk.injEq]; omega

theorem opsExact_ieee : opsExact.ieee := by
  refine ⟨fun _ _ => rfl, fun _ _ => rfl, fun a => ⟨?_, fun _ => rfl⟩, fun a => ⟨?_, fun _ => rfl⟩⟩
  · intro ha
    show (F32.abs a).isNaN = true
    rw [F32.isNaN_abs]; exact ha
  · intro ha
    show (F32.neg a).isNaN = true
    simp only [F32.isNaN, F32.neg, Bool.and_eq_true, decide_eq_true_eq, bne_iff_ne, ne_eq] at ha ⊢
    split_ifs with h
    · simp only []
      constructor <;> omega
    · simp only []
      constructor <;> omega

/-- The clamping of `OpClip.Eval` with the IEEE comparisons. -/
theorem clip_value (ops : FloatOps) (hops : ops.ieee) (v b : F32) :
    (F32.le (F32.neg (F32.abs b)) v = true → F32.le v (F32.abs b) = true →
      (if ops.gt v (ops.abs b) = true then ops.abs b
        else if ops.lt v (ops.neg (ops.abs b)) = true then ops.neg (ops.abs b) else v) = v) ∧
    (F32.lt (F32.abs b) v = true →
      (if ops.gt v (ops.abs b) = true then ops.abs b
        else if ops.lt v (ops.neg (ops.abs b)) = true then ops.neg (ops.abs b) else v) =
        F32.abs b) ∧
    (F32.lt v (F32.neg (F32.abs b)) = true →
      (if ops.gt v (ops.abs b) = true then ops.abs b
        else if ops.lt v (ops.neg (ops.abs b)) = true then ops.neg (ops.abs b) else v) =
        F32.neg (F32.abs b)) := by
  obtain ⟨hgt, hlt, habs, hneg⟩ := hops
  cases hnan : b.isNaN with
  | true =>
    have h1 : (F32.abs b).isNaN = true := by rw [F32.isNaN_abs]; exact hnan
    have h2 : (F32.neg (F32.abs b)).isNaN = true := by rw [F32.isNaN_neg_abs]; exact hnan
    refine ⟨?_, ?_, ?_⟩
    · intro _ hle; simp [F32.le, h1] at hle
    · intro hl; simp [F32.lt, h1] at hl
    · intro hl; simp [F32.lt, h2] at hl
  | false =>
    have h1 : (F32.abs b).isNaN = false := by rw [F32.isNaN_abs]; exact hnan
    have e1 : ops.abs b = F32.abs b := (habs b).2 hnan
    have e2 : ops.neg (F32.abs b) = F32.neg (F32.abs b) := (hneg _).2 h1
    rw [e1, e2, hgt, hlt]
    have k1 := F32.key_abs b
    have k2 := F32.key_neg_abs b
    refine ⟨?_, ?_, ?_⟩
    · intro hlo hhi
      simp only [F32.le, Bool.and_eq_true, Bool.not_eq_true', decide_eq_true_eq] at hlo hhi
      have n1 : F32.lt (F32.abs b) v = false := by
        simp only [F32.lt, Bool.and_eq_false_iff, decide_eq_false_iff_not]
        right; omega
      have n2 : F32.lt v (F32.neg (F32.abs b)) = false := by
        simp only [F32.lt, Bool.and_eq_false_iff, decide_eq_false_iff_not]
        right; omega
      simp [n1, n2]
    · intro hl
      simp [hl]
    · intro hl
      have n1 : F32.lt (F32.abs b) v = false := by
        simp only [F32.lt, Bool.and_eq_true, Bool.not_eq_true', decide_eq_true_eq] at hl
        simp only [F32.lt, Bool.and_eq_false_iff, decide_eq_false_iff_not]
        right; omega
      simp [n1, hl]

/-- C20. `OpClip.Eval` with the IEEE comparisons, negation and absolute value, on
a Clip node whose children evaluate to `v` (value) and `b` (bound): it returns
`v` when `-|b| <= v <= |b|`, `|b|` when `v > |b|` and `-|b|` when `v < -|b|`; the
bound enters only through `|b|`, which is that of `-b` too. The tree parsed from
`(Clip X 0.500000000)` evaluates at `x = -2` (bits `0xC0000000`), `y = 0` to
`-0.5` (bits `0xBF000000`). -/
theorem C20_Clip (ops : FloatOps) (hops : ops.ieee) (fuel : Nat) (h : Heap) (p : Ptr) (c : Cell)
    (c0 c1 : Option Ptr) (x y v b : F32) (hp : h[p]? = some c) (hk : c.typ = .OpClip)
    (hch : c.Children = [c0, c1]) (hv : Node.Eval ops fuel h c0 x y = some v)
    (hb : Node.Eval ops fuel h c1 x y = some b) :
    ∃ r, Node.Eval ops (fuel + 1) h (some p) x y = some r ∧
      (F32.le (F32.neg (F32.abs b)) v = true → F32.le v (F32.abs b) = true → r = v) ∧
      (F32.lt (F32.abs b) v = true → r = F32.abs b) ∧
      (F32.lt v (F32.neg (F32.abs b)) = true → r = F32.neg (F32.abs b)) ∧
      F32.abs (F32.neg b) = F32.abs b ∧
      BeginLexing [] "(Clip X 0.500000000)".toList = .ok (heapClip, 0) ∧
      Node.Eval ops 2 heapClip (some 0) ⟨3221225472⟩ F32.zero = some ⟨3204448256⟩ := by
  obtain ⟨q1, q2, q3⟩ := clip_value ops hops v b
  refine ⟨_, ?_, q1, q2, q3, F32.abs_neg b, by decide, ?_⟩
  · simp only [Node.Eval, hp, hk, hch, List.getElem?_cons_zero, List.getElem?_cons_succ, hv, hb]
  · obtain ⟨q1, q2, q3⟩ := clip_value ops hops ⟨3221225472⟩ ⟨1056964608⟩
    have := q3 (by decide)
    simp only [Node.Eval, heapClip, List.getElem?_cons_zero, List.getElem?_cons_succ]
    rw [this]
    decide

theorem C20_Clip_witness :
    ∃ r, Node.Eval opsExact (1 + 1) heapClip (some 0) ⟨3221225472⟩ F32.zero = some r ∧
      (F32.le (F32.neg (F32.abs ⟨1056964608⟩)) ⟨3221225472⟩ = true →
        F32.le ⟨3221225472⟩ (F32.abs ⟨1056964608⟩) = true → r = ⟨3221225472⟩) ∧
      (F32.lt (F32.abs ⟨1056964608⟩) ⟨3221225472⟩ = true → r = F32.abs ⟨1056964608⟩) ∧
      (F32.lt ⟨3221225472⟩ (F32.neg (F32.abs ⟨1056964608⟩)) = true →
        r = F32.neg (F32.abs ⟨1056964608⟩)) ∧
      F32.abs (F32.neg ⟨1056964608⟩) = F32.abs ⟨1056964608⟩ ∧
      BeginLexing [] "(Clip X 0.500000000)".toList = .ok (heapClip, 0) ∧
      Node.Eval opsExact 2 heapClip (some 0) ⟨3221225472⟩ F32.zero = some ⟨3204448256⟩ :=
  C20_Clip opsExact opsExact_ieee 1 heapClip 0 ⟨.OpClip, F32.zero, none, [some 1, some 2]⟩
    (some 1) (some 2) ⟨3221225472⟩ F32.zero ⟨3221225472⟩ ⟨1056964608⟩ (by decide) rfl rfl
    (by decide) (by decide)

/-- `lexNumber` on digits that no point follows, the first rune of which
`determineToken` has taken. -/
theorem lexNumber_digits (l : lexer) (pre : List Char) (c d : Char) (ds suf : List Char)
    (hm : l.mid pre [c] (d :: ds ++ suf))
    (hds : ∀ x ∈ d :: ds, digitChars.contains x = true)
    (hsuf : ∀ x, suf.head? = some x →
      dotChars.contains x = false ∧ digitChars.contains x = false) :
    ∃ l', lexNumber l = (some .determineToken, l') ∧ l'.mid (pre ++ c :: d :: ds) [] suf ∧
      l'.tokens = l.tokens ++ [⟨.constant, c :: d :: ds⟩] ∧ l'.input = l.input := by
  have hd := hds d (by simp)
  have htext : ¬ ([c] ++ d :: ds = minusText) := by
    intro e
    have := congrArg List.length e
    simp [minusText] at this
  obtain ⟨-, a2, a3, a4⟩ := lexer.accept_no signDotChars hm
    (fun x hx => by simp at hx; subst hx; exact (digit_not_dot hd).1)
  obtain ⟨b1, b2, b3⟩ := lexer.acceptRun_spec digitChars (d :: ds) _ pre [c] suf a2 hds
    (fun x hx => (hsuf x hx).2)
  obtain ⟨c1, c2, c3, c4⟩ := lexer.accept_no dotChars b1 (fun x hx => (hsuf x hx).1)
  have hscan : lexNumberScan l =
      (((l.accept signDotChars).2.acceptRun digitChars).accept dotChars).2 := by
    simp only [lexNumberScan, c1, Bool.false_eq_true, if_false]
  obtain ⟨l', h1, h2, h3, h4⟩ := lexNumber_emit l pre _ suf (by rw [hscan]; exact c2)
    (by rw [hscan, c3, b2, a3]) (by rw [hscan, c4, b3, a4])
  refine ⟨l', h1, by simpa using h2, ?_, h4⟩
  rw [h3, if_neg htext]
  simp

/-- The state function `determineToken` in front of a minus sign hands over to
`lexNumber`, the sign taken. -/
theorem determineToken_minus (l : lexer) (pre rest : List Char)
    (hm : l.mid pre [] ('-' :: rest)) :
    ∃ l1, determineToken l = (some .lexNumber, l1) ∧ l1.mid pre ['-'] rest ∧
      l1.tokens = l.tokens ∧ l1.input = l.input := by
  obtain ⟨l1, h1, h2, h3, h4⟩ := determineTokenLoop_spec [] (l.input.length + 1) l pre
    ('-' :: rest) (by simpa using hm) (by simp)
    (fun c hc => by simp at hc; subst hc; decide) (by simp)
  refine ⟨l1, ?_, by simpa using h2, by simpa [skipTokens] using h3, h4⟩
  unfold determineToken
  rw [h1]
  simp [isStartNumber]

/-- C19, counterexample. In `--` and in `5-` the minus sign that no digit or
point follows is not sent as the token `-`: each text is one number token. -/
theorem C19_minus_in_number :
    lex "--".toList = [⟨.constant, "--".toList⟩] ∧ lex "5-".toList = [⟨.constant, "5-".toList⟩] := by
  decide

/-- C19, amended. The lexer in front of a minus sign at which a token starts
(`determineToken` is the state and `pos` is at the sign). If the end of the text
or a rune that is none of a digit, `.` and `-` follows, the two next state
functions send the operator token `-`. If digits follow, they send one number
token: the sign and the digits, and with them the point and the digits of a
fraction when a point follows the digits. The lexer is then after the token, in
the state `determineToken`. -/
theorem C19_minus (l : lexer) (pre rest : List Char) (hm : l.mid pre [] ('-' :: rest))
    (fuel : Nat) :
    ((∀ x, rest.head? = some x →
        signDotChars.contains x = false ∧ digitChars.contains x = false) →
      ∃ l', lexer.runLoop (fuel + 2) (some .determineToken) l =
          lexer.runLoop fuel (some .determineToken) l' ∧
        l'.mid (pre ++ ['-']) [] rest ∧ l'.tokens = l.tokens ++ [⟨.op, ['-']⟩]) ∧
    (∀ d ds suf, rest = d :: ds ++ suf → (∀ x ∈ d :: ds, digitChars.contains x = true) →
      (∀ x, suf.head? = some x → dotChars.contains x = false ∧ digitChars.contains x = false) →
      ∃ l', lexer.runLoop (fuel + 2) (some .determineToken) l =
          lexer.runLoop fuel (some .determineToken) l' ∧
        l'.mid (pre ++ '-' :: d :: ds) [] suf ∧
        l'.tokens = l.tokens ++ [⟨.constant, '-' :: d :: ds⟩]) ∧
    (∀ d ds fs suf, rest = d :: ds ++ '.' :: fs ++ suf →
      (∀ x ∈ d :: ds, digitChars.contains x = true) → (∀ x ∈ fs, digitChars.contains x = true) →
      (∀ x, suf.head? = some x → dotChars.contains x = false ∧ digitChars.contains x = false) →
      ∃ l', lexer.runLoop (fuel + 2) (some .determineToken) l =
          lexer.runLoop fuel (some .determineToken) l' ∧
        l'.mid (pre ++ '-' :: d :: ds ++ '.' :: fs) [] suf ∧
        l'.tokens = l.tokens ++ [⟨.constant, '-' :: d :: ds ++ '.' :: fs⟩]) ∧
    lex "- X".toList = [⟨.op, "-".toList⟩, ⟨.op, "X".toList⟩] ∧
    lex "-12 X".toList = [⟨.constant, "-12".toList⟩, ⟨.op, "X".toList⟩] ∧
    lex "-1.5 X".toList = [⟨.constant, "-1.5".toList⟩, ⟨.op, "X".toList⟩] := by
  obtain ⟨l1, e1, m1, t1, -⟩ := determineToken_minus l pre rest hm
  have hstep : ∀ l' : lexer, lexNumber l1 = (some .determineToken, l') →
      lexer.runLoop (fuel + 2) (some .determineToken) l =
        lexer.runLoop fuel (some .determineToken) l' := by
    intro l' e2
    rw [lexer.runLoop]
    simp only [stateFunc.apply, e1]
    rw [lexer.runLoop]
    simp only [stateFunc.apply, e2]
  refine ⟨?_, ?_, ?_, by decide, by decide, by decide⟩
  · intro hrest
    obtain ⟨l', e2, m2, t2, -⟩ := lexNumber_minus l1 pre rest m1 hrest
    exact ⟨l', hstep l' e2, m2, by rw [t2, t1]⟩
  · intro d ds suf hr hds hsuf
    subst hr
    obtain ⟨l', e2, m2, t2, -⟩ := lexNumber_digits l1 pre '-' d ds suf m1 hds hsuf
    exact ⟨l', hstep l' e2, m2, by rw [t2, t1]⟩
  · intro d ds fs suf hr hds hfs hsuf
    subst hr
    obtain ⟨l', e2, m2, t2, -⟩ := lexNumber_spec l1 pre '-' (d :: ds) fs suf
      (by simpa using m1) hds hfs hsuf
    exact ⟨l', hstep l' e2, by simpa using m2, by rw [t2, t1]⟩

theorem C19_minus_witness :
    ((∀ x, (" X".toList).head? = some x →
        signDotChars.contains x = false ∧ digitChars.contains x = false) →
      ∃ l', lexer.runLoop (0 + 2) (some .determineToken)
            { input := "- X".toList, start := 0, pos := 0, width := 0, tokens := [] } =
          lexer.runLoop 0 (some .determineToken) l' ∧
        l'.mid ([] ++ ['-']) [] " X".toList ∧ l'.tokens = [] ++ [⟨.op, ['-']⟩]) ∧
    (∀ d ds suf, " X".toList = d :: ds ++ suf → (∀ x ∈ d :: ds, digitChars.contains x = true) →
      (∀ x, suf.head? = some x → dotChars.contains x = false ∧ digitChars.contains x = false) →
      ∃ l', lexer.runLoop (0 + 2) (some .determineToken)
            { input := "- X".toList, start := 0, pos := 0, width := 0, tokens := [] } =
          lexer.runLoop 0 (some .determineToken) l' ∧
        l'.mid ([] ++ '-' :: d :: ds) [] suf ∧
        l'.tokens = [] ++ [⟨.constant, '-' :: d :: ds⟩]) ∧
    (∀ d ds fs suf, " X".toList = d :: ds ++ '.' :: fs ++ suf →
      (∀ x ∈ d :: ds, digitChars.contains x = true) → (∀ x ∈ fs, digitChars.contains x = true) →
      (∀ x, suf.head? = some x → dotChars.contains x = false ∧ digitChars.contains x = false) →
      ∃ l', lexer.runLoop (0 + 2) (some .determineToken)
            { input := "- X".toList, start := 0, pos := 0, width := 0, tokens := [] } =
          lexer.runLoop 0 (some .determineToken) l' ∧
        l'.mid ([] ++ '-' :: d :: ds ++ '.' :: fs) [] suf ∧
        l'.tokens = [] ++ [⟨.constant, '-' :: d :: ds ++ '.' :: fs⟩]) ∧
    lex "- X".toList = [⟨.op, "-".toList⟩, ⟨.op, "X".toList⟩] ∧
    lex "-12 X".toList = [⟨.constant, "-12".toList⟩, ⟨.op, "X".toList⟩] ∧
    lex "-1.5 X".toList = [⟨.constant, "-1.5".toList⟩, ⟨.op, "X".toList⟩] :=
  C19_minus { input := "- X".toList, start := 0, pos := 0, width := 0, tokens := [] } []
    " X".toList ⟨rfl, rfl, rfl⟩ 0

@[simp] theorem Tree.kinds_of_empty : Tree.empty.kinds = [] := by simp [Tree.kinds]
@[simp] theorem Tree.kinds_of_node (k v cs) : (Tree.node k v cs).kinds = k :: Tree.kindsList cs := by
  simp [Tree.kinds]
@[simp] theorem Tree.kindsList_of_nil : Tree.kindsList [] = [] := by simp [Tree.kindsList]
@[simp] theorem Tree.kindsList_of_cons (t ts) :
    Tree.kindsList (t :: ts) = t.kinds ++ Tree.kindsList ts := by
  simp [Tree.kindsList]

theorem PTree.kinds_shape : ∀ t : PTree, t.shape.kinds = t.kinds := by
  intro t
  induction t using PTree.induct with
  | hE => simp
  | hN a k v cs ih =>
    simp only [PTree.shape_node, Tree.kinds_of_node, PTree.kinds_node, List.cons.injEq, true_and]
    induction cs with
    | nil => simp
    | cons c cs ihc =>
      simp only [PTree.shapeList_cons, Tree.kindsList_of_cons, PTree.kindsList_cons]
      rw [ih c (List.mem_cons_self _ _), ihc (fun t ht => ih t (List.mem_cons_of_mem _ ht))]

theorem token.kind_paren (tok : token) (hp : tok.isParen = true) : tok.kind = none := by
  cases ht : tok.typ <;> simp [token.isParen, token.kind, ht] at hp ⊢

theorem readList_kinds (rec : List token → Res (Tree × List token))
    (hrec : ∀ toks T rest, rec toks = .ok (T, rest) →
      ∃ read, toks = read ++ rest ∧ T.kinds = read.filterMap token.kind) :
    ∀ (k : Nat) (toks : List token) (cs : List Tree) (rest : List token),
      readList rec k toks = .ok (cs, rest) →
      ∃ read, toks = read ++ rest ∧ Tree.kindsList cs = read.filterMap token.kind := by
  intro k
  induction k with
  | zero =>
    intro toks cs rest e
    simp only [readList_zero, Res.ok.injEq, Prod.mk.injEq] at e
    obtain ⟨rfl, rfl⟩ := e
    exact ⟨[], by simp, by simp⟩
  | succ k ih =>
    intro toks cs rest e
    rw [readList_succ] at e
    cases hr : rec toks with
    | timeout => rw [hr] at e; cases e
    | panic => rw [hr] at e; cases e
    | ok a =>
      obtain ⟨c, toks1⟩ := a
      rw [hr] at e
      simp only [] at e
      cases hl : readList rec k toks1 with
      | timeout => rw [hl] at e; cases e
      | panic => rw [hl] at e; cases e
      | ok b =>
        obtain ⟨cs1, rest1⟩ := b
        rw [hl] at e
        simp only [Res.ok.injEq, Prod.mk.injEq] at e
        obtain ⟨rfl, rfl⟩ := e
        obtain ⟨r1, e1, g1⟩ := hrec toks c toks1 hr
        obtain ⟨r2, e2, g2⟩ := ih toks1 cs1 rest1 hl
        refine ⟨r1 ++ r2, by rw [e1, e2]; simp, ?_⟩
        simp [g1, g2]

/-- The node types of the tree read, in pre-order, are those of the tokens taken,
in their order. -/
theorem readTree_kinds (pf : List Char → Option F32) : ∀ (fuel : Nat) (toks : List token)
    (T : Tree) (rest : List token), readTree pf fuel toks = .ok (T, rest) →
      ∃ read, toks = read ++ rest ∧ T.kinds = read.filterMap token.kind := by
  intro fuel
  induction fuel with
  | zero => intro toks T rest e; simp [readTree] at e
  | succ fuel ih =>
    intro toks T rest e
    cases toks with
    | nil => simp [readTree] at e
    | cons tok toks =>
      have hparen : tok.isParen = true →
          ∃ read, tok :: toks = read ++ rest ∧ T.kinds = read.filterMap token.kind := by
        intro hp
        rw [readTree_paren pf fuel tok toks hp] at e
        obtain ⟨r, e1, g⟩ := ih toks T rest e
        exact ⟨tok :: r, by rw [e1]; simp, by simp [token.kind_paren tok hp, g]⟩
      cases ht : tok.typ with
      | openParen => exact hparen (by simp [token.isParen, ht])
      | closeParen => exact hparen (by simp [token.isParen, ht])
      | constant =>
        rw [readTree_constant pf fuel tok toks ht] at e
        cases hv : pf tok.value with
        | none => rw [hv] at e; cases e
        | some v =>
          rw [hv] at e
          simp only [Res.ok.injEq, Prod.mk.injEq] at e
          obtain ⟨rfl, rfl⟩ := e
          exact ⟨[tok], by simp, by simp [token.kind, ht]⟩
      | op =>
        rw [readTree_op pf fuel tok toks ht] at e
        cases hk : stringToKind tok.value with
        | none => rw [hk] at e; cases e
        | some k =>
          rw [hk] at e
          simp only [] at e
          cases hl : readList (readTree pf fuel) k.arity toks with
          | timeout => rw [hl] at e; cases e
          | panic => rw [hl] at e; cases e
          | ok b =>
            obtain ⟨cs1, rest1⟩ := b
            rw [hl] at e
            simp only [Res.ok.injEq, Prod.mk.injEq] at e
            obtain ⟨rfl, rfl⟩ := e
            obtain ⟨r, e1, g⟩ := readList_kinds _ ih k.arity toks cs1 rest1 hl
            exact ⟨tok :: r, by rw [e1]; simp, by simp [token.kind, ht, hk, g]⟩

/-- C16, counterexample. The text `( Negate ( Picture X Y X ) )` is accepted, and
the tree returned has a Picture node as the child of its Negate root. -/
theorem C16_nested_picture_accepted :
    BeginLexing [] "( Negate ( Picture X Y X ) )".toList = .ok (heapNegatePicture, 0) ∧
    Rep heapNegatePicture (.node 0 .OpNegate F32.zero [.node 1 .OpPicture F32.zero
      [.node 2 .OpX F32.zero [], .node 3 .OpY F32.zero [], .node 4 .OpX F32.zero []]]) = true := by
  decide

/-- C16, amended. For every text that `BeginLexing` accepts, the node types of the
tree returned, in pre-order, are those of the keywords and numbers that `parse`
has taken, in the order of the text: a Picture node is wherever the keyword
`Picture` is, the root when it is the first keyword taken and nowhere else only
when no later token taken is that keyword. -/
theorem C16_picture_positions (h h1 : Heap) (s : List Char) (n : Ptr)
    (hacc : BeginLexing h s = .ok (h1, n)) :
    ∃ u read rest, lex s = read ++ rest ∧ Rep h1 u = true ∧ u.root = some n ∧
      u.complete = true ∧ u.kinds = read.filterMap token.kind ∧
      (∀ i, 0 < i → (u.kinds[i]? = some .OpPicture ↔
        (read.filterMap token.kind)[i]? = some .OpPicture)) := by
  unfold BeginLexing parseTokens at hacc
  cases hp : parse ParseFloat ((lex s).length + 1) h (lex s) none with
  | timeout => rw [hp] at hacc; cases hacc
  | panic => rw [hp] at hacc; cases hacc
  | ok a =>
    obtain ⟨h2, m, rest⟩ := a
    rw [hp] at hacc
    simp only [Res.ok.injEq, Prod.mk.injEq] at hacc
    obtain ⟨rfl, rfl⟩ := hacc
    obtain ⟨T, u, hrt, hrep, hroot, hcomp, -, hshape, -⟩ :=
      readTree_of_parse ParseFloat _ h (lex s) none h2 m rest hp
    obtain ⟨read, e1, g⟩ := readTree_kinds ParseFloat _ (lex s) T rest hrt
    have hk : u.kinds = read.filterMap token.kind := by
      rw [← PTree.kinds_shape, hshape, g]
    exact ⟨u, read, rest, e1, hrep, hroot, hcomp, hk, fun i _ => by rw [hk]⟩

theorem C16_picture_positions_witness :
    ∃ u read rest, lex "( Negate ( Picture X Y X ) )".toList = read ++ rest ∧
      Rep heapNegatePicture u = true ∧ u.root = some 0 ∧
      u.complete = true ∧ u.kinds = read.filterMap token.kind ∧
      (∀ i, 0 < i → (u.kinds[i]? = some .OpPicture ↔
        (read.filterMap token.kind)[i]? = some .OpPicture)) :=
  C16_picture_positions [] heapNegatePicture "( Negate ( Picture X Y X ) )".toList 0 (by decide)

@[simp] theorem PTree.holes_empty : PTree.empty.holes = 1 := by simp [PTree.holes]
@[simp] theorem PTree.holes_node (a k v cs) : (PTree.node a k v cs).holes = PTree.holesList cs := by
  simp [PTree.holes]
@[simp] theorem PTree.holesList_nil : PTree.holesList [] = 0 := by simp [PTree.holesList]
@[simp] theorem PTree.holesList_cons (t ts) :
    PTree.holesList (t :: ts) = t.holes + PTree.holesList ts := by
  simp [PTree.holesList]
@[simp] theorem PTree.fill_empty (leaf : PTree) : PTree.fill leaf .empty = leaf := by
  simp [PTree.fill]
@[simp] theorem PTree.fill_node (leaf : PTree) (a k v cs) :
    PTree.fill leaf (.node a k v cs) = .node a k v (PTree.fillList leaf cs) := by
  simp [PTree.fill]
@[simp] theorem PTree.fillList_nil (leaf : PTree) : PTree.fillList leaf [] = [] := by
  simp [PTree.fillList]
theorem PTree.fillList_cons (leaf : PTree) (t ts) : PTree.fillList leaf (t :: ts) =
    if 0 < t.holes then PTree.fill leaf t :: ts else t :: PTree.fillList leaf ts := by
  simp [PTree.fillList]
@[simp] theorem PTree.depthFilled_empty : PTree.empty.depthFilled = 1 := by
  simp [PTree.depthFilled]
@[simp] theorem PTree.depthFilled_node (a k v cs) :
    (PTree.node a k v cs).depthFilled = 1 + PTree.depthFilledList cs := by
  simp [PTree.depthFilled]
@[simp] theorem PTree.depthFilledList_nil : PTree.depthFilledList [] = 0 := by
  simp [PTree.depthFilledList]
@[simp] theorem PTree.depthFilledList_cons (t ts) :
    PTree.depthFilledList (t :: ts) = max t.depthFilled (PTree.depthFilledList ts) := by
  simp [PTree.depthFilledList]

theorem PTree.holesList_append (xs ys : List PTree) :
    PTree.holesList (xs ++ ys) = PTree.holesList xs + PTree.holesList ys := by
  induction xs with
  | nil => simp
  | cons t ts ih => simp [ih, Nat.add_assoc]

theorem PTree.holesList_zero_iff (cs : List PTree) :
    PTree.holesList cs = 0 ↔ ∀ t ∈ cs, t.holes = 0 := by
  induction cs with
  | nil => simp
  | cons t ts ih => simp [ih]

/-- A tree is complete exactly when it has no empty child slot. -/
theorem PTree.holes_zero_iff : ∀ t : PTree, t.holes = 0 ↔ t.complete = true := by
  intro t
  induction t using PTree.induct with
  | hE => simp
  | hN a k v cs ih =>
    simp only [PTree.holes_node, PTree.complete_node, PTree.holesList_zero_iff,
      PTree.completeList_iff]
    constructor
    · intro h t ht; exact (ih t ht).mp (h t ht)
    · intro h t ht; exact (ih t ht).mpr (h t ht)

theorem PTree.fillList_of_zero (leaf : PTree) (cs : List PTree) (h0 : PTree.holesList cs = 0) :
    PTree.fillList leaf cs = cs := by
  induction cs with
  | nil => simp
  | cons t ts ih =>
    simp only [PTree.holesList_cons, Nat.add_eq_zero] at h0
    rw [PTree.fillList_cons, if_neg (by omega), ih h0.2]

theorem PTree.fill_of_zero (leaf : PTree) (t : PTree) (h0 : t.holes = 0) :
    PTree.fill leaf t = t := by
  cases t with
  | empty => simp at h0
  | node a k v cs =>
    simp only [PTree.holes_node] at h0
    simp [PTree.fillList_of_zero leaf cs h0]

theorem PTree.fillList_append (leaf : PTree) (pre ts : List PTree)
    (h0 : PTree.holesList pre = 0) :
    PTree.fillList leaf (pre ++ ts) = pre ++ PTree.fillList leaf ts := by
  induction pre with
  | nil => simp
  | cons t pre ih =>
    simp only [PTree.holesList_cons, Nat.add_eq_zero] at h0
    rw [List.cons_append, PTree.fillList_cons, if_neg (by omega), ih h0.2, List.cons_append]

theorem PTree.root_fill (leaf : PTree) (t : PTree) (ht : t ≠ .empty) :
    (PTree.fill leaf t).root = t.root := by
  cases t with
  | empty => exact absurd rfl ht
  | node a k v cs => simp [PTree.root]

/-- What filling the first empty slot does to the counts and to the pre-order
enumeration. -/
theorem PTree.fill_counts (leaf : PTree) : ∀ t : PTree, 0 < t.holes →
    (PTree.fill leaf t).holes + 1 = t.holes + leaf.holes ∧
    (PTree.fill leaf t).size = t.size + leaf.size ∧
    (PTree.fill leaf t).preorder.Perm (t.preorder ++ leaf.preorder) ∧
    (leaf.depthFilled ≤ 1 → (PTree.fill leaf t).depthFilled ≤ t.depthFilled) := by
  intro t
  induction t using PTree.induct with
  | hE => intro _; simp [Nat.add_comm]
  | hN a k v cs ih =>
    intro hpos
    simp only [PTree.holes_node] at hpos
    have key : (PTree.holesList (PTree.fillList leaf cs)) + 1 = PTree.holesList cs + leaf.holes ∧
        PTree.sizeList (PTree.fillList leaf cs) = PTree.sizeList cs + leaf.size ∧
        (PTree.preorderList (PTree.fillList leaf cs)).Perm
          (PTree.preorderList cs ++ leaf.preorder) ∧
        (leaf.depthFilled ≤ 1 → PTree.depthFilledList (PTree.fillList leaf cs) ≤
          PTree.depthFilledList cs) := by
      induction cs with
      | nil => simp at hpos
      | cons c cs ihc =>
        rw [PTree.fillList_cons]
        by_cases hc : 0 < c.holes
        · obtain ⟨h1, h2, h3, h4⟩ := ih c (List.mem_cons_self _ _) hc
          simp only [hc, if_true, PTree.holesList_cons, PTree.sizeList_cons,
            PTree.preorderList_cons, PTree.depthFilledList_cons]
          refine ⟨by omega, by omega, ?_, ?_⟩
          · have := h3.append_right (PTree.preorderList cs)
            refine this.trans ?_
            rw [List.append_assoc, List.append_assoc]
            exact List.Perm.append_left _ List.perm_append_comm
          · intro hl; have := h4 hl; omega
        · have hc0 : c.holes = 0 := by omega
          simp only [PTree.holesList_cons, hc0, Nat.zero_add] at hpos
          obtain ⟨h1, h2, h3, h4⟩ := ihc (fun t ht => ih t (List.mem_cons_of_mem _ ht)) hpos
          simp only [hc, if_false, PTree.holesList_cons, PTree.sizeList_cons,
            PTree.preorderList_cons, PTree.depthFilledList_cons]
          refine ⟨by omega, by omega, ?_, ?_⟩
          · rw [List.append_assoc]
            exact List.Perm.append_left _ h3
          · intro hl; have := h4 hl; omega
    obtain ⟨h1, h2, h3, h4⟩ := key
    simp only [PTree.fill_node, PTree.holes_node, PTree.size_node, PTree.preorder_node,
      PTree.depthFilled_node, List.cons_append]
    exact ⟨h1, by omega, List.Perm.cons _ h3, fun hl => by have := h4 hl; omega⟩

theorem PTree.depth_le_depthFilled : ∀ t : PTree, t.depth ≤ t.depthFilled := by
  intro t
  induction t using PTree.induct with
  | hE => simp
  | hN a k v cs ih =>
    simp only [PTree.depth_node, PTree.depthFilled_node, Nat.add_le_add_iff_left]
    induction cs with
    | nil => simp
    | cons c cs ihc =>
      simp only [PTree.depthList_cons, PTree.depthFilledList_cons]
      have := ih c (List.mem_cons_self _ _)
      have := ihc (fun t ht => ih t (List.mem_cons_of_mem _ ht))
      omega

/-- The effect of `AddLeaf(leaf)` on a tree of the store with no node in two
places, `leaf` being the root of a tree `L` apart from it: the first empty slot in
pre-order gets `leaf`, and the result tells whether there was one. Only the holder
of the slot and the parent reference of `leaf` change. -/
theorem AddLeaf_spec (l : Ptr) (L : PTree) (hL : L.root = some l) : ∀ (t : PTree),
    t ≠ .empty → ∀ (h : Heap) (fuel : Nat), Rep h t = true → t.preorder.Nodup → Rep h L = true →
    (∀ x ∈ t.preorder, x ∉ L.preorder) → t.depth < fuel →
    ∃ h', AddLeaf fuel h t.root (some l) = some (h', decide (0 < t.holes)) ∧
      Rep h' (PTree.fill L t) = true ∧ Rep h' L = true ∧ (t.holes = 0 → h' = h) ∧
      h'.length = h.length ∧ (∀ x, x ∉ t.preorder → x ≠ l → h'[x]? = h[x]?) ∧
      sameCore h h' l ∧
      (0 < t.holes → ∃ b ∈ t.preorder, (h'[l]?).map Cell.Parent = some (some b)) := by
  have hlin : l ∈ L.preorder := by
    cases L with
    | empty => simp [PTree.root] at hL
    | node b k v cs =>
      simp only [PTree.root, Option.some.injEq] at hL
      simp [hL]
  intro t
  induction t using PTree.induct with
  | hE => intro hne; exact absurd rfl hne
  | hN a k v cs ih =>
    intro _ h fuel hr hnd hrL hdisj hf
    obtain ⟨c, hca, hk, hv, hch, hrl⟩ := (Rep_node_iff h a k v cs).mp hr
    obtain ⟨fuel, rfl⟩ : ∃ f, fuel = f + 1 := ⟨fuel - 1, by simp at hf; omega⟩
    simp only [PTree.depth_node] at hf
    simp only [PTree.preorder_node, List.nodup_cons] at hnd
    obtain ⟨hanot, hndl⟩ := hnd
    have hal : a ≠ l := by
      intro e
      exact hdisj a (by simp) (e ▸ hlin)
    obtain ⟨cl, hcl⟩ : ∃ cl, h[l]? = some cl := by
      have := Rep_lt h L hrL l hlin
      exact ⟨h[l], List.getElem?_eq_getElem this⟩
    have hloop : ∀ (ts pre : List PTree), cs = pre ++ ts → PTree.holesList pre = 0 →
        ∃ h', AddLeafLoop (fun hh child => AddLeaf fuel hh (some child) (some l)) a (some l)
            ts.length pre.length h = some (h', decide (0 < PTree.holesList ts)) ∧
          Rep h' (.node a k v (pre ++ PTree.fillList L ts)) = true ∧ Rep h' L = true ∧
          (PTree.holesList ts = 0 → h' = h) ∧ h'.length = h.length ∧
          (∀ x, x ∉ (PTree.node a k v cs).preorder → x ≠ l → h'[x]? = h[x]?) ∧
          sameCore h h' l ∧
          (0 < PTree.holesList ts →
            ∃ b ∈ (PTree.node a k v cs).preorder, (h'[l]?).map Cell.Parent = some (some b)) := by
      intro ts
      induction ts with
      | nil =>
        intro pre hcs _
        refine ⟨h, by simp [AddLeafLoop], ?_, hrL, fun _ => rfl, rfl, fun _ _ _ => rfl,
          sameCore_refl h l, by simp⟩
        have hpc : pre = cs := by simpa using hcs.symm
        subst hpc
        simpa using hr
      | cons t ts iht =>
        intro pre hcs hpre
        have hidx : (cs.map PTree.root)[pre.length]? = some t.root := by
          rw [hcs, List.map_append, List.getElem?_append_right (by simp)]
          simp
        have hndl' : (PTree.preorderList pre ++ (t.preorder ++ PTree.preorderList ts)).Nodup := by
          have := hndl
          rw [hcs, PTree.preorderList_append, PTree.preorderList_cons] at this
          exact this
        have hsib : ∀ s, s ∈ pre ∨ s ∈ ts → ∀ x ∈ s.preorder, x ∉ t.preorder := by
          intro s hs x hx hxt
          rw [List.nodup_append] at hndl'
          obtain ⟨-, hn2, hd1⟩ := hndl'
          rcases hs with hs | hs
          · exact hd1 (PTree.mem_preorderList.mpr ⟨s, hs, hx⟩) (by simp [hxt])
          · rw [List.nodup_append] at hn2
            exact hn2.2.2 hxt (PTree.mem_preorderList.mpr ⟨s, hs, hx⟩)
        have hmem : ∀ s, s ∈ pre ∨ s ∈ ts ∨ s = t → s ∈ cs := by
          intro s hs
          rw [hcs]
          rcases hs with hs | hs | hs
          · simp [hs]
          · simp [hs]
          · simp [hs]
        have hsub : ∀ s ∈ cs, ∀ x ∈ s.preorder, x ≠ a ∧ x ≠ l := by
          intro s hs x hx
          have hx' : x ∈ PTree.preorderList cs := PTree.mem_preorderList.mpr ⟨s, hs, hx⟩
          refine ⟨fun e => hanot (e ▸ hx'), fun e => ?_⟩
          exact hdisj x (by simp [hx']) (e ▸ hlin)
        rw [List.length_cons, AddLeafLoop]
        simp only [GetChildren, hca, Option.map_some', hch, hidx]
        cases t with
        | empty =>
          have hlt : pre.length < c.Children.length := by
            rw [hch, hcs]; simp
          have hla : (h.set l { cl with Parent := some a })[a]? = some c := by
            rw [List.getElem?_set_ne (Ne.symm hal), hca]
          simp only [PTree.root, SetParent, hcl, setChild, hla, hlt, if_true]
          have hset : (c.Children.set pre.length (some l)) =
              (pre ++ L :: ts).map PTree.root := by
            rw [hch, hcs, List.map_append, List.set_append_right _ _ (by simp)]
            simp [hL]
          have hlen0 : l < h.length := lt_of_getElem?_some hcl
          have hlena : a < h.length := lt_of_getElem?_some hca
          have hfr : ∀ x, x ≠ a → x ≠ l →
              ((h.set l { cl with Parent := some a }).set a
                { c with Children := c.Children.set pre.length (some l) })[x]? = h[x]? := by
            intro x hxa hxl
            rw [List.getElem?_set_ne (Ne.symm hxa), List.getElem?_set_ne (Ne.symm hxl)]
          have hcorel : sameCore h ((h.set l { cl with Parent := some a }).set a
              { c with Children := c.Children.set pre.length (some l) }) l := by
            unfold sameCore
            rw [List.getElem?_set_ne hal, List.getElem?_set_eq_of_lt _ hlen0, hcl]
            rfl
          refine ⟨_, by simp, ?_, ?_, by simp, by simp, ?_, hcorel, ?_⟩
          · rw [PTree.fillList_cons]
            simp only [PTree.holes_empty, Nat.lt_one_iff, if_true, PTree.fill_empty]
            rw [Rep_node_iff]
            refine ⟨{ c with Children := c.Children.set pre.length (some l) }, ?_, hk, hv, hset, ?_⟩
            · rw [List.getElem?_set_eq_of_lt _ (by simpa using hlena)]
            · rw [RepList_iff]
              intro s hs
              rcases List.mem_append.mp hs with hs | hs
              · refine Rep_frame h _ s ?_ ((RepList_iff h cs).mp hrl s (hmem s (Or.inl hs)))
                intro x hx
                obtain ⟨h1, h2⟩ := hsub s (hmem s (Or.inl hs)) x hx
                exact sameCore_of_eq (hfr x h1 h2)
              · rcases List.mem_cons.mp hs with rfl | hs
                · refine Rep_frame h _ s ?_ hrL
                  intro x hx
                  by_cases hxl : x = l
                  · subst hxl; exact hcorel
                  · have hxa : x ≠ a := fun e => hdisj a (by simp) (e ▸ hx)
                    exact sameCore_of_eq (hfr x hxa hxl)
                · refine Rep_frame h _ s ?_
                    ((RepList_iff h cs).mp hrl s (hmem s (Or.inr (Or.inl hs))))
                  intro x hx
                  obtain ⟨h1, h2⟩ := hsub s (hmem s (Or.inr (Or.inl hs))) x hx
                  exact sameCore_of_eq (hfr x h1 h2)
          · refine Rep_frame h _ L ?_ hrL
            intro x hx
            by_cases hxl : x = l
            · subst hxl; exact hcorel
            · have hxa : x ≠ a := fun e => hdisj a (by simp) (e ▸ hx)
              exact sameCore_of_eq (hfr x hxa hxl)
          · intro x hx hxl
            simp only [PTree.preorder_node, List.mem_cons, not_or] at hx
            exact hfr x hx.1 hxl
          · intro _
            refine ⟨a, by simp, ?_⟩
            rw [List.getElem?_set_ne hal, List.getElem?_set_eq_of_lt _ hlen0]
            rfl
        | node b kb vb csb =>
          have htin : PTree.node b kb vb csb ∈ cs := hmem _ (Or.inr (Or.inr rfl))
          have hdt : (PTree.node b kb vb csb).depth ≤ PTree.depthList cs :=
            PTree.depth_le_depthList htin
          have hndt : (PTree.node b kb vb csb).preorder.Nodup := by
            rw [List.nodup_append] at hndl'
            have := hndl'.2.1
            rw [List.nodup_append] at this
            exact this.1
          obtain ⟨h1, e1, r1, rL1, z1, len1, fr1, core1, par1⟩ :=
            ih _ htin (by simp) h fuel ((RepList_iff h cs).mp hrl _ htin) hndt hrL
              (fun x hx => hdisj x (by
                simp only [PTree.preorder_node, List.mem_cons]
                right
                exact PTree.mem_preorderList.mpr ⟨_, htin, hx⟩)) (by omega)
          simp only [PTree.root_node] at e1
          simp only [PTree.root, e1]
          by_cases hpos : 0 < (PTree.node b kb vb csb).holes
          · have hd : decide (0 < (PTree.node b kb vb csb).holes) = true := by simpa using hpos
            rw [hd]
            have hpos2 : 0 < PTree.holesList (PTree.node b kb vb csb :: ts) := by
              simp only [PTree.holesList_cons]; omega
            have ha1 : h1[a]? = h[a]? := by
              apply fr1 a _ hal
              intro hab
              exact hanot (PTree.mem_preorderList.mpr ⟨_, htin, hab⟩)
            have hd2 : decide (0 < PTree.holesList (PTree.node b kb vb csb :: ts)) = true := by
              simpa using hpos2
            refine ⟨h1, by rw [hd2], ?_, rL1, fun hz => by omega, len1, ?_, core1, ?_⟩
            · rw [PTree.fillList_cons, if_pos hpos, Rep_node_iff]
              refine ⟨c, by rw [ha1, hca], hk, hv, ?_, ?_⟩
              · rw [hch, hcs]
                simp [PTree.root]
              · rw [RepList_iff]
                intro s hs
                rcases List.mem_append.mp hs with hs | hs
                · refine Rep_frame h _ s ?_ ((RepList_iff h cs).mp hrl s (hmem s (Or.inl hs)))
                  intro x hx
                  exact sameCore_of_eq (fr1 x (hsib s (Or.inl hs) x hx)
                    (hsub s (hmem s (Or.inl hs)) x hx).2)
                · rcases List.mem_cons.mp hs with rfl | hs
                  · exact r1
                  · refine Rep_frame h _ s ?_
                      ((RepList_iff h cs).mp hrl s (hmem s (Or.inr (Or.inl hs))))
                    intro x hx
                    exact sameCore_of_eq (fr1 x (hsib s (Or.inr hs) x hx)
                      (hsub s (hmem s (Or.inr (Or.inl hs))) x hx).2)
            · intro x hx hxl
              apply fr1 x _ hxl
              intro hxt
              apply hx
              simp only [PTree.preorder_node, List.mem_cons]
              right
              exact PTree.mem_preorderList.mpr ⟨_, htin, hxt⟩
            · intro _
              obtain ⟨b', hb', hp'⟩ := par1 hpos
              refine ⟨b', ?_, hp'⟩
              simp only [PTree.preorder_node, List.mem_cons]
              right
              exact PTree.mem_preorderList.mpr ⟨_, htin, hb'⟩
          · have hz : (PTree.node b kb vb csb).holes = 0 := by omega
            have hd : decide (0 < (PTree.node b kb vb csb).holes) = false := by simpa using hpos
            rw [hd]
            have hh1 : h1 = h := z1 hz
            subst hh1
            simp only []
            have hlen' : pre.length + 1 = (pre ++ [PTree.node b kb vb csb]).length := by simp
            rw [hlen']
            obtain ⟨h2, e2, r2, rL2, z2, len2, fr2, core2, par2⟩ :=
              iht (pre ++ [PTree.node b kb vb csb]) (by rw [hcs]; simp)
                (by rw [PTree.holesList_append]; simp only [PTree.holesList_cons,
                  PTree.holesList_nil]; omega)
            have hhl : PTree.holesList (PTree.node b kb vb csb :: ts) = PTree.holesList ts := by
              simp only [PTree.holesList_cons]; omega
            rw [hhl]
            refine ⟨h2, e2, ?_, rL2, z2, len2, fr2, core2, par2⟩
            rw [PTree.fillList_cons, if_neg hpos]
            simpa using r2
    obtain ⟨h', e, r, rL, z, len, fr, core, par⟩ := hloop cs [] (by simp) (by simp)
    refine ⟨h', ?_, by simpa using r, rL, by simpa using z, len, fr, core, by simpa using par⟩
    simp only [PTree.root, AddLeaf, hca, hch, List.length_map, PTree.holes_node]
    simpa using e

theorem GetRandomLeaf_ipos (h : Heap) (g : Rand) (h1 : Heap) (g1 : Rand) (p : Ptr)
    (e : GetRandomLeaf h g = some (h1, g1, p)) : g1.ipos = g.ipos + 1 := by
  have h3 : g.ints g.ipos % 3 < 3 := Nat.mod_lt _ (by decide)
  obtain h0 | h1 | h2 : g.ints g.ipos % 3 = 0 ∨ g.ints g.ipos % 3 = 1 ∨
      g.ints g.ipos % 3 = 2 := by omega
  · simp only [GetRandomLeaf, Rand.Intn, h0, Rand.Float, Heap.alloc, OfNat.ofNat_ne_zero,
      if_false, Option.some.injEq, Prod.mk.injEq] at e
    obtain ⟨-, rfl, -⟩ := e
    rfl
  · simp only [GetRandomLeaf, Rand.Intn, h1, Heap.alloc, OfNat.ofNat_ne_zero,
      if_false, Option.some.injEq, Prod.mk.injEq] at e
    obtain ⟨-, rfl, -⟩ := e
    rfl
  · simp only [GetRandomLeaf, Rand.Intn, h2, Heap.alloc, OfNat.ofNat_ne_zero,
      if_false, Option.some.injEq, Prod.mk.injEq] at e
    obtain ⟨-, rfl, -⟩ := e
    rfl

/-- The closing loop of `NewPicture` ends, after one pass for each empty slot and
one more, and leaves the tree complete. -/
theorem closeWithLeaves_spec (fuel : Nat) : ∀ (n : Nat) (t : PTree) (h : Heap) (g : Rand),
    t ≠ .empty → Rep h t = true → t.preorder.Nodup → t.depthFilled < fuel → t.holes < n →
    ∃ h' g' t', closeWithLeaves fuel n h g t.root = some (h', g') ∧ Rep h' t' = true ∧
      t'.root = t.root ∧ t'.complete = true ∧ t'.size = t.size + t.holes ∧ t'.preorder.Nodup ∧
      g'.ipos = g.ipos + t.holes + 1 := by
  intro n
  induction n with
  | zero => intro t h g _ _ _ _ hn; omega
  | succ n ih =>
    intro t h g hne hr hnd hf hn
    obtain ⟨g1, lk, lv, hleaf, hlk⟩ := GetRandomLeaf_spec h g
    have hg1 : g1.ipos = g.ipos + 1 := GetRandomLeaf_ipos h g _ g1 _ hleaf
    have hka : lk.arity = 0 := by
      rcases hlk with rfl | rfl | rfl <;> rfl
    have hext : Extends h (h ++ [newCell lk lv]) := Extends.append h _
    have hrL : Rep (h ++ [newCell lk lv]) (.node h.length lk lv []) = true := by
      rw [Rep_node_iff]
      exact ⟨newCell lk lv, by simp, rfl, rfl, by simp [newCell, hka], by simp⟩
    have hdisj : ∀ x ∈ t.preorder, x ∉ (PTree.node h.length lk lv []).preorder := by
      intro x hx hx'
      have h1 : (x : Nat) < h.length := Rep_lt h t hr x hx
      simp only [PTree.preorder_node, PTree.preorderList_nil, List.mem_singleton] at hx'
      exact absurd hx' (Nat.ne_of_lt h1)
    obtain ⟨h2, e2, r2, -, z2, -, -, -, -⟩ :=
      AddLeaf_spec h.length (.node h.length lk lv []) rfl t hne (h ++ [newCell lk lv]) fuel
        (Rep_extends hext t hr) hnd hrL hdisj
        (lt_of_le_of_lt (PTree.depth_le_depthFilled t) hf)
    rw [closeWithLeaves, hleaf]
    simp only [e2]
    by_cases hpos : 0 < t.holes
    · have hd : decide (0 < t.holes) = true := by simpa using hpos
      rw [hd]
      simp only []
      obtain ⟨c1, c2, c3, c4⟩ := PTree.fill_counts (.node h.length lk lv []) t hpos
      simp only [PTree.holes_node, PTree.holesList_nil, Nat.add_zero, PTree.size_node,
        PTree.sizeList_nil, PTree.preorder_node, PTree.preorderList_nil, PTree.depthFilled_node,
        PTree.depthFilledList_nil] at c1 c2 c3 c4
      have hne2 : PTree.fill (.node h.length lk lv []) t ≠ .empty := by
        cases t with
        | empty => simp
        | node a k v cs => simp
      have hnd2 : (PTree.fill (.node h.length lk lv []) t).preorder.Nodup := by
        rw [c3.nodup_iff, List.nodup_append]
        refine ⟨hnd, by simp, ?_⟩
        intro x hx hx'
        exact hdisj x hx (by simpa using hx')
      obtain ⟨h', g', t', e, r, hroot, hcomp, hsize, hnd', hg'⟩ :=
        ih _ h2 g1 hne2 r2 hnd2 (lt_of_le_of_lt (c4 (le_refl _)) hf) (by omega)
      rw [PTree.root_fill _ t hne] at e hroot
      exact ⟨h', g', t', e, r, hroot, hcomp, by omega, hnd', by omega⟩
    · have hz : t.holes = 0 := by omega
      have hd : decide (0 < t.holes) = false := by simpa using hpos
      rw [hd]
      simp only []
      have := z2 hz
      subst this
      exact ⟨_, g1, t, rfl, Rep_extends hext t hr, rfl, (PTree.holes_zero_iff t).mp hz,
        by omega, hnd, by omega⟩

/-- C14. The call `AddLeaf(leaf)` on a tree of the store with `e` empty child
slots and no node in two places, `leaf` being the root of a complete tree `L`
apart from it, with fuel above the height: when `e > 0` it returns true and the
store holds the tree with `L` in its first empty slot in pre-order, with `e - 1`
empty slots, the parent reference of `leaf` being a node of the tree; when
`e = 0` it returns false and the store and the tree are unchanged. Hence the loop
`for root.AddLeaf(GetRandomLeaf()) {}` of `NewPicture`, given more than `e`
passes, ends and leaves a complete tree at the same root, of `e` more nodes. -/
theorem C14_AddLeaf (h : Heap) (t L : PTree) (l : Ptr) (fuel : Nat) (hne : t ≠ .empty)
    (hr : Rep h t = true) (hnd : t.preorder.Nodup) (hL : L.root = some l) (hrL : Rep h L = true)
    (hLc : L.complete = true) (hdisj : ∀ x ∈ t.preorder, x ∉ L.preorder)
    (hf : t.depthFilled < fuel) :
    (∃ h', AddLeaf fuel h t.root (some l) = some (h', decide (0 < t.holes)) ∧
      Rep h' (PTree.fill L t) = true ∧ (PTree.fill L t).root = t.root ∧
      (0 < t.holes → (PTree.fill L t).holes = t.holes - 1 ∧
        ∃ b ∈ t.preorder, (h'[l]?).map Cell.Parent = some (some b)) ∧
      (t.holes = 0 → h' = h ∧ PTree.fill L t = t)) ∧
    (∀ (g : Rand) (n : Nat), t.holes < n →
      ∃ h' g' t', closeWithLeaves fuel n h g t.root = some (h', g') ∧ Rep h' t' = true ∧
        t'.root = t.root ∧ t'.complete = true ∧ t'.size = t.size + t.holes) := by
  obtain ⟨h', e, r, -, z, -, -, -, par⟩ := AddLeaf_spec l L hL t hne h fuel hr hnd hrL hdisj
    (lt_of_le_of_lt (PTree.depth_le_depthFilled t) hf)
  refine ⟨⟨h', e, r, PTree.root_fill L t hne, ?_, fun hz => ⟨z hz, PTree.fill_of_zero L t hz⟩⟩, ?_⟩
  · intro hpos
    have := (PTree.fill_counts L t hpos).1
    rw [(PTree.holes_zero_iff L).mpr hLc] at this
    exact ⟨by omega, par hpos⟩
  · intro g n hn
    obtain ⟨h2, g2, t2, e2, r2, hroot, hcomp, hsize, -, -⟩ :=
      closeWithLeaves_spec fuel n t h g hne hr hnd hf hn
    exact ⟨h2, g2, t2, e2, r2, hroot, hcomp, hsize⟩

theorem C14_AddLeaf_witness :
    (∃ h', AddLeaf 3 heapPlusXHole (PTree.node 0 .OpPlus F32.zero
          [.node 1 .OpX F32.zero [], .empty]).root (some 2) =
        some (h', decide (0 < (PTree.node 0 .OpPlus F32.zero
          [.node 1 .OpX F32.zero [], .empty]).holes)) ∧
      Rep h' (PTree.fill (.node 2 .OpY F32.zero [])
        (.node 0 .OpPlus F32.zero [.node 1 .OpX F32.zero [], .empty])) = true ∧
      (PTree.fill (.node 2 .OpY F32.zero [])
        (.node 0 .OpPlus F32.zero [.node 1 .OpX F32.zero [], .empty])).root =
        (PTree.node 0 .OpPlus F32.zero [.node 1 .OpX F32.zero [], .empty]).root ∧
      (0 < (PTree.node 0 .OpPlus F32.zero [.node 1 .OpX F32.zero [], .empty]).holes →
        (PTree.fill (.node 2 .OpY F32.zero [])
          (.node 0 .OpPlus F32.zero [.node 1 .OpX F32.zero [], .empty])).holes =
          (PTree.node 0 .OpPlus F32.zero [.node 1 .OpX F32.zero [], .empty]).holes - 1 ∧
        ∃ b ∈ (PTree.node 0 .OpPlus F32.zero [.node 1 .OpX F32.zero [], .empty]).preorder,
          (h'[2]?).map Cell.Parent = some (some b)) ∧
      ((PTree.node 0 .OpPlus F32.zero [.node 1 .OpX F32.zero [], .empty]).holes = 0 →
        h' = heapPlusXHole ∧
        PTree.fill (.node 2 .OpY F32.zero [])
          (.node 0 .OpPlus F32.zero [.node 1 .OpX F32.zero [], .empty]) =
          .node 0 .OpPlus F32.zero [.node 1 .OpX F32.zero [], .empty])) ∧
    (∀ (g : Rand) (n : Nat),
      (PTree.node 0 .OpPlus F32.zero [.node 1 .OpX F32.zero [], .empty]).holes < n →
      ∃ h' g' t', closeWithLeaves 3 n heapPlusXHole g
          (PTree.node 0 .OpPlus F32.zero [.node 1 .OpX F32.zero [], .empty]).root =
          some (h', g') ∧ Rep h' t' = true ∧
        t'.root = (PTree.node 0 .OpPlus F32.zero [.node 1 .OpX F32.zero [], .empty]).root ∧
        t'.complete = true ∧
        t'.size = (PTree.node 0 .OpPlus F32.zero [.node 1 .OpX F32.zero [], .empty]).size +
          (PTree.node 0 .OpPlus F32.zero [.node 1 .OpX F32.zero [], .empty]).holes) :=
  C14_AddLeaf heapPlusXHole (.node 0 .OpPlus F32.zero [.node 1 .OpX F32.zero [], .empty])
    (.node 2 .OpY F32.zero []) 2 3 (by simp) (by decide) (by decide) rfl (by decide) (by decide)
    (by decide) (by decide)

/-- The parent references of a tree are read off the objects of the tree only. -/
theorem ParentOK_frame (h h' : Heap) : ∀ (t : PTree) (par : Option Ptr),
    (∀ a ∈ t.preorder, (h'[a]?).map Cell.Parent = (h[a]?).map Cell.Parent) →
    ParentOK h par t = true → ParentOK h' par t = true := by
  intro t
  induction t using PTree.induct with
  | hE => simp
  | hN a k v cs ih =>
    intro par hs hp
    rw [ParentOK_node, Bool.and_eq_true] at hp ⊢
    refine ⟨?_, ?_⟩
    · rw [hs a (by simp)]; exact hp.1
    · rw [ParentOKList_iff] at hp ⊢
      intro t ht
      exact ih t ht (some a)
        (fun b hb => hs b (by simp [PTree.mem_preorderList.mpr ⟨t, ht, hb⟩])) (hp.2 t ht)

theorem ParentOKList_frame (h h' : Heap) (cs : List PTree) (par : Option Ptr)
    (hs : ∀ a ∈ PTree.preorderList cs, (h'[a]?).map Cell.Parent = (h[a]?).map Cell.Parent)
    (hp : ParentOKList h par cs = true) : ParentOKList h' par cs = true := by
  rw [ParentOKList_iff] at hp ⊢
  intro t ht
  exact ParentOK_frame h h' t par
    (fun a ha => hs a (PTree.mem_preorderList.mpr ⟨t, ht, ha⟩)) (hp t ht)

theorem ParentOK_extends {h h' : Heap} (he : Extends h h') (t : PTree) (par : Option Ptr)
    (hr : Rep h t = true) (hp : ParentOK h par t = true) : ParentOK h' par t = true :=
  ParentOK_frame h h' t par (fun a ha => by rw [he a (Rep_lt h t hr a ha)]) hp

theorem ParentOKList_extends {h h' : Heap} (he : Extends h h') (cs : List PTree)
    (par : Option Ptr) (hr : RepList h cs = true) (hp : ParentOKList h par cs = true) :
    ParentOKList h' par cs = true := by
  rw [ParentOKList_iff] at hp ⊢
  rw [RepList_iff] at hr
  exact fun t ht => ParentOK_extends he t par (hr t ht) (hp t ht)

theorem ParentOKList_append (h : Heap) (par : Option Ptr) (xs ys : List PTree) :
    ParentOKList h par (xs ++ ys) = (ParentOKList h par xs && ParentOKList h par ys) := by
  induction xs with
  | nil => simp
  | cons t ts ih => simp [ih, Bool.and_assoc]

theorem RepList_lt (h : Heap) (cs : List PTree) (hr : RepList h cs = true) :
    ∀ a ∈ PTree.preorderList cs, a < h.length := by
  intro a ha
  obtain ⟨t, ht, hat⟩ := PTree.mem_preorderList.mp ha
  exact Rep_lt h t ((RepList_iff h cs).mp hr t ht) a hat

/-- The state of the copy loop with the parent references and the addresses of
the copies made so far. -/
theorem CopyTreeLoop_full (fuel : Nat) (h : Heap) (a : Ptr) (c : Cell) (cs : List PTree)
    (parent : Option Ptr) (k : Kind) (v : F32)
    (hca : h[a]? = some c) (hch : c.Children = cs.map PTree.root)
    (ih : ∀ t ∈ cs, ∀ (h : Heap) (parent : Option Ptr), Rep h t = true →
      ∃ h' t', CopyTree fuel h t.root parent = some (h', h.length) ∧ Extends h h' ∧
        Rep h' t' = true ∧ t'.root = some h.length ∧ t'.shape = t.shape ∧ t'.complete = true ∧
        (∀ b ∈ t'.preorder, h.length ≤ b) ∧ ParentOK h' parent t' = true ∧ t'.preorder.Nodup)
    (hrl : RepList h cs = true) :
    ∀ (ts pre done : List PTree) (H : Heap), cs = pre ++ ts → pre.length = done.length →
      Extends h H →
      H[h.length]? = some ⟨k, v, parent, done.map PTree.root ++ List.replicate ts.length none⟩ →
      RepList H done = true → PTree.shapeList done = PTree.shapeList pre →
      PTree.completeList done = true → (∀ b ∈ PTree.preorderList done, h.length < b) →
      ParentOKList H (some h.length) done = true → (PTree.preorderList done).Nodup →
      ∃ H' new, CopyTreeLoop (fun hh child => CopyTree fuel hh child (some h.length)) a h.length
          ts.length pre.length H = some H' ∧ Extends h H' ∧
        H'[h.length]? = some ⟨k, v, parent, new.map PTree.root⟩ ∧
        RepList H' new = true ∧ PTree.shapeList new = PTree.shapeList cs ∧
        PTree.completeList new = true ∧ (∀ b ∈ PTree.preorderList new, h.length < b) ∧
        ParentOKList H' (some h.length) new = true ∧ (PTree.preorderList new).Nodup := by
  intro ts
  induction ts with
  | nil =>
    intro pre done H hcs _ hext hcell hrd hsh hcd haddr hpo hnd
    refine ⟨H, done, by simp [CopyTreeLoop], hext, by simpa using hcell, hrd, ?_, hcd, haddr,
      hpo, hnd⟩
    rw [hsh, hcs]; simp
  | cons t ts iht =>
    intro pre done H hcs hlen hext hcell hrd hsh hcd haddr hpo hnd
    have halt : a < h.length := lt_of_getElem?_some hca
    have hLH : h.length < H.length := lt_of_getElem?_some hcell
    have ht : t ∈ cs := by rw [hcs]; simp
    have hrt : Rep H t = true := Rep_extends hext t ((RepList_iff h cs).mp hrl t ht)
    obtain ⟨H1, t', hcopy, hext1, hrep1, hroot1, hshape1, hcomp1, haddr1, hpo1, hnd1⟩ :=
      ih t ht H (some h.length) hrt
    have hidx : (cs.map PTree.root)[pre.length]? = some t.root := by
      rw [hcs, List.map_append, List.getElem?_append_right (by simp)]
      simp
    have hcell1 : H1[h.length]? =
        some ⟨k, v, parent, done.map PTree.root ++ List.replicate (ts.length + 1) none⟩ := by
      rw [hext1 _ hLH, hcell]; rfl
    have hlt : pre.length < (done.map PTree.root ++ List.replicate (ts.length + 1) none).length := by
      simp; omega
    simp only [List.length_cons, CopyTreeLoop, GetChildren, hext a halt, hca, Option.map_some', hch,
      hidx, hcopy, setChild, hcell1, hlt, if_true]
    have hset : (done.map PTree.root ++ List.replicate (ts.length + 1) none).set pre.length
        (some H.length) = (done ++ [t']).map PTree.root ++ List.replicate ts.length none := by
      rw [hlen, List.set_append_right _ _ (by simp)]
      simp [List.replicate_succ, hroot1]
    rw [hset]
    have hlen' : pre.length + 1 = (pre ++ [t]).length := by simp
    rw [hlen']
    have hframe : ∀ b, h.length < b → sameCore H1 (H1.set h.length
        ⟨k, v, parent, (done ++ [t']).map PTree.root ++ List.replicate ts.length none⟩) b := by
      intro b hb
      apply sameCore_of_eq
      rw [List.getElem?_set_ne (by omega)]
    have hframeP : ∀ b, h.length < b → ((H1.set h.length
        ⟨k, v, parent, (done ++ [t']).map PTree.root ++ List.replicate ts.length none⟩)[b]?).map
          Cell.Parent = (H1[b]?).map Cell.Parent := by
      intro b hb
      rw [List.getElem?_set_ne (by omega)]
    apply iht (pre ++ [t]) (done ++ [t'])
    · rw [hcs]; simp
    · simp [hlen]
    · exact Extends.set (hext.trans hext1) (le_refl _) _
    · rw [List.getElem?_set_eq_of_lt _ (lt_of_lt_of_le hLH hext1.length_le)]
    · rw [RepList_append, Bool.and_eq_true]
      constructor
      · exact RepList_frame H1 _ done (fun b hb => hframe b (haddr b hb))
          (RepList_extends hext1 done hrd)
      · simp only [RepList_cons, RepList_nil, Bool.and_true]
        exact Rep_frame H1 _ t' (fun b hb => hframe b (by have := haddr1 b hb; omega)) hrep1
    · rw [PTree.shapeList_append, PTree.shapeList_append, hsh]; simp [hshape1]
    · rw [PTree.completeList_append]; simp [hcd, hcomp1]
    · intro b hb
      rw [PTree.preorderList_append, List.mem_append] at hb
      rcases hb with hb | hb
      · exact haddr b hb
      · simp only [PTree.preorderList_cons, PTree.preorderList_nil, List.append_nil] at hb
        have := haddr1 b hb; omega
    · rw [ParentOKList_append, Bool.and_eq_true]
      constructor
      · exact ParentOKList_frame H1 _ done _ (fun b hb => hframeP b (haddr b hb))
          (ParentOKList_extends hext1 done _ hrd hpo)
      · simp only [ParentOKList_cons, ParentOKList_nil, Bool.and_true]
        exact ParentOK_frame H1 _ t' _ (fun b hb => hframeP b (by have := haddr1 b hb; omega)) hpo1
    · rw [PTree.preorderList_append]
      simp only [PTree.preorderList_cons, PTree.preorderList_nil, List.append_nil]
      rw [List.nodup_append]
      refine ⟨hnd, hnd1, ?_⟩
      intro b hb1 hb2
      exact absurd (RepList_lt H done hrd b hb1) (Nat.not_lt.mpr (haddr1 b hb2))

/-- The copy that `CopyTree` makes is a tree of new objects, each once in it,
with consistent parent references below the parent handed in. -/
theorem CopyTree_full : ∀ (t : PTree), t.complete = true → ∀ fuel, t.depth < fuel →
    ∀ (h : Heap) (parent : Option Ptr), Rep h t = true →
      ∃ h' t', CopyTree fuel h t.root parent = some (h', h.length) ∧ Extends h h' ∧
        Rep h' t' = true ∧ t'.root = some h.length ∧ t'.shape = t.shape ∧ t'.complete = true ∧
        (∀ b ∈ t'.preorder, h.length ≤ b) ∧ ParentOK h' parent t' = true ∧ t'.preorder.Nodup := by
  intro t
  induction t using PTree.induct with
  | hE => simp
  | hN a k v cs ih =>
    intro hc fuel hf h parent hr
    obtain ⟨c, hca, hk, hv, hch, hrl⟩ := (Rep_node_iff h a k v cs).mp hr
    obtain ⟨fuel, rfl⟩ : ∃ f, fuel = f + 1 := ⟨fuel - 1, by simp at hf; omega⟩
    simp only [PTree.complete_node] at hc
    simp only [PTree.depth_node] at hf
    have halt : a < h.length := lt_of_getElem?_some hca
    have ih' : ∀ t ∈ cs, ∀ (h : Heap) (parent : Option Ptr), Rep h t = true →
        ∃ h' t', CopyTree fuel h t.root parent = some (h', h.length) ∧ Extends h h' ∧
          Rep h' t' = true ∧ t'.root = some h.length ∧ t'.shape = t.shape ∧ t'.complete = true ∧
          (∀ b ∈ t'.preorder, h.length ≤ b) ∧ ParentOK h' parent t' = true ∧
          t'.preorder.Nodup := by
      intro t ht h parent hrt
      have hd : t.depth ≤ PTree.depthList cs := PTree.depth_le_depthList ht
      exact ih t ht ((PTree.completeList_iff cs).mp hc t ht) fuel (by omega) h parent hrt
    set v' : F32 := if k = Kind.OpConstant then v else F32.zero with hv'
    have hloop := CopyTreeLoop_full fuel h a c cs parent k v' hca hch ih' hrl cs [] []
      ((h ++ [(⟨k, v', none, []⟩ : Cell)]).set h.length ⟨k, v', parent, List.replicate cs.length none⟩)
      (by simp) rfl (Extends.set (Extends.append h _) (le_refl _) _)
      (by rw [List.getElem?_set_eq_of_lt _ (by simp)]; simp) (by simp) (by simp) (by simp) (by simp)
      (by simp) (by simp)
    obtain ⟨H', new, hrun, hext, hcell, hrn, hsn, hcn, han, hpn, hnn⟩ := hloop
    refine ⟨H', PTree.node h.length k v' new, ?_, hext, ?_, rfl, ?_, ?_, ?_, ?_, ?_⟩
    · simp only [PTree.root, CopyTree, hca, Heap.alloc, SetParent, hk, hv]
      rw [List.getElem?_append_right (le_refl _)]
      simp only [Nat.sub_self, List.getElem?_cons_zero, GetChildren]
      rw [List.getElem?_set_ne (Nat.ne_of_gt halt), List.getElem?_append_left halt, hca]
      simp only [Option.map_some', SetChildren]
      rw [List.getElem?_set_eq_of_lt _ (by simp)]
      simp only [List.set_set, hch, List.length_map]
      simp only [List.length_nil, List.length_map] at hrun
      rw [← hv']
      rw [hrun]
    · rw [Rep_node_iff]; exact ⟨_, hcell, rfl, rfl, rfl, hrn⟩
    · simp only [PTree.shape_node, hsn, hv']
      split <;> simp_all
    · simpa using hcn
    · intro b hb
      simp only [PTree.preorder_node, List.mem_cons] at hb
      rcases hb with rfl | hb
      · exact le_refl _
      · exact le_of_lt (han b hb)
    · rw [ParentOK_node, Bool.and_eq_true]
      exact ⟨by rw [hcell]; simp, hpn⟩
    · simp only [PTree.preorder_node, List.nodup_cons]
      exact ⟨fun hb => absurd (han _ hb) (lt_irrefl _), hnn⟩

theorem PTree.induct_both {P : PTree → Prop} {Q : List PTree → Prop} (hE : P .empty)
    (hN : ∀ a k v cs, Q cs → P (.node a k v cs)) (hnil : Q [])
    (hcons : ∀ t ts, P t → Q ts → Q (t :: ts)) : (∀ t, P t) ∧ (∀ cs, Q cs) :=
  ⟨fun t => @PTree.rec P Q hE hN hnil hcons t, fun cs => @PTree.rec_1 P Q hE hN hnil hcons cs⟩

@[simp] theorem Tree.size_of_empty : Tree.empty.size = 0 := by simp [Tree.size]
@[simp] theorem Tree.size_of_node (k v cs) : (Tree.node k v cs).size = 1 + Tree.sizeList cs := by
  simp [Tree.size]
@[simp] theorem Tree.sizeList_of_nil : Tree.sizeList [] = 0 := by simp [Tree.sizeList]
@[simp] theorem Tree.sizeList_of_cons (t ts) :
    Tree.sizeList (t :: ts) = t.size + Tree.sizeList ts := by
  simp [Tree.sizeList]
@[simp] theorem Tree.subtreeAt_empty (i) : Tree.subtreeAt i .empty = none := by
  cases i <;> simp [Tree.subtreeAt]
@[simp] theorem Tree.subtreeAt_zero (k v cs) :
    Tree.subtreeAt 0 (.node k v cs) = some (.node k v cs) := by
  simp [Tree.subtreeAt]
@[simp] theorem Tree.subtreeAt_succ (i k v cs) :
    Tree.subtreeAt (i + 1) (.node k v cs) = Tree.subtreeAtList i cs := by
  simp [Tree.subtreeAt]
@[simp] theorem Tree.subtreeAtList_nil (i) : Tree.subtreeAtList i [] = none := by
  simp [Tree.subtreeAtList]
theorem Tree.subtreeAtList_cons (i t ts) : Tree.subtreeAtList i (t :: ts) =
    if i < t.size then Tree.subtreeAt i t else Tree.subtreeAtList (i - t.size) ts := by
  simp [Tree.subtreeAtList]
@[simp] theorem Tree.replaceAt_empty (new i) : Tree.replaceAt new i .empty = .empty := by
  cases i <;> simp [Tree.replaceAt]
@[simp] theorem Tree.replaceAt_zero (new k v cs) :
    Tree.replaceAt new 0 (.node k v cs) = new := by
  simp [Tree.replaceAt]
@[simp] theorem Tree.replaceAt_succ (new i k v cs) :
    Tree.replaceAt new (i + 1) (.node k v cs) = .node k v (Tree.replaceAtList new i cs) := by
  simp [Tree.replaceAt]
@[simp] theorem Tree.replaceAtList_nil (new i) : Tree.replaceAtList new i [] = [] := by
  simp [Tree.replaceAtList]
theorem Tree.replaceAtList_cons (new i t ts) : Tree.replaceAtList new i (t :: ts) =
    if i < t.size then Tree.replaceAt new i t :: ts
    else t :: Tree.replaceAtList new (i - t.size) ts := by
  simp [Tree.replaceAtList]
@[simp] theorem PTree.subAt_empty (i) : PTree.subAt i .empty = none := by
  cases i <;> simp [PTree.subAt]
@[simp] theorem PTree.subAt_zero (a k v cs) :
    PTree.subAt 0 (.node a k v cs) = some (.node a k v cs) := by
  simp [PTree.subAt]
@[simp] theorem PTree.subAt_succ (i a k v cs) :
    PTree.subAt (i + 1) (.node a k v cs) = PTree.subAtList i cs := by
  simp [PTree.subAt]
@[simp] theorem PTree.subAtList_nil (i) : PTree.subAtList i [] = none := by
  simp [PTree.subAtList]
theorem PTree.subAtList_cons (i t ts) : PTree.subAtList i (t :: ts) =
    if i < t.size then PTree.subAt i t else PTree.subAtList (i - t.size) ts := by
  simp [PTree.subAtList]

theorem PTree.size_shape_both :
    (∀ t : PTree, t.shape.size = t.size) ∧
      (∀ cs : List PTree, Tree.sizeList (PTree.shapeList cs) = PTree.sizeList cs) := by
  apply PTree.induct_both
  · simp
  · intro a k v cs ih; simp [ih]
  · simp
  · intro t ts h1 h2; simp [h1, h2]

theorem PTree.size_shape (t : PTree) : t.shape.size = t.size := PTree.size_shape_both.1 t

/-- The subtree at a pre-order index: its root is the address at that index, and
it inherits what the tree has. -/
theorem PTree.subAt_both (h : Heap) :
    (∀ (t : PTree) (i : Nat), i < t.size → ∃ s, PTree.subAt i t = some s ∧
      s.root = t.preorder[i]? ∧ (Rep h t = true → Rep h s = true) ∧
      (t.complete = true → s.complete = true) ∧ s.depth ≤ t.depth ∧
      Tree.subtreeAt i t.shape = some s.shape ∧ (∀ x ∈ s.preorder, x ∈ t.preorder)) ∧
    (∀ (cs : List PTree) (i : Nat), i < PTree.sizeList cs → ∃ s, PTree.subAtList i cs = some s ∧
      s.root = (PTree.preorderList cs)[i]? ∧ (RepList h cs = true → Rep h s = true) ∧
      (PTree.completeList cs = true → s.complete = true) ∧ s.depth ≤ PTree.depthList cs ∧
      Tree.subtreeAtList i (PTree.shapeList cs) = some s.shape ∧
      (∀ x ∈ s.preorder, x ∈ PTree.preorderList cs)) := by
  apply PTree.induct_both
  · intro i hi; simp at hi
  · intro a k v cs ih i hi
    cases i with
    | zero =>
      exact ⟨_, by simp, by simp [PTree.root], fun hr => hr, fun hc => hc, le_refl _, by simp,
        fun x hx => hx⟩
    | succ i =>
      simp only [PTree.size_node] at hi
      obtain ⟨s, h1, h2, h3, h4, h5, h6, h7⟩ := ih i (by omega)
      refine ⟨s, by simp [h1], by simp [h2], ?_, ?_, ?_, by simp [h6], ?_⟩
      · intro hr
        obtain ⟨c, -, -, -, -, hrl⟩ := (Rep_node_iff h a k v cs).mp hr
        exact h3 hrl
      · intro hc
        exact h4 (by simpa using hc)
      · simp only [PTree.depth_node]; omega
      · intro x hx
        simp [h7 x hx]
  · intro i hi; simp at hi
  · intro t ts iht ihts i hi
    simp only [PTree.sizeList_cons] at hi
    rw [PTree.subAtList_cons, PTree.shapeList_cons, Tree.subtreeAtList_cons, PTree.size_shape]
    by_cases hlt : i < t.size
    · obtain ⟨s, h1, h2, h3, h4, h5, h6, h7⟩ := iht i hlt
      refine ⟨s, by simp [hlt, h1], ?_, ?_, ?_, ?_, by simp [hlt, h6], ?_⟩
      · rw [h2, PTree.preorderList_cons,
          List.getElem?_append_left (by rw [PTree.length_preorder]; exact hlt)]
      · intro hr
        simp only [RepList_cons, Bool.and_eq_true] at hr
        exact h3 hr.1
      · intro hc
        simp only [PTree.completeList_cons, Bool.and_eq_true] at hc
        exact h4 hc.1
      · simp only [PTree.depthList_cons]; exact le_trans h5 (le_max_left _ _)
      · intro x hx
        simp [h7 x hx]
    · obtain ⟨s, h1, h2, h3, h4, h5, h6, h7⟩ := ihts (i - t.size) (by omega)
      refine ⟨s, by simp [hlt, h1], ?_, ?_, ?_, ?_, by simp [hlt, h6], ?_⟩
      · rw [h2, PTree.preorderList_cons,
          List.getElem?_append_right (by rw [PTree.length_preorder]; omega),
          PTree.length_preorder]
      · intro hr
        simp only [RepList_cons, Bool.and_eq_true] at hr
        exact h3 hr.2
      · intro hc
        simp only [PTree.completeList_cons, Bool.and_eq_true] at hc
        exact h4 hc.2
      · simp only [PTree.depthList_cons]; exact le_trans h5 (le_max_right _ _)
      · intro x hx
        simp [h7 x hx]

theorem PTree.replaceList_of_not_mem (a : Ptr) (new : PTree) :
    ∀ (cs : List PTree), a ∉ PTree.preorderList cs → PTree.replaceList a new cs = cs := by
  intro cs
  induction cs with
  | nil => simp
  | cons t ts ih =>
    intro ha
    simp only [PTree.preorderList_cons, List.mem_append, not_or] at ha
    simp only [PTree.replaceList_cons]
    rw [PTree.replace_of_not_mem a new t ha.1, ih ha.2]

theorem PTree.findList_none_iff (a : Ptr) (cs : List PTree) :
    PTree.findList a cs = none ↔ a ∉ PTree.preorderList cs := by
  induction cs with
  | nil => simp
  | cons t ts ih =>
    rw [PTree.findList_cons]
    simp only [PTree.preorderList_cons, List.mem_append, not_or]
    rw [← PTree.find_none_iff a t, ← ih]
    cases PTree.find a t <;> simp

/-- Where no node is in two places, replacing the subtree at an address changes
the pre-order enumeration between the nodes before and the nodes after it. -/
theorem PTree.preorder_replace_both (n : Ptr) (new : PTree) :
    (∀ (t s : PTree), t.preorder.Nodup → PTree.find n t = some s →
      ∃ A B, t.preorder = A ++ s.preorder ++ B ∧
        (PTree.replace n new t).preorder = A ++ new.preorder ++ B) ∧
    (∀ (cs : List PTree) (s : PTree), (PTree.preorderList cs).Nodup →
      PTree.findList n cs = some s →
      ∃ A B, PTree.preorderList cs = A ++ s.preorder ++ B ∧
        PTree.preorderList (PTree.replaceList n new cs) = A ++ new.preorder ++ B) := by
  apply PTree.induct_both
  · intro s _ hf; simp at hf
  · intro b k v cs ih s hnd hf
    rw [PTree.find_node] at hf
    rw [PTree.replace_node]
    by_cases hb : b = n
    · simp only [hb, if_true, Option.some.injEq] at hf ⊢
      subst hf
      exact ⟨[], [], by simp, by simp⟩
    · simp only [hb, if_false] at hf ⊢
      simp only [PTree.preorder_node, List.nodup_cons] at hnd
      obtain ⟨A, B, h1, h2⟩ := ih s hnd.2 hf
      exact ⟨b :: A, B, by simp [h1], by simp [h2]⟩
  · intro s _ hf; simp at hf
  · intro t ts iht ihts s hnd hf
    rw [PTree.findList_cons] at hf
    simp only [PTree.preorderList_cons] at hnd
    rw [List.nodup_append] at hnd
    obtain ⟨hnt, hnts, hdisj⟩ := hnd
    simp only [PTree.replaceList_cons, PTree.preorderList_cons]
    cases hft : PTree.find n t with
    | some s' =>
      rw [hft] at hf
      simp only [Option.some.injEq] at hf
      subst hf
      obtain ⟨A, B, h1, h2⟩ := iht s' hnt hft
      have hat : n ∈ t.preorder := by
        by_contra hna
        rw [(PTree.find_none_iff n t).mpr hna] at hft
        cases hft
      rw [PTree.replaceList_of_not_mem n new ts (fun hx => hdisj hat hx)]
      exact ⟨A, B ++ PTree.preorderList ts, by simp [h1], by simp [h2]⟩
    | none =>
      rw [hft] at hf
      have hna := (PTree.find_none_iff n t).mp hft
      rw [PTree.replace_of_not_mem n new t hna]
      obtain ⟨A, B, h1, h2⟩ := ihts s hnts hf
      exact ⟨t.preorder ++ A, B, by simp [h1], by simp [h2]⟩

theorem PTree.preorder_replace (n : Ptr) (new t s : PTree) (hnd : t.preorder.Nodup)
    (hf : PTree.find n t = some s) :
    ∃ A B, t.preorder = A ++ s.preorder ++ B ∧
      (PTree.replace n new t).preorder = A ++ new.preorder ++ B :=
  (PTree.preorder_replace_both n new).1 t s hnd hf

/-- No node is in two places after a replacement by a tree whose nodes are new or
come from the subtree replaced. -/
theorem PTree.nodup_replace (n : Ptr) (new t s : PTree) (hnd : t.preorder.Nodup)
    (hf : PTree.find n t = some s) (hnew : new.preorder.Nodup)
    (hin : ∀ x ∈ new.preorder, x ∈ t.preorder → x ∈ s.preorder) :
    (PTree.replace n new t).preorder.Nodup ∧
      (∀ x ∈ (PTree.replace n new t).preorder,
        x ∈ new.preorder ∨ (x ∈ t.preorder ∧ x ∉ s.preorder)) ∧
      (∀ x ∈ new.preorder, x ∈ (PTree.replace n new t).preorder) ∧
      (∀ x ∈ t.preorder, x ∉ s.preorder → x ∈ (PTree.replace n new t).preorder) := by
  obtain ⟨A, B, h1, h2⟩ := PTree.preorder_replace n new t s hnd hf
  rw [h1] at hnd hin
  rw [h2, h1]
  rw [List.append_assoc, List.nodup_append] at hnd
  obtain ⟨hA, hsB, hAsB⟩ := hnd
  rw [List.nodup_append] at hsB
  obtain ⟨hs, hB, hsB'⟩ := hsB
  have hAB : ∀ x ∈ A, x ∉ B := fun x hx hxB => hAsB hx (by simp [hxB])
  have hAs : ∀ x ∈ A, x ∉ s.preorder := fun x hx hxs => hAsB hx (by simp [hxs])
  refine ⟨?_, ?_, ?_, ?_⟩
  · rw [List.append_assoc, List.nodup_append]
    refine ⟨hA, ?_, ?_⟩
    · rw [List.nodup_append]
      refine ⟨hnew, hB, ?_⟩
      intro x hx hxB
      exact hsB' (hin x hx (by simp [hxB])) hxB
    · intro x hxA hx
      rcases List.mem_append.mp hx with hx | hx
      · exact hAs x hxA (hin x hx (by simp [hxA]))
      · exact hAB x hxA hx
  · intro x hx
    simp only [List.mem_append] at hx ⊢
    rcases hx with (hx | hx) | hx
    · exact Or.inr ⟨Or.inl (Or.inl hx), hAs x hx⟩
    · exact Or.inl hx
    · exact Or.inr ⟨Or.inr hx, fun hxs => hsB' hxs hx⟩
  · intro x hx
    simp [hx]
  · intro x hx hxs
    simp only [List.mem_append] at hx ⊢
    rcases hx with (hx | hx) | hx
    · exact Or.inl (Or.inl hx)
    · exact absurd hx hxs
    · exact Or.inr hx

/-- The shape after a replacement, told without addresses: the subtree at the
pre-order index of the address is replaced. -/
theorem PTree.shape_replace_both (n : Ptr) (new : PTree) :
    (∀ (t : PTree) (i : Nat), t.preorder.Nodup → t.preorder[i]? = some n →
      (PTree.replace n new t).shape = Tree.replaceAt new.shape i t.shape) ∧
    (∀ (cs : List PTree) (i : Nat), (PTree.preorderList cs).Nodup →
      (PTree.preorderList cs)[i]? = some n →
      PTree.shapeList (PTree.replaceList n new cs) =
        Tree.replaceAtList new.shape i (PTree.shapeList cs)) := by
  apply PTree.induct_both
  · intro i _ hi; simp at hi
  · intro b k v cs ih i hnd hi
    simp only [PTree.preorder_node, List.nodup_cons] at hnd
    rw [PTree.replace_node]
    cases i with
    | zero =>
      simp only [PTree.preorder_node, List.getElem?_cons_zero, Option.some.injEq] at hi
      simp [hi]
    | succ i =>
      simp only [PTree.preorder_node, List.getElem?_cons_succ] at hi
      have hmem : n ∈ PTree.preorderList cs := List.getElem?_mem hi
      have hb : b ≠ n := fun e => hnd.1 (e ▸ hmem)
      simp only [hb, if_false, PTree.shape_node, Tree.replaceAt_succ]
      rw [ih i hnd.2 hi]
  · intro i _ hi; simp at hi
  · intro t ts iht ihts i hnd hi
    simp only [PTree.preorderList_cons] at hnd hi
    rw [List.nodup_append] at hnd
    obtain ⟨hnt, hnts, hdisj⟩ := hnd
    rw [PTree.replaceList_cons, PTree.shapeList_cons, PTree.shapeList_cons,
      Tree.replaceAtList_cons, PTree.size_shape]
    by_cases hlt : i < t.size
    · rw [List.getElem?_append_left (by rw [PTree.length_preorder]; exact hlt)] at hi
      have hat : n ∈ t.preorder := List.getElem?_mem hi
      rw [PTree.replaceList_of_not_mem n new ts (fun hx => hdisj hat hx), iht i hnt hi]
      simp [hlt]
    · rw [List.getElem?_append_right (by rw [PTree.length_preorder]; omega),
        PTree.length_preorder] at hi
      have hats : n ∈ PTree.preorderList ts := List.getElem?_mem hi
      rw [PTree.replace_of_not_mem n new t (fun hx => hdisj hx hats), ihts (i - t.size) hnts hi]
      simp [hlt]

theorem PTree.shape_replace (n : Ptr) (new t : PTree) (i : Nat) (hnd : t.preorder.Nodup)
    (hi : t.preorder[i]? = some n) :
    (PTree.replace n new t).shape = Tree.replaceAt new.shape i t.shape :=
  (PTree.shape_replace_both n new).1 t i hnd hi

/-- The height after a replacement where no node is in two places. -/
theorem PTree.depth_replace_both (n : Ptr) (new : PTree) (d : Nat) :
    (∀ (t s : PTree), t.preorder.Nodup → PTree.find n t = some s → new.depth ≤ s.depth + d →
      (PTree.replace n new t).depth ≤ t.depth + d) ∧
    (∀ (cs : List PTree) (s : PTree), (PTree.preorderList cs).Nodup →
      PTree.findList n cs = some s → new.depth ≤ s.depth + d →
      PTree.depthList (PTree.replaceList n new cs) ≤ PTree.depthList cs + d) := by
  apply PTree.induct_both
  · intro s _ hf; simp at hf
  · intro b k v cs ih s hnd hf hd
    rw [PTree.find_node] at hf
    rw [PTree.replace_node]
    by_cases hb : b = n
    · simp only [hb, if_true, Option.some.injEq] at hf ⊢
      subst hf
      exact hd
    · simp only [hb, if_false] at hf ⊢
      simp only [PTree.preorder_node, List.nodup_cons] at hnd
      have := ih s hnd.2 hf hd
      simp only [PTree.depth_node]
      omega
  · intro s _ hf; simp at hf
  · intro t ts iht ihts s hnd hf hd
    rw [PTree.findList_cons] at hf
    simp only [PTree.preorderList_cons] at hnd
    rw [List.nodup_append] at hnd
    obtain ⟨hnt, hnts, hdisj⟩ := hnd
    simp only [PTree.replaceList_cons, PTree.depthList_cons]
    cases hft : PTree.find n t with
    | some s' =>
      rw [hft] at hf
      simp only [Option.some.injEq] at hf
      subst hf
      have h1 := iht s' hnt hft hd
      have hat : n ∈ t.preorder := by
        by_contra hna
        rw [(PTree.find_none_iff n t).mpr hna] at hft
        cases hft
      rw [PTree.replaceList_of_not_mem n new ts (fun hx => hdisj hat hx)]
      omega
    | none =>
      rw [hft] at hf
      have hna := (PTree.find_none_iff n t).mp hft
      rw [PTree.replace_of_not_mem n new t hna]
      have h2 := ihts s hnts hf hd
      omega

theorem PTree.depth_replace (n : Ptr) (new t s : PTree) (d : Nat) (hnd : t.preorder.Nodup)
    (hf : PTree.find n t = some s) (hd : new.depth ≤ s.depth + d) :
    (PTree.replace n new t).depth ≤ t.depth + d :=
  (PTree.depth_replace_both n new d).1 t s hnd hf hd

theorem PTree.findList_sub (a : Ptr) : ∀ (cs : List PTree) (s : PTree),
    PTree.findList a cs = some s → ∀ x ∈ s.preorder, x ∈ PTree.preorderList cs := by
  intro cs
  induction cs with
  | nil => intro s hs; simp at hs
  | cons t ts ih =>
    intro s hs x hx
    rw [PTree.findList_cons] at hs
    simp only [PTree.preorderList_cons, List.mem_append]
    cases hft : PTree.find a t with
    | some s' =>
      rw [hft] at hs
      simp only [Option.some.injEq] at hs
      subst hs
      exact Or.inl ((PTree.find_some [] a t s' hft).2.2.2 x hx)
    | none =>
      rw [hft] at hs
      exact Or.inr (ih s hs x hx)

/-- The parent references after a replacement: those outside the subtree
replaced are as before, and the new subtree has the parent reference of the old
one. -/
theorem ParentOK_replace_both (h h' : Heap) (n : Ptr) (new : PTree)
    (hnew : ∀ pn, (h[n]?).map Cell.Parent = some pn → ParentOK h' pn new = true) :
    (∀ (t : PTree) (par : Option Ptr) (S : List Ptr), t.preorder.Nodup →
      ParentOK h par t = true →
      (∀ s, PTree.find n t = some s → ∀ x ∈ S, x ∈ s.preorder) → (n ∉ t.preorder → S = []) →
      (∀ a ∈ t.preorder, a ∉ S → (h'[a]?).map Cell.Parent = (h[a]?).map Cell.Parent) →
      ParentOK h' par (PTree.replace n new t) = true) ∧
    (∀ (cs : List PTree) (par : Option Ptr) (S : List Ptr), (PTree.preorderList cs).Nodup →
      ParentOKList h par cs = true →
      (∀ s, PTree.findList n cs = some s → ∀ x ∈ S, x ∈ s.preorder) →
      (n ∉ PTree.preorderList cs → S = []) →
      (∀ a ∈ PTree.preorderList cs, a ∉ S → (h'[a]?).map Cell.Parent = (h[a]?).map Cell.Parent) →
      ParentOKList h' par (PTree.replaceList n new cs) = true) := by
  apply PTree.induct_both
  · intro par S _ _ _ _ _; simp
  · intro b k v cs ih par S hnd hpo hS hS0 hsame
    rw [PTree.replace_node]
    rw [ParentOK_node, Bool.and_eq_true] at hpo
    by_cases hb : b = n
    · simp only [hb, if_true]
      apply hnew
      rw [← hb]
      simpa using hpo.1
    · simp only [hb, if_false]
      simp only [PTree.preorder_node, List.nodup_cons] at hnd
      rw [ParentOK_node, Bool.and_eq_true]
      have hfind : PTree.find n (.node b k v cs) = PTree.findList n cs := by
        rw [PTree.find_node]; simp [hb]
      have hbS : b ∉ S := by
        intro hbS
        cases hfl : PTree.findList n cs with
        | none =>
          have := hS0 (by
            simp only [PTree.preorder_node, List.mem_cons, not_or]
            exact ⟨fun e => hb e.symm, (PTree.findList_none_iff n cs).mp hfl⟩)
          rw [this] at hbS
          cases hbS
        | some s =>
          have hbs := hS s (by rw [hfind, hfl]) b hbS
          have hsub := PTree.findList_sub n cs s hfl
          exact hnd.1 (hsub b hbs)
      refine ⟨?_, ?_⟩
      · rw [hsame b (by simp) hbS]
        exact hpo.1
      · apply ih (some b) S hnd.2 hpo.2
        · intro s hs; exact hS s (by rw [hfind, hs])
        · intro hn
          apply hS0
          simp only [PTree.preorder_node, List.mem_cons, not_or]
          exact ⟨fun e => hb e.symm, hn⟩
        · intro a ha haS
          exact hsame a (by simp [ha]) haS
  · intro par S _ _ _ _ _; simp
  · intro t ts iht ihts par S hnd hpo hS hS0 hsame
    simp only [PTree.preorderList_cons] at hnd
    rw [List.nodup_append] at hnd
    obtain ⟨hnt, hnts, hdisj⟩ := hnd
    simp only [ParentOKList_cons, Bool.and_eq_true] at hpo
    simp only [PTree.replaceList_cons, ParentOKList_cons, Bool.and_eq_true]
    cases hft : PTree.find n t with
    | some s' =>
      have hat : n ∈ t.preorder := by
        by_contra hna
        rw [(PTree.find_none_iff n t).mpr hna] at hft
        cases hft
      have hfl : PTree.findList n (t :: ts) = some s' := by
        rw [PTree.findList_cons, hft]
      have hsub := (PTree.find_some h n t s' hft).2.2.2
      rw [PTree.replaceList_of_not_mem n new ts (fun hx => hdisj hat hx)]
      refine ⟨?_, ?_⟩
      · apply iht par S hnt hpo.1
        · intro s hs
          rw [hft] at hs
          cases hs
          exact hS s' hfl
        · intro hn; exact absurd hat hn
        · intro a ha haS
          exact hsame a (by simp [ha]) haS
      · apply ParentOKList_frame h h' ts par _ hpo.2
        intro a ha
        apply hsame a (by simp [ha])
        intro haS
        exact hdisj (hsub a (hS s' hfl a haS)) ha
    | none =>
      have hna := (PTree.find_none_iff n t).mp hft
      have hfl : PTree.findList n (t :: ts) = PTree.findList n ts := by
        rw [PTree.findList_cons, hft]
      rw [PTree.replace_of_not_mem n new t hna]
      refine ⟨?_, ?_⟩
      · apply ParentOK_frame h h' t par _ hpo.1
        intro a ha
        apply hsame a (by simp [ha])
        intro haS
        cases hfts : PTree.findList n ts with
        | none =>
          have := hS0 (by
            simp only [PTree.preorderList_cons, List.mem_append, not_or]
            exact ⟨hna, (PTree.findList_none_iff n ts).mp hfts⟩)
          rw [this] at haS
          cases haS
        | some s =>
          have hmem := hS s (by rw [hfl, hfts]) a haS
          have hsub := PTree.findList_sub n ts s hfts
          exact hdisj ha (hsub a hmem)
      · apply ihts par S hnts hpo.2
        · intro s hs; exact hS s (by rw [hfl, hs])
        · intro hn
          apply hS0
          simp only [PTree.preorderList_cons, List.mem_append, not_or]
          exact ⟨hna, hn⟩
        · intro a ha haS
          exact hsame a (by simp [ha]) haS

/-- The whole effect of `ReplaceNode` on the store. -/
theorem ReplaceNode_full (h : Heap) (old new : Ptr) (co cn : Cell)
    (ho : h[old]? = some co) (hn : h[new]? = some cn)
    (hP : ∀ P, co.Parent = some P → P < h.length) :
    ∃ h', ReplaceNode h (some old) (some new) = some h' ∧ h'.length = h.length ∧
      (∀ a, (h'[a]?).map Cell.core = (h[a]?).map (fun c => (c.typ, c.value,
        if co.Parent = some a then replaceIn c.Children (some old) (some new)
        else c.Children))) ∧
      (h'[new]?).map Cell.Parent = some co.Parent ∧
      (∀ a, a ≠ new → (h'[a]?).map Cell.Parent = (h[a]?).map Cell.Parent) ∧
      (∀ a, co.Parent ≠ some a → a ≠ new → h'[a]? = h[a]?) := by
  have hnl := lt_of_getElem?_some hn
  cases hpar : co.Parent with
  | none =>
    refine ⟨h.set new { cn with Parent := none }, ?_, by simp, ?_, ?_, ?_, ?_⟩
    · simp [ReplaceNode, GetParent, ho, hpar, SetParent, hn]
    · intro a
      by_cases ha : new = a
      · subst ha; rw [List.getElem?_set_eq_of_lt _ hnl, hn]; simp [Cell.core]
      · rw [List.getElem?_set_ne ha]
        cases h[a]? <;> simp [Cell.core]
    · rw [List.getElem?_set_eq_of_lt _ hnl]; rfl
    · intro a ha
      rw [List.getElem?_set_ne (Ne.symm ha)]
    · intro a _ ha
      rw [List.getElem?_set_ne (Ne.symm ha)]
  | some P =>
    have hPl := hP P hpar
    obtain ⟨pc, hpc⟩ : ∃ pc, h[P]? = some pc := ⟨h[P], List.getElem?_eq_getElem hPl⟩
    set h1 := h.set P { pc with Children := replaceIn pc.Children (some old) (some new) } with hh1
    have hn1l : new < h1.length := by simp [hh1, hnl]
    obtain ⟨cn1, hcn1⟩ : ∃ c, h1[new]? = some c := ⟨h1[new], List.getElem?_eq_getElem hn1l⟩
    have hcore1 : ∀ a : Ptr, (h1[a]?).map Cell.core = (h[a]?).map (fun c => (c.typ, c.value,
        if some P = some a then replaceIn c.Children (some old) (some new)
        else c.Children)) := by
      intro a
      by_cases hPa : P = a
      · subst hPa
        rw [hh1, List.getElem?_set_eq_of_lt _ hPl, hpc]
        simp [Cell.core]
      · rw [hh1, List.getElem?_set_ne hPa]
        have : ¬ (some P = some a) := fun e => hPa (Option.some.inj e)
        cases h[a]? <;> simp [Cell.core, this]
    have hpar1 : ∀ a : Ptr, (h1[a]?).map Cell.Parent = (h[a]?).map Cell.Parent := by
      intro a
      by_cases hPa : P = a
      · subst hPa
        rw [hh1, List.getElem?_set_eq_of_lt _ hPl, hpc]
        rfl
      · rw [hh1, List.getElem?_set_ne hPa]
    refine ⟨h1.set new { cn1 with Parent := some P }, ?_, by simp [hh1], ?_, ?_, ?_, ?_⟩
    · simp [ReplaceNode, GetParent, ho, hpar, replaceChild, hpc, SetParent, ← hh1, hcn1]
    · intro a
      rw [← hcore1 a]
      by_cases ha : new = a
      · subst ha; rw [List.getElem?_set_eq_of_lt _ hn1l, hcn1]; simp [Cell.core]
      · rw [List.getElem?_set_ne ha]
    · rw [List.getElem?_set_eq_of_lt _ hn1l]; rfl
    · intro a ha
      rw [List.getElem?_set_ne (Ne.symm ha), hpar1 a]
    · intro a haP ha
      have hPa : P ≠ a := fun e => haP (by rw [e])
      rw [List.getElem?_set_ne (Ne.symm ha), hh1, List.getElem?_set_ne hPa]

/-- A tree keeps consistent parent references when only the parent reference of
its root is set anew. -/
theorem ParentOK_reroot (h h' : Heap) (U : PTree) (pb p' : Option Ptr) (q : Ptr)
    (hroot : U.root = some q) (hnd : U.preorder.Nodup) (hpo : ParentOK h pb U = true)
    (hq : (h'[q]?).map Cell.Parent = some p')
    (hsame : ∀ a, a ≠ q → (h'[a]?).map Cell.Parent = (h[a]?).map Cell.Parent) :
    ParentOK h' p' U = true := by
  cases U with
  | empty => simp
  | node a k v cs =>
    simp only [PTree.root, Option.some.injEq] at hroot
    subst hroot
    rw [ParentOK_node, Bool.and_eq_true] at hpo ⊢
    simp only [PTree.preorder_node, List.nodup_cons] at hnd
    refine ⟨by simpa using hq, ?_⟩
    apply ParentOKList_frame h h' cs _ _ hpo.2
    intro b hb
    exact hsame b (fun e => hnd.1 (e ▸ hb))

theorem PTree.root_mem {t : PTree} {a : Ptr} (ht : t.root = some a) : a ∈ t.preorder := by
  cases t with
  | empty => simp [PTree.root] at ht
  | node b k v cs =>
    simp only [PTree.root, Option.some.injEq] at ht
    simp [ht]

theorem PTree.find_of_mem (n : Ptr) (t : PTree) (hn : n ∈ t.preorder) :
    ∃ s, PTree.find n t = some s := by
  cases hx : PTree.find n t with
  | none => exact absurd hn ((PTree.find_none_iff n t).mp hx)
  | some s => exact ⟨s, rfl⟩

/-- `ReplaceNode(n, q)` where `n` is a node below the root of a tree with
consistent parent references and without sharing, and `q` is the root of a tree
apart from it: the store then holds the tree with `q` in the place of `n`. -/
theorem ReplaceNode_in_tree (h : Heap) (C U : PTree) (n q : Ptr) (pb : Option Ptr)
    (hcC : C.complete = true) (hrC : Rep h C = true) (hpC : ParentOK h none C = true)
    (hnC : C.preorder.Nodup) (hn : n ∈ C.preorder) (hroot : C.root ≠ some n)
    (hrU : Rep h U = true) (hUroot : U.root = some q) (hcU : U.complete = true)
    (hndU : U.preorder.Nodup) (hpU : ParentOK h pb U = true)
    (hdis : ∀ x ∈ U.preorder, x ∉ C.preorder) :
    ∃ h', ReplaceNode h (some n) (some q) = some h' ∧ h'.length = h.length ∧
      Rep h' (PTree.replace n U C) = true ∧ (PTree.replace n U C).complete = true ∧
      ParentOK h' none (PTree.replace n U C) = true ∧ (PTree.replace n U C).preorder.Nodup ∧
      (PTree.replace n U C).root = C.root ∧
      (∀ x ∈ (PTree.replace n U C).preorder, x ∈ U.preorder ∨ x ∈ C.preorder) ∧
      (∀ S, Rep h S = true → n ∉ S.preorder → Rep h' S = true) ∧
      (∀ S par, ParentOK h par S = true → q ∉ S.preorder → ParentOK h' par S = true) ∧
      (∀ a, a ∉ C.preorder → a ≠ q → h'[a]? = h[a]?) := by
  have hnl := Rep_lt h C hrC n hn
  have hqU : q ∈ U.preorder := PTree.root_mem hUroot
  have hql := Rep_lt h U hrU q hqU
  obtain ⟨co, hco⟩ : ∃ c, h[n]? = some c := ⟨h[n], List.getElem?_eq_getElem hnl⟩
  obtain ⟨cq, hcq⟩ : ∃ c, h[q]? = some c := ⟨h[q], List.getElem?_eq_getElem hql⟩
  obtain ⟨P, hPC, hPar⟩ : ∃ P ∈ C.preorder, co.Parent = some P := by
    rcases ParentOK_parent h C none hrC hpC n hn with ⟨h1, -⟩ | ⟨b, hb, h2⟩
    · exact absurd h1 hroot
    · rw [hco] at h2
      simp only [Option.map_some', Option.some.injEq] at h2
      exact ⟨b, hb, h2⟩
  have hPl := Rep_lt h C hrC P hPC
  obtain ⟨h', hrun, hlen, hcore, hq', hparents, hcells⟩ :=
    ReplaceNode_full h n q co cq hco hcq (by
      intro P' hP'
      rw [hPar] at hP'
      cases hP'
      exact hPl)
  have hm : mutatedFrom h h' (some P) n q := by
    intro a _
    rw [hcore a, hPar]
  obtain ⟨s, hfind⟩ := PTree.find_of_mem n C hn
  have hnU : n ∉ U.preorder := fun hx => hdis n hx hn
  have hrU' : Rep h' U = true := mutatedFrom_frame hm U hrU hnU
  have hnd := PTree.nodup_replace n U C s hnC hfind hndU (fun x hx hxC => absurd hxC (hdis x hx))
  refine ⟨h', hrun, hlen, ?_, PTree.complete_replace n U hcU C hcC, ?_, hnd.1, ?_, ?_, ?_, ?_, ?_⟩
  · apply Rep_replace hm U hrU' hUroot C hrC
    intro b hb c hcb hmem
    have := ParentOK_holder h C none hrC hpC b hb c hcb n hmem
    rw [hco] at this
    simp only [Option.map_some', Option.some.injEq] at this
    rw [hPar] at this
    exact this
  · apply (ParentOK_replace_both h h' n U _).1 C none [] hnC hpC
    · intro s _ x hx; cases hx
    · intro _; rfl
    · intro a ha _
      exact hparents a (fun e => hdis q hqU (e ▸ ha))
    · intro pn hpn
      rw [hco] at hpn
      simp only [Option.map_some', Option.some.injEq] at hpn
      subst hpn
      exact ParentOK_reroot h h' U pb _ q hUroot hndU hpU hq' hparents
  · rw [PTree.root_replace, if_neg hroot]
  · intro x hx
    rcases hnd.2.1 x hx with hx | hx
    · exact Or.inl hx
    · exact Or.inr hx.1
  · exact fun S hS hnS => mutatedFrom_frame hm S hS hnS
  · intro S par hS hqS
    exact ParentOK_frame h h' S par (fun a ha => hparents a (fun e => hqS (e ▸ ha))) hS
  · intro a haC haq
    apply hcells a _ haq
    rw [hPar]
    intro e
    cases e
    exact haC hPC

/-- `ReplaceNode(n, q)` where `n` is the root of a tree and has no parent: only
the parent reference of `q` is set, to nil. -/
theorem ReplaceNode_at_root (h : Heap) (C U : PTree) (n q : Ptr) (pb : Option Ptr)
    (hrC : Rep h C = true) (hpC : ParentOK h none C = true) (hroot : C.root = some n)
    (hrU : Rep h U = true) (hUroot : U.root = some q)
    (hndU : U.preorder.Nodup) (hpU : ParentOK h pb U = true) :
    ∃ h', ReplaceNode h (some n) (some q) = some h' ∧ h'.length = h.length ∧
      (∀ S, Rep h S = true → Rep h' S = true) ∧
      (∀ S par, ParentOK h par S = true → q ∉ S.preorder → ParentOK h' par S = true) ∧
      ParentOK h' none U = true ∧
      (∀ a, a ≠ q → h'[a]? = h[a]?) := by
  have hn : n ∈ C.preorder := PTree.root_mem hroot
  have hnl := Rep_lt h C hrC n hn
  have hqU : q ∈ U.preorder := PTree.root_mem hUroot
  have hql := Rep_lt h U hrU q hqU
  obtain ⟨co, hco⟩ : ∃ c, h[n]? = some c := ⟨h[n], List.getElem?_eq_getElem hnl⟩
  obtain ⟨cq, hcq⟩ : ∃ c, h[q]? = some c := ⟨h[q], List.getElem?_eq_getElem hql⟩
  have hPar : co.Parent = none := by
    cases C with
    | empty => simp [PTree.root] at hroot
    | node a k v cs =>
      simp only [PTree.root, Option.some.injEq] at hroot
      subst hroot
      rw [ParentOK_node, Bool.and_eq_true] at hpC
      have := hpC.1
      rw [hco] at this
      simpa using this
  obtain ⟨h', hrun, hlen, hcore, hq', hparents, hcells⟩ :=
    ReplaceNode_full h n q co cq hco hcq (by
      intro P' hP'
      rw [hPar] at hP'
      cases hP')
  refine ⟨h', hrun, hlen, ?_, ?_, ?_, ?_⟩
  · intro S hS
    apply Rep_frame h h' S _ hS
    intro a _
    unfold sameCore
    rw [hcore a, hPar]
    cases h[a]? <;> simp [Cell.core]
  · intro S par hS hqS
    exact ParentOK_frame h h' S par (fun a ha => hparents a (fun e => hqS (e ▸ ha))) hS
  · rw [hPar] at hq'
    exact ParentOK_reroot h h' U pb none q hUroot hndU hpU hq' hparents
  · intro a haq
    exact hcells a (by rw [hPar]; simp) haq

theorem pickRandomColor_eq (p : picture) (g : Rand) :
    p.pickRandomColor g =
      some (pick3 (g.ints g.ipos % 3) p.r p.g p.b, { g with ipos := g.ipos + 1 }) := by
  have h3 : g.ints g.ipos % 3 < 3 := Nat.mod_lt _ (by decide)
  obtain h0 | h1 | h2 : g.ints g.ipos % 3 = 0 ∨ g.ints g.ipos % 3 = 1 ∨
      g.ints g.ipos % 3 = 2 := by omega
  · simp [picture.pickRandomColor, Rand.Intn, h0, pick3]
  · simp [picture.pickRandomColor, Rand.Intn, h1, pick3]
  · simp [picture.pickRandomColor, Rand.Intn, h2, pick3]

theorem pick3_map {α β : Type} (f : α → β) (c : Nat) (x y z : α) :
    f (pick3 c x y z) = pick3 c (f x) (f y) (f z) := by
  unfold pick3
  split <;> rfl

theorem nodup_append3 {X Y Z : List Ptr} (hX : X.Nodup) (hY : Y.Nodup) (hZ : Z.Nodup)
    (hXY : ∀ x ∈ X, x ∉ Y) (hXZ : ∀ x ∈ X, x ∉ Z) (hYZ : ∀ x ∈ Y, x ∉ Z) :
    (X ++ Y ++ Z).Nodup := by
  rw [List.append_assoc, List.nodup_append]
  refine ⟨hX, ?_, ?_⟩
  · rw [List.nodup_append]
    exact ⟨hY, hZ, fun x hx hz => hYZ x hx hz⟩
  · intro x hx hyz
    rcases List.mem_append.mp hyz with hy | hz
    · exact hXY x hx hy
    · exact hXZ x hx hz

/-- The node that `GetNthNode` returns for an index below the size. -/
theorem GetNthNode_at (h : Heap) (t : PTree) (hc : t.complete = true) (hr : Rep h t = true)
    (fuel : Nat) (hf : t.depth < fuel) (i : Nat) (hi : i < t.size) :
    ∃ n cnt, t.preorder[i]? = some n ∧
      GetNthNode fuel h t.root (i : Int) 0 = some (some n, cnt) := by
  obtain ⟨res, e3, hfound, -⟩ := GetNthNode_spec h (i : Int) t hc hr fuel hf 0
  have hidx : i < t.preorder.length := by rw [PTree.length_preorder]; exact hi
  have h1 := hfound ⟨by omega, by omega⟩
  simp only [sub_zero, Int.toNat_ofNat] at h1
  rw [List.getElem?_eq_getElem hidx] at h1
  obtain ⟨r1, cnt⟩ := res
  simp only at h1
  subst h1
  exact ⟨_, cnt, List.getElem?_eq_getElem hidx, e3⟩

/-- The run of `cross(a, b)` on two pictures whose channels are complete trees of
the store, with fuel above the heights: the new picture `F`, the trees of which
are made of new objects only. -/
theorem cross_spec (fuel : Nat) (h : Heap) (g : Rand) (Ar Ag Ab Br Bg Bb : PTree)
    (hca : Ar.complete = true ∧ Ag.complete = true ∧ Ab.complete = true)
    (hra : Rep h Ar = true ∧ Rep h Ag = true ∧ Rep h Ab = true)
    (hfa : Ar.depth < fuel ∧ Ag.depth < fuel ∧ Ab.depth < fuel)
    (hcb : Br.complete = true ∧ Bg.complete = true ∧ Bb.complete = true)
    (hrb : Rep h Br = true ∧ Rep h Bg = true ∧ Rep h Bb = true)
    (hfb : Br.depth < fuel ∧ Bg.depth < fuel ∧ Bb.depth < fuel) :
    ∃ h' Fr Fg Fb s,
      cross fuel h g ⟨Ar.root, Ag.root, Ab.root⟩ ⟨Br.root, Bg.root, Bb.root⟩ =
        some (h', { g with ipos := g.ipos + 4 }, ⟨Fr.root, Fg.root, Fb.root⟩) ∧
      Extends h h' ∧
      (Rep h' Fr = true ∧ Rep h' Fg = true ∧ Rep h' Fb = true) ∧
      (Fr.complete = true ∧ Fg.complete = true ∧ Fb.complete = true) ∧
      (ParentOK h' none Fr = true ∧ ParentOK h' none Fg = true ∧ ParentOK h' none Fb = true) ∧
      (Fr.preorder ++ Fg.preorder ++ Fb.preorder).Nodup ∧
      (∀ x ∈ Fr.preorder ++ Fg.preorder ++ Fb.preorder, h.length ≤ x) ∧
      (Fr.depth ≤ Ar.depth + (pick3 (g.ints (g.ipos + 1) % 3) Br Bg Bb).depth ∧
        Fg.depth ≤ Ag.depth + (pick3 (g.ints (g.ipos + 1) % 3) Br Bg Bb).depth ∧
        Fb.depth ≤ Ab.depth + (pick3 (g.ints (g.ipos + 1) % 3) Br Bg Bb).depth) ∧
      Tree.subtreeAt (g.ints (g.ipos + 3) % (pick3 (g.ints (g.ipos + 1) % 3) Br Bg Bb).size)
        (pick3 (g.ints (g.ipos + 1) % 3) Br Bg Bb).shape = some s ∧
      (pick3 (g.ints g.ipos % 3) Fr Fg Fb).shape =
        (if g.ints (g.ipos + 2) % (pick3 (g.ints g.ipos % 3) Ar Ag Ab).size = 0
          then (pick3 (g.ints g.ipos % 3) Ar Ag Ab).shape
          else Tree.replaceAt s (g.ints (g.ipos + 2) % (pick3 (g.ints g.ipos % 3) Ar Ag Ab).size)
            (pick3 (g.ints g.ipos % 3) Ar Ag Ab).shape) ∧
      (∀ k, k < 3 → k ≠ g.ints g.ipos % 3 →
        (pick3 k Fr Fg Fb).shape = (pick3 k Ar Ag Ab).shape) := by
  obtain ⟨hcar, hcag, hcab⟩ := hca
  obtain ⟨hrar, hrag, hrab⟩ := hra
  obtain ⟨hfar, hfag, hfab⟩ := hfa
  -- the three copies
  obtain ⟨h1, Cr, e1, x1, rCr, rootCr, shCr, cCr, loCr, pCr, nCr⟩ :=
    CopyTree_full Ar hcar fuel hfar h none hrar
  obtain ⟨h2, Cg, e2, x2, rCg, rootCg, shCg, cCg, loCg, pCg, nCg⟩ :=
    CopyTree_full Ag hcag fuel hfag h1 none (Rep_extends x1 Ag hrag)
  obtain ⟨h3, Cb, e3, x3, rCb, rootCb, shCb, cCb, loCb, pCb, nCb⟩ :=
    CopyTree_full Ab hcab fuel hfab h2 none (Rep_extends (x1.trans x2) Ab hrab)
  have hiCr := Rep_lt h1 Cr rCr
  have hiCg := Rep_lt h2 Cg rCg
  have hiCb := Rep_lt h3 Cb rCb
  have l01 := x1.length_le
  have l12 := x2.length_le
  have l23 := x3.length_le
  have x03 : Extends h h3 := (x1.trans x2).trans x3
  have rCr3 : Rep h3 Cr = true := Rep_extends (x2.trans x3) Cr rCr
  have rCg3 : Rep h3 Cg = true := Rep_extends x3 Cg rCg
  have pCr3 : ParentOK h3 none Cr = true := ParentOK_extends (x2.trans x3) Cr none rCr pCr
  have pCg3 : ParentOK h3 none Cg = true := ParentOK_extends x3 Cg none rCg pCg
  obtain ⟨dCr, -, sCr, -, -⟩ := shape_eq_imp Cr Ar shCr
  obtain ⟨dCg, -, sCg, -, -⟩ := shape_eq_imp Cg Ag shCg
  obtain ⟨dCb, -, sCb, -, -⟩ := shape_eq_imp Cb Ab shCb
  -- the draws
  have hc3 : g.ints g.ipos % 3 < 3 := Nat.mod_lt _ (by decide)
  have hd3 : g.ints (g.ipos + 1) % 3 < 3 := Nat.mod_lt _ (by decide)
  generalize hcdef : g.ints g.ipos % 3 = c at hc3
  generalize hddef : g.ints (g.ipos + 1) % 3 = d at hd3
  have cC : (pick3 c Cr Cg Cb).complete = true :=
    pick3_lt (fun t => t.complete = true) Cr Cg Cb cCr cCg cCb c
  have rC : Rep h3 (pick3 c Cr Cg Cb) = true :=
    pick3_lt (fun t => Rep h3 t = true) Cr Cg Cb rCr3 rCg3 rCb c
  have pC : ParentOK h3 none (pick3 c Cr Cg Cb) = true :=
    pick3_lt (fun t => ParentOK h3 none t = true) Cr Cg Cb pCr3 pCg3 pCb c
  have nC : (pick3 c Cr Cg Cb).preorder.Nodup :=
    pick3_lt (fun t => t.preorder.Nodup) Cr Cg Cb nCr nCg nCb c
  have loC : ∀ x ∈ (pick3 c Cr Cg Cb).preorder, h.length ≤ x :=
    pick3_lt (fun t => ∀ x ∈ t.preorder, h.length ≤ x) Cr Cg Cb loCr
      (fun x hx => le_trans l01 (loCg x hx)) (fun x hx => le_trans (le_trans l01 l12) (loCb x hx)) c
  have hiC : ∀ x ∈ (pick3 c Cr Cg Cb).preorder, x < h3.length :=
    pick3_lt (fun t => ∀ x ∈ t.preorder, x < h3.length) Cr Cg Cb
      (fun x hx => lt_of_lt_of_le (hiCr x hx) (le_trans l12 l23))
      (fun x hx => lt_of_lt_of_le (hiCg x hx) l23) hiCb c
  have sC : (pick3 c Cr Cg Cb).size = (pick3 c Ar Ag Ab).size := by
    rw [pick3_map PTree.size, pick3_map PTree.size, sCr, sCg, sCb]
  have dC : (pick3 c Cr Cg Cb).depth = (pick3 c Ar Ag Ab).depth := by
    rw [pick3_map PTree.depth, pick3_map PTree.depth, dCr, dCg, dCb]
  have shC : (pick3 c Cr Cg Cb).shape = (pick3 c Ar Ag Ab).shape := by
    rw [pick3_map PTree.shape, pick3_map PTree.shape, shCr, shCg, shCb]
  have fC : (pick3 c Cr Cg Cb).depth < fuel := by
    rw [dC]
    exact pick3_lt (fun t => t.depth < fuel) Ar Ag Ab hfar hfag hfab c
  have cB : (pick3 d Br Bg Bb).complete = true :=
    pick3_lt (fun t => t.complete = true) Br Bg Bb hcb.1 hcb.2.1 hcb.2.2 d
  have rB : Rep h3 (pick3 d Br Bg Bb) = true :=
    pick3_lt (fun t => Rep h3 t = true) Br Bg Bb (Rep_extends x03 Br hrb.1)
      (Rep_extends x03 Bg hrb.2.1) (Rep_extends x03 Bb hrb.2.2) d
  have fB : (pick3 d Br Bg Bb).depth < fuel :=
    pick3_lt (fun t => t.depth < fuel) Br Bg Bb hfb.1 hfb.2.1 hfb.2.2 d
  have posC := PTree.size_pos_of_complete cC
  have posB := PTree.size_pos_of_complete cB
  rw [← sC]
  generalize hidef : g.ints (g.ipos + 2) % (pick3 c Cr Cg Cb).size = i
  generalize hjdef : g.ints (g.ipos + 3) % (pick3 d Br Bg Bb).size = j
  have hi : i < (pick3 c Cr Cg Cb).size := by rw [← hidef]; exact Nat.mod_lt _ posC
  have hj : j < (pick3 d Br Bg Bb).size := by rw [← hjdef]; exact Nat.mod_lt _ posB
  obtain ⟨n, cntA, hn, eA⟩ := GetNthNode_at h3 _ cC rC fuel fC i hi
  obtain ⟨m, cntB, hm, eB⟩ := GetNthNode_at h3 _ cB rB fuel fB j hj
  have hnC : n ∈ (pick3 c Cr Cg Cb).preorder := List.getElem?_mem hn
  -- the subtree of the donor and its copy
  obtain ⟨s, es, sroot, srep, scomp, sdepth, sshape, -⟩ := (PTree.subAt_both h3).1 _ j hj
  rw [hm] at sroot
  have hms : m ∈ s.preorder := PTree.root_mem sroot
  have hml := Rep_lt h3 s (srep rB) m hms
  obtain ⟨cm, hcm⟩ : ∃ c, h3[m]? = some c := ⟨h3[m], List.getElem?_eq_getElem hml⟩
  obtain ⟨h4, U, e4, x4, rU, rootU, shU, cU, loU, pU, nU⟩ :=
    CopyTree_full s (scomp cB) fuel (lt_of_le_of_lt sdepth fB) h3 cm.Parent (srep rB)
  rw [sroot] at e4
  have l34 := x4.length_le
  have hqU : h3.length ∈ U.preorder := PTree.root_mem rootU
  have hdis : ∀ x ∈ U.preorder, x ∉ (pick3 c Cr Cg Cb).preorder :=
    fun x hx hxC => absurd (hiC x hxC) (Nat.not_lt.mpr (loU x hx))
  have rC4 : Rep h4 (pick3 c Cr Cg Cb) = true := Rep_extends x4 _ rC
  have pC4 : ParentOK h4 none (pick3 c Cr Cg Cb) = true := ParentOK_extends x4 _ none rC pC
  obtain ⟨dU, -, -, -, -⟩ := shape_eq_imp U s shU
  -- the replacement
  obtain ⟨h5, F, e5, len5, rF, cF, pF, nF, rootF, memF, frameRep, framePar, cells, shF, dF⟩ :
      ∃ h5 F, ReplaceNode h4 (some n) (some h3.length) = some h5 ∧ h5.length = h4.length ∧
        Rep h5 F = true ∧ F.complete = true ∧ ParentOK h5 none F = true ∧ F.preorder.Nodup ∧
        F.root = (pick3 c Cr Cg Cb).root ∧
        (∀ x ∈ F.preorder, x ∈ U.preorder ∨ x ∈ (pick3 c Cr Cg Cb).preorder) ∧
        (∀ S, Rep h4 S = true → n ∉ S.preorder → Rep h5 S = true) ∧
        (∀ S par, ParentOK h4 par S = true → h3.length ∉ S.preorder →
          ParentOK h5 par S = true) ∧
        (∀ a, a ∉ (pick3 c Cr Cg Cb).preorder → a ≠ h3.length → h5[a]? = h4[a]?) ∧
        F.shape = (if i = 0 then (pick3 c Cr Cg Cb).shape
          else Tree.replaceAt s.shape i (pick3 c Cr Cg Cb).shape) ∧
        F.depth ≤ (pick3 c Cr Cg Cb).depth + s.depth := by
    by_cases hi0 : i = 0
    · subst hi0
      have hroot : (pick3 c Cr Cg Cb).root = some n := by
        cases hT : pick3 c Cr Cg Cb with
        | empty => rw [hT] at cC; simp at cC
        | node a k v cs =>
          rw [hT] at hn
          simp only [PTree.preorder_node, List.getElem?_cons_zero, Option.some.injEq] at hn
          simp [PTree.root, hn]
      obtain ⟨h5, e5, len5, fr, fp, pU5, cells⟩ :=
        ReplaceNode_at_root h4 _ U n h3.length cm.Parent rC4 pC4 hroot rU rootU nU pU
      have hqC : h3.length ∉ (pick3 c Cr Cg Cb).preorder :=
        fun hx => absurd (hiC _ hx) (lt_irrefl _)
      exact ⟨h5, _, e5, len5, fr _ rC4, cC, fp _ none pC4 hqC, nC, rfl, fun x hx => Or.inr hx,
        fun S hS _ => fr S hS, fp, fun a _ ha => cells a ha, by simp, Nat.le_add_right _ _⟩
    · have hroot : (pick3 c Cr Cg Cb).root ≠ some n := by
        intro e
        cases hT : pick3 c Cr Cg Cb with
        | empty => rw [hT] at cC; simp at cC
        | node a k v cs =>
          rw [hT] at hn nC e
          simp only [PTree.root, Option.some.injEq] at e
          subst e
          obtain ⟨i', rfl⟩ : ∃ i', i = i' + 1 := ⟨i - 1, by omega⟩
          simp only [PTree.preorder_node, List.getElem?_cons_succ, List.nodup_cons] at hn nC
          exact nC.1 (List.getElem?_mem hn)
      obtain ⟨h5, e5, len5, rF, cF, pF, nF, rootF, memF, fr, fp, cells⟩ :=
        ReplaceNode_in_tree h4 _ U n h3.length cm.Parent cC rC4 pC4 nC hnC hroot rU rootU cU nU pU
          hdis
      obtain ⟨s', hfind⟩ := PTree.find_of_mem n _ hnC
      refine ⟨h5, _, e5, len5, rF, cF, pF, nF, rootF, memF, fr, fp, cells, ?_, ?_⟩
      · rw [if_neg hi0, PTree.shape_replace n U _ i nC hn, shU]
      · rw [← dU]
        exact PTree.depth_replace n U _ s' U.depth nC hfind (Nat.le_add_left _ _)
  -- the store below the old top is as before
  have x05 : Extends h h5 := by
    intro a ha
    rw [cells a (fun hx => absurd (loC a hx) (Nat.not_le.mpr ha))
      (Nat.ne_of_lt (lt_of_lt_of_le ha (le_trans l01 (le_trans l12 l23)))),
      x4 a (lt_of_lt_of_le ha (le_trans l01 (le_trans l12 l23))), x03 a ha]
  have hrun : cross fuel h g ⟨Ar.root, Ag.root, Ab.root⟩ ⟨Br.root, Bg.root, Bb.root⟩ =
      some (h5, { g with ipos := g.ipos + 4 }, ⟨Cr.root, Cg.root, Cb.root⟩) := by
    have eNA := NodeCount_spec h3 _ cC rC fuel fC
    have eNB := NodeCount_spec h3 _ cB rB fuel fB
    have eiA : ({ g with ipos := g.ipos + 1 + 1 } : Rand).Intn (pick3 c Cr Cg Cb).size =
        some (i, { g with ipos := g.ipos + 1 + 1 + 1 }) := by
      simp [Rand.Intn, Nat.ne_of_gt posC, hidef]
    have eiB : ({ g with ipos := g.ipos + 1 + 1 + 1 } : Rand).Intn (pick3 d Br Bg Bb).size =
        some (j, { g with ipos := g.ipos + 1 + 1 + 1 + 1 }) := by
      simp [Rand.Intn, Nat.ne_of_gt posB, hjdef]
    have ePar : GetParent h3 (some m) = some cm.Parent := by simp [GetParent, hcm]
    simp only [cross, e1, e2, e3, pickRandomColor_eq, hcdef, hddef]
    rw [← rootCr, ← rootCg, ← rootCb, ← pick3_map PTree.root, ← pick3_map PTree.root]
    simp only [eNA, eiA, eA, eNB, eiB, eB, ePar, e4, e5]
  have hqlo : ∀ x ∈ U.preorder, h.length ≤ x :=
    fun x hx => le_trans (le_trans l01 (le_trans l12 l23)) (loU x hx)
  have loF : ∀ x ∈ F.preorder, h.length ≤ x := by
    intro x hx
    rcases memF x hx with hx | hx
    · exact hqlo x hx
    · exact loC x hx
  have sdB : s.depth ≤ (pick3 d Br Bg Bb).depth := sdepth
  have frameCopy : ∀ T, Rep h3 T = true → ParentOK h3 none T = true →
      (∀ x ∈ T.preorder, x < h3.length) → n ∉ T.preorder →
      Rep h5 T = true ∧ ParentOK h5 none T = true := by
    intro T hT hpT hiT hnT
    exact ⟨frameRep T (Rep_extends x4 T hT) hnT,
      framePar T none (ParentOK_extends x4 T none hT hpT) (fun hx => absurd (hiT _ hx) (lt_irrefl _))⟩
  have hiCr3 : ∀ x ∈ Cr.preorder, x < h3.length :=
    fun x hx => lt_of_lt_of_le (hiCr x hx) (le_trans l12 l23)
  have hiCg3 : ∀ x ∈ Cg.preorder, x < h3.length := fun x hx => lt_of_lt_of_le (hiCg x hx) l23
  have dRG : ∀ x ∈ Cr.preorder, x ∉ Cg.preorder :=
    fun x hx hx' => absurd (hiCr x hx) (Nat.not_lt.mpr (loCg x hx'))
  have dRB : ∀ x ∈ Cr.preorder, x ∉ Cb.preorder :=
    fun x hx hx' => absurd (lt_of_lt_of_le (hiCr x hx) l12) (Nat.not_lt.mpr (loCb x hx'))
  have dGB : ∀ x ∈ Cg.preorder, x ∉ Cb.preorder :=
    fun x hx hx' => absurd (hiCg x hx) (Nat.not_lt.mpr (loCb x hx'))
  have dUR : ∀ x ∈ U.preorder, x ∉ Cr.preorder :=
    fun x hx hx' => absurd (hiCr3 x hx') (Nat.not_lt.mpr (loU x hx))
  have dUG : ∀ x ∈ U.preorder, x ∉ Cg.preorder :=
    fun x hx hx' => absurd (hiCg3 x hx') (Nat.not_lt.mpr (loU x hx))
  have dUB : ∀ x ∈ U.preorder, x ∉ Cb.preorder :=
    fun x hx hx' => absurd (hiCb x hx') (Nat.not_lt.mpr (loU x hx))
  have loCg0 : ∀ x ∈ Cg.preorder, h.length ≤ x := fun x hx => le_trans l01 (loCg x hx)
  have loCb0 : ∀ x ∈ Cb.preorder, h.length ≤ x :=
    fun x hx => le_trans (le_trans l01 l12) (loCb x hx)
  have hsub : Tree.subtreeAt j (pick3 d Br Bg Bb).shape = some s.shape := sshape
  obtain rfl | rfl | rfl : c = 0 ∨ c = 1 ∨ c = 2 := by omega
  · simp only [pick3] at hnC rootF memF shF dF shC dC
    obtain ⟨rG, pG⟩ := frameCopy Cg rCg3 pCg3 hiCg3 (fun hx => dRG n hnC hx)
    obtain ⟨rB', pB'⟩ := frameCopy Cb rCb pCb hiCb (fun hx => dRB n hnC hx)
    refine ⟨h5, F, Cg, Cb, s.shape, ?_, x05, ⟨rF, rG, rB'⟩, ⟨cF, cCg, cCb⟩, ⟨pF, pG, pB'⟩, ?_, ?_,
      ⟨?_, ?_, ?_⟩, hsub, ?_, ?_⟩
    · rw [hrun, rootF]
    · apply nodup_append3 nF nCg nCb
      · intro x hx
        rcases memF x hx with hx | hx
        · exact dUG x hx
        · exact dRG x hx
      · intro x hx
        rcases memF x hx with hx | hx
        · exact dUB x hx
        · exact dRB x hx
      · exact dGB
    · intro x hx
      simp only [List.mem_append] at hx
      rcases hx with (hx | hx) | hx
      · exact loF x hx
      · exact loCg0 x hx
      · exact loCb0 x hx
    · rw [dCr] at dF; omega
    · rw [dCg]; omega
    · rw [dCb]; omega
    · simp only [pick3]
      rw [shF, shCr]
    · intro k hk hk0
      obtain rfl | rfl : k = 1 ∨ k = 2 := by omega
      · simp only [pick3]; exact shCg
      · simp only [pick3]; exact shCb
  · simp only [pick3] at hnC rootF memF shF dF shC dC
    obtain ⟨rR, pR⟩ := frameCopy Cr rCr3 pCr3 hiCr3 (fun hx => dRG n hx hnC)
    obtain ⟨rB', pB'⟩ := frameCopy Cb rCb pCb hiCb (fun hx => dGB n hnC hx)
    refine ⟨h5, Cr, F, Cb, s.shape, ?_, x05, ⟨rR, rF, rB'⟩, ⟨cCr, cF, cCb⟩, ⟨pR, pF, pB'⟩, ?_, ?_,
      ⟨?_, ?_, ?_⟩, hsub, ?_, ?_⟩
    · rw [hrun, rootF]
    · apply nodup_append3 nCr nF nCb
      · intro x hx hxF
        rcases memF x hxF with hx' | hx'
        · exact dUR x hx' hx
        · exact dRG x hx hx'
      · exact dRB
      · intro x hx
        rcases memF x hx with hx | hx
        · exact dUB x hx
        · exact dGB x hx
    · intro x hx
      simp only [List.mem_append] at hx
      rcases hx with (hx | hx) | hx
      · exact loCr x hx
      · exact loF x hx
      · exact loCb0 x hx
    · rw [dCr]; omega
    · rw [dCg] at dF; omega
    · rw [dCb]; omega
    · simp only [pick3]
      rw [shF, shCg]
    · intro k hk hk0
      obtain rfl | rfl : k = 0 ∨ k = 2 := by omega
      · simp only [pick3]; exact shCr
      · simp only [pick3]; exact shCb
  · simp only [pick3] at hnC rootF memF shF dF shC dC
    obtain ⟨rR, pR⟩ := frameCopy Cr rCr3 pCr3 hiCr3 (fun hx => dRB n hx hnC)
    obtain ⟨rG, pG⟩ := frameCopy Cg rCg3 pCg3 hiCg3 (fun hx => dGB n hx hnC)
    refine ⟨h5, Cr, Cg, F, s.shape, ?_, x05, ⟨rR, rG, rF⟩, ⟨cCr, cCg, cF⟩, ⟨pR, pG, pF⟩, ?_, ?_,
      ⟨?_, ?_, ?_⟩, hsub, ?_, ?_⟩
    · rw [hrun, rootF]
    · apply nodup_append3 nCr nCg nF
      · exact dRG
      · intro x hx hxF
        rcases memF x hxF with hx' | hx'
        · exact dUR x hx' hx
        · exact dRB x hx hx'
      · intro x hx hxF
        rcases memF x hxF with hx' | hx'
        · exact dUG x hx' hx
        · exact dGB x hx hx'
    · intro x hx
      simp only [List.mem_append] at hx
      rcases hx with (hx | hx) | hx
      · exact loCr x hx
      · exact loCg0 x hx
      · exact loF x hx
    · rw [dCr]; omega
    · rw [dCg]; omega
    · rw [dCb] at dF; omega
    · simp only [pick3]
      rw [shF, shCb]
    · intro k hk hk0
      obtain rfl | rfl : k = 0 ∨ k = 1 := by omega
      · simp only [pick3]; exact shCr
      · simp only [pick3]; exact shCg

/-- C11. `cross(a, b)` on two pictures whose channels are complete trees of the
store, with fuel above the heights. The draws give the recipient channel `c` of
`a`, the donor channel `d` of `b`, the recipient index `i` and the donor index
`j`. When `i ≥ 1`, channel `c` of the picture returned has the shape of channel
`c` of `a` with the subtree at pre-order index `i` replaced by the subtree of
channel `d` of `b` at pre-order index `j`, and the two other channels have the
shapes of the corresponding channels of `a`. -/
theorem C11_cross_splice (fuel : Nat) (h : Heap) (g : Rand) (Ar Ag Ab Br Bg Bb : PTree)
    (hca : Ar.complete = true ∧ Ag.complete = true ∧ Ab.complete = true)
    (hra : Rep h Ar = true ∧ Rep h Ag = true ∧ Rep h Ab = true)
    (hfa : Ar.depth < fuel ∧ Ag.depth < fuel ∧ Ab.depth < fuel)
    (hcb : Br.complete = true ∧ Bg.complete = true ∧ Bb.complete = true)
    (hrb : Rep h Br = true ∧ Rep h Bg = true ∧ Rep h Bb = true)
    (hfb : Br.depth < fuel ∧ Bg.depth < fuel ∧ Bb.depth < fuel)
    (hi : 1 ≤ g.ints (g.ipos + 2) % (pick3 (g.ints g.ipos % 3) Ar Ag Ab).size) :
    ∃ h' g' Fr Fg Fb D,
      cross fuel h g ⟨Ar.root, Ag.root, Ab.root⟩ ⟨Br.root, Bg.root, Bb.root⟩ =
        some (h', g', ⟨Fr.root, Fg.root, Fb.root⟩) ∧
      (Rep h' Fr = true ∧ Rep h' Fg = true ∧ Rep h' Fb = true) ∧
      (Fr.complete = true ∧ Fg.complete = true ∧ Fb.complete = true) ∧
      Tree.subtreeAt (g.ints (g.ipos + 3) % (pick3 (g.ints (g.ipos + 1) % 3) Br Bg Bb).size)
        (pick3 (g.ints (g.ipos + 1) % 3) Br Bg Bb).shape = some D ∧
      (pick3 (g.ints g.ipos % 3) Fr Fg Fb).shape =
        Tree.replaceAt D (g.ints (g.ipos + 2) % (pick3 (g.ints g.ipos % 3) Ar Ag Ab).size)
          (pick3 (g.ints g.ipos % 3) Ar Ag Ab).shape ∧
      (∀ k, k < 3 → k ≠ g.ints g.ipos % 3 →
        (pick3 k Fr Fg Fb).shape = (pick3 k Ar Ag Ab).shape) := by
  obtain ⟨h', Fr, Fg, Fb, s, hrun, -, hr, hc, -, -, -, -, hsub, hsh, hoth⟩ :=
    cross_spec fuel h g Ar Ag Ab Br Bg Bb hca hra hfa hcb hrb hfb
  refine ⟨h', _, Fr, Fg, Fb, s, hrun, hr, hc, hsub, ?_, hoth⟩
  rw [hsh, if_neg (by omega)]

theorem C11_cross_splice_witness :
    ∃ h' g' Fr Fg Fb D,
      cross 3 heapPlusXY randOne ⟨treePlusXY.root, treePlusXY.root, treePlusXY.root⟩
          ⟨treePlusXY.root, treePlusXY.root, treePlusXY.root⟩ =
        some (h', g', ⟨Fr.root, Fg.root, Fb.root⟩) ∧
      (Rep h' Fr = true ∧ Rep h' Fg = true ∧ Rep h' Fb = true) ∧
      (Fr.complete = true ∧ Fg.complete = true ∧ Fb.complete = true) ∧
      Tree.subtreeAt (randOne.ints (randOne.ipos + 3) %
          (pick3 (randOne.ints (randOne.ipos + 1) % 3) treePlusXY treePlusXY treePlusXY).size)
        (pick3 (randOne.ints (randOne.ipos + 1) % 3) treePlusXY treePlusXY treePlusXY).shape =
          some D ∧
      (pick3 (randOne.ints randOne.ipos % 3) Fr Fg Fb).shape =
        Tree.replaceAt D (randOne.ints (randOne.ipos + 2) %
            (pick3 (randOne.ints randOne.ipos % 3) treePlusXY treePlusXY treePlusXY).size)
          (pick3 (randOne.ints randOne.ipos % 3) treePlusXY treePlusXY treePlusXY).shape ∧
      (∀ k, k < 3 → k ≠ randOne.ints randOne.ipos % 3 →
        (pick3 k Fr Fg Fb).shape = (pick3 k treePlusXY treePlusXY treePlusXY).shape) :=
  C11_cross_splice 3 heapPlusXY randOne treePlusXY treePlusXY treePlusXY treePlusXY treePlusXY
    treePlusXY (by decide) (by decide) (by decide) (by decide) (by decide) (by decide) (by decide)

/-- With the recipient index 0, `cross(a, b)` returns a picture whose chosen
channel has the shape of the channel of `a`: the copy of the donor subtree is
not put in its place. -/
theorem cross_at_root (fuel : Nat) (h : Heap) (g : Rand) (Ar Ag Ab Br Bg Bb : PTree)
    (hca : Ar.complete = true ∧ Ag.complete = true ∧ Ab.complete = true)
    (hra : Rep h Ar = true ∧ Rep h Ag = true ∧ Rep h Ab = true)
    (hfa : Ar.depth < fuel ∧ Ag.depth < fuel ∧ Ab.depth < fuel)
    (hcb : Br.complete = true ∧ Bg.complete = true ∧ Bb.complete = true)
    (hrb : Rep h Br = true ∧ Rep h Bg = true ∧ Rep h Bb = true)
    (hfb : Br.depth < fuel ∧ Bg.depth < fuel ∧ Bb.depth < fuel)
    (hi : g.ints (g.ipos + 2) % (pick3 (g.ints g.ipos % 3) Ar Ag Ab).size = 0) :
    ∃ h' g' Fr Fg Fb,
      cross fuel h g ⟨Ar.root, Ag.root, Ab.root⟩ ⟨Br.root, Bg.root, Bb.root⟩ =
        some (h', g', ⟨Fr.root, Fg.root, Fb.root⟩) ∧
      (Rep h' Fr = true ∧ Rep h' Fg = true ∧ Rep h' Fb = true) ∧
      Fr.shape = Ar.shape ∧ Fg.shape = Ag.shape ∧ Fb.shape = Ab.shape := by
  obtain ⟨h', Fr, Fg, Fb, s, hrun, -, hr, hc, -, -, -, -, hsub, hsh, hoth⟩ :=
    cross_spec fuel h g Ar Ag Ab Br Bg Bb hca hra hfa hcb hrb hfb
  rw [if_pos hi] at hsh
  have hc3 : g.ints g.ipos % 3 < 3 := Nat.mod_lt _ (by decide)
  have hall : ∀ k, k < 3 → (pick3 k Fr Fg Fb).shape = (pick3 k Ar Ag Ab).shape := by
    intro k hk
    by_cases hkc : k = g.ints g.ipos % 3
    · rw [hkc]; exact hsh
    · exact hoth k hk hkc
  exact ⟨h', _, Fr, Fg, Fb, hrun, hr, hall 0 (by decide), hall 1 (by decide), hall 2 (by decide)⟩

/-- C12, the code against the claim. The picture `a` has the channels `X`, `X`,
`X` (addresses 0, 1, 2), the picture `b` the channels `Y`, `Y`, `Y` (addresses
3, 4, 5), and every raw draw is 0, so the recipient node is the root of the
first channel of the copy and the donor node is the first `Y`. `cross(a, b)`
makes the copies of `a` at 6, 7, 8 and the copy of the donor leaf at 9, and it
returns the picture of the roots 6, 7, 8: the first channel is still the leaf
`X`, and the copy of `Y` is in no channel. -/
theorem C12_cross_root_not_replaced :
    (cross 2 heapXXXYYY randZero ⟨some 0, some 1, some 2⟩ ⟨some 3, some 4, some 5⟩).map
        (fun r => (r.1, r.2.2)) =
      some (heapXXXYYY ++ [⟨.OpX, F32.zero, none, []⟩, ⟨.OpX, F32.zero, none, []⟩,
        ⟨.OpX, F32.zero, none, []⟩, ⟨.OpY, F32.zero, none, []⟩],
        ⟨some 6, some 7, some 8⟩) := by
  decide

/-- C13. `cross(a, b)` on two pictures whose channels are complete trees of the
store, with fuel above the heights, whatever the draws: every object that the
store held before is the same afterwards, with its type, value, child slots and
parent reference. So the store still holds the three trees of `a` and the three
trees of `b`, every tree with consistent parent references still has them, and
`String()` returns for these trees what it returned before. -/
theorem C13_cross_frame (fuel : Nat) (h : Heap) (g : Rand) (Ar Ag Ab Br Bg Bb : PTree)
    (hca : Ar.complete = true ∧ Ag.complete = true ∧ Ab.complete = true)
    (hra : Rep h Ar = true ∧ Rep h Ag = true ∧ Rep h Ab = true)
    (hfa : Ar.depth < fuel ∧ Ag.depth < fuel ∧ Ab.depth < fuel)
    (hcb : Br.complete = true ∧ Bg.complete = true ∧ Bb.complete = true)
    (hrb : Rep h Br = true ∧ Rep h Bg = true ∧ Rep h Bb = true)
    (hfb : Br.depth < fuel ∧ Bg.depth < fuel ∧ Bb.depth < fuel) :
    ∃ h' g' p',
      cross fuel h g ⟨Ar.root, Ag.root, Ab.root⟩ ⟨Br.root, Bg.root, Bb.root⟩ =
        some (h', g', p') ∧
      (∀ a, a < h.length → h'[a]? = h[a]?) ∧
      (∀ T ∈ [Ar, Ag, Ab, Br, Bg, Bb], Rep h' T = true ∧
        (∀ par, ParentOK h par T = true → ParentOK h' par T = true) ∧
        (T.arityOk = true → Node.String fuel h T.root = some T.shape.render ∧
          Node.String fuel h' T.root = some T.shape.render)) := by
  obtain ⟨h', Fr, Fg, Fb, s, hrun, hext, -⟩ :=
    cross_spec fuel h g Ar Ag Ab Br Bg Bb hca hra hfa hcb hrb hfb
  refine ⟨h', _, _, hrun, hext, ?_⟩
  intro T hT
  have hT' : Rep h T = true ∧ T.complete = true ∧ T.depth < fuel := by
    simp only [List.mem_cons, List.mem_singleton, List.not_mem_nil, or_false] at hT
    rcases hT with rfl | rfl | rfl | rfl | rfl | rfl
    · exact ⟨hra.1, hca.1, hfa.1⟩
    · exact ⟨hra.2.1, hca.2.1, hfa.2.1⟩
    · exact ⟨hra.2.2, hca.2.2, hfa.2.2⟩
    · exact ⟨hrb.1, hcb.1, hfb.1⟩
    · exact ⟨hrb.2.1, hcb.2.1, hfb.2.1⟩
    · exact ⟨hrb.2.2, hcb.2.2, hfb.2.2⟩
  obtain ⟨hr, hc, hf⟩ := hT'
  have hr' := Rep_extends hext T hr
  exact ⟨hr', fun par hp => ParentOK_extends hext T par hr hp,
    fun hao => ⟨String_spec h T hc hao hr fuel hf, String_spec h' T hc hao hr' fuel hf⟩⟩

theorem C13_cross_frame_witness :
    ∃ h' g' p',
      cross 3 heapPlusXY randOne ⟨treePlusXY.root, treePlusXY.root, treePlusXY.root⟩
          ⟨treePlusXY.root, treePlusXY.root, treePlusXY.root⟩ =
        some (h', g', p') ∧
      (∀ a, a < heapPlusXY.length → h'[a]? = heapPlusXY[a]?) ∧
      (∀ T ∈ [treePlusXY, treePlusXY, treePlusXY, treePlusXY, treePlusXY, treePlusXY],
        Rep h' T = true ∧
        (∀ par, ParentOK heapPlusXY par T = true → ParentOK h' par T = true) ∧
        (T.arityOk = true → Node.String 3 heapPlusXY T.root = some T.shape.render ∧
          Node.String 3 h' T.root = some T.shape.render)) :=
  C13_cross_frame 3 heapPlusXY randOne treePlusXY treePlusXY treePlusXY treePlusXY treePlusXY
    treePlusXY (by decide) (by decide) (by decide) (by decide) (by decide) (by decide)

/-- The second loop of `Mutate` with the parent references: the children moved
get the new node as parent, and no other object changes but the new node. -/
theorem reattach_full (q : Ptr) : ∀ (rest : List Ptr) (pre : List (Option Ptr)) (r : Nat) (H : Heap)
    (qc : Cell), H[q]? = some qc → qc.Children = pre ++ List.replicate r none →
    (∀ c ∈ rest, c < H.length ∧ c ≠ q) →
    ∃ H' qc', reattach q (rest.map some) pre.length H = some H' ∧ H'.length = H.length ∧
      (∀ a, a ≠ q → sameCore H H' a) ∧ H'[q]? = some qc' ∧ qc'.typ = qc.typ ∧
      qc'.value = qc.value ∧
      qc'.Children = pre ++ (rest.take r).map some ++ List.replicate (r - rest.length) none ∧
      qc'.Parent = qc.Parent ∧
      (∀ a, a ≠ q → a ∉ rest.take r → H'[a]? = H[a]?) ∧
      (∀ c ∈ rest.take r, (H'[c]?).map Cell.Parent = some (some q)) := by
  intro rest
  induction rest with
  | nil =>
    intro pre r H qc hq hch _
    exact ⟨H, qc, by simp [reattach], rfl, fun a _ => sameCore_refl H a, hq, rfl, rfl, by simp [hch],
      rfl, fun _ _ _ => rfl, by simp⟩
  | cons c rest ih =>
    intro pre r H qc hq hch hrest
    have hql := lt_of_getElem?_some hq
    cases r with
    | zero =>
      refine ⟨H, qc, ?_, rfl, fun a _ => sameCore_refl H a, hq, rfl, rfl, by simp [hch], rfl,
        fun _ _ _ => rfl, by simp⟩
      simp [reattach, GetChildren, hq, hch]
    | succ r =>
      obtain ⟨hcl, hcq⟩ := hrest c (by simp)
      set H1 := H.set q { qc with Children := pre ++ some c :: List.replicate r none } with hH1
      obtain ⟨cc, hcc⟩ : ∃ cc, H[c]? = some cc := ⟨H[c], List.getElem?_eq_getElem hcl⟩
      have hcc1 : H1[c]? = some cc := by rw [hH1, List.getElem?_set_ne (Ne.symm hcq), hcc]
      set H2 := H1.set c { cc with Parent := some q } with hH2
      have hq2 : H2[q]? = some { qc with Children := (pre ++ [some c]) ++ List.replicate r none } := by
        rw [hH2, List.getElem?_set_ne hcq, hH1, List.getElem?_set_eq_of_lt _ hql]
        simp
      obtain ⟨H', qc', hrun, hlen, hsame, hq', hty, hval, hch', hpar', hcells, hmoved⟩ :=
        ih (pre ++ [some c]) r H2 _ hq2 rfl
          (fun x hx => by
            have := hrest x (List.mem_cons_of_mem _ hx)
            simpa [hH2, hH1] using this)
      refine ⟨H', qc', ?_, ?_, ?_, hq', hty, hval, ?_, hpar', ?_, ?_⟩
      · have hset : (pre ++ List.replicate (r + 1) none).set pre.length (some c) =
            pre ++ some c :: List.replicate r none := by
          rw [List.set_append_right _ _ (le_refl _)]
          simp [List.replicate_succ]
        have hlen1 : (pre ++ [some c]).length = pre.length + 1 := by simp
        rw [hlen1] at hrun
        simp only [List.map_cons, reattach, GetChildren, hq, Option.map_some', hch,
          List.length_append, List.length_replicate, setChild, hset, SetParent]
        rw [if_neg (by omega), if_pos (by omega)]
        simp only [← hH1, hcc1, ← hH2]
        exact hrun
      · rw [hlen]; simp [hH2, hH1]
      · intro a ha
        refine sameCore_trans ?_ (hsame a ha)
        by_cases hac : c = a
        · subst hac
          unfold sameCore
          rw [hH2, List.getElem?_set_eq_of_lt _ (by simp [hH1, hcl]), hcc]
          rfl
        · apply sameCore_of_eq
          rw [hH2, List.getElem?_set_ne hac, hH1, List.getElem?_set_ne (Ne.symm ha)]
      · rw [hch']
        simp [List.take_succ_cons]
      · intro a ha hna
        simp only [List.take_succ_cons, List.mem_cons, not_or] at hna
        rw [hcells a ha hna.2, hH2, List.getElem?_set_ne (Ne.symm hna.1), hH1,
          List.getElem?_set_ne (Ne.symm ha)]
      · intro x hx
        simp only [List.take_succ_cons, List.mem_cons] at hx
        by_cases hxr : x ∈ rest.take r
        · exact hmoved x hxr
        · rcases hx with rfl | hx
          · rw [hcells x hcq hxr, hH2, List.getElem?_set_eq_of_lt _ (by simp [hH1, hcl])]
            rfl
          · exact absurd hx hxr

/-- The third loop of `Mutate` with the parent references: the new leaves are
new objects, each once, whose parent is the new node. -/
theorem fillLeaves_full (q : Ptr) : ∀ (r : Nat) (iter : List (Option Ptr)) (filled : List (Option Ptr))
    (H : Heap) (g : Rand) (qc : Cell), H[q]? = some qc →
    qc.Children = filled ++ List.replicate r none → iter.length = r →
    ∃ H' g' leaves, fillLeaves q iter filled.length H g = some (H', g') ∧
      (∀ a, a < H.length → a ≠ q → H'[a]? = H[a]?) ∧ H.length ≤ H'.length ∧
      H'[q]? = some { qc with Children := filled ++ leaves.map PTree.root } ∧
      leaves.length = r ∧ (∀ l ∈ leaves, isFreshLeaf H.length l) ∧ RepList H' leaves = true ∧
      ParentOKList H' (some q) leaves = true ∧ (PTree.preorderList leaves).Nodup ∧
      (∀ x ∈ PTree.preorderList leaves, H.length ≤ x) := by
  intro r
  induction r with
  | zero =>
    intro iter filled H g qc hq hch hlen
    have : iter = [] := List.length_eq_zero.mp hlen
    subst this
    refine ⟨H, g, [], by simp [fillLeaves], fun _ _ _ => rfl, le_refl _, ?_, rfl, by simp, by simp,
      by simp, by simp, by simp⟩
    rw [hq]; congr 1
    cases qc; simp_all
  | succ r ih =>
    intro iter filled H g qc hq hch hlen
    have hql := lt_of_getElem?_some hq
    cases iter with
    | nil => simp at hlen
    | cons i iter =>
      obtain ⟨g1, lk, lv, hleaf, hlk⟩ := GetRandomLeaf_spec H g
      have hidx : (filled ++ List.replicate (r + 1) none)[filled.length]? =
          some (none : Option Ptr) := by
        rw [List.getElem?_append_right (le_refl _)]
        simp [List.replicate_succ]
      set H1 := H ++ [newCell lk lv] with hH1
      have hleafcell : H1[H.length]? = some (newCell lk lv) := by
        rw [hH1, List.getElem?_append_right (le_refl _)]; simp
      set H2 := H1.set H.length { newCell lk lv with Parent := some q } with hH2
      have hq2 : H2[q]? = some qc := by
        rw [hH2, List.getElem?_set_ne (Nat.ne_of_gt hql), hH1, List.getElem?_append_left hql, hq]
      set H3 := H2.set q { qc with Children := (filled ++ [some H.length]) ++ List.replicate r none }
        with hH3
      have hq3 : H3[q]? =
          some { qc with Children := (filled ++ [some H.length]) ++ List.replicate r none } := by
        have hq2l : q < H2.length := lt_of_getElem?_some hq2
        rw [hH3, List.getElem?_set_eq_of_lt _ hq2l]
      obtain ⟨H', g', leaves, hrun, hframe, hle, hq', hll, hfresh, hrep, hpo, hnd, hlo⟩ :=
        ih iter (filled ++ [some H.length]) H3 g1 _ hq3 rfl
          (by simp only [List.length_cons] at hlen; omega)
      have hlen3 : H3.length = H.length + 1 := by simp [hH3, hH2, hH1]
      have hleaf' : H'[H.length]? = some { newCell lk lv with Parent := some q } := by
        rw [hframe _ (by omega) (Nat.ne_of_gt hql), hH3, List.getElem?_set_ne (Nat.ne_of_lt hql), hH2,
          List.getElem?_set_eq_of_lt _ (by simp [hH1])]
      refine ⟨H', g', PTree.node H.length lk lv [] :: leaves, ?_, ?_, by omega, ?_, by simp [hll],
        ?_, ?_, ?_, ?_, ?_⟩
      · have hset : (filled ++ List.replicate (r + 1) none).set filled.length (some H.length) =
            filled ++ [some H.length] ++ List.replicate r none := by
          rw [List.set_append_right _ _ (le_refl _)]
          simp [List.replicate_succ]
        have hlen1 : (filled ++ [some H.length]).length = filled.length + 1 := by simp
        rw [hlen1] at hrun
        simp only [fillLeaves, GetChildren, hq, Option.map_some', hch, hidx, hleaf, SetParent,
          ← hH1, hleafcell, ← hH2, setChild, hq2, hset, List.length_append,
          List.length_replicate]
        rw [if_pos (by omega)]
        simp only [← hH3]
        exact hrun
      · intro a ha haq
        rw [hframe a (by omega) haq, hH3, List.getElem?_set_ne (Ne.symm haq), hH2,
          List.getElem?_set_ne (Nat.ne_of_gt ha), hH1, List.getElem?_append_left ha]
      · rw [hq']; simp [PTree.root]
      · intro l hl
        rcases List.mem_cons.mp hl with rfl | hl
        · exact ⟨H.length, lk, lv, rfl, hlk, le_refl _⟩
        · obtain ⟨a, k1, v1, e, hk1, ha⟩ := hfresh l hl
          exact ⟨a, k1, v1, e, hk1, by omega⟩
      · simp only [RepList_cons, Bool.and_eq_true]
        refine ⟨?_, hrep⟩
        rw [Rep_node_iff]
        refine ⟨_, hleaf', rfl, rfl, ?_, by simp⟩
        rcases hlk with rfl | rfl | rfl <;> simp [newCell, Kind.arity]
      · simp only [ParentOKList_cons, Bool.and_eq_true]
        refine ⟨?_, hpo⟩
        rw [ParentOK_node, hleaf']
        simp
      · simp only [PTree.preorderList_cons, PTree.preorder_node, PTree.preorderList_nil,
          List.singleton_append, List.nodup_cons]
        refine ⟨?_, hnd⟩
        intro hx
        have := hlo _ hx
        rw [hlen3] at this
        exact absurd this (Nat.not_succ_le_self _)
      · intro x hx
        simp only [PTree.preorderList_cons, PTree.preorder_node, PTree.preorderList_nil,
          List.singleton_append, List.mem_cons] at hx
        rcases hx with rfl | hx
        · exact le_refl _
        · have := hlo x hx
          rw [hlen3] at this
          exact Nat.le_of_succ_le this

theorem PTree.preorderList_take_sub (cs : List PTree) (m : Nat) :
    (PTree.preorderList (cs.take m)).Sublist (PTree.preorderList cs) := by
  induction cs generalizing m with
  | nil => simp
  | cons t ts ih =>
    cases m with
    | zero => simp
    | succ m =>
      simp only [List.take_succ_cons, PTree.preorderList_cons]
      exact List.Sublist.append (List.Sublist.refl _) (ih m)

theorem PTree.preorder_sublist_of_mem {t : PTree} {cs : List PTree} (ht : t ∈ cs) :
    t.preorder.Sublist (PTree.preorderList cs) := by
  induction cs with
  | nil => cases ht
  | cons u us ihu =>
    simp only [PTree.preorderList_cons]
    rcases List.mem_cons.mp ht with rfl | hu
    · exact List.sublist_append_left _ _
    · exact (ihu hu).trans (List.sublist_append_right _ _)

/-- A tree keeps consistent parent references when the parent reference of its
root is set anew and the objects below the root keep theirs. -/
theorem ParentOK_reroot_in (h h' : Heap) (U : PTree) (pb p' : Option Ptr)
    (hnd : U.preorder.Nodup) (hpo : ParentOK h pb U = true)
    (hq : ∀ q, U.root = some q → (h'[q]?).map Cell.Parent = some p')
    (hsame : ∀ a ∈ U.preorder, U.root ≠ some a →
      (h'[a]?).map Cell.Parent = (h[a]?).map Cell.Parent) :
    ParentOK h' p' U = true := by
  cases U with
  | empty => simp
  | node a k v cs =>
    rw [ParentOK_node, Bool.and_eq_true] at hpo ⊢
    simp only [PTree.preorder_node, List.nodup_cons] at hnd
    refine ⟨by simpa using hq a rfl, ?_⟩
    apply ParentOKList_frame h h' cs _ _ hpo.2
    intro b hb
    apply hsame b (by simp [hb])
    intro e
    simp only [PTree.root, Option.some.injEq] at e
    exact hnd.1 (e ▸ hb)

/-- The store after `Mutate(node)` on the root of a complete tree without
sharing, with the parent references: the new node has the parent of the old one,
the children kept and the new leaves have the new node as parent, and no other
parent reference below the old top of the store has changed. -/
theorem Mutate_full (h : Heap) (g : Rand) (n : Ptr) (k : Kind) (v : F32) (cs : List PTree)
    (nc : Cell) (hr : Rep h (.node n k v cs) = true) (hc : (PTree.node n k v cs).complete = true)
    (hn : h[n]? = some nc) (hP : ∀ P, nc.Parent = some P → P < h.length)
    (hnd : (PTree.node n k v cs).preorder.Nodup) (hpo : ParentOKList h (some n) cs = true) :
    ∃ h' g' k' v' leaves, Mutate h g (some n) = some (h', g', h.length) ∧ k' ≠ .OpPicture ∧
      Rep h' (.node h.length k' v' (cs.take k'.arity ++ leaves)) = true ∧
      leaves.length = k'.arity - cs.length ∧ (∀ l ∈ leaves, isFreshLeaf (h.length + 1) l) ∧
      h.length < h'.length ∧
      (∀ a, a < h.length → (h'[a]?).map Cell.core = (h[a]?).map (fun c =>
        (c.typ, c.value,
          if nc.Parent = some a then replaceIn c.Children (some n) (some h.length)
          else c.Children))) ∧
      ParentOK h' nc.Parent (.node h.length k' v' (cs.take k'.arity ++ leaves)) = true ∧
      (PTree.node h.length k' v' (cs.take k'.arity ++ leaves)).preorder.Nodup ∧
      (∀ x ∈ PTree.preorderList leaves, h.length < x) ∧
      (∀ a, a < h.length → (∀ t ∈ cs, t.root ≠ some a) →
        (h'[a]?).map Cell.Parent = (h[a]?).map Cell.Parent) := by
  have hnl := lt_of_getElem?_some hn
  obtain ⟨c0, hc0, -, -, hch, hrl⟩ := (Rep_node_iff h n k v cs).mp hr
  rw [hn] at hc0; cases hc0
  simp only [PTree.complete_node] at hc
  -- the draws
  have e1 : g.Intn 24 = some (g.ints g.ipos % 24, { g with ipos := g.ipos + 1 }) := by
    simp [Rand.Intn]
  set g1 : Rand := { g with ipos := g.ipos + 1 } with hg1
  have e2 : ∃ g2 k' v0, (if g.ints g.ipos % 24 ≤ 21 then GetRandomBaseNode h g1
      else GetRandomLeaf h g1) = some (h ++ [newCell k' v0], g2, h.length) ∧ k' ≠ .OpPicture := by
    by_cases hr21 : g.ints g.ipos % 24 ≤ 21
    · obtain ⟨k', hk', hne⟩ := baseKind_some (g1.ints g1.ipos % 21) (Nat.mod_lt _ (by decide))
      exact ⟨{ g1 with ipos := g1.ipos + 1 }, k', F32.zero,
        by simp [hr21, GetRandomBaseNode, Rand.Intn, hk', Heap.alloc], hne⟩
    · obtain ⟨g2, lk, lv, hl, hlk⟩ := GetRandomLeaf_spec h g1
      exact ⟨g2, lk, lv, by simp [hr21, hl], by rcases hlk with rfl | rfl | rfl <;> simp⟩
  obtain ⟨g2, k', v0, e2, hk'⟩ := e2
  set h1 := h ++ [newCell k' v0] with hh1
  have hq1 : h1[h.length]? = some (newCell k' v0) := by
    rw [hh1, List.getElem?_append_right (le_refl _)]; simp
  have hold1 : ∀ a, a < h.length → h1[a]? = h[a]? := fun a ha => List.getElem?_append_left ha
  have hlen1 : h1.length = h.length + 1 := by simp [hh1]
  have e3 : GetParent h1 (some n) = some nc.Parent := by
    simp [GetParent, hold1 n hnl, hn]
  -- the slot of the parent
  obtain ⟨h2, e4, hlen2, hq2, hcore2, hpar2⟩ : ∃ h2, ((nc.Parent = none ∧ h2 = h1) ∨
      (∃ pp, nc.Parent = some pp ∧ replaceChild h1 pp (some n) (some h.length) = some h2)) ∧
      h2.length = h1.length ∧
      h2[h.length]? = some (newCell k' v0) ∧
      (∀ a, a < h.length → (h2[a]?).map Cell.core = (h[a]?).map (fun c =>
        (c.typ, c.value,
          if nc.Parent = some a then replaceIn c.Children (some n) (some h.length)
          else c.Children))) ∧
      (∀ a, a < h.length → (h2[a]?).map Cell.Parent = (h[a]?).map Cell.Parent) := by
    cases hpar : nc.Parent with
    | none =>
      refine ⟨h1, Or.inl ⟨rfl, rfl⟩, rfl, hq1, ?_, ?_⟩
      · intro a ha
        rw [hold1 a ha]
        cases h[a]? <;> simp [Cell.core]
      · intro a ha
        rw [hold1 a ha]
    | some P =>
      have hPl := hP P hpar
      obtain ⟨pc, hpc⟩ : ∃ pc, h[P]? = some pc := ⟨h[P], List.getElem?_eq_getElem hPl⟩
      have hpc1 : h1[P]? = some pc := by rw [hold1 P hPl, hpc]
      refine ⟨h1.set P { pc with Children := replaceIn pc.Children (some n) (some h.length) },
        Or.inr ⟨P, rfl, by simp [replaceChild, hpc1]⟩, by simp, ?_, ?_, ?_⟩
      · rw [List.getElem?_set_ne (Nat.ne_of_lt hPl), hq1]
      · intro a ha
        by_cases hPa : P = a
        · subst hPa
          rw [List.getElem?_set_eq_of_lt _ (lt_of_getElem?_some hpc1), hpc]
          simp [Cell.core]
        · rw [List.getElem?_set_ne hPa, hold1 a ha]
          have : ¬ (some P = some a) := fun e => hPa (Option.some.inj e)
          cases h[a]? <;> simp [Cell.core, this]
      · intro a ha
        by_cases hPa : P = a
        · subst hPa
          rw [List.getElem?_set_eq_of_lt _ (lt_of_getElem?_some hpc1), hpc]
          rfl
        · rw [List.getElem?_set_ne hPa, hold1 a ha]
  -- on the old tree nothing is different
  have hsame2 : ∀ a ∈ (PTree.node n k v cs).preorder, sameCore h h2 a := by
    intro a ha
    have hal := Rep_lt h _ hr a ha
    unfold sameCore
    rw [hcore2 a hal]
    obtain ⟨ca, hca⟩ : ∃ ca, h[a]? = some ca := ⟨h[a], List.getElem?_eq_getElem hal⟩
    rw [hca]
    simp only [Option.map_some', Cell.core]
    have hno := Rep_no_root_child h _ hr (by simpa using hc) n rfl a ha ca hca
    rw [replaceIn_of_not_mem _ _ _ hno]
    simp
  obtain ⟨ps, hps, hpslen, hpsmem⟩ := PTree.roots_of_complete cs hc
  have e5 : GetChildren h2 (some n) = some (ps.map some) := by
    have := (sameCore_fields (hsame2 n (by simp))).2.2
    simp only [GetChildren, this, hn, Option.map_some', hch, hps]
  -- the children move over
  have hpsl : ∀ c ∈ ps, c < h2.length ∧ c ≠ h.length := by
    intro c hc'
    have : c < h.length := Rep_lt h _ hr c (by simp [hpsmem c hc'])
    refine ⟨?_, Nat.ne_of_lt this⟩
    rw [hlen2, hlen1]
    exact Nat.lt_succ_of_lt this
  obtain ⟨h3, qc3, e6, hlen3, hsame3, hq3, hty3, hval3, hch3, hpar3, hcells3, hmoved3⟩ :=
    reattach_full h.length ps [] k'.arity h2 (newCell k' v0) hq2 (by simp [newCell]) hpsl
  simp only [List.length_nil, List.nil_append] at e6 hch3
  have e7 : GetChildren h3 (some h.length) =
      some ((ps.take k'.arity).map some ++ List.replicate (k'.arity - ps.length) none) := by
    simp [GetChildren, hq3, hch3]
  -- the new leaves
  have hskip := fillLeaves_skip h.length g2 h3 qc3 hq3 (ps.take k'.arity) []
    (List.replicate (k'.arity - ps.length) none)
    ((ps.take k'.arity).map some ++ List.replicate (k'.arity - ps.length) none)
    (by simp [hch3]) (by simp)
  simp only [List.length_nil, Nat.zero_add, List.drop_left'
    (List.length_map (ps.take k'.arity) some)] at hskip
  obtain ⟨h4, g3, leaves, e8, hframe4, hle4, hq4, hll, hfresh, hrep4, hpo4, hnd4, hlo4⟩ :=
    fillLeaves_full h.length (k'.arity - ps.length) (List.replicate (k'.arity - ps.length) none)
      ((ps.take k'.arity).map some) h3 g2 qc3 hq3 hch3 (by simp)
  rw [List.length_map] at e8
  rw [← hskip] at e8
  have hlen3' : h3.length = h.length + 1 := by rw [hlen3, hlen2, hlen1]
  have hn4 : n < h4.length := by
    have h5 : n < h3.length := by rw [hlen3']; exact Nat.lt_succ_of_lt hnl
    exact lt_of_lt_of_le h5 hle4
  obtain ⟨nc4, hnc4⟩ : ∃ c, h4[n]? = some c := ⟨h4[n], List.getElem?_eq_getElem hn4⟩
  have e9 : GetParent h4 (some n) = some nc4.Parent := by simp [GetParent, hnc4]
  have e10 : SetParent h4 (some h.length) nc4.Parent = some (h4.set h.length
      { ({ qc3 with Children := (ps.take k'.arity).map some ++ leaves.map PTree.root } : Cell) with
        Parent := nc4.Parent }) := by
    simp [SetParent, hq4]
  set h5 := h4.set h.length
      { ({ qc3 with Children := (ps.take k'.arity).map some ++ leaves.map PTree.root } : Cell) with
        Parent := nc4.Parent } with hh5
  have hsame5 : ∀ a, sameCore h4 h5 a := fun a => sameCore_set_parent h4 h.length _ hq4 _ a
  have hold : ∀ a, a < h.length → sameCore h2 h5 a := by
    intro a ha
    have haq : a ≠ h.length := Nat.ne_of_lt ha
    refine sameCore_trans (hsame3 a haq) (sameCore_trans ?_ (hsame5 a))
    exact sameCore_of_eq (hframe4 a (by omega) haq)
  -- the parent references
  have hcell35 : ∀ a, a < h.length → h5[a]? = h3[a]? := by
    intro a ha
    have haq : a ≠ h.length := Nat.ne_of_lt ha
    rw [hh5, List.getElem?_set_ne (Ne.symm haq), hframe4 a (by omega) haq]
  have hparOld : ∀ a, a < h.length → a ∉ ps.take k'.arity →
      (h5[a]?).map Cell.Parent = (h[a]?).map Cell.Parent := by
    intro a ha hna
    rw [hcell35 a ha, hcells3 a (Nat.ne_of_lt ha) hna, hpar2 a ha]
  have hnps : n ∉ ps := by
    intro hx
    have hmem : n ∈ PTree.preorderList cs := hpsmem n hx
    simp only [PTree.preorder_node, List.nodup_cons] at hnd
    exact hnd.1 hmem
  have hnc4par : nc4.Parent = nc.Parent := by
    have := hparOld n hnl (fun hx => hnps (List.mem_of_mem_take hx))
    rw [hcell35 n hnl] at this
    have h4n : h4[n]? = h3[n]? :=
      hframe4 n (by rw [hlen3']; exact Nat.lt_succ_of_lt hnl) (Nat.ne_of_lt hnl)
    rw [← h4n, hnc4, hn] at this
    simpa using this
  have htk : List.map PTree.root (List.take k'.arity cs) =
      List.map some (List.take k'.arity ps) := by
    rw [List.map_take, List.map_take, hps]
  have hloL : ∀ x ∈ PTree.preorderList leaves, h.length < x := by
    intro x hx
    have := hlo4 x hx
    rw [hlen3'] at this
    exact this
  have hq5 : h5[h.length]? = some
      { ({ qc3 with Children := (ps.take k'.arity).map some ++ leaves.map PTree.root } : Cell) with
        Parent := nc4.Parent } :=
    List.getElem?_set_eq_of_lt _ (lt_of_getElem?_some hq4)
  simp only [PTree.preorder_node, List.nodup_cons] at hnd
  refine ⟨h5, g3, k', v0, leaves, ?_, hk', ?_, by rw [hll, hpslen], ?_, ?_, ?_, ?_, ?_, hloL, ?_⟩
  · rcases e4 with ⟨hpar, rfl⟩ | ⟨pp, hpar, e4⟩
    · simp only [Mutate, e1, e2, e3, hpar, e5, e6, e7, e8, e9, e10]
    · simp only [Mutate, e1, e2, e3, hpar, e4, e5, e6, e7, e8, e9, e10]
  · rw [Rep_node_iff]
    refine ⟨_, hq5, ?_, ?_, ?_, ?_⟩
    · simp [hty3, newCell]
    · simp [hval3, newCell]
    · simp only [List.map_append, htk]
    · rw [RepList_append, Bool.and_eq_true]
      constructor
      · apply RepList_take
        apply RepList_frame h h5 cs _ hrl
        intro a ha
        have ha' : a ∈ (PTree.node n k v cs).preorder := by simp [ha]
        exact sameCore_trans (hsame2 a ha') (hold a (Rep_lt h _ hr a ha'))
      · exact RepList_frame h4 h5 leaves (fun a _ => hsame5 a) hrep4
  · intro l hl
    obtain ⟨a, lk, lv, e, hlk, ha⟩ := hfresh l hl
    exact ⟨a, lk, lv, e, hlk, by omega⟩
  · rw [hh5]; simp only [List.length_set]; omega
  · intro a ha
    have := hold a ha
    unfold sameCore at this
    rw [this, hcore2 a ha]
  · rw [ParentOK_node, Bool.and_eq_true]
    refine ⟨by rw [hq5]; simp [hnc4par], ?_⟩
    rw [ParentOKList_append, Bool.and_eq_true]
    constructor
    · rw [ParentOKList_iff] at hpo ⊢
      intro t ht
      have htcs : t ∈ cs := List.mem_of_mem_take ht
      have htnd : t.preorder.Nodup := (PTree.preorder_sublist_of_mem htcs).nodup hnd.2
      apply ParentOK_reroot_in h h5 t (some n) (some h.length) htnd (hpo t htcs)
      · intro q hq
        have hqin : q ∈ ps.take k'.arity := by
          have : some q ∈ (cs.take k'.arity).map PTree.root := List.mem_map.mpr ⟨t, ht, hq⟩
          rw [htk] at this
          obtain ⟨q', hq', e⟩ := List.mem_map.mp this
          cases e
          exact hq'
        have hql : q < h.length := Rep_lt h _ hr q (by
          simp [hpsmem q (List.mem_of_mem_take hqin)])
        rw [hcell35 q hql]
        exact hmoved3 q hqin
      · intro a ha hroot
        have hal : a < h.length := Rep_lt h _ hr a (by
          simp [PTree.mem_preorderList.mpr ⟨t, htcs, ha⟩])
        apply hparOld a hal
        intro hain
        -- `a` is the root of a child and a node below the root of `t`
        have hain' : some a ∈ (cs.take k'.arity).map PTree.root := by
          rw [htk]; exact List.mem_map.mpr ⟨a, hain, rfl⟩
        obtain ⟨u, hu, hur⟩ := List.mem_map.mp hain'
        have hucs : u ∈ cs := List.mem_of_mem_take hu
        have haU : a ∈ u.preorder := PTree.root_mem hur
        by_cases hut : u = t
        · subst hut
          exact hroot hur
        · -- two children share the address `a`
          have hdisj : ∀ (l : List PTree), (PTree.preorderList l).Nodup → u ∈ l → t ∈ l →
              u ≠ t → False := by
            intro l
            induction l with
            | nil => intro _ hx; cases hx
            | cons w ws ihw =>
              intro hndl hul htl hne
              simp only [PTree.preorderList_cons] at hndl
              rw [List.nodup_append] at hndl
              obtain ⟨-, hws, hd⟩ := hndl
              rcases List.mem_cons.mp hul with rfl | hul'
              · rcases List.mem_cons.mp htl with rfl | htl'
                · exact hne rfl
                · exact hd haU (PTree.mem_preorderList.mpr ⟨t, htl', ha⟩)
              · rcases List.mem_cons.mp htl with rfl | htl'
                · exact hd ha (PTree.mem_preorderList.mpr ⟨u, hul', haU⟩)
                · exact ihw hws hul' htl' hne
          exact hdisj cs hnd.2 hucs htcs hut
    · exact ParentOKList_frame h4 h5 leaves _
        (fun a ha => by
          rw [hh5, List.getElem?_set_ne (Nat.ne_of_lt (by
            have := hlo4 a ha; rw [hlen3'] at this; exact this))]) hpo4
  · simp only [PTree.preorder_node, List.nodup_cons, PTree.preorderList_append, List.mem_append,
      not_or]
    refine ⟨⟨?_, ?_⟩, ?_⟩
    · intro hx
      have := RepList_lt h _ (RepList_take h cs k'.arity hrl) _ hx
      exact absurd this (lt_irrefl _)
    · intro hx
      exact absurd (hloL _ hx) (lt_irrefl _)
    · rw [List.nodup_append]
      refine ⟨(PTree.preorderList_take_sub cs k'.arity).nodup hnd.2, hnd4, ?_⟩
      intro x hx1 hx2
      have h1 := RepList_lt h _ (RepList_take h cs k'.arity hrl) x hx1
      exact absurd h1 (Nat.not_lt.mpr (le_of_lt (hloL x hx2)))
  · intro a ha hnr
    apply hparOld a ha
    intro hain
    have hain' : some a ∈ (cs.take k'.arity).map PTree.root := by
      rw [htk]; exact List.mem_map.mpr ⟨a, hain, rfl⟩
    obtain ⟨u, hu, hur⟩ := List.mem_map.mp hain'
    exact hnr u (List.mem_of_mem_take hu) hur

theorem PTree.depthList_append (xs ys : List PTree) :
    PTree.depthList (xs ++ ys) = max (PTree.depthList xs) (PTree.depthList ys) := by
  induction xs with
  | nil => simp
  | cons t ts ih => simp [ih, max_assoc]

theorem PTree.depthList_take_le (cs : List PTree) (m : Nat) :
    PTree.depthList (cs.take m) ≤ PTree.depthList cs := by
  induction cs generalizing m with
  | nil => simp
  | cons t ts ih =>
    cases m with
    | zero => simp
    | succ m =>
      simp only [List.take_succ_cons, PTree.depthList_cons]
      exact max_le_max (le_refl _) (ih m)

theorem PTree.depthList_leaves (lo : Nat) (ls : List PTree) (hl : ∀ l ∈ ls, isFreshLeaf lo l) :
    PTree.depthList ls ≤ 1 := by
  induction ls with
  | nil => simp
  | cons l ls ih =>
    obtain ⟨a, lk, lv, rfl, -, -⟩ := hl l (List.mem_cons_self _ _)
    simp only [PTree.depthList_cons, PTree.depth_node, PTree.depthList_nil]
    exact max_le (le_refl _) (ih (fun x hx => hl x (List.mem_cons_of_mem _ hx)))

/-- The subtree found at an address has consistent parent references below the
parent reference of its root. -/
theorem ParentOK_find_both (h : Heap) (n : Ptr) :
    (∀ (t : PTree) (par : Option Ptr) (s : PTree), PTree.find n t = some s →
      ParentOK h par t = true → ∃ pn, ParentOK h pn s = true) ∧
    (∀ (cs : List PTree) (par : Option Ptr) (s : PTree), PTree.findList n cs = some s →
      ParentOKList h par cs = true → ∃ pn, ParentOK h pn s = true) := by
  apply PTree.induct_both
  · intro par s hf; simp at hf
  · intro b k v cs ih par s hf hpo
    rw [PTree.find_node] at hf
    by_cases hb : b = n
    · simp only [hb, if_true, Option.some.injEq] at hf
      subst hf
      exact ⟨par, by rw [← hb]; exact hpo⟩
    · simp only [hb, if_false] at hf
      rw [ParentOK_node, Bool.and_eq_true] at hpo
      exact ih (some b) s hf hpo.2
  · intro par s hf; simp at hf
  · intro t ts iht ihts par s hf hpo
    rw [PTree.findList_cons] at hf
    simp only [ParentOKList_cons, Bool.and_eq_true] at hpo
    cases hft : PTree.find n t with
    | some s' =>
      rw [hft] at hf
      simp only [Option.some.injEq] at hf
      subst hf
      exact iht par s' hft hpo.1
    | none =>
      rw [hft] at hf
      exact ihts par s hf hpo.2

/-- `Mutate` on a node of a tree with consistent parent references and without
sharing: the store then holds the tree with the node replaced by the new one,
again with consistent parent references and without sharing; a tree apart from
it is as before. -/
theorem Mutate_in_tree_full (h : Heap) (g : Rand) (t : PTree) (par0 : Option Ptr)
    (hc : t.complete = true) (hr : Rep h t = true) (hpo : ParentOK h par0 t = true)
    (hpar0 : ∀ P, par0 = some P → P < h.length) (hnd : t.preorder.Nodup)
    (n : Ptr) (hn : n ∈ t.preorder) :
    ∃ h' g' k v cs k' v' leaves T', PTree.find n t = some (.node n k v cs) ∧
      T' = PTree.replace n (.node h.length k' v' (cs.take k'.arity ++ leaves)) t ∧
      Mutate h g (some n) = some (h', g', h.length) ∧ k' ≠ .OpPicture ∧
      leaves.length = k'.arity - cs.length ∧ (∀ l ∈ leaves, isFreshLeaf (h.length + 1) l) ∧
      Rep h' T' = true ∧ T'.complete = true ∧ ParentOK h' par0 T' = true ∧ T'.preorder.Nodup ∧
      T'.depth ≤ t.depth + 1 ∧ h.length < h'.length ∧
      (∀ x ∈ T'.preorder, x ∈ t.preorder ∨ h.length ≤ x) ∧
      (∀ s, Rep h s = true → n ∉ s.preorder → Rep h' s = true) ∧
      (∀ s par, Rep h s = true → ParentOK h par s = true →
        (∀ x ∈ s.preorder, x ∉ t.preorder) → ParentOK h' par s = true) ∧
      (∃ pn, (h[n]?).map Cell.Parent = some pn ∧
        ParentOK h' pn (.node h.length k' v' (cs.take k'.arity ++ leaves)) = true) := by
  obtain ⟨s, hfind⟩ := PTree.find_of_mem n t hn
  obtain ⟨hsroot, hsrep, hscomp, hssub⟩ := PTree.find_some h n t s hfind
  cases s with
  | empty => simp [PTree.root] at hsroot
  | node n' k v cs =>
    simp only [PTree.root, Option.some.injEq] at hsroot
    subst hsroot
    have hrs := hsrep hr
    have hcs := hscomp hc
    obtain ⟨nc, hnc, -, -, -, hrl⟩ := (Rep_node_iff h n' k v cs).mp hrs
    have hP : ∀ P, nc.Parent = some P → P < h.length := by
      intro P hPp
      rcases ParentOK_parent h t par0 hr hpo n' hn with ⟨-, h2⟩ | ⟨b, hb, h2⟩
      · rw [hnc] at h2
        simp only [Option.map_some', Option.some.injEq] at h2
        exact hpar0 P (by rw [← h2, hPp])
      · rw [hnc] at h2
        simp only [Option.map_some', Option.some.injEq] at h2
        rw [h2] at hPp
        have hbP : b = P := Option.some.inj hPp
        rw [← hbP]
        exact Rep_lt h t hr b hb
    have hsnd : (PTree.node n' k v cs).preorder.Nodup := by
      obtain ⟨A, B, h1, -⟩ := PTree.preorder_replace n' .empty t _ hnd hfind
      rw [h1] at hnd
      exact (List.nodup_append.mp (List.nodup_append.mp hnd).1).2.1
    obtain ⟨pn, hpn⟩ := (ParentOK_find_both h n').1 t par0 _ hfind hpo
    rw [ParentOK_node, Bool.and_eq_true] at hpn
    obtain ⟨h', g', k', v', leaves, hrun, hk', hrepN, hll, hfresh, hlt, hframe, hpoN, hndN, hloL,
        hparOld⟩ :=
      Mutate_full h g n' k v cs nc hrs hcs hnc hP hsnd hpn.2
    have hm : mutatedFrom h h' nc.Parent n' h.length := hframe
    have hcompN : (PTree.node h.length k' v' (cs.take k'.arity ++ leaves)).complete = true := by
      simp only [PTree.complete_node] at hcs ⊢
      rw [PTree.completeList_append, Bool.and_eq_true]
      refine ⟨PTree.completeList_take cs _ hcs, ?_⟩
      rw [PTree.completeList_iff]
      intro l hl
      obtain ⟨a, lk, lv, rfl, -, -⟩ := hfresh l hl
      simp
    have hrootsIn : ∀ u ∈ cs, ∀ a, u.root = some a → a ∈ PTree.preorderList cs :=
      fun u hu a ha => PTree.mem_preorderList.mpr ⟨u, hu, PTree.root_mem ha⟩
    have hnewIn : ∀ x ∈ (PTree.node h.length k' v' (cs.take k'.arity ++ leaves)).preorder,
        x ∈ t.preorder → x ∈ (PTree.node n' k v cs).preorder := by
      intro x hx hxt
      have hxl := Rep_lt h t hr x hxt
      simp only [PTree.preorder_node, List.mem_cons, PTree.preorderList_append,
        List.mem_append] at hx ⊢
      rcases hx with rfl | hx | hx
      · exact absurd hxl (lt_irrefl _)
      · exact Or.inr ((PTree.preorderList_take_sub cs k'.arity).subset hx)
      · exact absurd hxl (Nat.not_lt.mpr (le_of_lt (hloL x hx)))
    have hnd' := PTree.nodup_replace n' (.node h.length k' v' (cs.take k'.arity ++ leaves)) t _
      hnd hfind hndN hnewIn
    refine ⟨h', g', k, v, cs, k', v', leaves, _, hfind, rfl, hrun, hk', hll, hfresh, ?_, ?_, ?_,
      hnd'.1, ?_, hlt, ?_, ?_, ?_, ⟨nc.Parent, by rw [hnc]; rfl, hpoN⟩⟩
    · apply Rep_replace hm _ hrepN rfl t hr
      intro b hb c hcb hmem
      have := ParentOK_holder h t par0 hr hpo b hb c hcb n' hmem
      rw [hnc] at this
      simpa using this
    · exact PTree.complete_replace n' _ hcompN t hc
    · apply (ParentOK_replace_both h h' n' _ _).1 t par0 (PTree.preorderList cs) hnd hpo
      · intro s hs x hx
        rw [hfind] at hs
        cases hs
        simp [hx]
      · intro hn'; exact absurd hn hn'
      · intro a ha haS
        exact hparOld a (Rep_lt h t hr a ha) (fun u hu hur => haS (hrootsIn u hu a hur))
      · intro pn' hpn'
        rw [hnc] at hpn'
        simp only [Option.map_some', Option.some.injEq] at hpn'
        rw [← hpn']
        exact hpoN
    · apply PTree.depth_replace n' _ t _ 1 hnd hfind
      simp only [PTree.depth_node, PTree.depthList_append]
      have h1 := PTree.depthList_take_le cs k'.arity
      have h2 := PTree.depthList_leaves _ leaves hfresh
      omega
    · intro x hx
      rcases hnd'.2.1 x hx with hx | hx
      · simp only [PTree.preorder_node, List.mem_cons, PTree.preorderList_append,
          List.mem_append] at hx
        rcases hx with rfl | hx | hx
        · exact Or.inr (le_refl _)
        · exact Or.inl (hssub x (by
            simp [(PTree.preorderList_take_sub cs k'.arity).subset hx]))
        · exact Or.inr (le_of_lt (hloL x hx))
      · exact Or.inl hx.1
    · exact fun s hs hns => mutatedFrom_frame hm s hs hns
    · intro s par hs hps hdis
      apply ParentOK_frame h h' s par _ hps
      intro a ha
      apply hparOld a (Rep_lt h s hs a ha)
      intro u hu hur
      exact hdis a ha (hssub a (by simp [hrootsIn u hu a hur]))

/-- The mutation pass on the channel tree `t` of a picture `p`, with the parent
references. -/
theorem picture_mutateNode_full (fuel : Nat) (h : Heap) (g : Rand) (p : picture) (t : PTree)
    (hc : t.complete = true) (hr : Rep h t = true) (hf : t.depth < fuel)
    (hpo : ParentOK h none t = true) (hnd : t.preorder.Nodup) :
    ∃ h' g' n T', n ∈ t.preorder ∧
      picture.mutateNode fuel h g p t.root = some (h', g',
        if some n = p.r then { p with r := some h.length }
        else if some n = p.g then { p with g := some h.length }
        else if some n = p.b then { p with b := some h.length }
        else p) ∧
      T'.root = (if t.root = some n then some h.length else t.root) ∧
      Rep h' T' = true ∧ T'.complete = true ∧ ParentOK h' none T' = true ∧ T'.preorder.Nodup ∧
      T'.depth ≤ t.depth + 1 ∧ h.length < h'.length ∧
      (∀ x ∈ T'.preorder, x ∈ t.preorder ∨ h.length ≤ x) ∧
      (∀ s, Rep h s = true → n ∉ s.preorder → Rep h' s = true) ∧
      (∀ s par, Rep h s = true → ParentOK h par s = true →
        (∀ x ∈ s.preorder, x ∉ t.preorder) → ParentOK h' par s = true) := by
  have hpos := PTree.size_pos_of_complete hc
  have e1 := NodeCount_spec h t hc hr fuel hf
  have hlt : g.ints g.ipos % t.size < t.size := Nat.mod_lt _ hpos
  have e2 : g.Intn t.size = some (g.ints g.ipos % t.size, { g with ipos := g.ipos + 1 }) := by
    simp [Rand.Intn, Nat.ne_of_gt hpos]
  obtain ⟨n, cnt, hidx, e3⟩ := GetNthNode_at h t hc hr fuel hf _ hlt
  have hn : n ∈ t.preorder := List.getElem?_mem hidx
  obtain ⟨h', g', k, v, cs, k', v', leaves, T', -, hT', hrun, -, -, -, hrep, hcomp, hpo', hnd',
      hdep, hlen, hmem, hfr, hfp, -⟩ :=
    Mutate_in_tree_full h { g with ipos := g.ipos + 1 } t none hc hr hpo
      (by intro P hP; cases hP) hnd n hn
  refine ⟨h', g', n, T', hn, ?_, ?_, hrep, hcomp, hpo', hnd', hdep, hlen, hmem, hfr, hfp⟩
  · simp only [picture.mutateNode, e1, e2, e3, hrun]
    split_ifs <;> rfl
  · rw [hT', PTree.root_replace, PTree.root_node]

/-- One pass of `picture.Mutate` keeps a picture good; its trees are then made
of nodes of the old trees and new objects, each at most one higher, and a tree
apart from the picture is as before. -/
theorem picture_Mutate_good (fuel : Nat) (h : Heap) (g : Rand) (T : Trees) (hg : T.Good h)
    (D : Nat) (hd : T.depthLe D) (hf : D < fuel) :
    ∃ h' g' T', picture.Mutate fuel h g T.pic = some (h', g', Trees.pic T') ∧ T'.Good h' ∧
      T'.depthLe (D + 1) ∧ h.length ≤ h'.length ∧
      (∀ x ∈ T'.addrs, x ∈ T.addrs ∨ h.length ≤ x) ∧
      (∀ s par, Rep h s = true → ParentOK h par s = true → (∀ x ∈ s.preorder, x ∉ T.addrs) →
        Rep h' s = true ∧ ParentOK h' par s = true) := by
  obtain ⟨Tr, Tg, Tb⟩ := T
  obtain ⟨⟨⟨rr, rg, rb⟩, ⟨cr, cg, cb⟩⟩, ⟨pr, pg, pb⟩, hnd⟩ := hg
  obtain ⟨dr, dg, db⟩ := hd
  simp only [Trees.addrs] at hnd ⊢
  simp only at rr rg rb cr cg cb pr pg pb dr dg db
  have hnd0 := hnd
  rw [List.append_assoc, List.nodup_append] at hnd
  obtain ⟨hndr, hndgb, hdr⟩ := hnd
  rw [List.nodup_append] at hndgb
  obtain ⟨hndg, hndb, hdg⟩ := hndgb
  have hrg : ∀ x ∈ Tr.preorder, x ∉ Tg.preorder := fun x hx hx' => hdr hx (by simp [hx'])
  have hrb : ∀ x ∈ Tr.preorder, x ∉ Tb.preorder := fun x hx hx' => hdr hx (by simp [hx'])
  have hgb : ∀ x ∈ Tg.preorder, x ∉ Tb.preorder := fun x hx hx' => hdg hx hx'
  have lr := Rep_lt h Tr rr
  have lg := Rep_lt h Tg rg
  have lb := Rep_lt h Tb rb
  have hc3 : g.ints g.ipos % 3 < 3 := Nat.mod_lt _ (by decide)
  have e0 : g.Intn 3 = some (g.ints g.ipos % 3, { g with ipos := g.ipos + 1 }) := by
    simp [Rand.Intn]
  have hfresh : ∀ (X : List Ptr) (x : Ptr), (∀ y ∈ X, y < h.length) → h.length ≤ x → x ∉ X :=
    fun X x hX hx hxX => absurd (hX x hxX) (Nat.not_lt.mpr hx)
  obtain h0 | h1 | h2 : g.ints g.ipos % 3 = 0 ∨ g.ints g.ipos % 3 = 1 ∨
      g.ints g.ipos % 3 = 2 := by omega
  · obtain ⟨h', g', n, T', hn, hrun, hroot, hrep, hcomp, hpo', hnd', hdep, hlen, hmem, hfr, hfp⟩ :=
      picture_mutateNode_full fuel h { g with ipos := g.ipos + 1 } ⟨Tr.root, Tg.root, Tb.root⟩ Tr
        cr rr (lt_of_le_of_lt dr hf) pr hndr
    have n1 : ¬ (some n = Tg.root) := fun e => hrg n hn (PTree.root_mem e.symm)
    have n2 : ¬ (some n = Tb.root) := fun e => hrb n hn (PTree.root_mem e.symm)
    refine ⟨h', g', ⟨T', Tg, Tb⟩, ?_, ⟨⟨⟨hrep, hfr Tg rg (hrg n hn), hfr Tb rb (hrb n hn)⟩,
      ⟨hcomp, cg, cb⟩⟩, ⟨hpo', hfp Tg none rg pg (fun x hx hx' => hrg x hx' hx),
        hfp Tb none rb pb (fun x hx hx' => hrb x hx' hx)⟩, ?_⟩,
      ⟨le_trans hdep (Nat.succ_le_succ dr), Nat.le_succ_of_le dg, Nat.le_succ_of_le db⟩,
      le_of_lt hlen, ?_, ?_⟩
    · simp only [picture.Mutate, e0, h0, Trees.pic]
      rw [hrun]
      simp only [n1, n2, if_false, hroot]
      by_cases e : some n = Tr.root
      · rw [if_pos e, if_pos e.symm]
      · rw [if_neg e, if_neg (fun x => e x.symm)]
    · simp only [Trees.addrs]
      apply nodup_append3 hnd' hndg hndb
      · intro x hx
        rcases hmem x hx with hx | hx
        · exact hrg x hx
        · exact hfresh _ x lg hx
      · intro x hx
        rcases hmem x hx with hx | hx
        · exact hrb x hx
        · exact hfresh _ x lb hx
      · exact hgb
    · intro x hx
      simp only [Trees.addrs, List.mem_append] at hx ⊢
      rcases hx with (hx | hx) | hx
      · rcases hmem x hx with hx | hx
        · exact Or.inl (Or.inl (Or.inl hx))
        · exact Or.inr hx
      · exact Or.inl (Or.inl (Or.inr hx))
      · exact Or.inl (Or.inr hx)
    · intro s par hs hps hdis
      exact ⟨hfr s hs (fun hx => hdis n hx (by simp [hn])),
        hfp s par hs hps (fun x hx hx' => hdis x hx (by simp [hx']))⟩
  · obtain ⟨h', g', n, T', hn, hrun, hroot, hrep, hcomp, hpo', hnd', hdep, hlen, hmem, hfr, hfp⟩ :=
      picture_mutateNode_full fuel h { g with ipos := g.ipos + 1 } ⟨Tr.root, Tg.root, Tb.root⟩ Tg
        cg rg (lt_of_le_of_lt dg hf) pg hndg
    have n1 : ¬ (some n = Tr.root) := fun e => hrg n (PTree.root_mem e.symm) hn
    have n2 : ¬ (some n = Tb.root) := fun e => hgb n hn (PTree.root_mem e.symm)
    refine ⟨h', g', ⟨Tr, T', Tb⟩, ?_, ⟨⟨⟨hfr Tr rr (fun hx => hrg n hx hn), hrep,
      hfr Tb rb (hgb n hn)⟩, ⟨cr, hcomp, cb⟩⟩,
      ⟨hfp Tr none rr pr (fun x hx hx' => hrg x hx hx'), hpo',
        hfp Tb none rb pb (fun x hx hx' => hgb x hx' hx)⟩, ?_⟩,
      ⟨Nat.le_succ_of_le dr, le_trans hdep (Nat.succ_le_succ dg), Nat.le_succ_of_le db⟩,
      le_of_lt hlen, ?_, ?_⟩
    · simp only [picture.Mutate, e0, h1, Trees.pic]
      rw [hrun]
      simp only [n1, n2, if_false, hroot]
      by_cases e : some n = Tg.root
      · rw [if_pos e, if_pos e.symm]
      · rw [if_neg e, if_neg (fun x => e x.symm)]
    · simp only [Trees.addrs]
      apply nodup_append3 hndr hnd' hndb
      · intro x hx hx'
        rcases hmem x hx' with hx' | hx'
        · exact hrg x hx hx'
        · exact hfresh _ x lr hx' hx
      · exact hrb
      · intro x hx
        rcases hmem x hx with hx | hx
        · exact hgb x hx
        · exact hfresh _ x lb hx
    · intro x hx
      simp only [Trees.addrs, List.mem_append] at hx ⊢
      rcases hx with (hx | hx) | hx
      · exact Or.inl (Or.inl (Or.inl hx))
      · rcases hmem x hx with hx | hx
        · exact Or.inl (Or.inl (Or.inr hx))
        · exact Or.inr hx
      · exact Or.inl (Or.inr hx)
    · intro s par hs hps hdis
      exact ⟨hfr s hs (fun hx => hdis n hx (by simp [hn])),
        hfp s par hs hps (fun x hx hx' => hdis x hx (by simp [hx']))⟩
  · obtain ⟨h', g', n, T', hn, hrun, hroot, hrep, hcomp, hpo', hnd', hdep, hlen, hmem, hfr, hfp⟩ :=
      picture_mutateNode_full fuel h { g with ipos := g.ipos + 1 } ⟨Tr.root, Tg.root, Tb.root⟩ Tb
        cb rb (lt_of_le_of_lt db hf) pb hndb
    have n1 : ¬ (some n = Tr.root) := fun e => hrb n (PTree.root_mem e.symm) hn
    have n2 : ¬ (some n = Tg.root) := fun e => hgb n (PTree.root_mem e.symm) hn
    refine ⟨h', g', ⟨Tr, Tg, T'⟩, ?_, ⟨⟨⟨hfr Tr rr (fun hx => hrb n hx hn),
      hfr Tg rg (fun hx => hgb n hx hn), hrep⟩, ⟨cr, cg, hcomp⟩⟩,
      ⟨hfp Tr none rr pr (fun x hx hx' => hrb x hx hx'),
        hfp Tg none rg pg (fun x hx hx' => hgb x hx hx'), hpo'⟩, ?_⟩,
      ⟨Nat.le_succ_of_le dr, Nat.le_succ_of_le dg, le_trans hdep (Nat.succ_le_succ db)⟩,
      le_of_lt hlen, ?_, ?_⟩
    · simp only [picture.Mutate, e0, h2, Trees.pic]
      rw [hrun]
      simp only [n1, n2, if_false, hroot]
      by_cases e : some n = Tb.root
      · rw [if_pos e, if_pos e.symm]
      · rw [if_neg e, if_neg (fun x => e x.symm)]
    · simp only [Trees.addrs]
      apply nodup_append3 hndr hndg hnd'
      · exact hrg
      · intro x hx hx'
        rcases hmem x hx' with hx' | hx'
        · exact hrb x hx hx'
        · exact hfresh _ x lr hx' hx
      · intro x hx hx'
        rcases hmem x hx' with hx' | hx'
        · exact hgb x hx hx'
        · exact hfresh _ x lg hx' hx
    · intro x hx
      simp only [Trees.addrs, List.mem_append] at hx ⊢
      rcases hx with (hx | hx) | hx
      · exact Or.inl (Or.inl (Or.inl hx))
      · exact Or.inl (Or.inl (Or.inr hx))
      · rcases hmem x hx with hx | hx
        · exact Or.inl (Or.inr hx)
        · exact Or.inr hx
    · intro s par hs hps hdis
      exact ⟨hfr s hs (fun hx => hdis n hx (by simp [hn])),
        hfp s par hs hps (fun x hx hx' => hdis x hx (by simp [hx']))⟩

theorem Trees.Good.lt {h : Heap} {T : Trees} (hg : T.Good h) : ∀ x ∈ T.addrs, x < h.length := by
  intro x hx
  obtain ⟨⟨⟨rr, rg, rb⟩, -⟩, -, -⟩ := hg
  simp only [Trees.addrs, List.mem_append] at hx
  rcases hx with (hx | hx) | hx
  · exact Rep_lt h _ rr x hx
  · exact Rep_lt h _ rg x hx
  · exact Rep_lt h _ rb x hx

/-- The passes of `picture.Mutate` in a row keep a picture good. -/
theorem mutateTimes_good (fuel : Nat) : ∀ (r : Nat) (h : Heap) (g : Rand) (T : Trees) (D : Nat),
    T.Good h → T.depthLe D → D + r ≤ fuel →
    ∃ h' g' T', mutateTimes fuel r h g T.pic = some (h', g', Trees.pic T') ∧ T'.Good h' ∧
      T'.depthLe (D + r) ∧ h.length ≤ h'.length ∧
      (∀ x ∈ T'.addrs, x ∈ T.addrs ∨ h.length ≤ x) ∧
      (∀ s par, Rep h s = true → ParentOK h par s = true → (∀ x ∈ s.preorder, x ∉ T.addrs) →
        Rep h' s = true ∧ ParentOK h' par s = true) := by
  intro r
  induction r with
  | zero =>
    intro h g T D hg hd _
    exact ⟨h, g, T, by simp [mutateTimes], hg, hd, le_refl _, fun x hx => Or.inl hx,
      fun s par hs hps _ => ⟨hs, hps⟩⟩
  | succ r ih =>
    intro h g T D hg hd hf
    obtain ⟨h1, g1, T1, e1, hg1, hd1, hl1, hm1, hf1⟩ :=
      picture_Mutate_good fuel h g T hg D hd (by omega)
    obtain ⟨h2, g2, T2, e2, hg2, hd2, hl2, hm2, hf2⟩ := ih h1 g1 T1 (D + 1) hg1 hd1 (by omega)
    refine ⟨h2, g2, T2, ?_, hg2, ?_, le_trans hl1 hl2, ?_, ?_⟩
    · simp only [mutateTimes, e1, e2]
    · have : D + 1 + r = D + (r + 1) := by omega
      rw [← this]; exact hd2
    · intro x hx
      rcases hm2 x hx with hx | hx
      · exact hm1 x hx
      · exact Or.inr (le_trans hl1 hx)
    · intro s par hs hps hdis
      obtain ⟨hs1, hps1⟩ := hf1 s par hs hps hdis
      apply hf2 s par hs1 hps1
      intro x hx hx1
      rcases hm1 x hx1 with hx1 | hx1
      · exact hdis x hx hx1
      · exact absurd (Rep_lt h s hs x hx) (Nat.not_lt.mpr hx1)

/-- The run of `cross` told on the three trees of each picture. -/
theorem cross_good (fuel : Nat) (h : Heap) (g : Rand) (A B : Trees) (D : Nat)
    (hA : A.Held h) (hB : B.Held h) (hdA : A.depthLe D) (hdB : B.depthLe D) (hf : D < fuel) :
    ∃ h' F, cross fuel h g A.pic B.pic = some (h', { g with ipos := g.ipos + 4 }, Trees.pic F) ∧
      Extends h h' ∧ F.Good h' ∧ (∀ x ∈ F.addrs, h.length ≤ x) ∧ F.depthLe (D + D) := by
  obtain ⟨Ar, Ag, Ab⟩ := A
  obtain ⟨Br, Bg, Bb⟩ := B
  obtain ⟨hrA, hcA⟩ := hA
  obtain ⟨hrB, hcB⟩ := hB
  obtain ⟨d1, d2, d3⟩ := hdA
  obtain ⟨d4, d5, d6⟩ := hdB
  simp only at hrA hcA hrB hcB d1 d2 d3 d4 d5 d6
  obtain ⟨h', Fr, Fg, Fb, s, hrun, hext, hr, hc, hp, hnd, hlo, hdep, -⟩ :=
    cross_spec fuel h g Ar Ag Ab Br Bg Bb hcA hrA
      ⟨lt_of_le_of_lt d1 hf, lt_of_le_of_lt d2 hf, lt_of_le_of_lt d3 hf⟩ hcB hrB
      ⟨lt_of_le_of_lt d4 hf, lt_of_le_of_lt d5 hf, lt_of_le_of_lt d6 hf⟩
  have hdB : (pick3 (g.ints (g.ipos + 1) % 3) Br Bg Bb).depth ≤ D :=
    pick3_lt (fun t => t.depth ≤ D) Br Bg Bb d4 d5 d6 _
  exact ⟨h', ⟨Fr, Fg, Fb⟩, hrun, hext, ⟨⟨hr, hc⟩, hp, hnd⟩, hlo,
    ⟨by have := hdep.1; simp only; omega, by have := hdep.2.1; simp only; omega,
      by have := hdep.2.2; simp only; omega⟩⟩

theorem Trees.Held.heldIn {h h' : Heap} {T : Trees} (hT : T.Held h) (he : Extends h h') :
    T.Held h' :=
  ⟨⟨Rep_extends he _ hT.1.1, Rep_extends he _ hT.1.2.1, Rep_extends he _ hT.1.2.2⟩, hT.2⟩

theorem Trees.Good.goodIn {h h' : Heap} {T : Trees} (hT : T.Good h) (he : Extends h h') :
    T.Good h' :=
  ⟨hT.1.heldIn he, ⟨ParentOK_extends he _ none hT.1.1.1 hT.2.1.1,
    ParentOK_extends he _ none hT.1.1.2.1 hT.2.1.2.1,
    ParentOK_extends he _ none hT.1.1.2.2 hT.2.1.2.2⟩, hT.2.2⟩

/-- A good picture stays good when the trees apart from a set of addresses are
as before. -/
theorem Trees.Good.frame {h h' : Heap} {T : Trees} (hT : T.Good h) (X : List Ptr)
    (hfr : ∀ s par, Rep h s = true → ParentOK h par s = true → (∀ x ∈ s.preorder, x ∉ X) →
      Rep h' s = true ∧ ParentOK h' par s = true)
    (hdis : ∀ x ∈ T.addrs, x ∉ X) : T.Good h' := by
  obtain ⟨⟨⟨rr, rg, rb⟩, hc⟩, ⟨pr, pg, pb⟩, hnd⟩ := hT
  have h1 := hfr T.r none rr pr (fun x hx => hdis x (by simp [Trees.addrs, hx]))
  have h2 := hfr T.g none rg pg (fun x hx => hdis x (by simp [Trees.addrs, hx]))
  have h3 := hfr T.b none rb pb (fun x hx => hdis x (by simp [Trees.addrs, hx]))
  exact ⟨⟨⟨h1.1, h2.1, h3.1⟩, hc⟩, ⟨h1.2, h2.2, h3.2⟩, hnd⟩

/-- One more picture made by `cross` in a population. -/
theorem cross_step (fuel : Nat) (h0 H : Heap) (g : Rand) (A B : Trees) (D : Nat)
    (done : List Trees) (hA : A.Held h0) (hB : B.Held h0) (hdA : A.depthLe D) (hdB : B.depthLe D)
    (hf : D < fuel) (hext : Extends h0 H) (hpop : GoodPop H done) :
    ∃ H' F, cross fuel H g A.pic B.pic = some (H', { g with ipos := g.ipos + 4 }, Trees.pic F) ∧
      Extends H H' ∧ GoodPop H' (done ++ [F]) ∧ F.depthLe (D + D) := by
  obtain ⟨H', F, hrun, hx, hgood, hlo, hdep⟩ :=
    cross_good fuel H g A B D (hA.heldIn hext) (hB.heldIn hext) hdA hdB hf
  refine ⟨H', F, hrun, hx, ⟨?_, ?_⟩, hdep⟩
  · intro T hT
    rcases List.mem_append.mp hT with hT | hT
    · exact (hpop.1 T hT).goodIn hx
    · simp only [List.mem_singleton] at hT
      subst hT
      exact hgood
  · rw [List.pairwise_append]
    refine ⟨hpop.2, by simp, ?_⟩
    intro T hT U hU x hxT hxU
    simp only [List.mem_singleton] at hU
    subst hU
    exact absurd ((hpop.1 T hT).lt x hxT) (Nat.not_lt.mpr (hlo x hxU))

theorem set_done_replicate {α β : Type} (f : α → Option β) (done : List α) (N i : Nat)
    (hlen : done.length = i) (hi : i < N) (x : α) :
    (done.map f ++ List.replicate (N - i) none).set i (f x) =
      (done ++ [x]).map f ++ List.replicate (N - (i + 1)) none := by
  rw [List.set_append_right _ _ (by simp [hlen])]
  have : N - i = (N - (i + 1)) + 1 := by omega
  rw [this, List.replicate_succ]
  simp [hlen]

/-- The first loop of `evolve` on survivors held by the store. -/
theorem evolveSurvivors_spec (fuel : Nat) (h0 : Heap) (strees : List Trees) (D N : Nat)
    (hheld : ∀ A ∈ strees, A.Held h0 ∧ A.depthLe D) (hf : D < fuel) (hN : strees.length ≤ N) :
    ∀ (k i : Nat) (done : List Trees) (H : Heap) (g : Rand), i + k = strees.length →
      done.length = i → Extends h0 H → GoodPop H done → (∀ T ∈ done, T.depthLe (D + D)) →
      ∃ H' g' more, evolveSurvivors fuel (strees.map Trees.pic) k i H g
          (done.map (fun T => some T.pic) ++ List.replicate (N - i) none) =
          some (H', g', (done ++ more).map (fun T => some T.pic) ++
            List.replicate (N - (i + k)) none) ∧
        more.length = k ∧ Extends h0 H' ∧ GoodPop H' (done ++ more) ∧
        (∀ T ∈ more, T.depthLe (D + D)) ∧
        (∀ (j : Nat) (F : Trees), more[j]? = some F → ∃ A B Hj gj Hj' gj',
          strees[i + j]? = some A ∧ B ∈ strees ∧
          Extends h0 Hj ∧ cross fuel Hj gj A.pic B.pic = some (Hj', gj', Trees.pic F)) := by
  intro k
  induction k with
  | zero =>
    intro i done H g _ _ hext hpop _
    exact ⟨H, g, [], by simp [evolveSurvivors], rfl, hext, by simpa using hpop, by simp, by simp⟩
  | succ k ih =>
    intro i done H g hik hlen hext hpop hdep
    have hi : i < strees.length := by omega
    have hpos : 0 < strees.length := by omega
    obtain ⟨A, hA⟩ : ∃ A, strees[i]? = some A := ⟨strees[i], List.getElem?_eq_getElem hi⟩
    have hr : g.ints g.ipos % strees.length < strees.length := Nat.mod_lt _ hpos
    obtain ⟨B, hB⟩ : ∃ B, strees[g.ints g.ipos % strees.length]? = some B :=
      ⟨strees[g.ints g.ipos % strees.length], List.getElem?_eq_getElem hr⟩
    have hAm : A ∈ strees := List.getElem?_mem hA
    have hBm : B ∈ strees := List.getElem?_mem hB
    obtain ⟨H1, F, hrun, hx1, hpop1, hdF⟩ :=
      cross_step fuel h0 H { g with ipos := g.ipos + 1 } A B D done (hheld A hAm).1 (hheld B hBm).1
        (hheld A hAm).2 (hheld B hBm).2 hf hext hpop
    obtain ⟨H', g', more, hrest, hml, hx', hpop', hdm, hrec⟩ :=
      ih (i + 1) (done ++ [F]) H1 _ (by omega) (by simp [hlen]) (hext.trans hx1) hpop1
        (by
          intro T hT
          rcases List.mem_append.mp hT with hT | hT
          · exact hdep T hT
          · simp only [List.mem_singleton] at hT
            subst hT
            exact hdF)
    refine ⟨H', g', F :: more, ?_, by simp [hml], hx', by simpa using hpop', ?_, ?_⟩
    · have hnp : i < (done.map (fun T => some (Trees.pic T)) ++
          List.replicate (N - i) (none : Option picture)).length := by
        simp [hlen]; omega
      have hset := set_done_replicate (fun T : Trees => some T.pic) done N i hlen (by omega) F
      have e1 : g.Intn (strees.map Trees.pic).length =
          some (g.ints g.ipos % strees.length, { g with ipos := g.ipos + 1 }) := by
        simp [Rand.Intn, Nat.ne_of_gt hpos]
      simp only [evolveSurvivors, List.getElem?_map, hA, Option.map_some', e1, hB, hrun, hnp,
        if_true, hset]
      have e2 : i + (k + 1) = i + 1 + k := by omega
      rw [e2]
      simpa using hrest
    · intro T hT
      rcases List.mem_cons.mp hT with rfl | hT
      · exact hdF
      · exact hdm T hT
    · intro j G hj
      cases j with
      | zero =>
        simp only [List.getElem?_cons_zero, Option.some.injEq] at hj
        subst hj
        exact ⟨A, B, H, _, H1, _, by simpa using hA, hBm, hext, hrun⟩
      | succ j =>
        simp only [List.getElem?_cons_succ] at hj
        obtain ⟨A', B', Hj, gj, Hj', gj', h1, h2, h3, h4⟩ := hrec j G hj
        exact ⟨A', B', Hj, gj, Hj', gj', by rw [← h1]; congr 1; omega, h2, h3, h4⟩

/-- The second loop of `evolve` on survivors held by the store. -/
theorem evolveFill_spec (fuel : Nat) (h0 : Heap) (strees : List Trees) (D N : Nat)
    (hheld : ∀ A ∈ strees, A.Held h0 ∧ A.depthLe D) (hf : D < fuel) (hne : 0 < strees.length) :
    ∀ (k i : Nat) (done : List Trees) (H : Heap) (g : Rand), i + k = N →
      done.length = i → Extends h0 H → GoodPop H done → (∀ T ∈ done, T.depthLe (D + D)) →
      ∃ H' g' more, evolveFill fuel (strees.map Trees.pic) k i H g
          (done.map (fun T => some T.pic) ++ List.replicate (N - i) none) =
          some (H', g', (done ++ more).map (fun T => some T.pic)) ∧
        more.length = k ∧ Extends h0 H' ∧ GoodPop H' (done ++ more) ∧
        (∀ T ∈ more, T.depthLe (D + D)) := by
  intro k
  induction k with
  | zero =>
    intro i done H g hik _ hext hpop _
    have : N - i = 0 := by omega
    exact ⟨H, g, [], by simp [evolveFill, this], rfl, hext, by simpa using hpop, by simp⟩
  | succ k ih =>
    intro i done H g hik hlen hext hpop hdep
    have hra : g.ints g.ipos % strees.length < strees.length := Nat.mod_lt _ hne
    have hrb : g.ints (g.ipos + 1) % strees.length < strees.length := Nat.mod_lt _ hne
    obtain ⟨A, hA⟩ : ∃ A, strees[g.ints g.ipos % strees.length]? = some A :=
      ⟨strees[g.ints g.ipos % strees.length], List.getElem?_eq_getElem hra⟩
    obtain ⟨B, hB⟩ : ∃ B, strees[g.ints (g.ipos + 1) % strees.length]? = some B :=
      ⟨strees[g.ints (g.ipos + 1) % strees.length], List.getElem?_eq_getElem hrb⟩
    have hAm : A ∈ strees := List.getElem?_mem hA
    have hBm : B ∈ strees := List.getElem?_mem hB
    obtain ⟨H1, F, hrun, hx1, hpop1, hdF⟩ :=
      cross_step fuel h0 H { g with ipos := g.ipos + 1 + 1 } A B D done (hheld A hAm).1
        (hheld B hBm).1 (hheld A hAm).2 (hheld B hBm).2 hf hext hpop
    obtain ⟨H', g', more, hrest, hml, hx', hpop', hdm⟩ :=
      ih (i + 1) (done ++ [F]) H1 _ (by omega) (by simp [hlen]) (hext.trans hx1) hpop1
        (by
          intro T hT
          rcases List.mem_append.mp hT with hT | hT
          · exact hdep T hT
          · simp only [List.mem_singleton] at hT
            subst hT
            exact hdF)
    refine ⟨H', g', F :: more, ?_, by simp [hml], hx', by simpa using hpop', ?_⟩
    · have hnp : i < (done.map (fun T => some (Trees.pic T)) ++
          List.replicate (N - i) (none : Option picture)).length := by
        simp [hlen]; omega
      have hset := set_done_replicate (fun T : Trees => some T.pic) done N i hlen (by omega) F
      have e1 : g.Intn (strees.map Trees.pic).length =
          some (g.ints g.ipos % strees.length, { g with ipos := g.ipos + 1 }) := by
        simp [Rand.Intn, Nat.ne_of_gt hne]
      have e2 : ({ g with ipos := g.ipos + 1 } : Rand).Intn (strees.map Trees.pic).length =
          some (g.ints (g.ipos + 1) % strees.length, { g with ipos := g.ipos + 1 + 1 }) := by
        simp [Rand.Intn, Nat.ne_of_gt hne]
      simp only [evolveFill, List.getElem?_map, hA, Option.map_some', e1, e2, hB, hrun, hnp,
        if_true, hset]
      simpa using hrest
    · intro T hT
      rcases List.mem_cons.mp hT with rfl | hT
      · exact hdF
      · exact hdm T hT

/-- The third loop of `evolve` on a population of good pictures. -/
theorem evolveMutate_spec (fuel D : Nat) (hf : D + 7 ≤ fuel) :
    ∀ (rest pre : List Trees) (H : Heap) (g : Rand), GoodPop H (pre ++ rest) →
      (∀ T ∈ rest, T.depthLe D) →
      ∃ H' g' rest', evolveMutate fuel (rest.map (fun T => some T.pic)) H g =
          some (H', g', rest'.map (fun T => some T.pic)) ∧
        rest'.length = rest.length ∧ GoodPop H' (pre ++ rest') ∧
        (∀ (j : Nat) (T : Trees), rest[j]? = some T → ∃ T' r Hm gm Hm' gm',
          rest'[j]? = some T' ∧ r < 8 ∧
          mutateTimes fuel r Hm gm T.pic = some (Hm', gm', Trees.pic T')) := by
  intro rest
  induction rest with
  | nil =>
    intro pre H g hpop _
    exact ⟨H, g, [], by simp [evolveMutate], rfl, hpop, by simp⟩
  | cons T rest ih =>
    intro pre H g hpop hdep
    have hr8 : g.ints g.ipos % 8 < 8 := Nat.mod_lt _ (by decide)
    have e0 : g.Intn 8 = some (g.ints g.ipos % 8, { g with ipos := g.ipos + 1 }) := by
      simp [Rand.Intn]
    obtain ⟨hall, hpw⟩ := hpop
    have hTg : T.Good H := hall T (by simp)
    obtain ⟨H1, g1, T1, e1, hg1, -, hl1, hm1, hfr1⟩ :=
      mutateTimes_good fuel (g.ints g.ipos % 8) H { g with ipos := g.ipos + 1 } T D hTg
        (hdep T (by simp)) (by omega)
    rw [List.pairwise_append] at hpw
    obtain ⟨hpre, hTrest, hcross⟩ := hpw
    rw [List.pairwise_cons] at hTrest
    obtain ⟨hTr, hrest⟩ := hTrest
    have hfresh : ∀ (U : Trees), U.Good H → ∀ x ∈ U.addrs, ¬ H.length ≤ x :=
      fun U hU x hx => Nat.not_le.mpr (hU.lt x hx)
    have hpop1 : GoodPop H1 ((pre ++ [T1]) ++ rest) := by
      constructor
      · intro U hU
        simp only [List.mem_append, List.mem_singleton] at hU
        rcases hU with (hU | rfl) | hU
        · exact (hall U (by simp [hU])).frame T.addrs hfr1
            (fun x hx hxT => hcross U hU T (by simp) x hx hxT)
        · exact hg1
        · exact (hall U (by simp [hU])).frame T.addrs hfr1
            (fun x hx hxT => hTr U hU x hxT hx)
      · rw [List.pairwise_append]
        refine ⟨?_, hrest, ?_⟩
        · rw [List.pairwise_append]
          refine ⟨hpre, by simp, ?_⟩
          intro U hU V hV x hxU hxV
          simp only [List.mem_singleton] at hV
          subst hV
          rcases hm1 x hxV with hxT | hxn
          · exact hcross U hU T (by simp) x hxU hxT
          · exact hfresh U (hall U (by simp [hU])) x hxU hxn
        · intro U hU V hV x hxU hxV
          simp only [List.mem_append, List.mem_singleton] at hU
          rcases hU with hU | rfl
          · exact hcross U hU V (by simp [hV]) x hxU hxV
          · rcases hm1 x hxU with hxT | hxn
            · exact hTr V hV x hxT hxV
            · exact hfresh V (hall V (by simp [hV])) x hxV hxn
    obtain ⟨H', g', rest', hrun, hlen, hpop', hmut⟩ :=
      ih (pre ++ [T1]) H1 g1 hpop1 (fun U hU => hdep U (by simp [hU]))
    refine ⟨H', g', T1 :: rest', ?_, by simp [hlen], by simpa using hpop', ?_⟩
    · simp only [List.map_cons, evolveMutate, e0, e1, hrun]
    · intro j U hj
      cases j with
      | zero =>
        simp only [List.getElem?_cons_zero, Option.some.injEq] at hj
        subst hj
        exact ⟨T1, _, H, _, H1, g1, by simp, hr8, e1⟩
      | succ j =>
        simp only [List.getElem?_cons_succ] at hj
        obtain ⟨T', r, Hm, gm, Hm', gm', h1, h2, h3⟩ := hmut j U hj
        exact ⟨T', r, Hm, gm, Hm', gm', by simpa using h1, h2, h3⟩

/-- With more survivors than pictures to make, the first loop of `evolve` runs out
of the slice `newPics`. -/
theorem evolveSurvivors_overflow (fuel : Nat) (survivors : List picture) :
    ∀ (k i : Nat) (h : Heap) (g : Rand) (newPics : List (Option picture)),
      i ≤ newPics.length → newPics.length < i + k →
      evolveSurvivors fuel survivors k i h g newPics = none := by
  intro k
  induction k with
  | zero => intro i h g newPics h1 h2; omega
  | succ k ih =>
    intro i h g newPics h1 h2
    simp only [evolveSurvivors]
    split
    · rfl
    · split
      · rfl
      · split
        · rfl
        · split
          · rfl
          · split
            · apply ih
              · simp; omega
              · simp; omega
            · rfl

theorem evolve_overflow (fuel : Nat) (h : Heap) (g : Rand) (survivors : List picture)
    (hlen : numPics < survivors.length) : evolve fuel h g survivors = none := by
  unfold evolve
  rw [evolveSurvivors_overflow fuel survivors survivors.length 0 h g _ (Nat.zero_le _)
    (by simpa using hlen)]

/-- C17, counterexample. With 17 survivors (here 17 times the picture of the
leaves `X`, `Y`, `X`) `evolve` does not return: the first loop runs once for
every survivor, and its 17th round assigns to `newPics[16]`, outside the slice
of `numPics = 16` pictures. -/
theorem C17_seventeen_survivors :
    evolve 2 heapXYX randZero (List.replicate 17 ⟨some 0, some 1, some 2⟩) = none :=
  evolve_overflow 2 heapXYX randZero _ (by decide)

/-- C17, amended. `evolve(survivors)` on a non-empty list of at most `numPics`
survivors whose channels are complete trees of the store of height at most `D`,
with fuel `2 D + 7` at least, whatever the draws. It returns `numPics = 16`
pictures, none of them nil, each with three complete channel trees held by the
new store. Before the mutation passes, picture `i` for `i < len(survivors)` is
what `cross` returned for the recipient `survivors[i]` and a survivor drawn as
donor, in a store that still holds the survivors unchanged; the picture returned
at `i` is that picture after fewer than 8 passes of `Mutate`. -/
theorem C17_evolve (fuel : Nat) (h : Heap) (g : Rand) (strees : List Trees) (D : Nat)
    (hne : strees ≠ []) (hle : strees.length ≤ numPics)
    (hheld : ∀ A ∈ strees, A.Held h ∧ A.depthLe D) (hf : D + D + 7 ≤ fuel) :
    ∃ (h' : Heap) (g' : Rand) (crossed final : List Trees),
      evolve fuel h g (strees.map Trees.pic) =
        some (h', g', final.map (fun T => some (Trees.pic T))) ∧
      numPics = 16 ∧ final.length = numPics ∧ crossed.length = numPics ∧
      (∀ T ∈ final, Trees.Held h' T) ∧
      (∀ (i : Nat) (A : Trees), strees[i]? = some A → ∃ F B Hi gi Hi' gi',
        crossed[i]? = some F ∧ B ∈ strees ∧ Extends h Hi ∧
        cross fuel Hi gi A.pic B.pic = some (Hi', gi', Trees.pic F)) ∧
      (∀ (i : Nat) (F : Trees), crossed[i]? = some F → ∃ T' r Hm gm Hm' gm',
        final[i]? = some T' ∧ r < 8 ∧
        mutateTimes fuel r Hm gm F.pic = some (Hm', gm', Trees.pic T')) := by
  have hpos : 0 < strees.length := List.length_pos.mpr hne
  obtain ⟨H1, g1, more1, e1, hl1, hx1, hpop1, hd1, hrec1⟩ :=
    evolveSurvivors_spec fuel h strees D numPics hheld (by omega) hle strees.length 0 [] h g
      (by omega) rfl (Extends.refl h) ⟨by simp, by simp⟩ (by simp)
  simp only [List.nil_append, List.map_nil, Nat.sub_zero, Nat.zero_add] at e1 hpop1 hrec1
  obtain ⟨H2, g2, more2, e2, hl2, hx2, hpop2, hd2⟩ :=
    evolveFill_spec fuel h strees D numPics hheld (by omega) hpos (numPics - strees.length)
      strees.length more1 H1 g1 (by omega) hl1 hx1 hpop1 hd1
  have hdall : ∀ T ∈ more1 ++ more2, T.depthLe (D + D) := by
    intro T hT
    rcases List.mem_append.mp hT with hT | hT
    · exact hd1 T hT
    · exact hd2 T hT
  obtain ⟨H3, g3, final, e3, hl3, hpop3, hmut⟩ :=
    evolveMutate_spec fuel (D + D) hf (more1 ++ more2) [] H2 g2 (by simpa using hpop2) hdall
  have hlen12 : (more1 ++ more2).length = numPics := by
    rw [List.length_append, hl1, hl2]; omega
  refine ⟨H3, g3, more1 ++ more2, final, ?_, by decide, by rw [hl3, hlen12], hlen12, ?_, ?_, hmut⟩
  · have hnp : (more1.map (fun T => some (Trees.pic T)) ++
        List.replicate (numPics - strees.length) (none : Option picture)).length -
          strees.length = numPics - strees.length := by
      simp [hl1]
    simp only [evolve, e1, List.length_map]
    rw [hnp]
    simp only [e2, e3]
  · intro T hT
    exact (hpop3.1 T (by simpa using hT)).1
  · intro i A hA
    have hi : i < more1.length := by
      rw [hl1]
      by_contra hge
      rw [List.getElem?_eq_none (Nat.le_of_not_lt hge)] at hA
      cases hA
    obtain ⟨A', B, Hi, gi, Hi', gi', h1, h2, h3, h4⟩ :=
      hrec1 i more1[i] (List.getElem?_eq_getElem hi)
    rw [hA] at h1
    cases h1
    exact ⟨more1[i], B, Hi, gi, Hi', gi',
      by rw [List.getElem?_append_left hi, List.getElem?_eq_getElem hi], h2, h3, h4⟩

theorem C17_evolve_witness :
    ∃ (h' : Heap) (g' : Rand) (crossed final : List Trees),
      evolve 9 heapXYX randZero
          ([⟨.node 0 .OpX F32.zero [], .node 1 .OpY F32.zero [], .node 2 .OpX F32.zero []⟩].map
            Trees.pic) =
        some (h', g', final.map (fun T => some (Trees.pic T))) ∧
      numPics = 16 ∧ final.length = numPics ∧ crossed.length = numPics ∧
      (∀ T ∈ final, Trees.Held h' T) ∧
      (∀ (i : Nat) (A : Trees),
        ([⟨.node 0 .OpX F32.zero [], .node 1 .OpY F32.zero [], .node 2 .OpX F32.zero []⟩] :
          List Trees)[i]? = some A → ∃ F B Hi gi Hi' gi',
        crossed[i]? = some F ∧
        B ∈ ([⟨.node 0 .OpX F32.zero [], .node 1 .OpY F32.zero [], .node 2 .OpX F32.zero []⟩] :
          List Trees) ∧ Extends heapXYX Hi ∧
        cross 9 Hi gi A.pic B.pic = some (Hi', gi', Trees.pic F)) ∧
      (∀ (i : Nat) (F : Trees), crossed[i]? = some F → ∃ T' r Hm gm Hm' gm',
        final[i]? = some T' ∧ r < 8 ∧
        mutateTimes 9 r Hm gm F.pic = some (Hm', gm', Trees.pic T')) :=
  C17_evolve 9 heapXYX randZero
    [⟨.node 0 .OpX F32.zero [], .node 1 .OpY F32.zero [], .node 2 .OpX F32.zero []⟩] 1
    (by simp) (by decide)
    (by
      intro A hA
      simp only [List.mem_singleton] at hA
      subst hA
      exact ⟨⟨⟨by decide, by decide, by decide⟩, ⟨by decide, by decide, by decide⟩⟩,
        ⟨by decide, by decide, by decide⟩⟩)
    (by decide)

/-- The loop of `parse` over the child slots, with the parent references of the
children read so far. -/
theorem parseLoop_parents (pf : List Char → Option F32) (fuel : Nat) (h0 : Heap) (k : Kind)
    (parent : Option Ptr)
    (ih : ∀ (h : Heap) (toks : List token) (par : Option Ptr) (h1 : Heap) (n : Ptr)
      (rest : List token), parse pf fuel h toks par = .ok (h1, n, rest) →
      ∃ t, n = h.length ∧ Extends h h1 ∧ Rep h1 t = true ∧ t.root = some h.length ∧
        t.complete = true ∧ (∀ b ∈ t.preorder, h.length ≤ b) ∧ ParentOK h1 par t = true ∧
        t.preorder.Nodup) :
    ∀ (m : Nat) (done : List PTree) (H : Heap) (toks : List token) (H1 : Heap)
      (rest : List token), Extends h0 H →
      H[h0.length]? =
        some ⟨k, F32.zero, parent, done.map PTree.root ++ List.replicate m none⟩ →
      RepList H done = true → PTree.completeList done = true →
      (∀ b ∈ PTree.preorderList done, h0.length < b) →
      ParentOKList H (some h0.length) done = true → (PTree.preorderList done).Nodup →
      parseLoop (fun hh tt => parse pf fuel hh tt (some h0.length)) h0.length m done.length H
        toks = .ok (H1, rest) →
      ∃ new, Extends h0 H1 ∧ H1[h0.length]? = some ⟨k, F32.zero, parent, new.map PTree.root⟩ ∧
        RepList H1 new = true ∧ PTree.completeList new = true ∧
        (∀ b ∈ PTree.preorderList new, h0.length < b) ∧
        ParentOKList H1 (some h0.length) new = true ∧ (PTree.preorderList new).Nodup := by
  intro m
  induction m with
  | zero =>
    intro done H toks H1 rest hext hcell hrd hcd haddr hpo hnd hrun
    rw [parseLoop_zero] at hrun
    simp only [Res.ok.injEq, Prod.mk.injEq] at hrun
    obtain ⟨rfl, rfl⟩ := hrun
    exact ⟨done, hext, by simpa using hcell, hrd, hcd, haddr, hpo, hnd⟩
  | succ m ihm =>
    intro done H toks H1 rest hext hcell hrd hcd haddr hpo hnd hrun
    have hLH : h0.length < H.length := lt_of_getElem?_some hcell
    rw [parseLoop_succ] at hrun
    cases hp : parse pf fuel H toks (some h0.length) with
    | timeout => rw [hp] at hrun; cases hrun
    | panic => rw [hp] at hrun; cases hrun
    | ok a =>
      obtain ⟨Hc, child, toks1⟩ := a
      obtain ⟨t1, hchild, hext1, hrep1, hroot1, hcomp1, haddr1, hpo1, hnd1⟩ :=
        ih H toks (some h0.length) Hc child toks1 hp
      subst hchild
      rw [hp] at hrun
      simp only [] at hrun
      have hcell1 : Hc[h0.length]? =
          some ⟨k, F32.zero, parent, done.map PTree.root ++ List.replicate (m + 1) none⟩ := by
        rw [hext1 _ hLH, hcell]
      have hlt : done.length < (done.map PTree.root ++ List.replicate (m + 1) none).length := by
        simp
      have hset : (done.map PTree.root ++ List.replicate (m + 1) none).set done.length
          (some H.length) = (done ++ [t1]).map PTree.root ++ List.replicate m none := by
        have hl : (done.map PTree.root).length ≤ done.length := by simp
        rw [List.set_append_right _ _ hl]
        simp [List.replicate_succ, hroot1]
      simp only [setChild, hcell1, hlt, if_true, hset] at hrun
      have hframe : ∀ b : Ptr, h0.length < b → (Hc.set h0.length
          ⟨k, F32.zero, parent, (done ++ [t1]).map PTree.root ++ List.replicate m none⟩)[b]? =
            Hc[b]? := by
        intro b hb
        rw [List.getElem?_set_ne (by omega)]
      have hlen1 : done.length + 1 = (done ++ [t1]).length := by simp
      rw [hlen1] at hrun
      apply ihm (done ++ [t1]) _ toks1 H1 rest
        (Extends.set (hext.trans hext1) (le_refl _) _)
        (by rw [List.getElem?_set_eq_of_lt _ (lt_of_lt_of_le hLH hext1.length_le)])
        _ _ _ _ _ hrun
      · rw [RepList_append, Bool.and_eq_true]
        constructor
        · exact RepList_frame Hc _ done (fun b hb => sameCore_of_eq (hframe b (haddr b hb)))
            (RepList_extends hext1 done hrd)
        · simp only [RepList_cons, RepList_nil, Bool.and_true]
          exact Rep_frame Hc _ t1
            (fun b hb => sameCore_of_eq (hframe b (lt_of_lt_of_le hLH (haddr1 b hb)))) hrep1
      · rw [PTree.completeList_append]; simp [hcd, hcomp1]
      · intro b hb
        rw [PTree.preorderList_append, List.mem_append] at hb
        rcases hb with hb | hb
        · exact haddr b hb
        · simp only [PTree.preorderList_cons, PTree.preorderList_nil, List.append_nil] at hb
          exact lt_of_lt_of_le hLH (haddr1 b hb)
      · rw [ParentOKList_append, Bool.and_eq_true]
        constructor
        · exact ParentOKList_frame Hc _ done _ (fun b hb => by rw [hframe b (haddr b hb)])
            (ParentOKList_extends hext1 done _ hrd hpo)
        · simp only [ParentOKList_cons, ParentOKList_nil, Bool.and_true]
          exact ParentOK_frame Hc _ t1 _
            (fun b hb => by rw [hframe b (lt_of_lt_of_le hLH (haddr1 b hb))]) hpo1
      · rw [PTree.preorderList_append]
        simp only [PTree.preorderList_cons, PTree.preorderList_nil, List.append_nil]
        rw [List.nodup_append]
        refine ⟨hnd, hnd1, ?_⟩
        intro b hb1 hb2
        exact absurd (RepList_lt H done hrd b hb1) (Nat.not_lt.mpr (haddr1 b hb2))

/-- The tree that `parse` returns is made of new objects, each once in it, with
consistent parent references below the parent handed in. -/
theorem parse_parents (pf : List Char → Option F32) : ∀ (fuel : Nat) (h : Heap)
    (toks : List token) (par : Option Ptr) (h1 : Heap) (n : Ptr) (rest : List token),
    parse pf fuel h toks par = .ok (h1, n, rest) →
    ∃ t, n = h.length ∧ Extends h h1 ∧ Rep h1 t = true ∧ t.root = some h.length ∧
      t.complete = true ∧ (∀ b ∈ t.preorder, h.length ≤ b) ∧ ParentOK h1 par t = true ∧
      t.preorder.Nodup := by
  intro fuel
  induction fuel with
  | zero =>
    intro h toks par h1 n rest hp
    simp [parse] at hp
  | succ fuel ih =>
    intro h toks par h1 n rest hp
    cases toks with
    | nil => rw [parse_nil] at hp; cases hp
    | cons tok toks =>
      cases ht : tok.typ with
      | openParen =>
        rw [parse_paren pf fuel h tok toks par (by simp [token.isParen, ht])] at hp
        exact ih h toks par h1 n rest hp
      | closeParen =>
        rw [parse_paren pf fuel h tok toks par (by simp [token.isParen, ht])] at hp
        exact ih h toks par h1 n rest hp
      | constant =>
        rw [parse_constant pf fuel h tok toks par ht] at hp
        cases hv : pf tok.value with
        | none => rw [hv] at hp; cases hp
        | some v =>
          rw [hv] at hp
          simp only [Res.ok.injEq, Prod.mk.injEq] at hp
          obtain ⟨rfl, rfl, rfl⟩ := hp
          refine ⟨.node h.length .OpConstant v [], rfl, Extends.append h _, ?_, rfl, by simp,
            by simp, ?_, by simp⟩
          · rw [Rep_node_iff]
            exact ⟨⟨.OpConstant, v, par, []⟩, by simp, rfl, rfl, rfl, by simp⟩
          · rw [ParentOK_node]
            simp
      | op =>
        rw [parse_op pf fuel h tok toks par ht] at hp
        cases hk : stringToKind tok.value with
        | none => rw [hk] at hp; cases hp
        | some k =>
          rw [hk] at hp
          simp only [] at hp
          cases hl : parseLoop (fun hh tt => parse pf fuel hh tt (some h.length)) h.length
              k.arity 0 (h ++ [⟨k, F32.zero, par, List.replicate k.arity none⟩]) toks with
          | timeout => rw [hl] at hp; cases hp
          | panic => rw [hl] at hp; cases hp
          | ok a =>
            obtain ⟨H1, rest1⟩ := a
            rw [hl] at hp
            simp only [Res.ok.injEq, Prod.mk.injEq] at hp
            obtain ⟨rfl, rfl, rfl⟩ := hp
            obtain ⟨new, hext, hcell, hrep, hcomp, haddr, hpo, hnd⟩ :=
              parseLoop_parents pf fuel h k par ih k.arity []
                (h ++ [⟨k, F32.zero, par, List.replicate k.arity none⟩]) toks H1 rest1
                (Extends.append h _) (by simp) (by simp) (by simp) (by simp) (by simp) (by simp)
                (by simpa using hl)
            refine ⟨.node h.length k F32.zero new, rfl, hext, ?_, rfl, by simpa using hcomp, ?_,
              ?_, ?_⟩
            · rw [Rep_node_iff]; exact ⟨_, hcell, rfl, rfl, rfl, hrep⟩
            · intro b hb
              simp only [PTree.preorder_node, List.mem_cons] at hb
              rcases hb with rfl | hb
              · exact le_refl _
              · exact le_of_lt (haddr b hb)
            · rw [ParentOK_node, Bool.and_eq_true]
              exact ⟨by rw [hcell]; simp, hpo⟩
            · simp only [PTree.preorder_node, List.nodup_cons]
              exact ⟨fun hb => absurd (haddr _ hb) (lt_irrefl _), hnd⟩

/-- C15. Parent back-reference invariant. `t` is a complete tree of the store
without sharing whose nodes in child slots have the holder as parent reference
(the root has `par0`), and `A`, `B` are two pictures of complete trees; the fuel
is above the heights. Then: (1) every tree that `BeginLexing` or `parse`
returns from this store has consistent parent references (the root has the
parent handed in, nil for `BeginLexing`); (2) the copy that `CopyTree(t, p)`
returns has them below `p`, and `t` keeps its own; (3) after `Mutate(n)` on any
node `n` of `t`, the tree with the new node in the place of `n` has them again,
and in it the new node has the old parent reference of `n` while the children
moved to it and the new leaves have the new node as parent; (4) the three trees
of the picture that `cross(A, B)` returns have them, with nil at the roots, the
copied donor subtree included, and the trees of the store keep theirs. -/
theorem C15_parent_references (fuel : Nat) (h : Heap) (g : Rand) (t : PTree)
    (par0 : Option Ptr) (A B : Trees) (D : Nat)
    (hc : t.complete = true) (hr : Rep h t = true) (hpo : ParentOK h par0 t = true)
    (hpar0 : ∀ P, par0 = some P → P < h.length) (hnd : t.preorder.Nodup) (hf : t.depth < fuel)
    (hA : A.Held h) (hB : B.Held h) (hdA : A.depthLe D) (hdB : B.depthLe D) (hD : D < fuel) :
    (∀ (s : List Char) (h1 : Heap) (n : Ptr), BeginLexing h s = .ok (h1, n) →
      ∃ u, Rep h1 u = true ∧ u.root = some n ∧ u.complete = true ∧
        ParentOK h1 none u = true) ∧
    (∀ (pf : List Char → Option F32) (fuel1 : Nat) (toks : List token) (p : Option Ptr)
      (h1 : Heap) (n : Ptr) (rest : List token), parse pf fuel1 h toks p = .ok (h1, n, rest) →
      ∃ u, Rep h1 u = true ∧ u.root = some n ∧ u.complete = true ∧ ParentOK h1 p u = true) ∧
    (∀ p : Option Ptr, ∃ h' t', CopyTree fuel h t.root p = some (h', h.length) ∧
      Rep h' t' = true ∧ t'.root = some h.length ∧ t'.shape = t.shape ∧
      ParentOK h' p t' = true ∧ Rep h' t = true ∧ ParentOK h' par0 t = true) ∧
    (∀ n ∈ t.preorder, ∃ h' g' k v cs k' v' leaves pn,
      PTree.find n t = some (.node n k v cs) ∧ Mutate h g (some n) = some (h', g', h.length) ∧
      Rep h' (PTree.replace n (.node h.length k' v' (cs.take k'.arity ++ leaves)) t) = true ∧
      ParentOK h' par0
        (PTree.replace n (.node h.length k' v' (cs.take k'.arity ++ leaves)) t) = true ∧
      (h[n]?).map Cell.Parent = some pn ∧
      ParentOK h' pn (.node h.length k' v' (cs.take k'.arity ++ leaves)) = true) ∧
    (∃ h' g' F, cross fuel h g A.pic B.pic = some (h', g', Trees.pic F) ∧ Trees.Held h' F ∧
      ParentOK h' none F.r = true ∧ ParentOK h' none F.g = true ∧ ParentOK h' none F.b = true ∧
      (∀ s par, Rep h s = true → ParentOK h par s = true →
        Rep h' s = true ∧ ParentOK h' par s = true)) := by
  refine ⟨?_, ?_, ?_, ?_, ?_⟩
  · intro s h1 n hacc
    unfold BeginLexing parseTokens at hacc
    cases hp : parse ParseFloat ((lex s).length + 1) h (lex s) none with
    | timeout => rw [hp] at hacc; cases hacc
    | panic => rw [hp] at hacc; cases hacc
    | ok a =>
      obtain ⟨h2, m, rest⟩ := a
      rw [hp] at hacc
      simp only [Res.ok.injEq, Prod.mk.injEq] at hacc
      obtain ⟨rfl, rfl⟩ := hacc
      obtain ⟨u, rfl, -, hru, hroot, hcu, -, hpu, -⟩ := parse_parents ParseFloat _ h _ none _ _ _ hp
      exact ⟨u, hru, hroot, hcu, hpu⟩
  · intro pf fuel1 toks p h1 n rest hp
    obtain ⟨u, rfl, -, hru, hroot, hcu, -, hpu, -⟩ := parse_parents pf _ h _ p _ _ _ hp
    exact ⟨u, hru, hroot, hcu, hpu⟩
  · intro p
    obtain ⟨h', t', hrun, hext, hrep, hroot, hshape, -, -, hpo', -⟩ :=
      CopyTree_full t hc fuel hf h p hr
    exact ⟨h', t', hrun, hrep, hroot, hshape, hpo', Rep_extends hext t hr,
      ParentOK_extends hext t par0 hr hpo⟩
  · intro n hn
    obtain ⟨h', g', k, v, cs, k', v', leaves, T', hfind, hT', hrun, -, -, -, hrep, -, hpo', -, -,
        -, -, -, -, pn, hpn, hpoN⟩ :=
      Mutate_in_tree_full h g t par0 hc hr hpo hpar0 hnd n hn
    subst hT'
    exact ⟨h', g', k, v, cs, k', v', leaves, pn, hfind, hrun, hrep, hpo', hpn, hpoN⟩
  · obtain ⟨h', F, hrun, hext, hgood, -, -⟩ := cross_good fuel h g A B D hA hB hdA hdB hD
    exact ⟨h', _, F, hrun, hgood.1, hgood.2.1.1, hgood.2.1.2.1, hgood.2.1.2.2,
      fun s par hs hp => ⟨Rep_extends hext s hs, ParentOK_extends hext s par hs hp⟩⟩

theorem C15_parent_references_witness :
    (∀ (s : List Char) (h1 : Heap) (n : Ptr), BeginLexing heapPlusXY s = .ok (h1, n) →
      ∃ u, Rep h1 u = true ∧ u.root = some n ∧ u.complete = true ∧
        ParentOK h1 none u = true) ∧
    (∀ (pf : List Char → Option F32) (fuel1 : Nat) (toks : List token) (p : Option Ptr)
      (h1 : Heap) (n : Ptr) (rest : List token),
      parse pf fuel1 heapPlusXY toks p = .ok (h1, n, rest) →
      ∃ u, Rep h1 u = true ∧ u.root = some n ∧ u.complete = true ∧ ParentOK h1 p u = true) ∧
    (∀ p : Option Ptr, ∃ h' t', CopyTree 3 heapPlusXY treePlusXY.root p =
        some (h', heapPlusXY.length) ∧
      Rep h' t' = true ∧ t'.root = some heapPlusXY.length ∧ t'.shape = treePlusXY.shape ∧
      ParentOK h' p t' = true ∧ Rep h' treePlusXY = true ∧
      ParentOK h' none treePlusXY = true) ∧
    (∀ n ∈ treePlusXY.preorder, ∃ h' g' k v cs k' v' leaves pn,
      PTree.find n treePlusXY = some (.node n k v cs) ∧
      Mutate heapPlusXY randZero (some n) = some (h', g', heapPlusXY.length) ∧
      Rep h' (PTree.replace n (.node heapPlusXY.length k' v' (cs.take k'.arity ++ leaves))
        treePlusXY) = true ∧
      ParentOK h' none
        (PTree.replace n (.node heapPlusXY.length k' v' (cs.take k'.arity ++ leaves))
          treePlusXY) = true ∧
      (heapPlusXY[n]?).map Cell.Parent = some pn ∧
      ParentOK h' pn (.node heapPlusXY.length k' v' (cs.take k'.arity ++ leaves)) = true) ∧
    (∃ h' g' F, cross 3 heapPlusXY randZero (Trees.pic ⟨treePlusXY, treePlusXY, treePlusXY⟩)
        (Trees.pic ⟨treePlusXY, treePlusXY, treePlusXY⟩) = some (h', g', Trees.pic F) ∧
      Trees.Held h' F ∧
      ParentOK h' none F.r = true ∧ ParentOK h' none F.g = true ∧ ParentOK h' none F.b = true ∧
      (∀ s par, Rep heapPlusXY s = true → ParentOK heapPlusXY par s = true →
        Rep h' s = true ∧ ParentOK h' par s = true)) :=
  C15_parent_references 3 heapPlusXY randZero treePlusXY none ⟨treePlusXY, treePlusXY, treePlusXY⟩
    ⟨treePlusXY, treePlusXY, treePlusXY⟩ 2 (by decide) (by decide) (by decide)
    (by intro P hP; cases hP) (by decide) (by decide)
    ⟨⟨by decide, by decide, by decide⟩, ⟨by decide, by decide, by decide⟩⟩
    ⟨⟨by decide, by decide, by decide⟩, ⟨by decide, by decide, by decide⟩⟩
    ⟨by decide, by decide, by decide⟩ ⟨by decide, by decide, by decide⟩ (by decide)

/-- C23. On a complete tree `t` held by the store, with fuel above the height of
the tree, and for every integer `n`: `GetNthNode(t, n, 0)` returns (it does not
panic), `t.NodeCount()` is the size of `t`, and the node returned is nil exactly
when `n < 0` or `n >= t.NodeCount()`; the count returned with a nil node is the
index of the last node, `t.NodeCount() - 1`. -/
theorem C23_GetNthNode_out_of_range (h : Heap) (t : PTree) (hc : t.complete = true)
    (hr : Rep h t = true) (fuel : Nat) (hf : t.depth < fuel) (n : Int) :
    NodeCount fuel h t.root = some t.size ∧
    ∃ node count, GetNthNode fuel h t.root n 0 = some (node, count) ∧
      (node = none ↔ n < 0 ∨ (t.size : Int) ≤ n) ∧
      (node = none → count = (t.size : Int) - 1) := by
  refine ⟨NodeCount_spec h t hc hr fuel hf, ?_⟩
  obtain ⟨res, hres, hfound, hnot⟩ := GetNthNode_spec h n t hc hr fuel hf 0
  refine ⟨res.1, res.2, hres, ?_, ?_⟩
  · constructor
    · intro hnone
      by_contra hin
      have hin' : (0 : Int) ≤ n ∧ n < 0 + (t.size : Int) := by omega
      have h1 := hfound hin'
      have hidx : (n - 0).toNat < t.preorder.length := by
        rw [PTree.length_preorder]; omega
      rw [List.getElem?_eq_getElem hidx, hnone] at h1
      cases h1
    · intro hout
      have h2 := hnot (by omega)
      rw [h2]
  · intro hnone
    by_cases hin : (0 : Int) ≤ n ∧ n < 0 + (t.size : Int)
    · have h1 := hfound hin
      have hidx : (n - 0).toNat < t.preorder.length := by
        rw [PTree.length_preorder]; omega
      rw [List.getElem?_eq_getElem hidx, hnone] at h1
      cases h1
    · have h2 := hnot hin
      rw [h2]
      simp

theorem C23_GetNthNode_out_of_range_witness :
    NodeCount 3 heapPlusXY treePlusXY.root = some treePlusXY.size ∧
    ∃ node count, GetNthNode 3 heapPlusXY treePlusXY.root 3 0 = some (node, count) ∧
      (node = none ↔ (3 : Int) < 0 ∨ (treePlusXY.size : Int) ≤ 3) ∧
      (node = none → count = (treePlusXY.size : Int) - 1) :=
  C23_GetNthNode_out_of_range heapPlusXY treePlusXY (by decide) (by decide) 3 (by decide) 3

@[simp] theorem PTree.addRandom_empty (new : PTree) (g : Rand) :
    PTree.addRandom new .empty g = new := by
  simp [PTree.addRandom]

theorem PTree.addRandom_node (new : PTree) (a k v cs) (g : Rand) :
    PTree.addRandom new (.node a k v cs) g =
      .node a k v
        (PTree.addRandomList new (g.ints g.ipos % cs.length) cs { g with ipos := g.ipos + 1 }) := by
  simp [PTree.addRandom]

theorem PTree.addRandomList_at (new : PTree) (t : PTree) (post : List PTree) (g : Rand) :
    ∀ (pre : List PTree) (i : Nat), pre.length = i →
      PTree.addRandomList new i (pre ++ t :: post) g = pre ++ PTree.addRandom new t g :: post := by
  intro pre
  induction pre with
  | nil =>
    intro i hi
    simp only [List.length_nil] at hi
    subst hi
    simp [PTree.addRandomList]
  | cons p ps ih =>
    intro i hi
    simp only [List.length_cons] at hi
    subst hi
    simp [PTree.addRandomList, ih ps.length rfl]

theorem list_split_at {α : Type} : ∀ (cs : List α) (i : Nat), i < cs.length →
    ∃ pre t post, cs = pre ++ t :: post ∧ pre.length = i := by
  intro cs
  induction cs with
  | nil => intro i hi; simp at hi
  | cons c cs ih =>
    intro i hi
    cases i with
    | zero => exact ⟨[], c, cs, rfl, rfl⟩
    | succ i =>
      obtain ⟨pre, t, post, e, hl⟩ := ih i (by simpa using hi)
      exact ⟨c :: pre, t, post, by simp [e], by simp [hl]⟩

theorem PTree.kindsList_append (xs ys : List PTree) :
    PTree.kindsList (xs ++ ys) = PTree.kindsList xs ++ PTree.kindsList ys := by
  induction xs with
  | nil => simp
  | cons t ts ih => simp [ih]

/-- The tree after `AddRandom`, as a tree: same root, the nodes of `new` added,
one level more at most for every level of `new`. -/
theorem PTree.addRandom_pure (Q : PTree) : ∀ (t : PTree) (g : Rand), t.arityOk = true →
    (∀ k ∈ t.kinds, 1 ≤ k.arity) →
    (t ≠ .empty → (PTree.addRandom Q t g).root = t.root) ∧
    (PTree.addRandom Q t g).size = t.size + Q.size ∧
    (PTree.addRandom Q t g).preorder.Perm (t.preorder ++ Q.preorder) ∧
    (∀ k ∈ (PTree.addRandom Q t g).kinds, k ∈ t.kinds ∨ k ∈ Q.kinds) ∧
    (Q.arityOk = true → (PTree.addRandom Q t g).arityOk = true) ∧
    (PTree.addRandom Q t g).depth ≤ t.depth + Q.depth := by
  intro t
  induction t using PTree.induct with
  | hE =>
    intro g _ _
    simp
  | hN a k v cs ih =>
    intro g hao hk
    simp only [PTree.arityOk_node, Bool.and_eq_true, decide_eq_true_eq] at hao
    have hpos : 0 < cs.length := by
      have := hk k (by simp)
      omega
    have hi : g.ints g.ipos % cs.length < cs.length := Nat.mod_lt _ hpos
    obtain ⟨pre, ti, post, hcs, hpre⟩ := list_split_at cs _ hi
    rw [PTree.addRandom_node]
    generalize g.ints g.ipos % cs.length = i at hi hpre
    subst hcs
    rw [PTree.addRandomList_at Q ti post _ pre i hpre]
    have hao2 := hao.2
    rw [PTree.arityOkList_append, Bool.and_eq_true, PTree.arityOkList_cons,
      Bool.and_eq_true] at hao2
    obtain ⟨h1, h2, h3, h4, h5, h6⟩ := ih ti (by simp) { g with ipos := g.ipos + 1 } hao2.2.1
      (fun k' hk' => hk k' (by simp [PTree.kindsList_append, hk']))
    refine ⟨fun _ => rfl, ?_, ?_, ?_, ?_, ?_⟩
    · simp only [PTree.size_node, PTree.sizeList_append, PTree.sizeList_cons, h2]
      omega
    · simp only [PTree.preorder_node, PTree.preorderList_append, PTree.preorderList_cons,
        List.cons_append]
      refine List.Perm.cons a ?_
      rw [List.perm_iff_count]
      intro x
      have := h3.count_eq x
      simp only [List.count_append] at this ⊢
      omega
    · intro k' hk'
      simp only [PTree.kinds_node, PTree.kindsList_append, PTree.kindsList_cons, List.mem_cons,
        List.mem_append] at hk' ⊢
      rcases hk' with hk' | hk' | hk' | hk'
      · exact Or.inl (Or.inl hk')
      · exact Or.inl (Or.inr (Or.inl hk'))
      · rcases h4 k' hk' with hk' | hk'
        · exact Or.inl (Or.inr (Or.inr (Or.inl hk')))
        · exact Or.inr hk'
      · exact Or.inl (Or.inr (Or.inr (Or.inr hk')))
    · intro hQ
      simp only [PTree.arityOk_node, Bool.and_eq_true, decide_eq_true_eq, PTree.arityOkList_append,
        PTree.arityOkList_cons]
      refine ⟨?_, hao2.1, h5 hQ, hao2.2.2⟩
      rw [← hao.1]
      simp
    · simp only [PTree.depth_node, PTree.depthList_append, PTree.depthList_cons]
      omega

/-- Method `AddRandom` on a tree of the store whose nodes all have a child slot:
it returns, and the store changes at two objects only: one empty slot of a node
of the tree gets the new node, and the parent of the new node is that node. -/
theorem AddRandom_spec (h : Heap) (q : Ptr) (Q : PTree) (hQ : Q.root = some q)
    (hrQ : Rep h Q = true) : ∀ (t : PTree), t ≠ .empty → Rep h t = true → t.preorder.Nodup →
    (∀ x ∈ t.preorder, x ∉ Q.preorder) → t.arityOk = true → (∀ k ∈ t.kinds, 1 ≤ k.arity) →
    ∀ (fuel : Nat) (g : Rand), t.depth ≤ fuel →
    ∃ (h' : Heap) (g' : Rand) (a : Ptr) (i : Nat) (c cq : Cell),
      AddRandom fuel h g t.root (some q) = some (h', g') ∧ a ∈ t.preorder ∧ h[a]? = some c ∧
      c.Children[i]? = some none ∧ h[q]? = some cq ∧
      h' = (h.set q { cq with Parent := some a }).set a
        { c with Children := c.Children.set i (some q) } ∧
      Rep h' (PTree.addRandom Q t g) = true := by
  obtain ⟨kq, vq, qs, rfl⟩ : ∃ kq vq qs, Q = .node q kq vq qs := by
    cases Q with
    | empty => simp [PTree.root] at hQ
    | node b kq vq qs =>
      simp only [PTree.root, Option.some.injEq] at hQ
      subst hQ
      exact ⟨kq, vq, qs, rfl⟩
  obtain ⟨cq, hcq, -, -, -, -⟩ := (Rep_node_iff h q kq vq qs).mp hrQ
  have hql : q < h.length := lt_of_getElem?_some hcq
  intro t
  induction t using PTree.induct with
  | hE => intro hne; exact absurd rfl hne
  | hN a k v cs ih =>
    intro _ hr hnd hdisj hao hk fuel g hf
    obtain ⟨c, hca, hck, hcv, hch, hrl⟩ := (Rep_node_iff h a k v cs).mp hr
    have hal : a < h.length := lt_of_getElem?_some hca
    obtain ⟨fuel, rfl⟩ : ∃ f, fuel = f + 1 := ⟨fuel - 1, by simp at hf; omega⟩
    have haq : a ≠ q := by
      intro e
      exact hdisj a (by simp) (by simp [e])
    have hao' := hao
    simp only [PTree.arityOk_node, Bool.and_eq_true, decide_eq_true_eq] at hao
    have hpos : 0 < cs.length := by
      have := hk k (by simp)
      omega
    have hi : g.ints g.ipos % cs.length < cs.length := Nat.mod_lt _ hpos
    obtain ⟨pre, ti, post, hcs, hpre⟩ := list_split_at cs _ hi
    rw [PTree.addRandom_node]
    have hrun : AddRandom (fuel + 1) h g (some a) (some q) =
        match c.Children[g.ints g.ipos % cs.length]? with
        | none => none
        | some none =>
          match SetParent h (some q) (some a) with
          | none => none
          | some h1 =>
            match setChild h1 (some a) (g.ints g.ipos % cs.length) (some q) with
            | none => none
            | some h2 => some (h2, { g with ipos := g.ipos + 1 })
        | some (some child) => AddRandom fuel h { g with ipos := g.ipos + 1 } (some child)
            (some q) := by
      simp only [AddRandom, hca, Rand.Intn, hch, List.length_map]
      rw [if_neg (by omega)]
    simp only [PTree.root]
    rw [hrun]
    generalize g.ints g.ipos % cs.length = i at hi hpre
    subst hcs
    rw [PTree.addRandomList_at _ ti post _ pre i hpre]
    have hidx : c.Children[i]? = some ti.root := by
      rw [hch, List.map_append, List.getElem?_append_right (by simp [hpre])]
      simp [hpre]
    have hao2 := hao.2
    rw [PTree.arityOkList_append, Bool.and_eq_true, PTree.arityOkList_cons,
      Bool.and_eq_true] at hao2
    rw [RepList_append, Bool.and_eq_true, RepList_cons, Bool.and_eq_true] at hrl
    simp only [PTree.preorder_node, PTree.preorderList_append, PTree.preorderList_cons,
      List.nodup_cons, List.mem_append, not_or] at hnd
    obtain ⟨⟨hapre, hati, hapost⟩, hnd2⟩ := hnd
    rw [List.nodup_append] at hnd2
    obtain ⟨hndpre, hnd3, hdis1⟩ := hnd2
    rw [List.nodup_append] at hnd3
    obtain ⟨hndti, hndpost, hdis2⟩ := hnd3
    have hdpre : ∀ x ∈ PTree.preorderList pre, x ∉ ti.preorder := fun x hx hx2 =>
      hdis1 hx (List.mem_append_left _ hx2)
    have hdpost : ∀ x ∈ PTree.preorderList post, x ∉ ti.preorder := fun x hx hx2 =>
      hdis2 hx2 hx
    have hinT : ∀ x, x ∈ PTree.preorderList pre ∨ x ∈ PTree.preorderList post →
        x ∈ (PTree.node a k v (pre ++ ti :: post)).preorder := by
      intro x hx
      simp only [PTree.preorder_node, PTree.preorderList_append, PTree.preorderList_cons,
        List.mem_cons, List.mem_append]
      rcases hx with hx | hx
      · exact Or.inr (Or.inl hx)
      · exact Or.inr (Or.inr (Or.inr hx))
    have hnq : ∀ x, x ∈ (PTree.node a k v (pre ++ ti :: post)).preorder → x ≠ q := by
      intro x hx e
      exact hdisj x hx (by simp [e])
    have hinTi : ∀ x, x ∈ ti.preorder →
        x ∈ (PTree.node a k v (pre ++ ti :: post)).preorder := by
      intro x hx
      simp only [PTree.preorder_node, PTree.preorderList_append, PTree.preorderList_cons,
        List.mem_cons, List.mem_append]
      exact Or.inr (Or.inr (Or.inl hx))
    have hkti : ∀ k' ∈ ti.kinds, 1 ≤ k'.arity := by
      intro k' hk'
      apply hk k'
      simp only [PTree.kinds_node, PTree.kindsList_append, PTree.kindsList_cons, List.mem_cons,
        List.mem_append]
      exact Or.inr (Or.inr (Or.inl hk'))
    have hdti : ti.depth ≤ fuel := by
      simp only [PTree.depth_node, PTree.depthList_append, PTree.depthList_cons] at hf
      omega
    have hmem : ti ∈ pre ++ ti :: post := by simp
    cases ti with
    | empty =>
      simp only [PTree.root] at hidx
      have h1a : (h.set q { cq with Parent := some a })[a]? = some c := by
        rw [List.getElem?_set_ne (Ne.symm haq), hca]
      have hilen : i < c.Children.length := by
        rw [hch]; simpa using hi
      refine ⟨_, { g with ipos := g.ipos + 1 }, a, i, c, cq, ?_, by simp, hca, hidx, hcq, rfl, ?_⟩
      · simp only [hidx, SetParent, hcq, setChild, h1a]
        rw [if_pos hilen]
      · have hsame : ∀ x : Ptr, x ≠ a → sameCore h ((h.set q { cq with Parent := some a }).set a
            { c with Children := c.Children.set i (some q) }) x := by
          intro x hx
          refine sameCore_trans (sameCore_set_parent h q cq hcq (some a) x) ?_
          apply sameCore_of_eq
          rw [List.getElem?_set_ne (Ne.symm hx)]
        rw [PTree.addRandom_empty, Rep_node_iff]
        refine ⟨{ c with Children := c.Children.set i (some q) }, ?_, hck, hcv, ?_, ?_⟩
        · rw [List.getElem?_set_eq_of_lt _ (by simpa using hal)]
        · simp only [hch, List.map_append, List.map_cons, PTree.root]
          rw [List.set_append_right _ _ (by simp [hpre])]
          simp [hpre]
        · rw [RepList_append, Bool.and_eq_true, RepList_cons, Bool.and_eq_true]
          refine ⟨RepList_frame h _ pre (fun x hx => hsame x ?_) hrl.1,
            Rep_frame h _ _ (fun x hx => hsame x ?_) hrQ,
            RepList_frame h _ post (fun x hx => hsame x ?_) hrl.2.2⟩
          · intro e; exact hapre (e ▸ hx)
          · intro e; exact hdisj a (by simp) (e ▸ hx)
          · intro e; exact hapost (e ▸ hx)
    | node b kb vb bs =>
      simp only [PTree.root] at hidx
      simp only [hidx]
      obtain ⟨h', g', a', i', c', cq', hrun', ha', hca', hidx', hcq', hh', hrep'⟩ :=
        ih (.node b kb vb bs) hmem (by simp) hrl.2.1 hndti
          (fun x hx => hdisj x (hinTi x hx)) hao2.2.1 hkti fuel { g with ipos := g.ipos + 1 } hdti
      have hroot := (PTree.addRandom_pure (.node q kq vq qs) (.node b kb vb bs)
        { g with ipos := g.ipos + 1 } hao2.2.1 hkti).1 (by simp)
      have hframe : ∀ x : Ptr, x ≠ a' → x ≠ q → h'[x]? = h[x]? := by
        intro x hx1 hx2
        rw [hh', List.getElem?_set_ne (Ne.symm hx1), List.getElem?_set_ne (Ne.symm hx2)]
      have haa' : a ≠ a' := fun e => hati (e ▸ ha')
      refine ⟨h', g', a', i', c', cq', hrun', ?_, hca', hidx', hcq', hh', ?_⟩
      · exact hinTi a' ha'
      · rw [Rep_node_iff]
        refine ⟨c, ?_, hck, hcv, ?_, ?_⟩
        · rw [hframe a haa' haq, hca]
        · rw [hch]
          simp only [List.map_append, List.map_cons, hroot]
        · rw [RepList_append, Bool.and_eq_true, RepList_cons, Bool.and_eq_true]
          refine ⟨RepList_frame h _ pre (fun x hx => sameCore_of_eq (hframe x ?_ ?_)) hrl.1,
            hrep', RepList_frame h _ post (fun x hx => sameCore_of_eq (hframe x ?_ ?_)) hrl.2.2⟩
          · intro e; exact hdpre x hx (e ▸ ha')
          · exact hnq x (hinT x (Or.inl hx))
          · intro e; exact hdpost x hx (e ▸ ha')
          · exact hnq x (hinT x (Or.inr hx))

theorem PTree.slots_empty : ∀ (n : Nat),
    PTree.depthList (List.replicate n PTree.empty) = 0 ∧
    PTree.sizeList (List.replicate n PTree.empty) = 0 ∧
    PTree.preorderList (List.replicate n PTree.empty) = [] ∧
    PTree.kindsList (List.replicate n PTree.empty) = [] ∧
    PTree.arityOkList (List.replicate n PTree.empty) = true ∧
    (List.replicate n PTree.empty).map PTree.root = List.replicate n none := by
  intro n
  induction n with
  | zero => simp
  | succ n ih =>
    obtain ⟨h1, h2, h3, h4, h5, h6⟩ := ih
    simp [List.replicate_succ, h1, h2, h3, h4, h5, h6, PTree.root]

/-- The loop of `NewPicture` that calls `AddRandom` with a new operator `n` times,
on a tree whose nodes all have a child slot. -/
theorem addRandomTimes_spec (fuel : Nat) : ∀ (n : Nat) (t : PTree) (h : Heap) (g : Rand),
    t ≠ .empty → Rep h t = true → t.preorder.Nodup → t.arityOk = true →
    (∀ k ∈ t.kinds, 1 ≤ k.arity) → t.depth + n ≤ fuel →
    ∃ (h' : Heap) (g' : Rand) (t' : PTree), addRandomTimes fuel n h g t.root = some (h', g') ∧
      t' ≠ .empty ∧ Rep h' t' = true ∧ t'.preorder.Nodup ∧ t'.arityOk = true ∧
      (∀ k ∈ t'.kinds, 1 ≤ k.arity) ∧ t'.root = t.root ∧ t'.size = t.size + n ∧
      t'.depth ≤ t.depth + n := by
  intro n
  induction n with
  | zero =>
    intro t h g hne hr hnd hao hk _
    exact ⟨h, g, t, by simp [addRandomTimes], hne, hr, hnd, hao, hk, rfl, rfl, le_refl _⟩
  | succ n ih =>
    intro t h g hne hr hnd hao hk hf
    obtain ⟨k, hbk, hak, -⟩ := baseKind_lt (g.ints g.ipos % 21) (Nat.mod_lt _ (by decide))
    have hnew := GetRandomBaseNode_eq h g k hbk
    obtain ⟨s1, s2, s3, s4, s5, s6⟩ := PTree.slots_empty k.arity
    have hrQ : Rep (h ++ [⟨k, F32.zero, none, List.replicate k.arity none⟩])
        (.node h.length k F32.zero (List.replicate k.arity .empty)) = true := by
      rw [Rep_node_iff]
      refine ⟨⟨k, F32.zero, none, List.replicate k.arity none⟩, ?_, rfl, rfl, ?_, ?_⟩
      · rw [List.getElem?_append_right (le_refl _)]; simp
      · rw [s6]
      · rw [RepList_iff]
        intro u hu
        rw [List.eq_of_mem_replicate hu]
        simp
    have hdisj : ∀ x ∈ t.preorder,
        x ∉ (PTree.node h.length k F32.zero (List.replicate k.arity .empty)).preorder := by
      intro x hx
      have := Rep_lt h t hr x hx
      simp only [PTree.preorder_node, s3, List.mem_singleton]
      exact Nat.ne_of_lt this
    obtain ⟨h2, g2, a, i, c, cq, hrun, -, -, -, -, -, hrep⟩ :=
      AddRandom_spec _ h.length (.node h.length k F32.zero (List.replicate k.arity .empty)) rfl
        hrQ t hne (Rep_extend h _ t hr) hnd hdisj hao hk fuel
        { g with ipos := g.ipos + 1 } (by omega)
    obtain ⟨p1, p2, p3, p4, p5, p6⟩ :=
      PTree.addRandom_pure (.node h.length k F32.zero (List.replicate k.arity .empty)) t
        { g with ipos := g.ipos + 1 } hao hk
    have hne2 : PTree.addRandom (.node h.length k F32.zero (List.replicate k.arity .empty)) t
        { g with ipos := g.ipos + 1 } ≠ .empty := by
      intro e
      have hroot := p1 hne
      rw [e] at hroot
      cases t with
      | empty => exact hne rfl
      | node b kb vb bs => simp [PTree.root] at hroot
    have hnd2 : (PTree.addRandom (.node h.length k F32.zero (List.replicate k.arity .empty)) t
        { g with ipos := g.ipos + 1 }).preorder.Nodup := by
      rw [p3.nodup_iff, List.nodup_append]
      refine ⟨hnd, by simp [s3], ?_⟩
      intro x hx hx2
      exact hdisj x hx hx2
    have hao2 := p5 (by simp [s5])
    have hk2 : ∀ k' ∈ (PTree.addRandom (.node h.length k F32.zero
        (List.replicate k.arity .empty)) t { g with ipos := g.ipos + 1 }).kinds,
        1 ≤ k'.arity := by
      intro k' hk'
      rcases p4 k' hk' with hk' | hk'
      · exact hk k' hk'
      · simp only [PTree.kinds_node, s4, List.mem_singleton] at hk'
        rw [hk']; exact hak
    have hd2 : (PTree.addRandom (.node h.length k F32.zero (List.replicate k.arity .empty)) t
        { g with ipos := g.ipos + 1 }).depth ≤ t.depth + 1 := by
      simpa [s1] using p6
    obtain ⟨h', g', t', e, q1, q2, q3, q4, q5, q6, q7, q8⟩ :=
      ih _ h2 g2 hne2 hrep hnd2 hao2 hk2 (by omega)
    refine ⟨h', g', t', ?_, q1, q2, q3, q4, q5, by rw [q6, p1 hne], ?_, by omega⟩
    · rw [p1 hne] at e
      simp only [addRandomTimes, hnew, hrun, e]
    · rw [q7, p2]
      simp [s2]
      omega

/-- C24. The call `t.AddRandom(newOp)` on a non-empty tree `t` of the store,
complete or not, with no node in two places, whose nodes are all of a type of
arity at least 1 with as many child slots as the arity, `newOp` being the root of
a tree `Q` of the store apart from `t`, with fuel at least the height of `t`,
whatever the draws. The call returns, so no draw `rand.Intn(0)` is made; a node
`a` of `t` has `newOp` in a slot `i` that was empty, its other slots being as
before; the parent of `newOp` is `a`, its type, value and children as before;
every other object of the store is as before. The store holds the tree with `Q`
in that slot: it has the root of `t` and the nodes of `t` and of `Q`. Hence the
loop `for i := 0; i < num; i++ { root.AddRandom(GetRandomBaseNode()) }` of
`NewPicture` on `t`, with fuel at least the height of `t` plus `num`, returns
with a tree of `num` nodes more whose nodes all have arity at least 1. -/
theorem C24_AddRandom (h : Heap) (t Q : PTree) (q : Ptr) (fuel : Nat) (g : Rand)
    (hne : t ≠ .empty) (hr : Rep h t = true) (hnd : t.preorder.Nodup) (hao : t.arityOk = true)
    (hk : ∀ k ∈ t.kinds, 1 ≤ k.arity) (hQ : Q.root = some q) (hrQ : Rep h Q = true)
    (hdisj : ∀ x ∈ t.preorder, x ∉ Q.preorder) (hf : t.depth ≤ fuel) :
    (∃ (h' : Heap) (g' : Rand) (a : Ptr) (i : Nat) (c : Cell),
      AddRandom fuel h g t.root (some q) = some (h', g') ∧
      a ∈ t.preorder ∧ h[a]? = some c ∧ c.Children[i]? = some none ∧
      h'[a]? = some { c with Children := c.Children.set i (some q) } ∧
      (h'[q]?).map Cell.Parent = some (some a) ∧ sameCore h h' q ∧
      (∀ x : Ptr, x ≠ a → x ≠ q → h'[x]? = h[x]?) ∧ h'.length = h.length ∧
      Rep h' (PTree.addRandom Q t g) = true ∧ (PTree.addRandom Q t g).root = t.root ∧
      (PTree.addRandom Q t g).size = t.size + Q.size ∧
      (PTree.addRandom Q t g).preorder.Perm (t.preorder ++ Q.preorder)) ∧
    (∀ (num : Nat) (fuel2 : Nat) (g2 : Rand), t.depth + num ≤ fuel2 →
      ∃ (h' : Heap) (g' : Rand) (t' : PTree),
        addRandomTimes fuel2 num h g2 t.root = some (h', g') ∧ Rep h' t' = true ∧
        t'.root = t.root ∧ t'.size = t.size + num ∧ t'.arityOk = true ∧
        (∀ k ∈ t'.kinds, 1 ≤ k.arity)) := by
  constructor
  · obtain ⟨h', g', a, i, c, cq, hrun, ha, hca, hidx, hcq, hh', hrep⟩ :=
      AddRandom_spec h q Q hQ hrQ t hne hr hnd hdisj hao hk fuel g hf
    obtain ⟨p1, p2, p3, -, -, -⟩ := PTree.addRandom_pure Q t g hao hk
    have hqQ : q ∈ Q.preorder := PTree.root_mem hQ
    have haq : a ≠ q := fun e => hdisj a ha (e ▸ hqQ)
    have hal : a < h.length := lt_of_getElem?_some hca
    have hql : q < h.length := lt_of_getElem?_some hcq
    refine ⟨h', g', a, i, c, hrun, ha, hca, hidx, ?_, ?_, ?_, ?_, ?_, hrep, p1 hne, p2, p3⟩
    · rw [hh', List.getElem?_set_eq_of_lt _ (by simpa using hal)]
    · rw [hh', List.getElem?_set_ne haq, List.getElem?_set_eq_of_lt _ hql]
      rfl
    · rw [hh']
      refine sameCore_trans (sameCore_set_parent h q cq hcq (some a) q) ?_
      apply sameCore_of_eq
      rw [List.getElem?_set_ne haq]
    · intro x hx1 hx2
      rw [hh', List.getElem?_set_ne (Ne.symm hx1), List.getElem?_set_ne (Ne.symm hx2)]
    · rw [hh']; simp
  · intro num fuel2 g2 hf2
    obtain ⟨h', g', t', e, -, q2, -, q4, q5, q6, q7, -⟩ :=
      addRandomTimes_spec fuel2 num t h g2 hne hr hnd hao hk hf2
    exact ⟨h', g', t', e, q2, q6, q7, q4, q5⟩

theorem C24_AddRandom_witness :
    (∃ (h' : Heap) (g' : Rand) (a : Ptr) (i : Nat) (c : Cell),
      AddRandom 1 heapPlusNegate randOne (PTree.node 0 .OpPlus F32.zero [.empty, .empty]).root
        (some 1) = some (h', g') ∧
      a ∈ (PTree.node 0 .OpPlus F32.zero [.empty, .empty]).preorder ∧
      heapPlusNegate[a]? = some c ∧ c.Children[i]? = some none ∧
      h'[a]? = some { c with Children := c.Children.set i (some 1) } ∧
      (h'[1]?).map Cell.Parent = some (some a) ∧ sameCore heapPlusNegate h' 1 ∧
      (∀ x : Ptr, x ≠ a → x ≠ 1 → h'[x]? = heapPlusNegate[x]?) ∧
      h'.length = heapPlusNegate.length ∧
      Rep h' (PTree.addRandom (.node 1 .OpNegate F32.zero [.empty])
        (.node 0 .OpPlus F32.zero [.empty, .empty]) randOne) = true ∧
      (PTree.addRandom (.node 1 .OpNegate F32.zero [.empty])
        (.node 0 .OpPlus F32.zero [.empty, .empty]) randOne).root =
        (PTree.node 0 .OpPlus F32.zero [.empty, .empty]).root ∧
      (PTree.addRandom (.node 1 .OpNegate F32.zero [.empty])
        (.node 0 .OpPlus F32.zero [.empty, .empty]) randOne).size =
        (PTree.node 0 .OpPlus F32.zero [.empty, .empty]).size +
          (PTree.node 1 .OpNegate F32.zero [.empty]).size ∧
      (PTree.addRandom (.node 1 .OpNegate F32.zero [.empty])
        (.node 0 .OpPlus F32.zero [.empty, .empty]) randOne).preorder.Perm
        ((PTree.node 0 .OpPlus F32.zero [.empty, .empty]).preorder ++
          (PTree.node 1 .OpNegate F32.zero [.empty]).preorder)) ∧
    (∀ (num : Nat) (fuel2 : Nat) (g2 : Rand),
      (PTree.node 0 .OpPlus F32.zero [.empty, .empty]).depth + num ≤ fuel2 →
      ∃ (h' : Heap) (g' : Rand) (t' : PTree),
        addRandomTimes fuel2 num heapPlusNegate g2
          (PTree.node 0 .OpPlus F32.zero [.empty, .empty]).root = some (h', g') ∧
        Rep h' t' = true ∧ t'.root = (PTree.node 0 .OpPlus F32.zero [.empty, .empty]).root ∧
        t'.size = (PTree.node 0 .OpPlus F32.zero [.empty, .empty]).size + num ∧
        t'.arityOk = true ∧ (∀ k ∈ t'.kinds, 1 ≤ k.arity)) :=
  C24_AddRandom heapPlusNegate (.node 0 .OpPlus F32.zero [.empty, .empty])
    (.node 1 .OpNegate F32.zero [.empty]) 1 1 randOne (by simp) (by decide) (by decide)
    (by decide) (by decide) rfl (by decide) (by decide) (by decide)

theorem opsArith_arith : opsArith.arith :=
  ⟨fun _ _ => ⟨id, fun _ => rfl⟩, fun _ _ => ⟨id, fun _ => rfl⟩, fun _ _ => ⟨id, fun _ => rfl⟩,
    fun _ _ => ⟨id, fun _ => rfl⟩, fun _ => ⟨id, fun _ => rfl⟩⟩

/-- `OpWrap.Eval` on a node whose child evaluates to `a`. -/
theorem Eval_Wrap (ops : FloatOps) (fuel : Nat) (h : Heap) (p : Ptr) (c : Cell) (c0 : Option Ptr)
    (rest : List (Option Ptr)) (x y a : F32) (hp : h[p]? = some c) (hk : c.typ = .OpWrap)
    (hch : c.Children = c0 :: rest) (ha : Node.Eval ops fuel h c0 x y = some a) :
    Node.Eval ops (fuel + 1) h (some p) x y =
      some (ops.add (F32.ofDecimal true 1 1)
        (ops.mul (F32.ofDecimal false 2 1)
          (ops.sub (ops.div (ops.sub a (F32.ofDecimal false 1 1)) (F32.ofDecimal false 2 1))
            (ops.floor
              (ops.div (ops.sub a (F32.ofDecimal false 1 1)) (F32.ofDecimal false 2 1)))))) := by
  simp only [Node.Eval, hp, hk, hch, List.getElem?_cons_zero, ha]

/-- The sawtooth in exact arithmetic: period 2, values from -1 up to 1. -/
theorem wrapExact_props (v : ℚ) :
    wrapExact v = -1 + 2 * ((v - 1) / 2 - (⌊(v - 1) / 2⌋ : ℤ)) ∧
    wrapExact (v + 2) = wrapExact v ∧ -1 ≤ wrapExact v ∧ wrapExact v < 1 := by
  refine ⟨rfl, ?_, ?_, ?_⟩
  · have e : (v + 2 - 1) / 2 = (v - 1) / 2 + 1 := by ring
    simp only [wrapExact, e, Int.floor_add_one]
    push_cast
    ring
  · have := Int.floor_le ((v - 1) / 2)
    simp only [wrapExact]
    linarith
  · have := Int.lt_floor_add_one ((v - 1) / 2)
    simp only [wrapExact]
    linarith

theorem wrap_three (ops : FloatOps) (hops : ops.arith) (x y : F32) :
    Node.Eval ops 2 heapWrap3 (some 0) x y = some ⟨3212836864⟩ ∧
    Node.Eval ops 2 heapWrap1 (some 0) x y = some ⟨3212836864⟩ := by
  obtain ⟨hadd, hsub, hmul, hdiv, hfloor⟩ := hops
  have c1 : F32.ofDecimal false 1 1 = ⟨1065353216⟩ := by decide
  have c2 : F32.ofDecimal false 2 1 = ⟨1073741824⟩ := by decide
  have c3 : F32.ofDecimal true 1 1 = ⟨3212836864⟩ := by decide
  have e1 : ops.sub ⟨1077936128⟩ ⟨1065353216⟩ = ⟨1073741824⟩ :=
    ((hsub _ _).2 (by decide)).trans (by decide)
  have e2 : ops.div ⟨1073741824⟩ ⟨1073741824⟩ = ⟨1065353216⟩ :=
    ((hdiv _ _).2 (by decide)).trans (by decide)
  have e3 : ops.floor ⟨1065353216⟩ = ⟨1065353216⟩ :=
    ((hfloor _).2 (by decide)).trans (by decide)
  have e4 : ops.sub ⟨1065353216⟩ ⟨1065353216⟩ = ⟨0⟩ :=
    ((hsub _ _).2 (by decide)).trans (by decide)
  have e5 : ops.div ⟨0⟩ ⟨1073741824⟩ = ⟨0⟩ :=
    ((hdiv _ _).2 (by decide)).trans (by decide)
  have e6 : ops.floor ⟨0⟩ = ⟨0⟩ :=
    ((hfloor _).2 (by decide)).trans (by decide)
  have e7 : ops.sub ⟨0⟩ ⟨0⟩ = ⟨0⟩ :=
    ((hsub _ _).2 (by decide)).trans (by decide)
  have e8 : ops.mul ⟨1073741824⟩ ⟨0⟩ = ⟨0⟩ :=
    ((hmul _ _).2 (by decide)).trans (by decide)
  have e9 : ops.add ⟨3212836864⟩ ⟨0⟩ = ⟨3212836864⟩ :=
    ((hadd _ _).2 (by decide)).trans (by decide)
  constructor
  · rw [Eval_Wrap ops 1 heapWrap3 0 ⟨.OpWrap, F32.zero, none, [some 1]⟩ (some 1) [] x y
      ⟨1077936128⟩ rfl rfl rfl (by simp [Node.Eval, heapWrap3])]
    rw [c1, c2, c3, e1, e2, e3, e4, e8, e9]
  · rw [Eval_Wrap ops 1 heapWrap1 0 ⟨.OpWrap, F32.zero, none, [some 1]⟩ (some 1) [] x y
      ⟨1065353216⟩ rfl rfl rfl (by simp [Node.Eval, heapWrap1])]
    rw [c1, c2, c3, e4, e5, e6, e7, e8, e9]

theorem wrapExactAt_three : wrapExactAt opsArith ⟨1077936128⟩ := by
  have c1 : F32.ofDecimal false 1 1 = ⟨1065353216⟩ := by decide
  have c2 : F32.ofDecimal false 2 1 = ⟨1073741824⟩ := by decide
  have c3 : F32.ofDecimal true 1 1 = ⟨3212836864⟩ := by decide
  have e1 : F32.sub ⟨1077936128⟩ ⟨1065353216⟩ = ⟨1073741824⟩ := by decide
  have e2 : F32.div ⟨1073741824⟩ ⟨1073741824⟩ = ⟨1065353216⟩ := by decide
  have e3 : F32.floor ⟨1065353216⟩ = ⟨1065353216⟩ := by decide
  have e4 : F32.sub ⟨1065353216⟩ ⟨1065353216⟩ = ⟨0⟩ := by decide
  have e8 : F32.mul ⟨1073741824⟩ ⟨0⟩ = ⟨0⟩ := by decide
  have e9 : F32.add ⟨3212836864⟩ ⟨0⟩ = ⟨3212836864⟩ := by decide
  have v0 : F32.toRat ⟨0⟩ = 0 := by
    simp [F32.toRat, F32.units, F32.sign, F32.mag]
  have v1 : F32.toRat ⟨1065353216⟩ = 1 := by
    simp [F32.toRat, F32.units, F32.sign, F32.mag]
    norm_num
  have v2 : F32.toRat ⟨1073741824⟩ = 2 := by
    simp [F32.toRat, F32.units, F32.sign, F32.mag]
    norm_num
  have v3 : F32.toRat ⟨1077936128⟩ = 3 := by
    simp [F32.toRat, F32.units, F32.sign, F32.mag]
    norm_num
  have vm : F32.toRat ⟨3212836864⟩ = -1 := by
    simp [F32.toRat, F32.units, F32.sign, F32.mag]
    norm_num
  simp only [wrapExactAt, opsArith, c1, c2, c3, e1, e2, e3, e4, e8, e9, v0, v1, v2, v3, vm]
  norm_num

/-- C21. `OpWrap.Eval` on a Wrap node whose child evaluates to `a`. When its six
`float32` operations are exact on `a` (none is rounded), the value returned is
`wrapExact` of the value `v` of `a`; and in exact arithmetic, for every `v`:
`Wrap(v) = -1 + 2*(t - floor(t))` with `t = (v-1)/2`, `Wrap(v + 2) = Wrap(v)`,
and `-1 <= Wrap(v) < 1`, hence `Wrap(v) <= 1`. With the IEEE 754 arithmetic, the
trees parsed from `(Wrap 3.0)` and `(Wrap 1.0)` evaluate to the same value, `-1`
(bits `0xBF800000`), at every coordinate. -/
theorem C21_Wrap (ops : FloatOps) (hops : ops.arith) (fuel : Nat) (h : Heap) (p : Ptr)
    (c : Cell) (c0 : Option Ptr) (x y a : F32) (hp : h[p]? = some c) (hk : c.typ = .OpWrap)
    (hch : c.Children = [c0]) (ha : Node.Eval ops fuel h c0 x y = some a)
    (hex : wrapExactAt ops a) :
    (∃ r, Node.Eval ops (fuel + 1) h (some p) x y = some r ∧ r.toRat = wrapExact a.toRat) ∧
    (∀ v : ℚ, wrapExact v = -1 + 2 * ((v - 1) / 2 - (⌊(v - 1) / 2⌋ : ℤ)) ∧
      wrapExact (v + 2) = wrapExact v ∧ -1 ≤ wrapExact v ∧ wrapExact v < 1 ∧ wrapExact v ≤ 1) ∧
    BeginLexing [] "(Wrap 3.0)".toList = .ok (heapWrap3, 0) ∧
    BeginLexing [] "(Wrap 1.0)".toList = .ok (heapWrap1, 0) ∧
    (∀ x' y' : F32, Node.Eval ops 2 heapWrap3 (some 0) x' y' = some ⟨3212836864⟩ ∧
      Node.Eval ops 2 heapWrap1 (some 0) x' y' = some ⟨3212836864⟩) := by
  refine ⟨⟨_, Eval_Wrap ops fuel h p c c0 [] x y a hp hk hch ha, ?_⟩, ?_, by decide, by decide,
    fun x' y' => wrap_three ops hops x' y'⟩
  · obtain ⟨h1, h2, h3, h4, h5, h6⟩ := hex
    rw [h6, h5, h4, h3, h2, h1]
    rfl
  · intro v
    obtain ⟨q1, q2, q3, q4⟩ := wrapExact_props v
    exact ⟨q1, q2, q3, q4, le_of_lt q4⟩

theorem C21_Wrap_witness :
    (∃ r, Node.Eval opsArith (1 + 1) heapWrap3 (some 0) F32.zero F32.zero = some r ∧
      r.toRat = wrapExact (F32.toRat ⟨1077936128⟩)) ∧
    (∀ v : ℚ, wrapExact v = -1 + 2 * ((v - 1) / 2 - (⌊(v - 1) / 2⌋ : ℤ)) ∧
      wrapExact (v + 2) = wrapExact v ∧ -1 ≤ wrapExact v ∧ wrapExact v < 1 ∧ wrapExact v ≤ 1) ∧
    BeginLexing [] "(Wrap 3.0)".toList = .ok (heapWrap3, 0) ∧
    BeginLexing [] "(Wrap 1.0)".toList = .ok (heapWrap1, 0) ∧
    (∀ x' y' : F32, Node.Eval opsArith 2 heapWrap3 (some 0) x' y' = some ⟨3212836864⟩ ∧
      Node.Eval opsArith 2 heapWrap1 (some 0) x' y' = some ⟨3212836864⟩) :=
  C21_Wrap opsArith opsArith_arith 1 heapWrap3 0 ⟨.OpWrap, F32.zero, none, [some 1]⟩ (some 1)
    F32.zero F32.zero ⟨1077936128⟩ (by decide) rfl rfl (by decide) wrapExactAt_three

theorem F32.toByte_notNaN {f : F32} {n : Nat} (hf : F32.toByte f = some n) :
    f.isNaN = false := by
  cases hfin : f.isFinite with
  | false => simp [F32.toByte, hfin] at hf
  | true =>
    simp only [F32.isFinite, bne_iff_ne, ne_eq] at hfin
    have hd : decide (f.bits / 2 ^ 23 % 256 = 255) = false := by simpa using hfin
    simp only [F32.isNaN, hd, Bool.false_and]

/-- The byte that the language fixes for `byte(f)` is the integer part of `f`. -/
theorem F32.toByte_value {f : F32} {n : Nat} (hf : F32.toByte f = some n) :
    n < 256 ∧ (f.sign = false → (n : ℚ) ≤ f.toRat ∧ f.toRat < (n : ℚ) + 1) ∧
    (f.sign = true → n = 0 ∧ -1 < f.toRat ∧ f.toRat ≤ 0) := by
  have hpos : (0 : ℚ) < 2 ^ 149 := by positivity
  cases hfin : f.isFinite with
  | false => simp [F32.toByte, hfin] at hf
  | true =>
    cases hs : f.sign with
    | false =>
      simp only [F32.toByte, hfin, hs, Bool.false_eq_true, if_false, Bool.true_and,
        decide_eq_true_eq] at hf
      split at hf
      · rename_i hr
        simp only [Option.some.injEq] at hf
        subst hf
        refine ⟨hr, fun _ => ?_, fun hx => by cases hx⟩
        have e : f.toRat = (f.mag : ℚ) / 2 ^ 149 := by
          simp [F32.toRat, F32.units, hs]
        rw [e]
        constructor
        · rw [le_div_iff₀ hpos]
          have := Nat.div_mul_le_self f.mag (2 ^ 149)
          exact_mod_cast this
        · rw [div_lt_iff₀ hpos]
          have h2 : f.mag < (f.mag / 2 ^ 149 + 1) * 2 ^ 149 :=
            Nat.lt_mul_of_div_lt (Nat.lt_succ_self _) (by positivity)
          exact_mod_cast h2
      · cases hf
    | true =>
      simp only [F32.toByte, hfin, hs, if_true, Bool.true_and, decide_eq_true_eq] at hf
      split at hf
      · rename_i hr
        simp only [Option.some.injEq] at hf
        subst hf
        have e : f.toRat = -((f.mag : ℚ) / 2 ^ 149) := by
          simp [F32.toRat, F32.units, hs, neg_div]
        refine ⟨by decide, fun hx => (by cases hx), fun _ => ⟨rfl, ?_, ?_⟩⟩
        · rw [e, neg_lt_neg_iff, div_lt_iff₀ hpos, one_mul]
          have h3 : ((f.mag : ℕ) : ℚ) < ((2 ^ 149 : ℕ) : ℚ) := Nat.cast_lt.mpr hr
          simp only [Nat.cast_pow, Nat.cast_ofNat] at h3
          exact h3
        · rw [e]
          have : (0 : ℚ) ≤ (f.mag : ℚ) / 2 ^ 149 := div_nonneg (Nat.cast_nonneg _) hpos.le
          linarith
      · cases hf

theorem getElem?_append_shift {α : Type} (xs ys : List α) (n m : Nat)
    (h : n = xs.length + m) : (xs ++ ys)[n]? = ys[m]? := by
  subst h
  rw [List.getElem?_append_right (by omega)]
  congr 1
  omega

theorem getElem?_append_keep {α : Type} (xs ys : List α) (n m : Nat) (h : n = m)
    (hm : m < xs.length) : (xs ++ ys)[n]? = xs[m]? := by
  subst h
  rw [List.getElem?_append_left hm]

/-- The byte of a channel with the arithmetic of IEEE 754 and the conversion of
the language: the integer part of `v * 127 - (-127)`. -/
theorem ASTToPixels.channel_eq (ops : FloatOps) (hops : ops.arith) (cv : FloatConv)
    (hcv : cv.exact) (v : F32) (n : Nat)
    (hn : F32.toByte (F32.sub (F32.mul v ⟨1123942400⟩) ⟨3271426048⟩) = some n) :
    ASTToPixels.channel ops cv v = n := by
  obtain ⟨-, hsub, hmul, -, -⟩ := hops
  have c1 : ASTToPixels.scale = ⟨1123942400⟩ := by decide
  have c2 : F32.ofDecimal true 1 1 = ⟨3212836864⟩ := by decide
  have e1 : ops.mul ⟨3212836864⟩ ⟨1123942400⟩ = ⟨3271426048⟩ :=
    ((hmul _ _).2 (by decide)).trans (by decide)
  have hnan := F32.toByte_notNaN hn
  have hm : (F32.mul v ⟨1123942400⟩).isNaN = false := by
    by_contra hx
    have hx' : (F32.mul v ⟨1123942400⟩).isNaN = true := by simpa using hx
    have : F32.sub (F32.mul v ⟨1123942400⟩) ⟨3271426048⟩ = F32.nan := by
      simp [F32.sub, F32.add, hx']
    rw [this] at hnan
    exact absurd hnan (by decide)
  simp only [ASTToPixels.channel, ASTToPixels.offset, c1, c2, e1]
  rw [(hmul _ _).2 hm, (hsub _ _).2 hnan]
  exact hcv.2 _ _ hn

/-- The inner loop of `ASTToPixels` when the channels evaluate: four bytes for
every column. -/
theorem ASTToPixels.columns_spec (ops : FloatOps) (cv : FloatConv) (fuel : Nat) (h : Heap)
    (pic : picture) (w : Nat) (y : F32)
    (hev : ∀ x : F32, ∃ r g b, Node.Eval ops fuel h pic.r x y = some r ∧
      Node.Eval ops fuel h pic.g x y = some g ∧ Node.Eval ops fuel h pic.b x y = some b) :
    ∀ (k xi : Nat), ∃ bytes, ASTToPixels.columns ops cv fuel h pic w y k xi = some bytes ∧
      bytes.length = 4 * k ∧
      ∀ j, j < k → ∃ r g b,
        Node.Eval ops fuel h pic.r (ASTToPixels.coord ops cv (xi + j) w) y = some r ∧
        Node.Eval ops fuel h pic.g (ASTToPixels.coord ops cv (xi + j) w) y = some g ∧
        Node.Eval ops fuel h pic.b (ASTToPixels.coord ops cv (xi + j) w) y = some b ∧
        bytes[4 * j]? = some (ASTToPixels.channel ops cv r) ∧
        bytes[4 * j + 1]? = some (ASTToPixels.channel ops cv g) ∧
        bytes[4 * j + 2]? = some (ASTToPixels.channel ops cv b) ∧
        bytes[4 * j + 3]? = some 0 := by
  intro k
  induction k with
  | zero =>
    intro xi
    exact ⟨[], rfl, rfl, fun j hj => absurd hj (Nat.not_lt_zero j)⟩
  | succ k ih =>
    intro xi
    obtain ⟨r, g, b, hr, hg, hb⟩ := hev (ASTToPixels.coord ops cv xi w)
    obtain ⟨rest, hrest, hlen, hall⟩ := ih (xi + 1)
    refine ⟨[ASTToPixels.channel ops cv r, ASTToPixels.channel ops cv g,
      ASTToPixels.channel ops cv b, 0] ++ rest, ?_, ?_, ?_⟩
    · simp only [ASTToPixels.columns, ASTToPixels.pixel, hr, hg, hb, hrest]
    · simp only [List.length_append, List.length_cons, List.length_nil, hlen]
      omega
    · intro j hj
      cases j with
      | zero => exact ⟨r, g, b, hr, hg, hb, by simp, by simp, by simp, by simp⟩
      | succ j =>
        obtain ⟨r', g', b', hr', hg', hb', q0, q1, q2, q3⟩ := hall j (by omega)
        have e : xi + (j + 1) = xi + 1 + j := by omega
        rw [e]
        refine ⟨r', g', b', hr', hg', hb', ?_, ?_, ?_, ?_⟩
        · rw [getElem?_append_shift _ _ _ (4 * j) (by simp; omega)]
          exact q0
        · rw [getElem?_append_shift _ _ _ (4 * j + 1) (by simp; omega)]
          exact q1
        · rw [getElem?_append_shift _ _ _ (4 * j + 2) (by simp; omega)]
          exact q2
        · rw [getElem?_append_shift _ _ _ (4 * j + 3) (by simp; omega)]
          exact q3

/-- The outer loop of `ASTToPixels` when the channels evaluate: the rows one
after the other. -/
theorem ASTToPixels.lines_spec (ops : FloatOps) (cv : FloatConv) (fuel : Nat) (h : Heap)
    (pic : picture) (w ht : Nat)
    (hev : ∀ x y : F32, ∃ r g b, Node.Eval ops fuel h pic.r x y = some r ∧
      Node.Eval ops fuel h pic.g x y = some g ∧ Node.Eval ops fuel h pic.b x y = some b) :
    ∀ (k yi : Nat), ∃ bytes, ASTToPixels.lines ops cv fuel h pic w ht k yi = some bytes ∧
      bytes.length = w * k * 4 ∧
      ∀ i xi, i < k → xi < w → ∃ r g b,
        Node.Eval ops fuel h pic.r (ASTToPixels.coord ops cv xi w)
          (ASTToPixels.coord ops cv (yi + i) ht) = some r ∧
        Node.Eval ops fuel h pic.g (ASTToPixels.coord ops cv xi w)
          (ASTToPixels.coord ops cv (yi + i) ht) = some g ∧
        Node.Eval ops fuel h pic.b (ASTToPixels.coord ops cv xi w)
          (ASTToPixels.coord ops cv (yi + i) ht) = some b ∧
        bytes[4 * (i * w + xi)]? = some (ASTToPixels.channel ops cv r) ∧
        bytes[4 * (i * w + xi) + 1]? = some (ASTToPixels.channel ops cv g) ∧
        bytes[4 * (i * w + xi) + 2]? = some (ASTToPixels.channel ops cv b) ∧
        bytes[4 * (i * w + xi) + 3]? = some 0 := by
  intro k
  induction k with
  | zero =>
    intro yi
    exact ⟨[], rfl, by simp, fun i _ hi => absurd hi (Nat.not_lt_zero i)⟩
  | succ k ih =>
    intro yi
    obtain ⟨row, hrow, hrlen, hrall⟩ := ASTToPixels.columns_spec ops cv fuel h pic w
      (ASTToPixels.coord ops cv yi ht) (fun x => hev x _) w 0
    obtain ⟨rest, hrest, hlen, hall⟩ := ih (yi + 1)
    refine ⟨row ++ rest, ?_, ?_, ?_⟩
    · simp only [ASTToPixels.lines, hrow, hrest]
    · rw [List.length_append, hrlen, hlen]
      ring
    · intro i xi hi hxi
      cases i with
      | zero =>
        obtain ⟨r, g, b, hr, hg, hb, q0, q1, q2, q3⟩ := hrall xi hxi
        simp only [Nat.zero_add] at hr hg hb
        refine ⟨r, g, b, hr, hg, hb, ?_, ?_, ?_, ?_⟩
        · rw [getElem?_append_keep _ _ _ (4 * xi) (by omega) (by omega)]
          exact q0
        · rw [getElem?_append_keep _ _ _ (4 * xi + 1) (by omega) (by omega)]
          exact q1
        · rw [getElem?_append_keep _ _ _ (4 * xi + 2) (by omega) (by omega)]
          exact q2
        · rw [getElem?_append_keep _ _ _ (4 * xi + 3) (by omega) (by omega)]
          exact q3
      | succ i =>
        obtain ⟨r, g, b, hr, hg, hb, q0, q1, q2, q3⟩ := hall i xi (by omega) hxi
        have e : yi + (i + 1) = yi + 1 + i := by omega
        have e2 : (i + 1) * w = i * w + w := by ring
        rw [e]
        refine ⟨r, g, b, hr, hg, hb, ?_, ?_, ?_, ?_⟩
        · rw [getElem?_append_shift _ _ _ (4 * (i * w + xi)) (by rw [hrlen, e2]; omega)]
          exact q0
        · rw [getElem?_append_shift _ _ _ (4 * (i * w + xi) + 1) (by rw [hrlen, e2]; omega)]
          exact q1
        · rw [getElem?_append_shift _ _ _ (4 * (i * w + xi) + 2) (by rw [hrlen, e2]; omega)]
          exact q2
        · rw [getElem?_append_shift _ _ _ (4 * (i * w + xi) + 3) (by rw [hrlen, e2]; omega)]
          exact q3

theorem convExact_exact : convExact.exact :=
  ⟨fun _ => rfl, fun f n hf => by simp [convExact, hf]⟩

/-- C22. The code does not do what the claim says, through one constant:
`scale` is `float32(255 / 2)`, a quotient of two integer constants, so it is 127
where half of 255 is 127.5. With the arithmetic of IEEE 754 and the conversions
of the language, the byte that `ASTToPixels` writes for the channel value 1 is
254, where the claim gives `round(1 * 127.5 + 127.5) = 255`; for 0.25 it is 158,
where the claim gives 159; for `1 + 2^-7`, a value above 1, it is 254, where the
claim gives the saturated 255. The picture of these three constants gives, for
an image of one pixel, the bytes 254, 158, 254, 0. The byte written is the
expression `byte(v*scale - offset)` at the `scale` of the code; the same
expression at the scale 127.5 (bits `0x42FF0000`) gives 255, 159 and 255 for
these three values, and 0 for -1, as the claim says. -/
theorem C22_one_maps_to_254 :
    ASTToPixels.scale = ⟨1123942400⟩ ∧ F32.toRat ⟨1123942400⟩ = 127 ∧
    F32.toRat ⟨1065353216⟩ = 1 ∧ F32.toRat ⟨1048576000⟩ = 1 / 4 ∧
    F32.toRat ⟨1065418752⟩ = 129 / 128 ∧
    ASTToPixels.channel opsArith convExact ⟨1065353216⟩ = 254 ∧ specByte 1 = 255 ∧
    ASTToPixels.channel opsArith convExact ⟨1048576000⟩ = 158 ∧ specByte (1 / 4) = 159 ∧
    ASTToPixels.channel opsArith convExact ⟨1065418752⟩ = 254 ∧ specByte (129 / 128) = 255 ∧
    ASTToPixels opsArith convExact 1 heapChannels ⟨some 0, some 1, some 2⟩ 1 1 =
      some [254, 158, 254, 0] ∧
    (∀ (ops : FloatOps) (cv : FloatConv) (v : F32),
      ASTToPixels.channel ops cv v = ASTToPixels.channelAt ops cv ASTToPixels.scale v) ∧
    F32.toRat ⟨1124007936⟩ = 255 / 2 ∧
    ASTToPixels.channelAt opsArith convExact ⟨1124007936⟩ ⟨1065353216⟩ = 255 ∧
    ASTToPixels.channelAt opsArith convExact ⟨1124007936⟩ ⟨1048576000⟩ = 159 ∧
    ASTToPixels.channelAt opsArith convExact ⟨1124007936⟩ ⟨1065418752⟩ = 255 ∧
    ASTToPixels.channelAt opsArith convExact ⟨1124007936⟩ ⟨3212836864⟩ = 0 ∧
    specByte (-1) = 0 := by
  refine ⟨by decide, ?_, ?_, ?_, ?_, by decide, ?_, by decide, ?_, by decide, ?_, by decide,
    fun _ _ _ => rfl, ?_, by decide, by decide, by decide, by decide, ?_⟩
  · simp [F32.toRat, F32.units, F32.sign, F32.mag]
    norm_num
  · simp [F32.toRat, F32.units, F32.sign, F32.mag]
    norm_num
  · simp [F32.toRat, F32.units, F32.sign, F32.mag]
    norm_num
  · simp [F32.toRat, F32.units, F32.sign, F32.mag]
    norm_num
  · simp [specByte]
  · simp [specByte]
    norm_num [round_eq]
  · simp [specByte]
    norm_num [round_eq]
  · simp [F32.toRat, F32.units, F32.sign, F32.mag]
    norm_num
  · simp [specByte]

/-- The bytes of `ASTToPixels(pic, w, h)` as the code stands, on a picture whose
channels are complete trees of the store without a Picture node, with the
arithmetic of IEEE 754 (every operation rounded) and the conversions of the
language. It returns `w*h*4` bytes; for the pixel of column `xi` and row `yi` the
bytes at `4*(yi*w + xi)` and the two places after it are `byte(v*scale - offset)`
for the values `v` of the channels `r`, `g`, `b` at the coordinates of the pixel,
and the byte after them is 0. For every channel value `v`, when the `float32`
value `f = v*127 - (-127)` is finite with `-1 < f < 256`, the byte written is the
integer part of `f`: with `scale` at 127 and `offset` at -127, the value -1 gives
0 and the value 1 gives 254. -/
theorem ASTToPixels_bytes (ops : FloatOps) (hops : ops.arith) (cv : FloatConv) (hcv : cv.exact)
    (h : Heap) (T : Trees) (D fuel w ht : Nat) (hheld : T.Held h)
    (hao : T.r.arityOk = true ∧ T.g.arityOk = true ∧ T.b.arityOk = true)
    (hpic : Kind.OpPicture ∉ T.r.kinds ∧ Kind.OpPicture ∉ T.g.kinds ∧
      Kind.OpPicture ∉ T.b.kinds)
    (hd : T.depthLe D) (hf : D < fuel) :
    (∃ pixels, ASTToPixels ops cv fuel h T.pic w ht = some pixels ∧
      pixels.length = w * ht * 4 ∧
      ∀ yi xi, yi < ht → xi < w → ∃ r g b,
        Node.Eval ops fuel h T.r.root (ASTToPixels.coord ops cv xi w)
          (ASTToPixels.coord ops cv yi ht) = some r ∧
        Node.Eval ops fuel h T.g.root (ASTToPixels.coord ops cv xi w)
          (ASTToPixels.coord ops cv yi ht) = some g ∧
        Node.Eval ops fuel h T.b.root (ASTToPixels.coord ops cv xi w)
          (ASTToPixels.coord ops cv yi ht) = some b ∧
        pixels[4 * (yi * w + xi)]? = some (ASTToPixels.channel ops cv r) ∧
        pixels[4 * (yi * w + xi) + 1]? = some (ASTToPixels.channel ops cv g) ∧
        pixels[4 * (yi * w + xi) + 2]? = some (ASTToPixels.channel ops cv b) ∧
        pixels[4 * (yi * w + xi) + 3]? = some 0) ∧
    (∀ (v : F32) (n : Nat),
      F32.toByte (F32.sub (F32.mul v ⟨1123942400⟩) ⟨3271426048⟩) = some n →
      ASTToPixels.channel ops cv v = n ∧ n < 256 ∧
      ((F32.sub (F32.mul v ⟨1123942400⟩) ⟨3271426048⟩).sign = false →
        (n : ℚ) ≤ (F32.sub (F32.mul v ⟨1123942400⟩) ⟨3271426048⟩).toRat ∧
        (F32.sub (F32.mul v ⟨1123942400⟩) ⟨3271426048⟩).toRat < (n : ℚ) + 1) ∧
      ((F32.sub (F32.mul v ⟨1123942400⟩) ⟨3271426048⟩).sign = true →
        n = 0 ∧ -1 < (F32.sub (F32.mul v ⟨1123942400⟩) ⟨3271426048⟩).toRat ∧
        (F32.sub (F32.mul v ⟨1123942400⟩) ⟨3271426048⟩).toRat ≤ 0)) ∧
    ASTToPixels.scale = ⟨1123942400⟩ ∧ F32.toRat ⟨1123942400⟩ = 127 ∧
    ASTToPixels.offset ops = ⟨3271426048⟩ ∧ F32.toRat ⟨3271426048⟩ = -127 ∧
    ASTToPixels.channel ops cv ⟨3212836864⟩ = 0 ∧
    ASTToPixels.channel ops cv ⟨1065353216⟩ = 254 := by
  obtain ⟨⟨rr, rg, rb⟩, cr, cg, cb⟩ := hheld
  obtain ⟨dr, dg, db⟩ := hd
  have hev : ∀ x y : F32, ∃ r g b, Node.Eval ops fuel h T.pic.r x y = some r ∧
      Node.Eval ops fuel h T.pic.g x y = some g ∧ Node.Eval ops fuel h T.pic.b x y = some b := by
    intro x y
    obtain ⟨r, hr⟩ := Eval_shape ops x y T.r cr hao.1 hpic.1
    obtain ⟨g, hg⟩ := Eval_shape ops x y T.g cg hao.2.1 hpic.2.1
    obtain ⟨b, hb⟩ := Eval_shape ops x y T.b cb hao.2.2 hpic.2.2
    exact ⟨r, g, b, hr h T.r fuel rr rfl (by omega), hg h T.g fuel rg rfl (by omega),
      hb h T.b fuel rb rfl (by omega)⟩
  refine ⟨?_, ?_, by decide, ?_, ?_, ?_, ?_, ?_⟩
  · obtain ⟨pixels, hrun, hlen, hall⟩ := ASTToPixels.lines_spec ops cv fuel h T.pic w ht hev ht 0
    refine ⟨pixels, hrun, hlen, ?_⟩
    intro yi xi hyi hxi
    have := hall yi xi hyi hxi
    simp only [Nat.zero_add] at this
    exact this
  · intro v n hn
    obtain ⟨q1, q2, q3⟩ := F32.toByte_value hn
    exact ⟨ASTToPixels.channel_eq ops hops cv hcv v n hn, q1, q2, q3⟩
  · simp [F32.toRat, F32.units, F32.sign, F32.mag]
    norm_num
  · have c1 : ASTToPixels.scale = ⟨1123942400⟩ := by decide
    have c2 : F32.ofDecimal true 1 1 = ⟨3212836864⟩ := by decide
    rw [ASTToPixels.offset, c1, c2]
    exact ((hops.2.2.1 _ _).2 (by decide)).trans (by decide)
  · simp [F32.toRat, F32.units, F32.sign, F32.mag]
    norm_num
  · exact ASTToPixels.channel_eq ops hops cv hcv _ 0 (by decide)
  · exact ASTToPixels.channel_eq ops hops cv hcv _ 254 (by decide)

end Evim
